import Mathlib

/-! # file-system-lib: the directory tree and its path index

A shallow embedding of `FileSystemCommon.cpp` and `FileSystem/DirectoryTree.cpp`.

Modelling decisions.

* A `std::filesystem::path` is the list of its components (`Path`).  Names are single
  components; trailing separators and root names do not occur.
* Objects (`Directory`, `File`) live in a heap `Nat → DirectoryEntry`; a `shared_ptr` or
  `weak_ptr` is the address of the object, `Option Nat` when it may be empty.  Objects are
  never reclaimed, so a `weak_ptr` is expired exactly when it was reset.
* `std::unordered_map<path, shared_ptr<Directory>>` is an association list with unique keys;
  `insert` keeps an existing binding, as in the standard library.
* Recursion over the object graph (`Directory::UpdatePath`, `GetDirEntriesRecursive`) takes a
  stack budget `fuel`; `none` means the budget was exhausted.
* A failed `assert` is the result `Outcome.assertFailed`.
* Observers are modelled by the log of deliveries: which listener was called, with which
  callback and arguments, and what the entity looked like at that moment.
-/

namespace fs

/-! ## Paths -/

/-- A relative path, as the list of its components. -/
abbrev Path := List String

/-- The member `path::filename()`, as a string: the last component. -/
def filename (p : Path) : String := p.getLast?.getD ""

/-- The member `path::parent_path()`. -/
def parent_path (p : Path) : Path := p.dropLast

/-- The member `path::replace_filename(replacement)`. -/
def replace_filename (p : Path) (replacement : String) : Path := p.dropLast ++ [replacement]

/-- The operator `p / name` for a single component `name`. -/
def slash (p : Path) (name : String) : Path := p ++ [name]

/-- The comparison `std::less<std::string>`: lexicographic order of the characters. -/
def stringLess (a b : String) : Bool := decide (a.toList < b.toList)

/-! ## Directory entries -/

/-- The dynamic class of an entry (`GetDirectoryEntryType`); no class returns `UNDEFINED`. -/
inductive DirectoryEntryType
  | DIRECTORY
  | FILE
  deriving DecidableEq

inductive DirEntrySortType
  | ALPHABETICAL_L_TO_H
  | ALPHABETICAL_H_TO_L
  | LAST_WRITE_TIME_L_TO_H
  | LAST_WRITE_TIME_H_TO_L
  deriving DecidableEq

/-- The enumeration `Sorter::SortCompFun`. -/
inductive SortCompFun
  | LESS
  | GREATER
  deriving DecidableEq

/-- The two concrete `Sorter` classes. -/
inductive SorterClass
  | AlphabeticalSorter
  | LastWriteTimeSorter
  deriving DecidableEq

/-- The fields of `DirectoryEntry` together with those of `Directory`
(`directories`, `files`, `sortType`; unused by a `File`). -/
structure DirectoryEntry where
  kind : DirectoryEntryType
  dirEntryPath : Path
  lastWriteTime : Int
  parentDir : Option Nat
  modified : Bool
  directories : List Nat
  files : List Nat
  sortType : DirEntrySortType
  deriving DecidableEq

/-- The object store: address ↦ object. -/
abbrev Heap := Nat → DirectoryEntry

/-- Overwrite the object at address `a`. -/
def store (h : Heap) (a : Nat) (e : DirectoryEntry) : Heap :=
  fun x => if x = a then e else h x

/-- The constructor `File::File(filePath)`. -/
def newFile (filePath : Path) : DirectoryEntry :=
  { kind := .FILE, dirEntryPath := filePath, lastWriteTime := 0, parentDir := none,
    modified := false, directories := [], files := [],
    sortType := .ALPHABETICAL_L_TO_H }

/-- The constructor `Directory::Directory(dirPath)`; its `SetSortingType(sortType)` sorts two
empty sequences. -/
def newDirectory (dirPath : Path) : DirectoryEntry :=
  { kind := .DIRECTORY, dirEntryPath := dirPath, lastWriteTime := 0, parentDir := none,
    modified := false, directories := [], files := [],
    sortType := .ALPHABETICAL_L_TO_H }

def GetPath (h : Heap) (e : Nat) : Path := (h e).dirEntryPath

def GetLastWriteTime (h : Heap) (e : Nat) : Int := (h e).lastWriteTime

def IsDirectory (h : Heap) (e : Nat) : Bool := (h e).kind = .DIRECTORY

/-- The accessor `Directory::GetDirectoryName`: `dirEntryPath.filename().string()`. -/
def GetDirectoryName (h : Heap) (d : Nat) : String := filename (h d).dirEntryPath

/-- The accessor `File::GetFullFileName`: `dirEntryPath.filename().string()`. -/
def GetFullFileName (h : Heap) (f : Nat) : String := filename (h f).dirEntryPath

/-- The method `DirectoryEntry::UpdatePath` (non-virtual part): the path becomes the
file name, prefixed with the parent's path when there is a parent. -/
def DirectoryEntry.UpdatePath (h : Heap) (e : Nat) : Heap :=
  let newPath : Path := [filename (h e).dirEntryPath]
  let newPath : Path :=
    match (h e).parentDir with
    | some p => (h p).dirEntryPath ++ newPath
    | none => newPath
  store h e { h e with dirEntryPath := newPath }

/-- The override `File::UpdatePath`. -/
def File.UpdatePath (h : Heap) (f : Nat) : Heap := DirectoryEntry.UpdatePath h f

/-- The loop `for (auto& file : files) file->UpdatePath();`. -/
def updateFiles : Heap → List Nat → Heap
  | h, [] => h
  | h, f :: fs => updateFiles (File.UpdatePath h f) fs

/-- The loop `for (auto& dir : directories) dir->UpdatePath();` with the recursive call
passed as `rec`. -/
def updateDirectories (rec : Heap → Nat → Option Heap) : Heap → List Nat → Option Heap
  | h, [] => some h
  | h, d :: ds =>
    match rec h d with
    | some h1 => updateDirectories rec h1 ds
    | none => none

/-- The override `Directory::UpdatePath`. -/
def Directory.UpdatePath : Nat → Heap → Nat → Option Heap
  | 0, _, _ => none
  | fuel + 1, h, d =>
    let h1 := DirectoryEntry.UpdatePath h d
    let h2 := updateFiles h1 (h1 d).files
    updateDirectories (Directory.UpdatePath fuel) h2 (h1 d).directories

/-- The method `DirectoryEntry::SetParentDirectory`, called on a `File`. -/
def File.SetParentDirectory (h : Heap) (f : Nat) (parentDir : Nat) : Heap :=
  File.UpdatePath (store h f { h f with parentDir := some parentDir }) f

/-- The method `DirectoryEntry::SetParentDirectory`, called on a `Directory`. -/
def Directory.SetParentDirectory (fuel : Nat) (h : Heap) (d : Nat) (parentDir : Nat) :
    Option Heap :=
  Directory.UpdatePath fuel (store h d { h d with parentDir := some parentDir }) d

/-- The method `DirectoryEntry::ClearParentDirectory`, called on a `File`. -/
def File.ClearParentDirectory (h : Heap) (f : Nat) : Heap :=
  File.UpdatePath (store h f { h f with parentDir := none }) f

/-- The method `DirectoryEntry::ClearParentDirectory`, called on a `Directory`. -/
def Directory.ClearParentDirectory (fuel : Nat) (h : Heap) (d : Nat) : Option Heap :=
  Directory.UpdatePath fuel (store h d { h d with parentDir := none }) d

/-- The method `DirectoryEntry::Rename`, called on a `File`. -/
def File.Rename (h : Heap) (f : Nat) (newName : String) : Heap :=
  File.UpdatePath
    (store h f { h f with dirEntryPath := replace_filename (h f).dirEntryPath newName }) f

/-- The method `DirectoryEntry::Rename`, called on a `Directory`. -/
def Directory.Rename (fuel : Nat) (h : Heap) (d : Nat) (newName : String) : Option Heap :=
  Directory.UpdatePath fuel
    (store h d { h d with dirEntryPath := replace_filename (h d).dirEntryPath newName }) d

/-- The method `DirectoryEntry::UpdateStatus`; `observed` is the result of
`std::filesystem::last_write_time`, `none` when it throws. -/
def DirectoryEntry.UpdateStatus (e : DirectoryEntry) (observed : Option Int) : DirectoryEntry :=
  match observed with
  | some time =>
    if time > e.lastWriteTime then { e with lastWriteTime := time, modified := true }
    else { e with modified := false }
  | none => { e with modified := false }

/-! ## Sorters -/

/-- The loop of `std::upper_bound`: `comp x` is `comp(value, x)`. -/
def upper_bound_loop {α : Type} (comp : α → Bool) (xs : List α) : Nat → Nat → Nat → Nat
  | 0, first, _ => first
  | fuel + 1, first, count =>
    if count = 0 then first
    else
      let step := count / 2
      match xs[first + step]? with
      | some x =>
        if !comp x then upper_bound_loop comp xs fuel (first + step + 1) (count - (step + 1))
        else upper_bound_loop comp xs fuel first step
      | none => first

/-- The algorithm `std::upper_bound(xs.begin(), xs.end(), value, comp)`, as an index. -/
def upper_bound {α : Type} (comp : α → Bool) (xs : List α) : Nat :=
  upper_bound_loop comp xs xs.length 0 xs.length

/-- The call `xs.insert(xs.begin() + place, x)`. -/
def insertAt {α : Type} (xs : List α) (place : Nat) (x : α) : List α :=
  xs.take place ++ x :: xs.drop place

/-- The comparator of `AlphabeticalSorter::SortDirectories` and `SortFiles`. -/
def AlphabeticalSorter.comp (c : SortCompFun) (h : Heap) (e1 e2 : Nat) : Bool :=
  match c with
  | .LESS => stringLess (filename (h e1).dirEntryPath) (filename (h e2).dirEntryPath)
  | .GREATER => stringLess (filename (h e2).dirEntryPath) (filename (h e1).dirEntryPath)

/-- The comparator of `LastWriteTimeSorter::SortDirectories` and `SortFiles`. -/
def LastWriteTimeSorter.comp (c : SortCompFun) (h : Heap) (e1 e2 : Nat) : Bool :=
  match c with
  | .LESS => decide (GetLastWriteTime h e1 < GetLastWriteTime h e2)
  | .GREATER => decide (GetLastWriteTime h e1 > GetLastWriteTime h e2)

def AlphabeticalSorter.InsertDirectorySorted (c : SortCompFun) (h : Heap) (dir : Nat)
    (directories : List Nat) : List Nat :=
  let place := upper_bound
    (fun d =>
      match c with
      | .LESS => stringLess (GetDirectoryName h dir) (GetDirectoryName h d)
      | .GREATER => stringLess (GetDirectoryName h d) (GetDirectoryName h dir))
    directories
  insertAt directories place dir

def AlphabeticalSorter.InsertFileSorted (c : SortCompFun) (h : Heap) (file : Nat)
    (files : List Nat) : List Nat :=
  let place := upper_bound
    (fun f =>
      match c with
      | .LESS => stringLess (GetFullFileName h file) (GetFullFileName h f)
      | .GREATER => stringLess (GetFullFileName h f) (GetFullFileName h file))
    files
  insertAt files place file

def LastWriteTimeSorter.InsertDirectorySorted (c : SortCompFun) (h : Heap) (directory : Nat)
    (directories : List Nat) : List Nat :=
  let place := upper_bound
    (fun d =>
      match c with
      | .LESS => decide (GetLastWriteTime h directory < GetLastWriteTime h d)
      | .GREATER => decide (GetLastWriteTime h directory > GetLastWriteTime h d))
    directories
  insertAt directories place directory

def LastWriteTimeSorter.InsertFileSorted (c : SortCompFun) (h : Heap) (file : Nat)
    (files : List Nat) : List Nat :=
  let place := upper_bound
    (fun f =>
      match c with
      | .LESS => decide (GetLastWriteTime h file < GetLastWriteTime h f)
      | .GREATER => decide (GetLastWriteTime h file > GetLastWriteTime h f))
    files
  insertAt files place file

/-- The `switch` of `Directory::SetSortingType`: the sorter object a policy installs. -/
def sorterOf : DirEntrySortType → SorterClass × SortCompFun
  | .ALPHABETICAL_L_TO_H => (.AlphabeticalSorter, .LESS)
  | .ALPHABETICAL_H_TO_L => (.AlphabeticalSorter, .GREATER)
  | .LAST_WRITE_TIME_L_TO_H => (.LastWriteTimeSorter, .LESS)
  | .LAST_WRITE_TIME_H_TO_L => (.LastWriteTimeSorter, .GREATER)

/-- The comparator a policy sorts with (the lambda of `SortDirectories` / `SortFiles`). -/
def sortComp (policy : DirEntrySortType) (h : Heap) (e1 e2 : Nat) : Bool :=
  match sorterOf policy with
  | (.AlphabeticalSorter, c) => AlphabeticalSorter.comp c h e1 e2
  | (.LastWriteTimeSorter, c) => LastWriteTimeSorter.comp c h e1 e2

/-- The virtual call `sorter->InsertDirectorySorted(dir, directories)`. -/
def Sorter.InsertDirectorySorted (policy : DirEntrySortType) (h : Heap) (dir : Nat)
    (directories : List Nat) : List Nat :=
  match sorterOf policy with
  | (.AlphabeticalSorter, c) => AlphabeticalSorter.InsertDirectorySorted c h dir directories
  | (.LastWriteTimeSorter, c) => LastWriteTimeSorter.InsertDirectorySorted c h dir directories

/-- The virtual call `sorter->InsertFileSorted(file, files)`. -/
def Sorter.InsertFileSorted (policy : DirEntrySortType) (h : Heap) (file : Nat)
    (files : List Nat) : List Nat :=
  match sorterOf policy with
  | (.AlphabeticalSorter, c) => AlphabeticalSorter.InsertFileSorted c h file files
  | (.LastWriteTimeSorter, c) => LastWriteTimeSorter.InsertFileSorted c h file files

/-- A sequence is ordered by a comparator when no later item compares before an earlier
one (the postcondition of `std::sort`). -/
def Ordered (comp : Nat → Nat → Bool) (xs : List Nat) : Prop :=
  xs.Pairwise (fun a b => comp b a = false)

instance (comp : Nat → Nat → Bool) (xs : List Nat) : Decidable (Ordered comp xs) := by
  unfold Ordered; infer_instance

/-! ## Directory: child sequences -/

/-- The method `Directory::AddDirectory` (via `InsertDirectorySorted`). -/
def Directory.AddDirectory (h : Heap) (this dir : Nat) : Heap :=
  store h this { h this with
    directories := Sorter.InsertDirectorySorted (h this).sortType h dir (h this).directories }

/-- The method `Directory::AddFile` (via `InsertFileSorted`). -/
def Directory.AddFile (h : Heap) (this file : Nat) : Heap :=
  store h this { h this with
    files := Sorter.InsertFileSorted (h this).sortType h file (h this).files }

/-- The static `Directory::AddDirectoryToDirectory(where, what)`. -/
def Directory.AddDirectoryToDirectory (fuel : Nat) (h : Heap) (wher what : Nat) : Option Heap :=
  Directory.SetParentDirectory fuel (Directory.AddDirectory h wher what) what wher

/-- The static `Directory::AddFileToDirectory(where, what)`. -/
def Directory.AddFileToDirectory (h : Heap) (wher what : Nat) : Heap :=
  File.SetParentDirectory (Directory.AddFile h wher what) what wher

/-- The method `Directory::DeleteDirectory(std::shared_ptr<Directory> dir)`. -/
def Directory.DeleteDirectory (fuel : Nat) (h : Heap) (this dir : Nat) : Option Heap :=
  Directory.ClearParentDirectory fuel
    (store h this { h this with directories := (h this).directories.filter (fun d => d ≠ dir) })
    dir

/-- The method `Directory::DeleteFile(std::shared_ptr<File> file)`. -/
def Directory.DeleteFile (h : Heap) (this file : Nat) : Heap :=
  File.ClearParentDirectory
    (store h this { h this with files := (h this).files.filter (fun f => f ≠ file) })
    file

/-- The method `Directory::GetDirectory(dirName)`: the first child directory with that
name. -/
def Directory.GetDirectory (h : Heap) (this : Nat) (dirName : String) : Option Nat :=
  (h this).directories.find? (fun d => dirName = GetDirectoryName h d)

/-- The method `Directory::GetFile(fileName)`: the first child file with that name. -/
def Directory.GetFile (h : Heap) (this : Nat) (fileName : String) : Option Nat :=
  (h this).files.find? (fun f => fileName = GetFullFileName h f)

def Directory.DirectoryExists (h : Heap) (this : Nat) (dirName : String) : Bool :=
  (h this).directories.any (fun d => dirName = GetDirectoryName h d)

def Directory.FileExists (h : Heap) (this : Nat) (fileName : String) : Bool :=
  (h this).files.any (fun f => fileName = GetFullFileName h f)

/-- The loop of `Directory::GetDirEntriesRecursive` over `directories`, with the recursive
call passed as `rec`. -/
def collectEntries (rec : Nat → Option (List Nat)) : List Nat → Option (List Nat)
  | [] => some []
  | d :: ds =>
    match rec d, collectEntries rec ds with
    | some sub, some rest => some (d :: sub ++ rest)
    | _, _ => none

/-- The method `Directory::GetDirEntriesRecursive`. -/
def Directory.GetDirEntriesRecursive : Nat → Heap → Nat → Option (List Nat)
  | 0, _, _ => none
  | fuel + 1, h, d =>
    match collectEntries (Directory.GetDirEntriesRecursive fuel h) (h d).directories with
    | some rest => some ((h d).files ++ rest)
    | none => none

/-! ## The directory tree -/

/-- The callbacks of `DirectoryTreeEventListener`. -/
inductive Callback
  | OnFileAdded
  | OnDirectoryAdded
  | OnFileRemoved
  | OnDirectoryRemoved
  | OnFilePathChanged
  | OnDirectoryPathChanged
  | OnFileModified
  | OnDirectoryModified
  deriving DecidableEq

/-- One call of a listener's callback: the arguments it receives and the object store as it
is during the call. -/
structure Delivery where
  listener : Nat
  callback : Callback
  entity : Nat
  oldPath : Option Path
  heap : Heap

/-- The state of a `DirectoryTree` object, with the object store it points into and the log
of the listener calls made so far. -/
structure DirectoryTree where
  heap : Heap
  next : Nat
  directories : List (Path × Nat)
  rootDir : Option Nat
  rootDirAbsParentPath : Path
  listeners : List Nat
  log : List Delivery

/-- How a call ends: it returns, an `assert` fails, or the recursion exceeds the stack
budget. -/
inductive Outcome (α : Type)
  | ok (value : α)
  | assertFailed
  | stackExhausted

/-- The call `directories.find(key)`. -/
def mapFind : List (Path × Nat) → Path → Option Nat
  | [], _ => none
  | (k, v) :: m, key => if k = key then some v else mapFind m key

/-- The call `directories.erase(key)`. -/
def mapErase (m : List (Path × Nat)) (key : Path) : List (Path × Nat) :=
  m.filter (fun kv => kv.1 ≠ key)

/-- The call `directories.insert({key, value})`: an existing binding of `key` is kept. -/
def mapInsert (m : List (Path × Nat)) (key : Path) (value : Nat) : List (Path × Nat) :=
  match mapFind m key with
  | some _ => m
  | none => m ++ [(key, value)]

/-- A default-constructed `DirectoryTree`. -/
def DirectoryTree.empty : DirectoryTree :=
  { heap := fun _ => newFile [], next := 0, directories := [], rootDir := none,
    rootDirAbsParentPath := [], listeners := [], log := [] }

def DirectoryTree.AddDirTreeEventListener (t : DirectoryTree) (listener : Nat) :
    DirectoryTree :=
  { t with listeners := t.listeners ++ [listener] }

def DirectoryTree.GetDirectory (t : DirectoryTree) (dirPath : Path) : Option Nat :=
  mapFind t.directories dirPath

def DirectoryTree.GetRootDirectory (t : DirectoryTree) : Option Nat := t.rootDir

/-- The `std::for_each` over `listeners` of the `Notify...` functions. -/
def DirectoryTree.notify (t : DirectoryTree) (callback : Callback) (entity : Nat)
    (oldPath : Option Path) : DirectoryTree :=
  { t with log := t.log ++ t.listeners.map (fun l =>
      { listener := l, callback := callback, entity := entity, oldPath := oldPath,
        heap := t.heap }) }

def DirectoryTree.NotifyDirectoryAdded (t : DirectoryTree) (dir : Nat) : DirectoryTree :=
  t.notify .OnDirectoryAdded dir none

def DirectoryTree.NotifyDirectoryRemoved (t : DirectoryTree) (dir : Nat) : DirectoryTree :=
  t.notify .OnDirectoryRemoved dir none

def DirectoryTree.NotifyDirectoryPathChanged (t : DirectoryTree) (dir : Nat) (oldPath : Path) :
    DirectoryTree :=
  t.notify .OnDirectoryPathChanged dir (some oldPath)

def DirectoryTree.NotifyFileAdded (t : DirectoryTree) (file : Nat) : DirectoryTree :=
  t.notify .OnFileAdded file none

def DirectoryTree.NotifyFileRemoved (t : DirectoryTree) (file : Nat) : DirectoryTree :=
  t.notify .OnFileRemoved file none

def DirectoryTree.NotifyFilePathChanged (t : DirectoryTree) (file : Nat) (oldPath : Path) :
    DirectoryTree :=
  t.notify .OnFilePathChanged file (some oldPath)

/-- The factory `DirectoryTree::CreateFile`; `o1`, `o2` are what the two `UpdateStatus`
calls read from the disk. -/
def DirectoryTree.CreateFile (t : DirectoryTree) (relPath : Path) (o1 o2 : Option Int) :
    DirectoryTree × Nat :=
  ({ t with
      heap := store t.heap t.next (((newFile relPath).UpdateStatus o1).UpdateStatus o2),
      next := t.next + 1 },
   t.next)

/-- The factory `DirectoryTree::CreateDirectory`. -/
def DirectoryTree.CreateDirectory (t : DirectoryTree) (relPath : Path) (o1 o2 : Option Int) :
    DirectoryTree × Nat :=
  ({ t with
      heap := store t.heap t.next (((newDirectory relPath).UpdateStatus o1).UpdateStatus o2),
      next := t.next + 1 },
   t.next)

mutual
/-- What `std::filesystem::directory_iterator` yields for one entry of a directory. -/
inductive DiskEntry
  | regular_file (name : String) (o1 o2 : Option Int)
  | directory (name : String) (dir : DiskDirectory)
  | other (name : String)
/-- A directory on the disk that can be listed, as can every directory below it: the two
readings of its write time and its entries in iteration order.  (`ScanDirectory` below is a
directory whose reads can fail.) -/
inductive DiskDirectory
  | mk (o1 o2 : Option Int) (entries : DiskEntries)
inductive DiskEntries
  | nil
  | cons (entry : DiskEntry) (rest : DiskEntries)
end

mutual
/-- The method `DirectoryTree::BuildTree(parentDirPath)`, when the disk shows `scan` there
and every read of the disk succeeds; `DirectoryTree.BuildTree.reading` below is the method
with reads that fail, and agrees with this one on a run without failure. -/
def DirectoryTree.BuildTree (fuel : Nat) (t : DirectoryTree) (parentDirPath : Path) :
    DiskDirectory → Option (DirectoryTree × Nat)
  | .mk o1 o2 entries =>
    match DirectoryTree.BuildTreeLoop fuel
        { (t.CreateDirectory parentDirPath o1 o2).1 with
          directories := mapInsert t.directories parentDirPath t.next }
        parentDirPath t.next entries with
    | some t1 => some (t1, t.next)
    | none => none
/-- The `for` loop of `BuildTree` over the entries of the directory. -/
def DirectoryTree.BuildTreeLoop (fuel : Nat) (t : DirectoryTree) (parentDirPath : Path)
    (parentDir : Nat) : DiskEntries → Option DirectoryTree
  | .nil => some t
  | .cons (.regular_file name o1 o2) rest =>
    let created := t.CreateFile (slash parentDirPath name) o1 o2
    let t1 := { created.1 with
      heap := Directory.AddFileToDirectory created.1.heap parentDir created.2 }
    DirectoryTree.BuildTreeLoop fuel (t1.NotifyFileAdded created.2) parentDirPath parentDir rest
  | .cons (.directory name dir) rest =>
    match DirectoryTree.BuildTree fuel t (slash parentDirPath name) dir with
    | none => none
    | some (t1, newDir) =>
      match Directory.AddDirectoryToDirectory fuel t1.heap parentDir newDir with
      | none => none
      | some h =>
        DirectoryTree.BuildTreeLoop fuel ({ t1 with heap := h }.NotifyDirectoryAdded newDir)
          parentDirPath parentDir rest
  | .cons (.other _) rest => DirectoryTree.BuildTreeLoop fuel t parentDirPath parentDir rest
end

/-- The method `DirectoryTree::BuildRootTree(rootDirAbsPath)`, when the disk shows `scan`
there and every read succeeds (with reads that fail: `DirectoryTree.BuildRootTree.reading`). -/
def DirectoryTree.BuildRootTree (fuel : Nat) (t : DirectoryTree) (rootDirAbsPath : Path)
    (scan : DiskDirectory) : Outcome DirectoryTree :=
  match DirectoryTree.BuildTree fuel
      { t with rootDirAbsParentPath := parent_path rootDirAbsPath }
      [filename rootDirAbsPath] scan with
  | none => .stackExhausted
  | some (t1, root) => .ok { t1 with rootDir := some root }

def DirectoryTree.AddNewFile (t : DirectoryTree) (filePath : Path) (o1 o2 : Option Int) :
    Outcome DirectoryTree :=
  match t.GetDirectory (parent_path filePath) with
  | none => .assertFailed
  | some parentDir =>
    let created := t.CreateFile filePath o1 o2
    let t1 := { created.1 with
      heap := Directory.AddFileToDirectory created.1.heap parentDir created.2 }
    .ok (t1.NotifyFileAdded created.2)

/-- The method `DirectoryTree::AddNewDirectory(dirPath)`, when the disk shows `scan` there and
every read succeeds (with reads that fail: `DirectoryTree.AddNewDirectory.reading`). -/
def DirectoryTree.AddNewDirectory (fuel : Nat) (t : DirectoryTree) (dirPath : Path)
    (scan : DiskDirectory) : Outcome DirectoryTree :=
  match t.GetDirectory (parent_path dirPath) with
  | none => .assertFailed
  | some parentDir =>
    match DirectoryTree.BuildTree fuel t dirPath scan with
    | none => .stackExhausted
    | some (t1, newDir) =>
      match Directory.AddDirectoryToDirectory fuel t1.heap parentDir newDir with
      | none => .stackExhausted
      | some h => .ok ({ t1 with heap := h }.NotifyDirectoryAdded newDir)

def DirectoryTree.RemoveFile (t : DirectoryTree) (filePath : Path) : Outcome DirectoryTree :=
  match t.GetDirectory (parent_path filePath) with
  | none => .assertFailed
  | some parentDir =>
    match Directory.GetFile t.heap parentDir (filename filePath) with
    | none => .ok t
    | some fileToDelete =>
      let t1 := t.NotifyFileRemoved fileToDelete
      .ok { t1 with heap := Directory.DeleteFile t1.heap parentDir fileToDelete }

/-- The `for` loop of `RemoveDirectory` over `dirToDelete->GetDirEntriesRecursive()`. -/
def DirectoryTree.removeEntries : DirectoryTree → List Nat → DirectoryTree
  | t, [] => t
  | t, dirEntity :: rest =>
    if IsDirectory t.heap dirEntity then
      DirectoryTree.removeEntries
        ({ t with directories := mapErase t.directories (GetPath t.heap dirEntity) }
          |>.NotifyDirectoryRemoved dirEntity) rest
    else
      DirectoryTree.removeEntries (t.NotifyFileRemoved dirEntity) rest

def DirectoryTree.RemoveDirectory (fuel : Nat) (t : DirectoryTree) (dirPath : Path) :
    Outcome DirectoryTree :=
  match t.GetDirectory (parent_path dirPath) with
  | none => .assertFailed
  | some parentDir =>
    match Directory.GetDirectory t.heap parentDir (filename dirPath) with
    | none => .ok t
    | some dirToDelete =>
      match Directory.GetDirEntriesRecursive fuel t.heap dirToDelete with
      | none => .stackExhausted
      | some entries =>
        let t1 := t.removeEntries entries
        match Directory.DeleteDirectory fuel t1.heap parentDir dirToDelete with
        | none => .stackExhausted
        | some h => .ok { t1 with heap := h }

/-- The method `DirectoryTree::ConstructDirEntityPathPairs`. -/
def DirectoryTree.ConstructDirEntityPathPairs (fuel : Nat) (t : DirectoryTree) (dir : Nat) :
    Option (List (Nat × Path)) :=
  match Directory.GetDirEntriesRecursive fuel t.heap dir with
  | none => none
  | some entries =>
    some ((dir, GetPath t.heap dir) :: entries.map (fun entity => (entity, GetPath t.heap entity)))

/-- The method `DirectoryTree::ProcessPathChanges`. -/
def DirectoryTree.ProcessPathChanges : DirectoryTree → List (Nat × Path) → DirectoryTree
  | t, [] => t
  | t, entity :: rest =>
    if IsDirectory t.heap entity.1 then
      DirectoryTree.ProcessPathChanges
        ({ t with directories :=
              mapInsert (mapErase t.directories entity.2) (GetPath t.heap entity.1) entity.1 }
          |>.NotifyDirectoryPathChanged entity.1 entity.2) rest
    else
      DirectoryTree.ProcessPathChanges (t.NotifyFilePathChanged entity.1 entity.2) rest

def DirectoryTree.MoveFile (t : DirectoryTree) (oldPath newPath : Path) :
    Outcome DirectoryTree :=
  match t.GetDirectory (parent_path oldPath), t.GetDirectory (parent_path newPath) with
  | some oldPathParentDir, some newPathParentDir =>
    match Directory.GetFile t.heap oldPathParentDir (filename oldPath) with
    | none => .assertFailed
    | some fileToMove =>
      let h1 := Directory.DeleteFile t.heap oldPathParentDir fileToMove
      let h2 := Directory.AddFileToDirectory h1 newPathParentDir fileToMove
      .ok ({ t with heap := h2 }.NotifyFilePathChanged fileToMove oldPath)
  | _, _ => .assertFailed

def DirectoryTree.MoveDirectory (fuel : Nat) (t : DirectoryTree) (oldPath newPath : Path) :
    Outcome DirectoryTree :=
  match t.GetDirectory (parent_path oldPath), t.GetDirectory (parent_path newPath) with
  | some oldPathParentDir, some newPathParentDir =>
    match Directory.GetDirectory t.heap oldPathParentDir (filename oldPath) with
    | none => .assertFailed
    | some directoryToMove =>
      match t.ConstructDirEntityPathPairs fuel directoryToMove with
      | none => .stackExhausted
      | some entities =>
        match Directory.DeleteDirectory fuel t.heap oldPathParentDir directoryToMove with
        | none => .stackExhausted
        | some h1 =>
          match Directory.AddDirectoryToDirectory fuel h1 newPathParentDir directoryToMove with
          | none => .stackExhausted
          | some h2 => .ok ({ t with heap := h2 }.ProcessPathChanges entities)
  | _, _ => .assertFailed

def DirectoryTree.RenameFile (t : DirectoryTree) (oldPath newPath : Path) :
    Outcome DirectoryTree :=
  match t.GetDirectory (parent_path oldPath), t.GetDirectory (parent_path newPath) with
  | some oldPathParentDir, some _ =>
    match Directory.GetFile t.heap oldPathParentDir (filename oldPath) with
    | none => .assertFailed
    | some fileToRename =>
      let h1 := File.Rename t.heap fileToRename (filename newPath)
      .ok ({ t with heap := h1 }.NotifyFilePathChanged fileToRename oldPath)
  | _, _ => .assertFailed

def DirectoryTree.RenameDirectory (fuel : Nat) (t : DirectoryTree) (oldPath newPath : Path) :
    Outcome DirectoryTree :=
  match t.GetDirectory (parent_path oldPath), t.GetDirectory (parent_path newPath) with
  | some oldPathParentDir, some _ =>
    match Directory.GetDirectory t.heap oldPathParentDir (filename oldPath) with
    | none => .assertFailed
    | some dirToRename =>
      match t.ConstructDirEntityPathPairs fuel dirToRename with
      | none => .stackExhausted
      | some entities =>
        match Directory.Rename fuel t.heap dirToRename (filename newPath) with
        | none => .stackExhausted
        | some h1 => .ok ({ t with heap := h1 }.ProcessPathChanges entities)
  | _, _ => .assertFailed

/-! ## A sample tree -/

/-- A disk directory `A` with files `a.txt`, `c.txt` and directories `B` (holding `b.txt` and
a directory `X` with `x.txt`) and `D` (empty). -/
def sampleDisk : DiskDirectory :=
  .mk (some 10) (some 10)
    (.cons (.regular_file "a.txt" (some 5) (some 5))
    (.cons (.regular_file "c.txt" (some 6) (some 6))
    (.cons (.directory "B"
        (.mk (some 7) (some 7)
          (.cons (.regular_file "b.txt" (some 3) (some 3))
          (.cons (.directory "X"
              (.mk (some 4) (some 4) (.cons (.regular_file "x.txt" (some 2) (some 2)) .nil)))
          .nil))))
    (.cons (.directory "D" (.mk (some 8) (some 8) .nil))
    .nil))))

/-- The disk of the scenario of the specification: `A` holds the file `a.txt` and the
directory `B`, which holds `b.txt`. -/
def specDisk : DiskDirectory :=
  .mk (some 10) (some 10)
    (.cons (.regular_file "a.txt" (some 5) (some 5))
    (.cons (.directory "B"
        (.mk (some 7) (some 7) (.cons (.regular_file "b.txt" (some 3) (some 3)) .nil)))
    .nil))

/-- The tree returned by a call, the empty tree when the call does not return. -/
def Outcome.tree (o : Outcome DirectoryTree) : DirectoryTree :=
  match o with
  | .ok t => t
  | .assertFailed => DirectoryTree.empty
  | .stackExhausted => DirectoryTree.empty

/-- The tree built by `BuildRootTree("/home/A")` on `sampleDisk`, with one listener.  The
objects are `A = 0`, `a.txt = 1`, `c.txt = 2`, `B = 3`, `b.txt = 4`, `X = 5`, `x.txt = 6`,
`D = 7`. -/
def sampleTree : DirectoryTree :=
  (DirectoryTree.BuildRootTree 4 (DirectoryTree.empty.AddDirTreeEventListener 0)
    ["home", "A"] sampleDisk).tree

/-- The tree of the scenario of the specification, with one listener.  The objects are
`A = 0`, `a.txt = 1`, `B = 2`, `b.txt = 3`. -/
def specTree : DirectoryTree :=
  (DirectoryTree.BuildRootTree 3 (DirectoryTree.empty.AddDirTreeEventListener 0)
    ["home", "A"] specDisk).tree

/-! ## Invariants -/

/-- The children of an object: its files, then its directories. -/
def children (h : Heap) (x : Nat) : List Nat := (h x).files ++ (h x).directories

/-- The shape part of the representation invariant below address `n`: every child is an
allocated object of the right class whose parent reference is the directory listing it, no
child is listed twice, and a parent reference points to a directory that lists the entry. -/
def Shape (h : Heap) (n : Nat) : Prop :=
  ∀ x, x < n →
    (∀ c ∈ (h x).directories,
      c < n ∧ (h c).kind = .DIRECTORY ∧ (h c).parentDir = some x) ∧
    (∀ f ∈ (h x).files, f < n ∧ (h f).kind = .FILE ∧ (h f).parentDir = some x) ∧
    (h x).directories.Nodup ∧ (h x).files.Nodup ∧
    (∀ p ∈ (h x).parentDir,
      p < n ∧ (h p).kind = .DIRECTORY ∧
      ((h x).kind = .DIRECTORY → x ∈ (h p).directories) ∧
      ((h x).kind = .FILE → x ∈ (h p).files))

instance (h : Heap) (n : Nat) : Decidable (Shape h n) := by
  unfold Shape; infer_instance

/-- The cached path of the entry `x` is consistent with its parent reference: the parent's
path followed by the entry's own name. -/
def CachedAt (h : Heap) (x : Nat) : Prop :=
  ∀ p ∈ (h x).parentDir, (h x).dirEntryPath = (h p).dirEntryPath ++ [filename (h x).dirEntryPath]

instance (h : Heap) (x : Nat) : Decidable (CachedAt h x) := by
  unfold CachedAt; infer_instance

/-- The representation invariant of the object graph below address `n`: its shape, and the
cached path of every entry that has a parent. -/
def GoodHeap (h : Heap) (n : Nat) : Prop :=
  Shape h n ∧ ∀ x, x < n → CachedAt h x

instance (h : Heap) (n : Nat) : Decidable (GoodHeap h n) := by
  unfold GoodHeap; infer_instance

/-- The subtree of `d`: `d` itself and everything listed, at any depth, below it. -/
inductive Sub (h : Heap) (d : Nat) : Nat → Prop
  | self : Sub h d d
  | dir {p c : Nat} : Sub h d p → c ∈ (h p).directories → Sub h d c
  | file {p f : Nat} : Sub h d p → f ∈ (h p).files → Sub h d f

/-- Two object stores differ in cached paths only, and agree on every name. -/
def PathOnly (h h1 : Heap) : Prop :=
  ∀ x, h1 x = { h x with dirEntryPath := (h1 x).dirEntryPath } ∧
    filename (h1 x).dirEntryPath = filename (h x).dirEntryPath

/-- A depth function: every entry below `n` lies one level below its parent, and no level
exceeds `m`. -/
def Graded (h : Heap) (n : Nat) (dep : Nat → Nat) (m : Nat) : Prop :=
  ∀ x, x < n → dep x ≤ m ∧ ∀ p ∈ (h x).parentDir, dep x = dep p + 1

/-- The path index agrees with the tree, in local form: every binding `key ↦ d` names an
allocated directory whose cached path is `key` and which is the root or has an indexed
parent, and every child directory of an indexed directory is indexed under its path. -/
def GoodIndex (t : DirectoryTree) (root : Nat) : Prop :=
  ∀ kv ∈ t.directories, mapFind t.directories kv.1 = some kv.2 →
    kv.2 < t.next ∧ (t.heap kv.2).kind = .DIRECTORY ∧ (t.heap kv.2).dirEntryPath = kv.1 ∧
    (kv.2 = root ∨
      ∃ p ∈ (t.heap kv.2).parentDir, mapFind t.directories (t.heap p).dirEntryPath = some p) ∧
    (∀ c ∈ (t.heap kv.2).directories,
      mapFind t.directories (t.heap c).dirEntryPath = some c)

instance (t : DirectoryTree) (root : Nat) : Decidable (GoodIndex t root) := by
  unfold GoodIndex; infer_instance

/-- A well-formed tree: the tree was built, the object graph satisfies its representation
invariant, the root is a parentless directory whose path is its name and which is indexed,
and the index agrees with the tree. -/
def GoodTree (t : DirectoryTree) : Prop :=
  ∃ root ∈ t.rootDir,
    GoodHeap t.heap t.next ∧
    root < t.next ∧ (t.heap root).kind = .DIRECTORY ∧ (t.heap root).parentDir = none ∧
    (t.heap root).dirEntryPath = [filename (t.heap root).dirEntryPath] ∧
    mapFind t.directories (t.heap root).dirEntryPath = some root ∧
    GoodIndex t root

instance (t : DirectoryTree) : Decidable (GoodTree t) := by
  unfold GoodTree; infer_instance

/-- The directory `d` is reachable from `root` through child directory sequences. -/
inductive Reachable (h : Heap) (root : Nat) : Nat → Prop
  | root : Reachable h root root
  | child {p c : Nat} : Reachable h root p → c ∈ (h p).directories → Reachable h root c

/-- The names on the way from `root` to a reachable directory, joined to a path. -/
inductive WayFromRoot (h : Heap) (root : Nat) : Nat → Path → Prop
  | root : WayFromRoot h root root [GetDirectoryName h root]
  | child {p c : Nat} {way : Path} : WayFromRoot h root p way → c ∈ (h p).directories →
      WayFromRoot h root c (slash way (GetDirectoryName h c))

/-- The path-index invariant: (i) every directory reachable from the root is stored in the
index under its path, (ii) its path is the join of the names on the way from the root, and
(iii) every directory stored in the index is reachable from the root. -/
def PathIndexInv (t : DirectoryTree) : Prop :=
  ∃ root ∈ t.rootDir,
    (∀ d, Reachable t.heap root d → t.GetDirectory (GetPath t.heap d) = some d) ∧
    (∀ d way, WayFromRoot t.heap root d way → GetPath t.heap d = way) ∧
    (∀ key d, t.GetDirectory key = some d → Reachable t.heap root d)

/-- Whether a call returned. -/
def Outcome.returned {α : Type} (o : Outcome α) : Bool :=
  match o with
  | .ok _ => true
  | .assertFailed => false
  | .stackExhausted => false

/-- What a listener call shows: listener, callback, entity, the old path passed along and
the path the entity has during the call. -/
structure Call where
  listener : Nat
  callback : Callback
  entity : Nat
  oldPath : Option Path
  path : Path
  deriving DecidableEq

/-- What a logged listener call shows. -/
def Delivery.toCall (c : Delivery) : Call :=
  { listener := c.listener, callback := c.callback, entity := c.entity,
    oldPath := c.oldPath, path := GetPath c.heap c.entity }

/-- The listener calls made after the first `n` of the log. -/
def DirectoryTree.callsAfter (t : DirectoryTree) (n : Nat) : List Call :=
  (t.log.drop n).map Delivery.toCall

/-- The path index after `ProcessPathChanges`: for every directory of the list, in order,
the old key is erased and the directory is inserted under its current path. -/
def rekey (h : Heap) : List (Path × Nat) → List (Nat × Path) → List (Path × Nat)
  | m, [] => m
  | m, e :: es =>
    if IsDirectory h e.1 then rekey h (mapInsert (mapErase m e.2) (GetPath h e.1) e.1) es
    else rekey h m es

/-- One path-changed call per listener for every entity of the list, in order: the call
carries the recorded old path, and the entity has the path of store `h` during the call. -/
def pathChangedCalls (listeners : List Nat) (h : Heap) : List (Nat × Path) → List Call
  | [] => []
  | e :: es =>
    listeners.map (fun l =>
      { listener := l,
        callback := if IsDirectory h e.1 then .OnDirectoryPathChanged else .OnFilePathChanged,
        entity := e.1, oldPath := some e.2, path := GetPath h e.1 }) ++
    pathChangedCalls listeners h es

/-- What `Directory::UpdatePath` on `d` achieves, from store `h` to store `h1`: only cached
paths change, and only below `d`; the path of `d` is recomputed from its parent reference,
and below `d` every cached path is consistent with the parent's. -/
def UpdatedBelow (h h1 : Heap) (d : Nat) : Prop :=
  PathOnly h h1 ∧ (∀ x, ¬ Sub h d x → h1 x = h x) ∧
  (h1 d).dirEntryPath = (DirectoryEntry.UpdatePath h d d).dirEntryPath ∧
  (∀ x, Sub h d x → x ≠ d → CachedAt h1 x)

/-- The store inside `Directory::DeleteDirectory(dir)` when the cascade starts: `dir` is
erased from the sequence of `this` and its parent reference is reset. -/
def detached (h : Heap) (this dir : Nat) : Heap :=
  store (store h this { h this with directories := (h this).directories.filter (fun d => d ≠ dir) })
    dir { store h this
            { h this with directories := (h this).directories.filter (fun d => d ≠ dir) } dir
          with parentDir := none }

/-- The store inside `Directory::AddDirectoryToDirectory(where, what)` when the cascade
starts: `what` is inserted into the sequence of `where` and its parent reference is set. -/
def attached (h : Heap) (wher what : Nat) : Heap :=
  store (Directory.AddDirectory h wher what) what
    { Directory.AddDirectory h wher what what with parentDir := some wher }

/-- The store inside `DirectoryEntry::Rename(newName)` when the cascade starts. -/
def renamed (h : Heap) (e : Nat) (newName : String) : Heap :=
  store h e { h e with dirEntryPath := replace_filename (h e).dirEntryPath newName }

/-- The sample store after `A.DeleteDirectory(B)`: the directory `B = 3` is parentless. -/
def sampleDetached : Heap :=
  (Directory.DeleteDirectory 4 sampleTree.heap 0 3).getD sampleTree.heap

/-- A sound tree: the object graph satisfies its representation invariant and every binding
of the index names an allocated directory.  (The index may hold stale bindings.) -/
def SoundTree (t : DirectoryTree) : Prop :=
  GoodHeap t.heap t.next ∧
  ∀ kv ∈ t.directories, mapFind t.directories kv.1 = some kv.2 →
    kv.2 < t.next ∧ (t.heap kv.2).kind = .DIRECTORY

instance (t : DirectoryTree) : Decidable (SoundTree t) := by
  unfold SoundTree; infer_instance

/-- Below `x` there is a chain of `n` nested directories. -/
inductive DirChain (h : Heap) : Nat → Nat → Prop
  | zero (x : Nat) : DirChain h x 0
  | step {x c n : Nat} : c ∈ (h x).directories → DirChain h c n → DirChain h x (n + 1)

/-- The directory `y` is `x` or nested, through child directory sequences, in `x`. -/
inductive DirReach (h : Heap) : Nat → Nat → Prop
  | refl (x : Nat) : DirReach h x x
  | head {x c y : Nat} : c ∈ (h x).directories → DirReach h c y → DirReach h x y

/-- The example tree after a second directory named `B` has appeared inside `A/D`
(id 8). -/
def collideTree : DirectoryTree :=
  (sampleTree.AddNewDirectory 4 ["A", "D", "B"] (.mk (some 1) (some 1) .nil)).tree

/-! ## Sequences of operations -/

/-- No two child directories of `x` have the same name, and no two child files. -/
def UniqueNamesAt (h : Heap) (x : Nat) : Prop :=
  ((h x).directories.map (GetDirectoryName h)).Nodup ∧
  ((h x).files.map (GetFullFileName h)).Nodup

instance (h : Heap) (x : Nat) : Decidable (UniqueNamesAt h x) := by
  unfold UniqueNamesAt; infer_instance

/-- Name uniqueness for every object below address `n`. -/
def UniqueNames (h : Heap) (n : Nat) : Prop := ∀ x, x < n → UniqueNamesAt h x

instance (h : Heap) (n : Nat) : Decidable (UniqueNames h n) := by
  unfold UniqueNames; infer_instance

/-- The names of the regular files a directory scan yields. -/
def DiskEntries.fileNames : DiskEntries → List String
  | .nil => []
  | .cons (.regular_file name _ _) rest => name :: rest.fileNames
  | .cons (.directory _ _) rest => rest.fileNames
  | .cons (.other _) rest => rest.fileNames

/-- The names of the directories a directory scan yields. -/
def DiskEntries.dirNames : DiskEntries → List String
  | .nil => []
  | .cons (.regular_file _ _ _) rest => rest.dirNames
  | .cons (.directory name _) rest => name :: rest.dirNames
  | .cons (.other _) rest => rest.dirNames

mutual
/-- A scanned directory in which, at every level, no two files and no two directories have
the same name. -/
def DiskDirectory.distinctNames : DiskDirectory → Bool
  | .mk _ _ entries =>
    decide entries.fileNames.Nodup && decide entries.dirNames.Nodup && entries.distinctBelow
/-- Every directory among the entries has distinct names at every level. -/
def DiskEntries.distinctBelow : DiskEntries → Bool
  | .nil => true
  | .cons (.regular_file _ _ _) rest => rest.distinctBelow
  | .cons (.directory _ dir) rest => dir.distinctNames && rest.distinctBelow
  | .cons (.other _) rest => rest.distinctBelow
end

/-- A call of one of the eight operations that change the tree, with its arguments and with
what the disk shows during the call. -/
inductive Op
  | AddNewFile (filePath : Path) (o1 o2 : Option Int)
  | AddNewDirectory (dirPath : Path) (scan : DiskDirectory)
  | RemoveFile (filePath : Path)
  | RemoveDirectory (dirPath : Path)
  | MoveFile (oldPath newPath : Path)
  | MoveDirectory (oldPath newPath : Path)
  | RenameFile (oldPath newPath : Path)
  | RenameDirectory (oldPath newPath : Path)

/-- The call of an operation on a tree. -/
def Op.run (fuel : Nat) (t : DirectoryTree) : Op → Outcome DirectoryTree
  | .AddNewFile filePath o1 o2 => t.AddNewFile filePath o1 o2
  | .AddNewDirectory dirPath scan => t.AddNewDirectory fuel dirPath scan
  | .RemoveFile filePath => t.RemoveFile filePath
  | .RemoveDirectory dirPath => t.RemoveDirectory fuel dirPath
  | .MoveFile oldPath newPath => t.MoveFile oldPath newPath
  | .MoveDirectory oldPath newPath => t.MoveDirectory fuel oldPath newPath
  | .RenameFile oldPath newPath => t.RenameFile oldPath newPath
  | .RenameDirectory oldPath newPath => t.RenameDirectory fuel oldPath newPath

/-- The stated preconditions of a call: the parent directories are indexed and the source
entry of a move or rename is present. -/
def Op.stated (t : DirectoryTree) : Op → Bool
  | .AddNewFile filePath _ _ => (t.GetDirectory (parent_path filePath)).isSome
  | .AddNewDirectory dirPath _ => (t.GetDirectory (parent_path dirPath)).isSome
  | .RemoveFile filePath => (t.GetDirectory (parent_path filePath)).isSome
  | .RemoveDirectory dirPath => (t.GetDirectory (parent_path dirPath)).isSome
  | .MoveFile oldPath newPath =>
    match t.GetDirectory (parent_path oldPath), t.GetDirectory (parent_path newPath) with
    | some P, some _ => (Directory.GetFile t.heap P (filename oldPath)).isSome
    | _, _ => false
  | .MoveDirectory oldPath newPath =>
    match t.GetDirectory (parent_path oldPath), t.GetDirectory (parent_path newPath) with
    | some P, some _ => (Directory.GetDirectory t.heap P (filename oldPath)).isSome
    | _, _ => false
  | .RenameFile oldPath newPath =>
    match t.GetDirectory (parent_path oldPath), t.GetDirectory (parent_path newPath) with
    | some P, some _ => (Directory.GetFile t.heap P (filename oldPath)).isSome
    | _, _ => false
  | .RenameDirectory oldPath newPath =>
    match t.GetDirectory (parent_path oldPath), t.GetDirectory (parent_path newPath) with
    | some P, some _ => (Directory.GetDirectory t.heap P (filename oldPath)).isSome
    | _, _ => false

/-- The name of the entry a call brings into a directory is not in use there: an added file
or directory is new in its parent (and a scanned directory has distinct names), a moved
entry finds its name free in the destination unless the destination is its old parent, and a
renamed entry gets a name no other entry of its kind has in the parent.  A directory is not
moved to a destination whose cached path lies below its own. -/
def Op.nameFree (t : DirectoryTree) : Op → Bool
  | .AddNewFile filePath _ _ =>
    match t.GetDirectory (parent_path filePath) with
    | some P => !Directory.FileExists t.heap P (filename filePath)
    | none => true
  | .AddNewDirectory dirPath scan =>
    match t.GetDirectory (parent_path dirPath) with
    | some P => !Directory.DirectoryExists t.heap P (filename dirPath) && scan.distinctNames
    | none => true
  | .RemoveFile _ => true
  | .RemoveDirectory _ => true
  | .MoveFile oldPath newPath =>
    match t.GetDirectory (parent_path oldPath), t.GetDirectory (parent_path newPath) with
    | some P, some Q => decide (Q = P) || !Directory.FileExists t.heap Q (filename oldPath)
    | _, _ => true
  | .MoveDirectory oldPath newPath =>
    match t.GetDirectory (parent_path oldPath), t.GetDirectory (parent_path newPath) with
    | some P, some Q =>
      (decide (Q = P) || !Directory.DirectoryExists t.heap Q (filename oldPath)) &&
      match Directory.GetDirectory t.heap P (filename oldPath) with
      | some d => !(GetPath t.heap d).isPrefixOf (GetPath t.heap Q)
      | none => true
    | _, _ => true
  | .RenameFile oldPath newPath =>
    match t.GetDirectory (parent_path oldPath) with
    | some P =>
      decide (filename newPath = filename oldPath) ||
        !Directory.FileExists t.heap P (filename newPath)
    | none => true
  | .RenameDirectory oldPath newPath =>
    match t.GetDirectory (parent_path oldPath) with
    | some P =>
      decide (filename newPath = filename oldPath) ||
        !Directory.DirectoryExists t.heap P (filename newPath)
    | none => true

/-- The trees after each call of a sequence, up to the first call that does not return. -/
def states (fuel : Nat) : List Op → DirectoryTree → List DirectoryTree
  | [], _ => []
  | op :: ops, t =>
    match op.run fuel t with
    | .ok t1 => t1 :: states fuel ops t1
    | _ => []

/-- A condition on calls holds at every call of a sequence, in the tree the call starts
from. -/
def holdsAlong (c : DirectoryTree → Op → Bool) (fuel : Nat) : List Op → DirectoryTree → Bool
  | [], _ => true
  | op :: ops, t =>
    c t op &&
    match op.run fuel t with
    | .ok t1 => holdsAlong c fuel ops t1
    | _ => true

/-- The invariant of the sequence theorems: a sound tree with unique names. -/
def NamesInv (t : DirectoryTree) : Prop := SoundTree t ∧ UniqueNames t.heap t.next

instance (t : DirectoryTree) : Decidable (NamesInv t) := by
  unfold NamesInv; infer_instance

/-- Every binding of a path index names an allocated directory. -/
def IndexValid (m : List (Path × Nat)) (h : Heap) (n : Nat) : Prop :=
  ∀ k v, mapFind m k = some v → v < n ∧ (h v).kind = .DIRECTORY

/-- Name uniqueness at `x`, as a condition on pairs of children. -/
def DistinctAt (h : Heap) (x : Nat) : Prop :=
  (∀ a ∈ (h x).directories, ∀ b ∈ (h x).directories,
    filename (h a).dirEntryPath = filename (h b).dirEntryPath → a = b) ∧
  (∀ a ∈ (h x).files, ∀ b ∈ (h x).files,
    filename (h a).dirEntryPath = filename (h b).dirEntryPath → a = b)

/-- The store inside `Directory::DeleteFile(file)` before the path of `file` is recomputed:
`file` is erased from the sequence of `this` and its parent reference is reset. -/
def detachedFile (h : Heap) (this file : Nat) : Heap :=
  store (store h this { h this with files := (h this).files.filter (fun f => f ≠ file) })
    file { store h this
            { h this with files := (h this).files.filter (fun f => f ≠ file) } file
          with parentDir := none }

/-- The store inside `Directory::AddFileToDirectory(where, what)` before the path of `what`
is recomputed: `what` is inserted into the sequence of `where` and its parent reference is
set. -/
def attachedFile (h : Heap) (wher what : Nat) : Heap :=
  store (Directory.AddFile h wher what) what
    { Directory.AddFile h wher what what with parentDir := some wher }

/-- The preconditions of a call in the sequence theorems: the stated ones and the free
name. -/
def Op.pre (t : DirectoryTree) (op : Op) : Bool := op.stated t && op.nameFree t

/-- A sequence of calls on the example tree that uses each of the eight operations once. -/
def sampleOps : List Op :=
  [.AddNewFile ["A", "D", "n.txt"] (some 9) (some 9),
   .AddNewDirectory ["A", "D", "E"]
     (.mk (some 1) (some 1) (.cons (.regular_file "e.txt" (some 1) (some 1)) .nil)),
   .MoveDirectory ["A", "B"] ["A", "D", "B"],
   .RenameDirectory ["A", "D", "B"] ["A", "D", "C"],
   .MoveFile ["A", "a.txt"] ["A", "D", "a.txt"],
   .RenameFile ["A", "c.txt"] ["A", "a.txt"],
   .RemoveFile ["A", "D", "n.txt"],
   .RemoveDirectory ["A", "D", "E"]]

/-! ## Modification events and failing preconditions -/

def DirectoryTree.NotifyFileModified (t : DirectoryTree) (file : Nat) : DirectoryTree :=
  t.notify .OnFileModified file none

def DirectoryTree.NotifyDirectoryModified (t : DirectoryTree) (dir : Nat) : DirectoryTree :=
  t.notify .OnDirectoryModified dir none

/-- The method `DirectoryTree::ProcessModifiedFile`; `observed` is what `UpdateStatus` reads
from the disk. -/
def DirectoryTree.ProcessModifiedFile (t : DirectoryTree) (oldPath : Path)
    (observed : Option Int) : Outcome DirectoryTree :=
  match t.GetDirectory (parent_path oldPath) with
  | none => .assertFailed
  | some oldPathParentDir =>
    match Directory.GetFile t.heap oldPathParentDir (filename oldPath) with
    | none => .assertFailed
    | some modifiedFile =>
      let t1 := { t with
        heap := store t.heap modifiedFile ((t.heap modifiedFile).UpdateStatus observed) }
      if (t1.heap modifiedFile).modified then .ok (t1.NotifyFileModified modifiedFile)
      else .ok t1

/-- The method `DirectoryTree::ProcessModifiedDirectory`. -/
def DirectoryTree.ProcessModifiedDirectory (t : DirectoryTree) (oldPath : Path)
    (observed : Option Int) : Outcome DirectoryTree :=
  match t.GetDirectory (parent_path oldPath) with
  | none => .assertFailed
  | some oldPathParentDir =>
    match Directory.GetDirectory t.heap oldPathParentDir (filename oldPath) with
    | none => .assertFailed
    | some modifiedDirectory =>
      let t1 := { t with
        heap := store t.heap modifiedDirectory
          ((t.heap modifiedDirectory).UpdateStatus observed) }
      if (t1.heap modifiedDirectory).modified then
        .ok (t1.NotifyDirectoryModified modifiedDirectory)
      else .ok t1

/-- How a call ends, with the tree as it is at that moment: the call returns, or an `assert`
fails (the tree is the one the failing `assert` was evaluated in), or the recursion exceeds
the stack budget. -/
inductive Ending
  | returned (tree : DirectoryTree)
  | assertFailed (tree : DirectoryTree)
  | stackExhausted

/-- The outcome of a call, forgetting the tree a failing `assert` was evaluated in. -/
def Ending.outcome : Ending → Outcome DirectoryTree
  | .returned tree => .ok tree
  | .assertFailed _ => .assertFailed
  | .stackExhausted => .stackExhausted

/-- The method `DirectoryTree::AddNewFile`, statement by statement, keeping the tree in
which the `assert` is evaluated: before it only `parent_path()` and the `const` method
`GetDirectory` have run. -/
def DirectoryTree.AddNewFile.ending (t : DirectoryTree) (filePath : Path)
    (o1 o2 : Option Int) : Ending :=
  match t.GetDirectory (parent_path filePath) with
  | none => .assertFailed t
  | some parentDir =>
    let created := t.CreateFile filePath o1 o2
    let t1 := { created.1 with
      heap := Directory.AddFileToDirectory created.1.heap parentDir created.2 }
    .returned (t1.NotifyFileAdded created.2)

/-- The method `DirectoryTree::AddNewDirectory`, keeping the tree in which the `assert` is
evaluated. -/
def DirectoryTree.AddNewDirectory.ending (fuel : Nat) (t : DirectoryTree) (dirPath : Path)
    (scan : DiskDirectory) : Ending :=
  match t.GetDirectory (parent_path dirPath) with
  | none => .assertFailed t
  | some parentDir =>
    match DirectoryTree.BuildTree fuel t dirPath scan with
    | none => .stackExhausted
    | some (t1, newDir) =>
      match Directory.AddDirectoryToDirectory fuel t1.heap parentDir newDir with
      | none => .stackExhausted
      | some h => .returned ({ t1 with heap := h }.NotifyDirectoryAdded newDir)

/-- The accessor `DirectoryEntry::Modified`. -/
def Modified (h : Heap) (e : Nat) : Bool := (h e).modified

/-- The listener calls of one event about `entity`, which has path `path` during the calls:
one call per registered listener, in registration order. -/
def eventCalls (listeners : List Nat) (callback : Callback) (entity : Nat)
    (oldPath : Option Path) (path : Path) : List Call :=
  listeners.map (fun l =>
    { listener := l, callback := callback, entity := entity, oldPath := oldPath,
      path := path })

/-- The scenario tree after `AddNewFile("A/a.txt")`: `A` lists the files `a.txt = 1` and
`a.txt = 4`. -/
def twinTree : DirectoryTree :=
  (specTree.AddNewFile ["A", "a.txt"] (some 5) (some 5)).tree

/-! ## Full sorts and the policy switch -/

/-- The algorithm `std::sort(first, last, comp)` on a sequence of entries.  It is library
code: the methods that call it take it as the parameter `sort`; `std.sort` below is the
algorithm of the GNU C++ library. -/
abbrev StdSort := (Nat → Nat → Bool) → List Nat → List Nat

/-- A strict weak ordering, which `std::sort` requires of its comparator: asymmetric and
negatively transitive. -/
def StrictWeak (comp : Nat → Nat → Bool) : Prop :=
  (∀ a b, comp a b = true → comp b a = false) ∧
  (∀ a b c, comp a b = true → comp c b = false → comp a c = true)

/-- What the C++ standard promises of `std::sort` for a strict weak ordering: the range
afterwards is a permutation of the range before and is sorted with respect to `comp`.
Nothing is promised about the order of equivalent items. -/
def StdSort.Conforms (sort : StdSort) : Prop :=
  ∀ comp xs, StrictWeak comp → (sort comp xs).Perm xs ∧ Ordered comp (sort comp xs)

def AlphabeticalSorter.SortDirectories (sort : StdSort) (c : SortCompFun) (h : Heap)
    (directories : List Nat) : List Nat :=
  sort (AlphabeticalSorter.comp c h) directories

def AlphabeticalSorter.SortFiles (sort : StdSort) (c : SortCompFun) (h : Heap)
    (files : List Nat) : List Nat :=
  sort (AlphabeticalSorter.comp c h) files

def LastWriteTimeSorter.SortDirectories (sort : StdSort) (c : SortCompFun) (h : Heap)
    (directories : List Nat) : List Nat :=
  sort (LastWriteTimeSorter.comp c h) directories

def LastWriteTimeSorter.SortFiles (sort : StdSort) (c : SortCompFun) (h : Heap)
    (files : List Nat) : List Nat :=
  sort (LastWriteTimeSorter.comp c h) files

/-- The virtual call `sorter->SortDirectories(directories)`. -/
def Sorter.SortDirectories (sort : StdSort) (policy : DirEntrySortType) (h : Heap)
    (directories : List Nat) : List Nat :=
  match sorterOf policy with
  | (.AlphabeticalSorter, c) => AlphabeticalSorter.SortDirectories sort c h directories
  | (.LastWriteTimeSorter, c) => LastWriteTimeSorter.SortDirectories sort c h directories

/-- The virtual call `sorter->SortFiles(files)`. -/
def Sorter.SortFiles (sort : StdSort) (policy : DirEntrySortType) (h : Heap)
    (files : List Nat) : List Nat :=
  match sorterOf policy with
  | (.AlphabeticalSorter, c) => AlphabeticalSorter.SortFiles sort c h files
  | (.LastWriteTimeSorter, c) => LastWriteTimeSorter.SortFiles sort c h files

/-- The method `Directory::SortDirectories`. -/
def Directory.SortDirectories (sort : StdSort) (h : Heap) (this : Nat) : Heap :=
  store h this { h this with
    directories := Sorter.SortDirectories sort (h this).sortType h (h this).directories }

/-- The method `Directory::SortFiles`. -/
def Directory.SortFiles (sort : StdSort) (h : Heap) (this : Nat) : Heap :=
  store h this { h this with
    files := Sorter.SortFiles sort (h this).sortType h (h this).files }

def Directory.GetSortingType (h : Heap) (this : Nat) : DirEntrySortType := (h this).sortType

/-- The method `Directory::SetSortingType`: the policy is stored, the sorter object is
replaced (it is a function of the policy, see `sorterOf`), then `SortFiles()` and
`SortDirectories()`. -/
def Directory.SetSortingType (sort : StdSort) (h : Heap) (this : Nat)
    (sortType : DirEntrySortType) : Heap :=
  Directory.SortDirectories sort
    (Directory.SortFiles sort (store h this { h this with sortType := sortType }) this) this

/-- The sort key a policy compares: the name, or the last write time. -/
def sameKey (policy : DirEntrySortType) (h : Heap) (a b : Nat) : Bool :=
  match sorterOf policy with
  | (.AlphabeticalSorter, _) =>
    decide (filename (h a).dirEntryPath = filename (h b).dirEntryPath)
  | (.LastWriteTimeSorter, _) => decide (GetLastWriteTime h a = GetLastWriteTime h b)

/-- Stability of a sort from `xs` to `ys`: for every item of the input, the items with the
same key come out in the order they went in. -/
def StableFor (policy : DirEntrySortType) (h : Heap) (xs ys : List Nat) : Prop :=
  ∀ x ∈ xs, ys.filter (sameKey policy h x) = xs.filter (sameKey policy h x)

instance (policy : DirEntrySortType) (h : Heap) (xs ys : List Nat) :
    Decidable (StableFor policy h xs ys) := by
  unfold StableFor; infer_instance

/-- A sample `std::sort`: insertion of the items, one after the other, at their upper
bound. -/
def insertionSort : StdSort := fun comp xs =>
  xs.foldl (fun acc x => insertAt acc (upper_bound (fun y => comp x y) acc) x) []

/-- The method `DirectoryTree::RemoveDirTreeEventListener` (`std::remove` and `erase`). -/
def DirectoryTree.RemoveDirTreeEventListener (t : DirectoryTree) (listener : Nat) :
    DirectoryTree :=
  { t with listeners := t.listeners.filter (fun l => l ≠ listener) }

/-- Calls of `Directory::AddDirectory` on `this`, one for each entry of the list, in
order. -/
def addDirectories (h : Heap) (this : Nat) (dirs : List Nat) : Heap :=
  dirs.foldl (fun h1 d => Directory.AddDirectory h1 this d) h

/-- Calls of `Directory::AddFile` on `this`, one for each entry of the list, in order. -/
def addFiles (h : Heap) (this : Nat) (files : List Nat) : Heap :=
  files.foldl (fun h1 f => Directory.AddFile h1 this f) h

/-- A store with an empty directory `d = 0` and two entries named `a = 1` and `b = 2`. -/
def abHeap : Heap :=
  store (store (store (fun _ => newFile []) 0 (newDirectory ["d"])) 1 (newFile ["a"])) 2
    (newFile ["b"])

/-- The example tree after `SetSortingType(LAST_WRITE_TIME_L_TO_H)` on its root directory
`A` (with the sample `insertionSort`): the files of `A` are `a.txt` (time 5), `c.txt`
(time 6), its directories `B` (time 7), `D` (time 8). -/
def timeTree : DirectoryTree :=
  { sampleTree with
    heap := Directory.SetSortingType insertionSort sampleTree.heap 0 .LAST_WRITE_TIME_L_TO_H }

/-- The order of a recursive listing in words: the files, then every child directory,
each followed by its own listing `below c`. -/
def listedInOrder (files dirs : List Nat) (below : Nat → List Nat) : List Nat :=
  files ++ dirs.foldr (fun c rest => c :: below c ++ rest) []

/-! ## Events and their delivery -/

/-- One event fired by the tree: the callback, the entity and the old path it passes, and
the store during the calls. -/
structure Event where
  callback : Callback
  entity : Nat
  oldPath : Option Path
  heap : Heap

/-- The listener calls of one event: one call per listener, in the order of the list. -/
def Event.deliveries (listeners : List Nat) (e : Event) : List Delivery :=
  listeners.map (fun l =>
    { listener := l, callback := e.callback, entity := e.entity, oldPath := e.oldPath,
      heap := e.heap })

/-- The listener calls of a sequence of events: those of the first event, then those of the
second, and so on. -/
def fanOut (listeners : List Nat) (events : List Event) : List Delivery :=
  events.foldr (fun e rest => e.deliveries listeners ++ rest) []

/-- From `t` to `t1` the listeners stay the same and the log grows by the calls of a
sequence of events, each delivered to every listener in registration order. -/
def Fan (t t1 : DirectoryTree) : Prop :=
  t1.listeners = t.listeners ∧ ∃ events, t1.log = t.log ++ fanOut t.listeners events

/-! ## The trees a client can reach -/

/-- The method `DirectoryTree::ClearTree`: `rootDir.reset()`. -/
def DirectoryTree.ClearTree (t : DirectoryTree) : DirectoryTree :=
  { t with rootDir := none }

/-- The trees reached from a default-constructed `DirectoryTree` by calls of its public
methods that return. -/
inductive Reached : DirectoryTree → Prop
  | empty : Reached DirectoryTree.empty
  | AddDirTreeEventListener {t : DirectoryTree} (listener : Nat) :
      Reached t → Reached (t.AddDirTreeEventListener listener)
  | RemoveDirTreeEventListener {t : DirectoryTree} (listener : Nat) :
      Reached t → Reached (t.RemoveDirTreeEventListener listener)
  | BuildRootTree {t t1 : DirectoryTree} (fuel : Nat) (rootDirAbsPath : Path)
      (scan : DiskDirectory) :
      Reached t → t.BuildRootTree fuel rootDirAbsPath scan = .ok t1 → Reached t1
  | ClearTree {t : DirectoryTree} : Reached t → Reached t.ClearTree
  | run {t t1 : DirectoryTree} (fuel : Nat) (op : Op) :
      Reached t → op.run fuel t = .ok t1 → Reached t1
  | ProcessModifiedFile {t t1 : DirectoryTree} (oldPath : Path) (observed : Option Int) :
      Reached t → t.ProcessModifiedFile oldPath observed = .ok t1 → Reached t1
  | ProcessModifiedDirectory {t t1 : DirectoryTree} (oldPath : Path) (observed : Option Int) :
      Reached t → t.ProcessModifiedDirectory oldPath observed = .ok t1 → Reached t1

/-! ## The events of a scan -/

/-- An added-event: the callback for the class of the entity, without an old path. -/
def Event.isAdded (e : Event) : Prop :=
  e.oldPath = none ∧
  ((e.callback = .OnFileAdded ∧ (e.heap e.entity).kind = .FILE) ∨
   (e.callback = .OnDirectoryAdded ∧ (e.heap e.entity).kind = .DIRECTORY))

/-- In the store `h1` the entity of the event has the children and the parent it had while
the event was delivered. -/
def Event.settledIn (e : Event) (h1 : Heap) : Prop :=
  (h1 e.entity).files = (e.heap e.entity).files ∧
  (h1 e.entity).directories = (e.heap e.entity).directories ∧
  (h1 e.entity).parentDir = (e.heap e.entity).parentDir

/-- In a sequence of events that follows the events `seen`, every directory-added event
comes after an event for each child its directory has while the event is delivered. -/
def childrenFirst : List Event → List Event → Prop
  | _, [] => True
  | seen, e :: rest =>
    (e.callback = .OnDirectoryAdded →
      ∀ x ∈ children e.heap e.entity, ∃ e1 ∈ seen, e1.entity = x) ∧
    childrenFirst (seen ++ [e]) rest

/-- The events of a scan from `t` to `t1`: the log grows by their calls, there is exactly one
event for each object created from address `first` on, each is an added-event whose entity
keeps its children and its parent until the end, and children come first. -/
def ScanEvents (t t1 : DirectoryTree) (first : Nat) (events : List Event) : Prop :=
  t1.log = t.log ++ fanOut t.listeners events ∧
  (events.map Event.entity).Perm (List.range' first (t1.next - first)) ∧
  (∀ e ∈ events, e.isAdded ∧ e.settledIn t1.heap) ∧
  childrenFirst [] events

/-! ## What a scan creates -/

mutual
/-- The paths of the directories of a scan of the directory with path `p`, in scan order:
`p` itself, then what each entry that is a directory contributes. -/
def DiskDirectory.dirPaths (p : Path) : DiskDirectory → List Path
  | .mk _ _ entries => p :: entries.dirPaths p
/-- The paths of the directories among and below the entries of the directory `p`. -/
def DiskEntries.dirPaths (p : Path) : DiskEntries → List Path
  | .nil => []
  | .cons (.regular_file _ _ _) rest => rest.dirPaths p
  | .cons (.directory name dir) rest => dir.dirPaths (slash p name) ++ rest.dirPaths p
  | .cons (.other _) rest => rest.dirPaths p
end

mutual
/-- The paths of the regular files of a scan of the directory with path `p`, in scan
order. -/
def DiskDirectory.filePaths (p : Path) : DiskDirectory → List Path
  | .mk _ _ entries => entries.filePaths p
/-- The paths of the regular files among and below the entries of the directory `p`. -/
def DiskEntries.filePaths (p : Path) : DiskEntries → List Path
  | .nil => []
  | .cons (.regular_file name _ _) rest => slash p name :: rest.filePaths p
  | .cons (.directory name dir) rest => dir.filePaths (slash p name) ++ rest.filePaths p
  | .cons (.other _) rest => rest.filePaths p
end

/-- The `Directory` objects among the objects at the addresses from `a` up to `b`, in order
of creation. -/
def createdDirectories (h : Heap) (a b : Nat) : List Nat :=
  (List.range' a (b - a)).filter (fun x => decide ((h x).kind = .DIRECTORY))

/-- The `File` objects among the objects at the addresses from `a` up to `b`, in order of
creation. -/
def createdFiles (h : Heap) (a b : Nat) : List Nat :=
  (List.range' a (b - a)).filter (fun x => decide ((h x).kind = .FILE))

/-! ## Change event records -/

/-- The enumeration `FileEventType`. -/
inductive FileEventType
  | ADDED
  | REMOVED
  | MOVED
  | MODIFIED
  | RENAMED
  deriving DecidableEq

/-- The record `FileEvent`. -/
structure FileEvent where
  oldPath : Path
  newPath : Path
  type : FileEventType
  deriving DecidableEq

/-- A value-initialised `FileEvent{}`: two empty paths and the first enumerator. -/
def FileEvent.valueInit : FileEvent := { oldPath := [], newPath := [], type := .ADDED }

def FileEvent.CreateAddedEvent (newPath : Path) : FileEvent :=
  let addedEvent := FileEvent.valueInit
  let addedEvent := { addedEvent with type := .ADDED }
  let addedEvent := { addedEvent with newPath := newPath }
  addedEvent

def FileEvent.CreateRemovedEvent (oldPath : Path) : FileEvent :=
  let removedEvent := FileEvent.valueInit
  let removedEvent := { removedEvent with type := .REMOVED }
  let removedEvent := { removedEvent with oldPath := oldPath }
  removedEvent

def FileEvent.CreateMovedEvent (oldPath newPath : Path) : FileEvent :=
  let movedEvent := FileEvent.valueInit
  let movedEvent := { movedEvent with type := .MOVED }
  let movedEvent := { movedEvent with oldPath := oldPath }
  let movedEvent := { movedEvent with newPath := newPath }
  movedEvent

def FileEvent.CreateModifiedEvent (oldPath : Path) : FileEvent :=
  let modifiedEvent := FileEvent.valueInit
  let modifiedEvent := { modifiedEvent with type := .MODIFIED }
  let modifiedEvent := { modifiedEvent with oldPath := oldPath }
  modifiedEvent

def FileEvent.CreateRenamedEvent (oldPath newPath : Path) : FileEvent :=
  let renamedEvent := FileEvent.valueInit
  let renamedEvent := { renamedEvent with type := .RENAMED }
  let renamedEvent := { renamedEvent with oldPath := oldPath }
  let renamedEvent := { renamedEvent with newPath := newPath }
  renamedEvent

/-! ## The hand-off queue of the watcher -/

/-- The queue of `FileSystemWatcher`: the member `std::queue<FileEvent> fileEvents`, front
first.  Every method holds `fileEventsMutex` for its whole body, so calls take effect one
after the other. -/
structure FileSystemWatcher where
  fileEvents : List FileEvent

/-- A freshly constructed watcher: the queue is empty. -/
def FileSystemWatcher.new : FileSystemWatcher := { fileEvents := [] }

/-- The method `AddFileEvent`: `fileEvents.push(fileEvent)`. -/
def FileSystemWatcher.AddFileEvent (w : FileSystemWatcher) (fileEvent : FileEvent) :
    FileSystemWatcher :=
  { w with fileEvents := w.fileEvents ++ [fileEvent] }

/-- The method `RetrieveFileEvent`: `front()` and `pop()`; on an empty queue the behaviour is
undefined (`none`). -/
def FileSystemWatcher.RetrieveFileEvent (w : FileSystemWatcher) :
    Option (FileEvent × FileSystemWatcher) :=
  match w.fileEvents with
  | [] => none
  | fileEvent :: rest => some (fileEvent, { w with fileEvents := rest })

/-- The method `HasFileEvents`: `!fileEvents.empty()`. -/
def FileSystemWatcher.HasFileEvents (w : FileSystemWatcher) : Bool := !w.fileEvents.isEmpty

/-- The method `FileEventsAvailable`: `fileEvents.size()`. -/
def FileSystemWatcher.FileEventsAvailable (w : FileSystemWatcher) : Nat := w.fileEvents.length

/-- A call of one of the two methods that change the queue. -/
inductive WatcherCall
  | AddFileEvent (fileEvent : FileEvent)
  | RetrieveFileEvent
  deriving DecidableEq

/-- A sequence of calls on the watcher, one after the other: the events the calls of
`RetrieveFileEvent` returned, in order, and the watcher afterwards; `none` when a
`RetrieveFileEvent` is made on an empty queue. -/
def FileSystemWatcher.run : List WatcherCall → FileSystemWatcher →
    Option (List FileEvent × FileSystemWatcher)
  | [], w => some ([], w)
  | .AddFileEvent e :: calls, w => FileSystemWatcher.run calls (w.AddFileEvent e)
  | .RetrieveFileEvent :: calls, w =>
    match w.RetrieveFileEvent with
    | none => none
    | some (e, w1) =>
      match FileSystemWatcher.run calls w1 with
      | none => none
      | some (retrieved, w2) => some (e :: retrieved, w2)

/-- The events passed to `AddFileEvent` in a sequence of calls, in order. -/
def addedEvents : List WatcherCall → List FileEvent
  | [] => []
  | .AddFileEvent e :: calls => e :: addedEvents calls
  | .RetrieveFileEvent :: calls => addedEvents calls

/-- The number of calls of `RetrieveFileEvent` in a sequence of calls. -/
def retrieveCount : List WatcherCall → Nat
  | [] => 0
  | .AddFileEvent _ :: calls => retrieveCount calls
  | .RetrieveFileEvent :: calls => retrieveCount calls + 1

/-! ## Timestamps -/

/-- A sequence of `UpdateStatus` calls on one entry; `none` is a read that throws. -/
def updateStatusAll (e : DirectoryEntry) (observed : List (Option Int)) : DirectoryEntry :=
  observed.foldl DirectoryEntry.UpdateStatus e

/-! ## Deleting a child by name -/

/-- The method `Directory::DeleteDirectory(const std::string& dirName)`: `result` is the
position `std::find_if` returns (the length of the sequence for `end`); the parent reference
of the directory found is cleared first, then the position is erased. -/
def Directory.DeleteDirectoryNamed (fuel : Nat) (h : Heap) (this : Nat) (dirName : String) :
    Option Heap :=
  let result := (h this).directories.findIdx (fun dir => dirName = GetDirectoryName h dir)
  match (h this).directories[result]? with
  | none => some h
  | some dir =>
    match Directory.ClearParentDirectory fuel h dir with
    | none => none
    | some h1 =>
      some (store h1 this { h1 this with directories := (h1 this).directories.eraseIdx result })

/-- The method `Directory::DeleteFile(const std::string& fileName)`. -/
def Directory.DeleteFileNamed (h : Heap) (this : Nat) (fileName : String) : Heap :=
  let result := (h this).files.findIdx (fun file => fileName = GetFullFileName h file)
  match (h this).files[result]? with
  | none => h
  | some file =>
    let h1 := File.ClearParentDirectory h file
    store h1 this { h1 this with files := (h1 this).files.eraseIdx result }

/-- Nothing below `d` is the object `P` or has `P` as its parent. -/
def Free (h : Heap) (P d : Nat) : Prop :=
  ∀ x, Sub h d x → x ≠ P ∧ (h x).parentDir ≠ some P

/-! ## The recursive accessors -/

/-- The loop of `Directory::GetFilesRecursive` over `directories`, with the recursive call
passed as `rec`. -/
def collectFiles (rec : Nat → Option (List Nat)) : List Nat → Option (List Nat)
  | [] => some []
  | d :: ds =>
    match rec d, collectFiles rec ds with
    | some sub, some rest => some (sub ++ rest)
    | _, _ => none

/-- The method `Directory::GetFilesRecursive`. -/
def Directory.GetFilesRecursive : Nat → Heap → Nat → Option (List Nat)
  | 0, _, _ => none
  | fuel + 1, h, d =>
    match collectFiles (Directory.GetFilesRecursive fuel h) (h d).directories with
    | some rest => some ((h d).files ++ rest)
    | none => none

/-- The method `Directory::GetDirectoriesRecursive`; its loop is the loop of
`GetDirEntriesRecursive` (`push_back(dir)`, then the recursive result). -/
def Directory.GetDirectoriesRecursive : Nat → Heap → Nat → Option (List Nat)
  | 0, _, _ => none
  | fuel + 1, h, d =>
    collectEntries (Directory.GetDirectoriesRecursive fuel h) (h d).directories

/-- The test `!IsDirectory()` on an entry: it is a `File`. -/
def IsFile (h : Heap) (e : Nat) : Bool := (h e).kind = .FILE

/-! ## The earlier re-keying (`src/src/DirectoryTree.cpp`) -/

/-- The operator `p / q` for a relative path `q`. -/
def join (p q : Path) : Path := p ++ q

/-- The `for` loop of the earlier `ResolveDirectoryMapLinks` over
`relPathDir->GetDirectories()`, with the recursive call passed as `rec`: each child is
looked up in the index under its cached path, and the directory found there is re-keyed. -/
def resolveChildren
    (rec : List (Path × Nat) → Path → Nat → Outcome (List (Path × Nat)))
    (h : Heap) (relPathToDir : Path) :
    List (Path × Nat) → List Nat → Outcome (List (Path × Nat))
  | m, [] => .ok m
  | m, dir :: rest =>
    match mapFind m (GetPath h dir) with
    | none => .assertFailed
    | some newRelPathDir =>
      match rec m (slash relPathToDir (filename (GetPath h dir))) newRelPathDir with
      | .ok m1 => resolveChildren rec h relPathToDir m1 rest
      | .assertFailed => .assertFailed
      | .stackExhausted => .stackExhausted

/-- The method `DirectoryTree::ResolveDirectoryMapLinks` of the earlier implementation, on
the index `m`: the old key of `relPathDir` (its cached path) is asserted to be present and
erased, the directory is inserted under `newDirPath / relPathToDir`, and the same is done for
every child directory. -/
def Earlier.ResolveDirectoryMapLinks :
    Nat → Heap → List (Path × Nat) → Path → Path → Nat → Outcome (List (Path × Nat))
  | 0, _, _, _, _, _ => .stackExhausted
  | fuel + 1, h, m, newDirPath, relPathToDir, relPathDir =>
    let newKeyPath := if relPathToDir = [] then newDirPath else join newDirPath relPathToDir
    match mapFind m (GetPath h relPathDir) with
    | none => .assertFailed
    | some _ =>
      resolveChildren
        (fun m1 rel dir => Earlier.ResolveDirectoryMapLinks fuel h m1 newDirPath rel dir)
        h relPathToDir
        (mapInsert (mapErase m (GetPath h relPathDir)) newKeyPath relPathDir)
        (h relPathDir).directories

/-- The method `DirectoryTree::RenameDirectory` of the earlier implementation: the index is
re-keyed by `ResolveDirectoryMapLinks` first, then the directory is renamed; no event is
fired. -/
def Earlier.RenameDirectory (fuel : Nat) (t : DirectoryTree) (oldPath newPath : Path) :
    Outcome DirectoryTree :=
  match t.GetDirectory (parent_path oldPath), t.GetDirectory (parent_path newPath) with
  | some oldPathParentDir, some _ =>
    match Directory.GetDirectory t.heap oldPathParentDir (filename oldPath) with
    | none => .assertFailed
    | some dirToRename =>
      match Earlier.ResolveDirectoryMapLinks fuel t.heap t.directories newPath [] dirToRename with
      | .ok m =>
        match Directory.Rename fuel t.heap dirToRename (filename newPath) with
        | none => .stackExhausted
        | some h1 => .ok { t with heap := h1, directories := m }
      | .assertFailed => .assertFailed
      | .stackExhausted => .stackExhausted
  | _, _ => .assertFailed

/-! ## Further sample trees -/

/-- The example tree after `RemoveDirectory("A/D")`: the directory `D = 7` has left the
sequence of `A`, and the index still binds its key `A/D`. -/
def staleTree : DirectoryTree :=
  (sampleTree.RemoveDirectory 4 ["A", "D"]).tree

/-- The method `DirectoryTree::ProcessModifiedFile`, statement by statement, keeping the tree
in which an `assert` is evaluated: before the two asserts only `parent_path()`, `filename()`
and the `const` methods `GetDirectory` and `GetFile` have run. -/
def DirectoryTree.ProcessModifiedFile.ending (t : DirectoryTree) (oldPath : Path)
    (observed : Option Int) : Ending :=
  match t.GetDirectory (parent_path oldPath) with
  | none => .assertFailed t
  | some oldPathParentDir =>
    match Directory.GetFile t.heap oldPathParentDir (filename oldPath) with
    | none => .assertFailed t
    | some modifiedFile =>
      let t1 := { t with
        heap := store t.heap modifiedFile ((t.heap modifiedFile).UpdateStatus observed) }
      if (t1.heap modifiedFile).modified then .returned (t1.NotifyFileModified modifiedFile)
      else .returned t1

/-- The method `DirectoryTree::ProcessModifiedDirectory`, keeping the tree in which an
`assert` is evaluated. -/
def DirectoryTree.ProcessModifiedDirectory.ending (t : DirectoryTree) (oldPath : Path)
    (observed : Option Int) : Ending :=
  match t.GetDirectory (parent_path oldPath) with
  | none => .assertFailed t
  | some oldPathParentDir =>
    match Directory.GetDirectory t.heap oldPathParentDir (filename oldPath) with
    | none => .assertFailed t
    | some modifiedDirectory =>
      let t1 := { t with
        heap := store t.heap modifiedDirectory
          ((t.heap modifiedDirectory).UpdateStatus observed) }
      if (t1.heap modifiedDirectory).modified then
        .returned (t1.NotifyDirectoryModified modifiedDirectory)
      else .returned t1

/-- In no directory below address `n` does a file have the name of a child directory. -/
def NoSharedName (h : Heap) (n : Nat) : Prop :=
  ∀ P, P < n → ∀ c ∈ (h P).directories, ∀ f ∈ (h P).files,
    GetDirectoryName h c ≠ GetFullFileName h f

instance (h : Heap) (n : Nat) : Decidable (NoSharedName h n) := by
  unfold NoSharedName; infer_instance

/-- The scenario tree after `RemoveDirectory("A/B")`, which leaves the key `A/B` in the
index, and then `AddNewFile("A/B")`. -/
def reusedKeyTree : DirectoryTree :=
  ((specTree.RemoveDirectory 3 ["A", "B"]).tree.AddNewFile ["A", "B"] (some 1) (some 1)).tree

/-! ## Scans that fail -/

mutual
/-- What `std::filesystem::directory_iterator` yields for one entry when reading the disk can
fail: as `DiskEntry`, or an entry whose status cannot be read, so that
`entry.is_regular_file()` throws. -/
inductive ScanEntry
  | regular_file (name : String) (o1 o2 : Option Int)
  | directory (name : String) (dir : ScanDirectory)
  | other (name : String)
  | status_error (name : String)
/-- A directory on the disk as `BuildTree` reads it: the two readings of its write time and
the run of the iterator over it. -/
inductive ScanDirectory
  | mk (o1 o2 : Option Int) (entries : ScanEntries)
/-- The run of a `directory_iterator`: it is at the end, or yields an entry, or throws
`filesystem_error`: at its construction, when the directory is missing or cannot be read, or
at an increment. -/
inductive ScanEntries
  | nil
  | cons (entry : ScanEntry) (rest : ScanEntries)
  | filesystem_error
end

/-- How a call that reads the disk ends: as an `Outcome`, or with the `filesystem_error` of
the iterator, which no method of `DirectoryTree` catches; `tree` is the tree the exception
leaves behind. -/
inductive Scanned (α : Type)
  | ok (result : α)
  | assertFailed
  | stackExhausted
  | filesystem_error (tree : DirectoryTree)

/-- A call that does not throw. -/
def Scanned.ofOutcome {α : Type} : Outcome α → Scanned α
  | .ok result => .ok result
  | .assertFailed => .assertFailed
  | .stackExhausted => .stackExhausted

/-- A recursion that does not throw. -/
def Scanned.ofOption {α : Type} : Option α → Scanned α
  | some result => .ok result
  | none => .stackExhausted

mutual
/-- What the directory shows when every read succeeds. -/
def ScanDirectory.listing : ScanDirectory → Option DiskDirectory
  | .mk o1 o2 entries =>
    match entries.listing with
    | some es => some (.mk o1 o2 es)
    | none => none
/-- The entries the iterator yields when every read succeeds. -/
def ScanEntries.listing : ScanEntries → Option DiskEntries
  | .nil => some .nil
  | .filesystem_error => none
  | .cons (.status_error _) _ => none
  | .cons (.regular_file name o1 o2) rest =>
    match rest.listing with
    | some r => some (.cons (.regular_file name o1 o2) r)
    | none => none
  | .cons (.directory name dir) rest =>
    match dir.listing, rest.listing with
    | some d, some r => some (.cons (.directory name d) r)
    | _, _ => none
  | .cons (.other name) rest =>
    match rest.listing with
    | some r => some (.cons (.other name) r)
    | none => none
end

mutual
/-- The method `DirectoryTree::BuildTree(parentDirPath)` with the reads of the disk that can
fail: the directory object is created and indexed, then the iterator is constructed and
run. -/
def DirectoryTree.BuildTree.reading (fuel : Nat) (t : DirectoryTree) (parentDirPath : Path) :
    ScanDirectory → Scanned (DirectoryTree × Nat)
  | .mk o1 o2 entries =>
    match DirectoryTree.BuildTreeLoop.reading fuel
        { (t.CreateDirectory parentDirPath o1 o2).1 with
          directories := mapInsert t.directories parentDirPath t.next }
        parentDirPath t.next entries with
    | .ok t1 => .ok (t1, t.next)
    | .assertFailed => .assertFailed
    | .stackExhausted => .stackExhausted
    | .filesystem_error t1 => .filesystem_error t1
/-- The `for` loop of `BuildTree` over the run of the iterator. -/
def DirectoryTree.BuildTreeLoop.reading (fuel : Nat) (t : DirectoryTree) (parentDirPath : Path)
    (parentDir : Nat) : ScanEntries → Scanned DirectoryTree
  | .nil => .ok t
  | .filesystem_error => .filesystem_error t
  | .cons (.status_error _) _ => .filesystem_error t
  | .cons (.regular_file name o1 o2) rest =>
    let created := t.CreateFile (slash parentDirPath name) o1 o2
    let t1 := { created.1 with
      heap := Directory.AddFileToDirectory created.1.heap parentDir created.2 }
    DirectoryTree.BuildTreeLoop.reading fuel (t1.NotifyFileAdded created.2) parentDirPath
      parentDir rest
  | .cons (.directory name dir) rest =>
    match DirectoryTree.BuildTree.reading fuel t (slash parentDirPath name) dir with
    | .ok (t1, newDir) =>
      match Directory.AddDirectoryToDirectory fuel t1.heap parentDir newDir with
      | none => .stackExhausted
      | some h =>
        DirectoryTree.BuildTreeLoop.reading fuel
          ({ t1 with heap := h }.NotifyDirectoryAdded newDir) parentDirPath parentDir rest
    | .assertFailed => .assertFailed
    | .stackExhausted => .stackExhausted
    | .filesystem_error t1 => .filesystem_error t1
  | .cons (.other _) rest =>
    DirectoryTree.BuildTreeLoop.reading fuel t parentDirPath parentDir rest
end

/-- The method `DirectoryTree::BuildRootTree(rootDirAbsPath)` with the reads of the disk that
can fail. -/
def DirectoryTree.BuildRootTree.reading (fuel : Nat) (t : DirectoryTree)
    (rootDirAbsPath : Path) (scan : ScanDirectory) : Scanned DirectoryTree :=
  match DirectoryTree.BuildTree.reading fuel
      { t with rootDirAbsParentPath := parent_path rootDirAbsPath }
      [filename rootDirAbsPath] scan with
  | .ok (t1, root) => .ok { t1 with rootDir := some root }
  | .assertFailed => .assertFailed
  | .stackExhausted => .stackExhausted
  | .filesystem_error t1 => .filesystem_error t1

/-- The method `DirectoryTree::AddNewDirectory(dirPath)` with the reads of the disk that can
fail. -/
def DirectoryTree.AddNewDirectory.reading (fuel : Nat) (t : DirectoryTree) (dirPath : Path)
    (scan : ScanDirectory) : Scanned DirectoryTree :=
  match t.GetDirectory (parent_path dirPath) with
  | none => .assertFailed
  | some parentDir =>
    match DirectoryTree.BuildTree.reading fuel t dirPath scan with
    | .ok (t1, newDir) =>
      match Directory.AddDirectoryToDirectory fuel t1.heap parentDir newDir with
      | none => .stackExhausted
      | some h => .ok ({ t1 with heap := h }.NotifyDirectoryAdded newDir)
    | .assertFailed => .assertFailed
    | .stackExhausted => .stackExhausted
    | .filesystem_error t1 => .filesystem_error t1

/-- The call ended in a thrown `filesystem_error`. -/
def Scanned.threw {α : Type} : Scanned α → Bool
  | .filesystem_error _ => true
  | _ => false

/-- The tree after a call that returned or threw. -/
def Scanned.tree : Scanned DirectoryTree → DirectoryTree
  | .ok t => t
  | .filesystem_error t => t
  | _ => DirectoryTree.empty

/-! ## The library's `std::sort` -/

/-- The call `std::iter_swap(a, b)` on positions of the sequence `v`. -/
def std.iter_swap (v : List Nat) (a b : Nat) : List Nat :=
  (v.set a (v.getD b 0)).set b (v.getD a 0)

/-- The function `std::__lg`: the binary logarithm, rounded down. -/
def std.lg : Nat → Nat → Nat
  | 0, _ => 0
  | fuel + 1, n => if n ≤ 1 then 0 else std.lg fuel (n / 2) + 1

/-- The loop of `std::__unguarded_linear_insert`: `val` was taken from position `last`; while
it compares before the item at `next = last - 1` that item moves up and `last` moves down;
then `val` is stored at `last`.  (The loop has no bound check: the caller makes sure an item
that stops it stands in the range.) -/
def std.unguarded_linear_insert.loop (comp : Nat → Nat → Bool) (val : Nat) :
    List Nat → Nat → List Nat
  | v, 0 => v.set 0 val
  | v, next + 1 =>
    if comp val (v.getD next 0) then
      std.unguarded_linear_insert.loop comp val (v.set (next + 1) (v.getD next 0)) next
    else v.set (next + 1) val

/-- The function `std::__unguarded_linear_insert(last, comp)`. -/
def std.unguarded_linear_insert (comp : Nat → Nat → Bool) (v : List Nat) (last : Nat) :
    List Nat :=
  std.unguarded_linear_insert.loop comp (v.getD last 0) v last

/-- The statements `val = *i; move_backward(first, i, i + 1); *first = val`. -/
def std.move_to_first (v : List Nat) (first i : Nat) : List Nat :=
  v.take first ++ v.getD i 0 :: ((v.drop first).take (i - first) ++ v.drop (i + 1))

/-- The `for` loop of `std::__insertion_sort` from position `i`, with `count` items to go. -/
def std.insertion_sort.loop (comp : Nat → Nat → Bool) (first : Nat) :
    Nat → List Nat → Nat → List Nat
  | 0, v, _ => v
  | count + 1, v, i =>
    std.insertion_sort.loop comp first count
      (if comp (v.getD i 0) (v.getD first 0) then std.move_to_first v first i
       else std.unguarded_linear_insert comp v i)
      (i + 1)

/-- The function `std::__insertion_sort(first, last, comp)`. -/
def std.insertion_sort (comp : Nat → Nat → Bool) (v : List Nat) (first last : Nat) : List Nat :=
  if first = last then v
  else std.insertion_sort.loop comp first (last - (first + 1)) v (first + 1)

/-- The function `std::__unguarded_insertion_sort(first, last, comp)`, with `count` items to
go. -/
def std.unguarded_insertion_sort (comp : Nat → Nat → Bool) : Nat → List Nat → Nat → List Nat
  | 0, v, _ => v
  | count + 1, v, i =>
    std.unguarded_insertion_sort comp count (std.unguarded_linear_insert comp v i) (i + 1)

/-- The function `std::__final_insertion_sort(first, last, comp)`. -/
def std.final_insertion_sort (comp : Nat → Nat → Bool) (v : List Nat) (first last : Nat) :
    List Nat :=
  if last - first > 16 then
    std.unguarded_insertion_sort comp (last - (first + 16))
      (std.insertion_sort comp v first (first + 16)) (first + 16)
  else std.insertion_sort comp v first last

/-- The function `std::__move_median_to_first(result, a, b, c, comp)`. -/
def std.move_median_to_first (comp : Nat → Nat → Bool) (v : List Nat) (result a b c : Nat) :
    List Nat :=
  if comp (v.getD a 0) (v.getD b 0) then
    if comp (v.getD b 0) (v.getD c 0) then std.iter_swap v result b
    else if comp (v.getD a 0) (v.getD c 0) then std.iter_swap v result c
    else std.iter_swap v result a
  else if comp (v.getD a 0) (v.getD c 0) then std.iter_swap v result a
  else if comp (v.getD b 0) (v.getD c 0) then std.iter_swap v result c
  else std.iter_swap v result b

/-- The loop `while (comp(first, pivot)) ++first`. -/
def std.unguarded_partition.up (comp : Nat → Nat → Bool) (v : List Nat) (pivot : Nat) :
    Nat → Nat → Nat
  | 0, first => first
  | fuel + 1, first =>
    if comp (v.getD first 0) (v.getD pivot 0) then
      std.unguarded_partition.up comp v pivot fuel (first + 1)
    else first

/-- The loop `while (comp(pivot, last)) --last`. -/
def std.unguarded_partition.down (comp : Nat → Nat → Bool) (v : List Nat) (pivot : Nat) :
    Nat → Nat
  | 0 => 0
  | last + 1 =>
    if comp (v.getD pivot 0) (v.getD (last + 1) 0) then
      std.unguarded_partition.down comp v pivot last
    else last + 1

/-- The function `std::__unguarded_partition(first, last, pivot, comp)`: the sequence
afterwards and the position returned. -/
def std.unguarded_partition (comp : Nat → Nat → Bool) :
    Nat → List Nat → Nat → Nat → Nat → List Nat × Nat
  | 0, v, first, _, _ => (v, first)
  | fuel + 1, v, first, last, pivot =>
    let first1 := std.unguarded_partition.up comp v pivot v.length first
    let last1 := std.unguarded_partition.down comp v pivot (last - 1)
    if first1 < last1 then
      std.unguarded_partition comp fuel (std.iter_swap v first1 last1) (first1 + 1) last1 pivot
    else (v, first1)

/-- The function `std::__unguarded_partition_pivot(first, last, comp)`. -/
def std.unguarded_partition_pivot (comp : Nat → Nat → Bool) (v : List Nat) (first last : Nat) :
    List Nat × Nat :=
  let mid := first + (last - first) / 2
  std.unguarded_partition comp v.length
    (std.move_median_to_first comp v first (first + 1) mid (last - 1)) (first + 1) last first

/-- The loop of `std::__push_heap`, on the range that starts at `first`. -/
def std.push_heap (comp : Nat → Nat → Bool) (first topIndex value : Nat) :
    Nat → List Nat → Nat → List Nat
  | 0, v, holeIndex => v.set (first + holeIndex) value
  | fuel + 1, v, holeIndex =>
    let parent := (holeIndex - 1) / 2
    if holeIndex > topIndex ∧ comp (v.getD (first + parent) 0) value = true then
      std.push_heap comp first topIndex value fuel
        (v.set (first + holeIndex) (v.getD (first + parent) 0)) parent
    else v.set (first + holeIndex) value

/-- The `while` loop of `std::__adjust_heap`: the sequence, the hole and `secondChild`
afterwards. -/
def std.adjust_heap.loop (comp : Nat → Nat → Bool) (first len : Nat) :
    Nat → List Nat → Nat → Nat → List Nat × Nat × Nat
  | 0, v, holeIndex, secondChild => (v, holeIndex, secondChild)
  | fuel + 1, v, holeIndex, secondChild =>
    if secondChild < (len - 1) / 2 then
      let secondChild1 := 2 * (secondChild + 1)
      let secondChild2 :=
        if comp (v.getD (first + secondChild1) 0) (v.getD (first + (secondChild1 - 1)) 0) then
          secondChild1 - 1
        else secondChild1
      std.adjust_heap.loop comp first len fuel
        (v.set (first + holeIndex) (v.getD (first + secondChild2) 0)) secondChild2 secondChild2
    else (v, holeIndex, secondChild)

/-- The function `std::__adjust_heap(first, holeIndex, len, value, comp)`. -/
def std.adjust_heap (comp : Nat → Nat → Bool) (v : List Nat) (first holeIndex len value : Nat) :
    List Nat :=
  let r := std.adjust_heap.loop comp first len len v holeIndex holeIndex
  if len % 2 = 0 ∧ r.2.2 = (len - 2) / 2 then
    let secondChild := 2 * (r.2.2 + 1)
    std.push_heap comp first holeIndex value len
      (r.1.set (first + r.2.1) (r.1.getD (first + (secondChild - 1)) 0)) (secondChild - 1)
  else std.push_heap comp first holeIndex value len r.1 r.2.1

/-- The loop of `std::__make_heap(first, last, comp)` from `parent` down. -/
def std.make_heap.loop (comp : Nat → Nat → Bool) (first len : Nat) : List Nat → Nat → List Nat
  | v, 0 => std.adjust_heap comp v first 0 len (v.getD first 0)
  | v, parent + 1 =>
    std.make_heap.loop comp first len
      (std.adjust_heap comp v first (parent + 1) len (v.getD (first + (parent + 1)) 0)) parent

/-- The function `std::__make_heap(first, last, comp)`. -/
def std.make_heap (comp : Nat → Nat → Bool) (v : List Nat) (first last : Nat) : List Nat :=
  if last - first < 2 then v
  else std.make_heap.loop comp first (last - first) v ((last - first - 2) / 2)

/-- The function `std::__pop_heap(first, last, result, comp)`. -/
def std.pop_heap (comp : Nat → Nat → Bool) (v : List Nat) (first last result : Nat) :
    List Nat :=
  std.adjust_heap comp (v.set result (v.getD first 0)) first 0 (last - first) (v.getD result 0)

/-- The function `std::__sort_heap(first, last, comp)`. -/
def std.sort_heap (comp : Nat → Nat → Bool) (first : Nat) : Nat → List Nat → Nat → List Nat
  | 0, v, _ => v
  | fuel + 1, v, last =>
    if last - first > 1 then
      std.sort_heap comp first fuel (std.pop_heap comp v first (last - 1) (last - 1)) (last - 1)
    else v

/-- The loop of `std::__heap_select(first, middle, last, comp)` over `[middle, last)`. -/
def std.heap_select.loop (comp : Nat → Nat → Bool) (first middle : Nat) :
    Nat → List Nat → Nat → List Nat
  | 0, v, _ => v
  | count + 1, v, i =>
    std.heap_select.loop comp first middle count
      (if comp (v.getD i 0) (v.getD first 0) then std.pop_heap comp v first middle i else v)
      (i + 1)

/-- The function `std::__partial_sort(first, middle, last, comp)`. -/
def std.partial_sort (comp : Nat → Nat → Bool) (v : List Nat) (first middle last : Nat) :
    List Nat :=
  std.sort_heap comp first v.length
    (std.heap_select.loop comp first middle (last - middle)
      (std.make_heap comp v first middle) middle)
    middle

/-- The function `std::__introsort_loop(first, last, depth_limit, comp)`. -/
def std.introsort_loop (comp : Nat → Nat → Bool) : List Nat → Nat → Nat → Nat → List Nat
  | v, first, last, 0 =>
    if last - first > 16 then std.partial_sort comp v first last last else v
  | v, first, last, depth_limit + 1 =>
    if last - first > 16 then
      let cut := std.unguarded_partition_pivot comp v first last
      std.introsort_loop comp (std.introsort_loop comp cut.1 cut.2 last depth_limit)
        first cut.2 depth_limit
    else v

/-- The algorithm `std::sort(first, last, comp)` of the GNU C++ library (`bits/stl_algo.h`,
`bits/stl_heap.h`), on the whole sequence `v`. -/
def std.sort (comp : Nat → Nat → Bool) (v : List Nat) : List Nat :=
  if 0 = v.length then v
  else
    std.final_insertion_sort comp
      (std.introsort_loop comp v 0 v.length (std.lg v.length v.length * 2)) 0 v.length

/-- A disk directory `T` with twenty files `f01`, ..., `f20`, all with the write time 5. -/
def tiesDisk : DiskDirectory :=
  .mk (some 9) (some 9)
    (.cons (.regular_file "f01" (some 5) (some 5))
    (.cons (.regular_file "f02" (some 5) (some 5))
    (.cons (.regular_file "f03" (some 5) (some 5))
    (.cons (.regular_file "f04" (some 5) (some 5))
    (.cons (.regular_file "f05" (some 5) (some 5))
    (.cons (.regular_file "f06" (some 5) (some 5))
    (.cons (.regular_file "f07" (some 5) (some 5))
    (.cons (.regular_file "f08" (some 5) (some 5))
    (.cons (.regular_file "f09" (some 5) (some 5))
    (.cons (.regular_file "f10" (some 5) (some 5))
    (.cons (.regular_file "f11" (some 5) (some 5))
    (.cons (.regular_file "f12" (some 5) (some 5))
    (.cons (.regular_file "f13" (some 5) (some 5))
    (.cons (.regular_file "f14" (some 5) (some 5))
    (.cons (.regular_file "f15" (some 5) (some 5))
    (.cons (.regular_file "f16" (some 5) (some 5))
    (.cons (.regular_file "f17" (some 5) (some 5))
    (.cons (.regular_file "f18" (some 5) (some 5))
    (.cons (.regular_file "f19" (some 5) (some 5))
    (.cons (.regular_file "f20" (some 5) (some 5))
    .nil))))))))))))))))))))

/-- The tree built by `BuildRootTree("/home/T")` on `tiesDisk`: the root `T = 0` lists the
files `f01 = 1`, ..., `f20 = 20` in this order. -/
def tiesTree : DirectoryTree :=
  (DirectoryTree.BuildRootTree 2 DirectoryTree.empty ["home", "T"] tiesDisk).tree

/-! ## Sorted insertion -/

theorem upper_bound_loop_spec {α : Type} (comp : α → Bool) (xs : List α)
    (hmono : ∀ (i j : Nat) (x y : α), i ≤ j → xs[i]? = some x → xs[j]? = some y → comp x = true →
      comp y = true) :
    ∀ fuel first count, count ≤ fuel → first + count ≤ xs.length →
      first ≤ upper_bound_loop comp xs fuel first count ∧
      upper_bound_loop comp xs fuel first count ≤ first + count ∧
      (∀ i x, first ≤ i → i < upper_bound_loop comp xs fuel first count → xs[i]? = some x →
        comp x = false) ∧
      (∀ i x, upper_bound_loop comp xs fuel first count ≤ i → i < first + count →
        xs[i]? = some x → comp x = true) := by
  intro fuel
  induction fuel with
  | zero =>
    intro first count hc _
    have : count = 0 := by omega
    subst this
    simp only [upper_bound_loop]
    refine ⟨le_refl _, by omega, ?_, ?_⟩
    · intro i x h1 h2; omega
    · intro i x h1 h2; omega
  | succ fuel ih =>
    intro first count hc hlen
    unfold upper_bound_loop
    by_cases h0 : count = 0
    · subst h0
      simp only [if_true]
      refine ⟨le_refl _, by omega, ?_, ?_⟩
      · intro i x h1 h2; omega
      · intro i x h1 h2; omega
    · simp only [h0, if_false]
      have hstep : count / 2 < count := Nat.div_lt_self (by omega) (by omega)
      have hidx : first + count / 2 < xs.length := by omega
      rw [List.getElem?_eq_getElem hidx]
      simp only
      cases hcx : comp (xs[first + count / 2]) with
      | false =>
        simp only [Bool.not_false, if_true]
        obtain ⟨r1, r2, r3, r4⟩ := ih (first + count / 2 + 1) (count - (count / 2 + 1))
          (by omega) (by omega)
        refine ⟨by omega, by omega, ?_, ?_⟩
        · intro i x h1 h2 hx
          by_cases hi : first + count / 2 + 1 ≤ i
          · exact r3 i x hi h2 hx
          · cases hc' : comp x with
            | false => rfl
            | true =>
              have := hmono i (first + count / 2) x _ (by omega) hx
                (List.getElem?_eq_getElem hidx) hc'
              rw [hcx] at this
              exact absurd this (by simp)
        · intro i x h1 h2 hx
          exact r4 i x h1 (by omega) hx
      | true =>
        simp only [Bool.not_true, Bool.false_eq_true, if_false]
        obtain ⟨r1, r2, r3, r4⟩ := ih first (count / 2) (by omega) (by omega)
        refine ⟨r1, by omega, r3, ?_⟩
        intro i x h1 h2 hx
        by_cases hi : i < first + count / 2
        · exact r4 i x h1 hi hx
        · exact hmono (first + count / 2) i _ x (by omega) (List.getElem?_eq_getElem hidx) hx hcx

theorem upper_bound_spec {α : Type} (comp : α → Bool) (xs : List α)
    (hmono : ∀ (i j : Nat) (x y : α), i ≤ j → xs[i]? = some x → xs[j]? = some y → comp x = true →
      comp y = true) :
    upper_bound comp xs ≤ xs.length ∧
    (∀ x ∈ xs.take (upper_bound comp xs), comp x = false) ∧
    (∀ x ∈ xs.drop (upper_bound comp xs), comp x = true) := by
  obtain ⟨_, r2, r3, r4⟩ := upper_bound_loop_spec comp xs hmono xs.length 0 xs.length
    (le_refl _) (by omega)
  unfold upper_bound
  refine ⟨by omega, ?_, ?_⟩
  · intro x hx
    obtain ⟨i, hi, rfl⟩ := List.getElem_of_mem hx
    rw [List.length_take] at hi
    rw [List.getElem_take]
    exact r3 i _ (Nat.zero_le _) (by omega) (List.getElem?_eq_getElem _)
  · intro x hx
    obtain ⟨i, hi, rfl⟩ := List.getElem_of_mem hx
    rw [List.length_drop] at hi
    rw [List.getElem_drop]
    exact r4 _ _ (by omega) (by omega) (List.getElem?_eq_getElem _)

theorem stringLess_iff (a b : String) : stringLess a b = true ↔ a < b := by
  simp [stringLess, String.lt_iff_toList_lt]

theorem insertAt_upper_bound_ordered (r : Nat → Nat → Bool)
    (hasym : ∀ a b, r a b = true → r b a = false)
    (hnt : ∀ a b c, r a b = true → r c b = false → r a c = true)
    (xs : List Nat) (item : Nat) (hs : Ordered r xs) :
    Ordered r (insertAt xs (upper_bound (fun x => r item x) xs) item) := by
  have hmono : ∀ (i j : Nat) (x y : Nat), i ≤ j → xs[i]? = some x → xs[j]? = some y →
      r item x = true → r item y = true := by
    intro i j x y hij hx hy hxt
    rcases Nat.eq_or_lt_of_le hij with h | h
    · subst h; rw [hx] at hy; cases hy; exact hxt
    · obtain ⟨hi, rfl⟩ := List.getElem?_eq_some.mp hx
      obtain ⟨hj, rfl⟩ := List.getElem?_eq_some.mp hy
      exact hnt _ _ _ hxt (List.pairwise_iff_getElem.mp hs i j hi hj h)
  obtain ⟨_, hlo, hhi⟩ := upper_bound_spec (fun x => r item x) xs hmono
  generalize upper_bound (fun x => r item x) xs = k at hlo hhi
  unfold Ordered at hs ⊢
  unfold insertAt
  rw [← List.take_append_drop k xs, List.pairwise_append] at hs
  obtain ⟨h1, h2, h3⟩ := hs
  rw [List.pairwise_append, List.pairwise_cons]
  refine ⟨h1, ⟨?_, h2⟩, ?_⟩
  · intro b hb
    exact hasym _ _ (hhi b hb)
  · intro a ha b hb
    rcases List.mem_cons.mp hb with rfl | hb
    · exact hlo a ha
    · exact h3 a ha b hb

theorem sortComp_asymm (p : DirEntrySortType) (h : Heap) (a b : Nat) :
    sortComp p h a b = true → sortComp p h b a = false := by
  cases p <;>
    simp only [sortComp, sorterOf, AlphabeticalSorter.comp, LastWriteTimeSorter.comp,
      GetLastWriteTime, decide_eq_true_eq, decide_eq_false_iff_not, Bool.eq_false_iff, ne_eq,
      stringLess_iff, gt_iff_lt, not_lt] <;>
    exact fun hab => le_of_lt hab

theorem sortComp_negtrans (p : DirEntrySortType) (h : Heap) (a b c : Nat) :
    sortComp p h a b = true → sortComp p h c b = false → sortComp p h a c = true := by
  cases p <;>
    simp only [sortComp, sorterOf, AlphabeticalSorter.comp, LastWriteTimeSorter.comp,
      GetLastWriteTime, decide_eq_true_eq, decide_eq_false_iff_not, Bool.eq_false_iff, ne_eq,
      stringLess_iff, gt_iff_lt, not_lt]
  · exact fun hab hcb => lt_of_lt_of_le hab hcb
  · exact fun hab hcb => lt_of_le_of_lt hcb hab
  · exact fun hab hcb => lt_of_lt_of_le hab hcb
  · exact fun hab hcb => lt_of_le_of_lt hcb hab

theorem InsertDirectorySorted_eq (p : DirEntrySortType) (h : Heap) (item : Nat) (xs : List Nat) :
    Sorter.InsertDirectorySorted p h item xs =
      insertAt xs (upper_bound (fun x => sortComp p h item x) xs) item := by
  cases p <;> rfl

theorem InsertFileSorted_eq (p : DirEntrySortType) (h : Heap) (item : Nat) (xs : List Nat) :
    Sorter.InsertFileSorted p h item xs =
      insertAt xs (upper_bound (fun x => sortComp p h item x) xs) item := by
  cases p <;> rfl

theorem sortComp_store_children (p : DirEntrySortType) (h : Heap) (this : Nat)
    (ds fs : List Nat) :
    sortComp p (store h this { h this with directories := ds, files := fs }) = sortComp p h := by
  funext a b
  cases p <;>
    simp only [sortComp, sorterOf, AlphabeticalSorter.comp, LastWriteTimeSorter.comp,
      GetLastWriteTime, store] <;>
    split_ifs <;> simp_all

/-- C7 (sorted insertion).  For every directory `this`, whatever its sort policy, and every
item: if the child directory sequence is ordered by the policy's comparator, then after
`Directory::AddDirectory` it is ordered again and is the old sequence with the item inserted
at one position; and the same for the child file sequence and `Directory::AddFile`. -/
theorem sorted_insertion_keeps_order (h : Heap) (this item : Nat) :
    (Ordered (sortComp (h this).sortType h) (h this).directories →
      Ordered (sortComp (Directory.AddDirectory h this item this).sortType
          (Directory.AddDirectory h this item))
        (Directory.AddDirectory h this item this).directories ∧
      ∃ k, k ≤ (h this).directories.length ∧
        (Directory.AddDirectory h this item this).directories =
          (h this).directories.take k ++ item :: (h this).directories.drop k) ∧
    (Ordered (sortComp (h this).sortType h) (h this).files →
      Ordered (sortComp (Directory.AddFile h this item this).sortType
          (Directory.AddFile h this item))
        (Directory.AddFile h this item this).files ∧
      ∃ k, k ≤ (h this).files.length ∧
        (Directory.AddFile h this item this).files =
          (h this).files.take k ++ item :: (h this).files.drop k) := by
  constructor
  · intro hs
    have hmono : ∀ (i j : Nat) (x y : Nat), i ≤ j → (h this).directories[i]? = some x →
        (h this).directories[j]? = some y → sortComp (h this).sortType h item x = true →
        sortComp (h this).sortType h item y = true := by
      intro i j x y hij hx hy hxt
      rcases Nat.eq_or_lt_of_le hij with e | e
      · subst e; rw [hx] at hy; cases hy; exact hxt
      · obtain ⟨hi, rfl⟩ := List.getElem?_eq_some.mp hx
        obtain ⟨hj, rfl⟩ := List.getElem?_eq_some.mp hy
        exact sortComp_negtrans _ _ _ _ _ hxt (List.pairwise_iff_getElem.mp hs i j hi hj e)
    have hk := (upper_bound_spec _ _ hmono).1
    have ho := insertAt_upper_bound_ordered _ (sortComp_asymm (h this).sortType h)
      (sortComp_negtrans (h this).sortType h) _ item hs
    have e1 : (Directory.AddDirectory h this item this) =
        { h this with directories :=
            Sorter.InsertDirectorySorted (h this).sortType h item (h this).directories } := by
      simp [Directory.AddDirectory, store]
    have e2 : sortComp (h this).sortType (Directory.AddDirectory h this item) =
        sortComp (h this).sortType h := by
      have := sortComp_store_children (h this).sortType h this
        (Sorter.InsertDirectorySorted (h this).sortType h item (h this).directories)
        (h this).files
      simpa [Directory.AddDirectory] using this
    rw [e1]
    simp only [e2, InsertDirectorySorted_eq]
    exact ⟨ho, _, hk, rfl⟩
  · intro hs
    have hmono : ∀ (i j : Nat) (x y : Nat), i ≤ j → (h this).files[i]? = some x →
        (h this).files[j]? = some y → sortComp (h this).sortType h item x = true →
        sortComp (h this).sortType h item y = true := by
      intro i j x y hij hx hy hxt
      rcases Nat.eq_or_lt_of_le hij with e | e
      · subst e; rw [hx] at hy; cases hy; exact hxt
      · obtain ⟨hi, rfl⟩ := List.getElem?_eq_some.mp hx
        obtain ⟨hj, rfl⟩ := List.getElem?_eq_some.mp hy
        exact sortComp_negtrans _ _ _ _ _ hxt (List.pairwise_iff_getElem.mp hs i j hi hj e)
    have hk := (upper_bound_spec _ _ hmono).1
    have ho := insertAt_upper_bound_ordered _ (sortComp_asymm (h this).sortType h)
      (sortComp_negtrans (h this).sortType h) _ item hs
    have e1 : (Directory.AddFile h this item this) =
        { h this with files :=
            Sorter.InsertFileSorted (h this).sortType h item (h this).files } := by
      simp [Directory.AddFile, store]
    have e2 : sortComp (h this).sortType (Directory.AddFile h this item) =
        sortComp (h this).sortType h := by
      have := sortComp_store_children (h this).sortType h this (h this).directories
        (Sorter.InsertFileSorted (h this).sortType h item (h this).files)
      simpa [Directory.AddFile] using this
    rw [e1]
    simp only [e2, InsertFileSorted_eq]
    exact ⟨ho, _, hk, rfl⟩

/-- Witness for C7 on the sample tree: inserting directory `X` and file `b.txt` into `A`. -/
theorem sorted_insertion_keeps_order_witness :
    (Ordered (sortComp (Directory.AddDirectory sampleTree.heap 0 5 0).sortType
          (Directory.AddDirectory sampleTree.heap 0 5))
        (Directory.AddDirectory sampleTree.heap 0 5 0).directories ∧
      ∃ k, k ≤ (sampleTree.heap 0).directories.length ∧
        (Directory.AddDirectory sampleTree.heap 0 5 0).directories =
          (sampleTree.heap 0).directories.take k ++ 5 :: (sampleTree.heap 0).directories.drop k) ∧
    (Ordered (sortComp (Directory.AddFile sampleTree.heap 0 4 0).sortType
          (Directory.AddFile sampleTree.heap 0 4))
        (Directory.AddFile sampleTree.heap 0 4 0).files ∧
      ∃ k, k ≤ (sampleTree.heap 0).files.length ∧
        (Directory.AddFile sampleTree.heap 0 4 0).files =
          (sampleTree.heap 0).files.take k ++ 4 :: (sampleTree.heap 0).files.drop k) :=
  ⟨(sorted_insertion_keeps_order sampleTree.heap 0 5).1 (by decide!),
   (sorted_insertion_keeps_order sampleTree.heap 0 4).2 (by decide!)⟩

/-! ## Behaviour on the sample tree -/

/-- C4 (recursive delete, index and tree).  On the sample tree `RemoveDirectory("A/B")`
returns, erases the nested directory `A/B/X` from the index, keeps the other bindings and
takes `B` out of the child sequence of `A`; but the index still maps `A/B` to the removed
directory, whose own key is never erased. -/
theorem RemoveDirectory_keeps_removed_key :
    GoodTree sampleTree ∧
    Directory.GetDirectory sampleTree.heap 0 "B" = some 3 ∧
    (sampleTree.RemoveDirectory 4 ["A", "B"]).returned = true ∧
    (sampleTree.heap 0).directories = [3, 7] ∧
    ((sampleTree.RemoveDirectory 4 ["A", "B"]).tree.heap 0).directories = [7] ∧
    (sampleTree.RemoveDirectory 4 ["A", "B"]).tree.GetDirectory ["A", "B", "X"] = none ∧
    (sampleTree.RemoveDirectory 4 ["A", "B"]).tree.GetDirectory ["A"] = some 0 ∧
    (sampleTree.RemoveDirectory 4 ["A", "B"]).tree.GetDirectory ["A", "D"] = some 7 ∧
    (sampleTree.RemoveDirectory 4 ["A", "B"]).tree.GetDirectory ["A", "B"] = some 3 := by
  decide!

/-- C5 (recursive delete, events).  On the sample tree `RemoveDirectory("A/B")` calls the
listener exactly three times: for `b.txt`, for the directory `X` and for `x.txt`, the three
descendants of `B`.  No removed-event is fired for `B` itself. -/
theorem RemoveDirectory_fires_no_event_for_removed_directory :
    GoodTree sampleTree ∧
    Directory.GetDirectory sampleTree.heap 0 "B" = some 3 ∧
    Directory.GetDirEntriesRecursive 4 sampleTree.heap 3 = some [4, 5, 6] ∧
    (sampleTree.RemoveDirectory 4 ["A", "B"]).returned = true ∧
    (sampleTree.RemoveDirectory 4 ["A", "B"]).tree.callsAfter sampleTree.log.length =
      [ { listener := 0, callback := .OnFileRemoved, entity := 4, oldPath := none,
          path := ["A", "B", "b.txt"] },
        { listener := 0, callback := .OnDirectoryRemoved, entity := 5, oldPath := none,
          path := ["A", "B", "X"] },
        { listener := 0, callback := .OnFileRemoved, entity := 6, oldPath := none,
          path := ["A", "B", "X", "x.txt"] } ] := by
  decide!

/-- C8 (sort invariant under rename).  In the sample tree the child sequences of `A` are
ordered by its policy (alphabetical, ascending) and the names `z.txt` and `Z` are unused.
`RenameFile("A/a.txt", "A/z.txt")` returns and leaves the files of `A` as `z.txt, c.txt`;
`RenameDirectory("A/B", "A/Z")` returns and leaves the directories of `A` as `Z, D`: neither
sequence is ordered any more. -/
theorem Rename_leaves_sequence_unordered :
    GoodTree sampleTree ∧
    (sampleTree.heap 0).sortType = .ALPHABETICAL_L_TO_H ∧
    Ordered (sortComp (sampleTree.heap 0).sortType sampleTree.heap) (sampleTree.heap 0).files ∧
    Ordered (sortComp (sampleTree.heap 0).sortType sampleTree.heap)
      (sampleTree.heap 0).directories ∧
    Directory.FileExists sampleTree.heap 0 "z.txt" = false ∧
    Directory.DirectoryExists sampleTree.heap 0 "Z" = false ∧
    (sampleTree.RenameFile ["A", "a.txt"] ["A", "z.txt"]).returned = true ∧
    ((sampleTree.RenameFile ["A", "a.txt"] ["A", "z.txt"]).tree.heap 0).files.map
      (GetFullFileName (sampleTree.RenameFile ["A", "a.txt"] ["A", "z.txt"]).tree.heap) =
      ["z.txt", "c.txt"] ∧
    ¬ Ordered
      (sortComp ((sampleTree.RenameFile ["A", "a.txt"] ["A", "z.txt"]).tree.heap 0).sortType
        (sampleTree.RenameFile ["A", "a.txt"] ["A", "z.txt"]).tree.heap)
      ((sampleTree.RenameFile ["A", "a.txt"] ["A", "z.txt"]).tree.heap 0).files ∧
    (sampleTree.RenameDirectory 4 ["A", "B"] ["A", "Z"]).returned = true ∧
    ((sampleTree.RenameDirectory 4 ["A", "B"] ["A", "Z"]).tree.heap 0).directories.map
      (GetDirectoryName (sampleTree.RenameDirectory 4 ["A", "B"] ["A", "Z"]).tree.heap) =
      ["Z", "D"] ∧
    ¬ Ordered
      (sortComp ((sampleTree.RenameDirectory 4 ["A", "B"] ["A", "Z"]).tree.heap 0).sortType
        (sampleTree.RenameDirectory 4 ["A", "B"] ["A", "Z"]).tree.heap)
      ((sampleTree.RenameDirectory 4 ["A", "B"] ["A", "Z"]).tree.heap 0).directories := by
  decide!

/-! ## The object store -/

@[simp] theorem store_same (h : Heap) (a : Nat) (e : DirectoryEntry) : store h a e a = e := by
  simp [store]

theorem store_other (h : Heap) (a x : Nat) (e : DirectoryEntry) (hx : x ≠ a) :
    store h a e x = h x := by
  simp [store, hx]

@[simp] theorem filename_append_singleton (p : Path) (n : String) : filename (p ++ [n]) = n := by
  simp [filename]

@[simp] theorem filename_singleton (n : String) : filename [n] = n := by
  simp [filename]

theorem PathOnly.refl (h : Heap) : PathOnly h h := fun _ => ⟨rfl, rfl⟩

theorem PathOnly.andThen {h1 h2 h3 : Heap} (a : PathOnly h1 h2) (b : PathOnly h2 h3) :
    PathOnly h1 h3 := by
  intro x
  obtain ⟨a1, a2⟩ := a x
  obtain ⟨b1, b2⟩ := b x
  refine ⟨?_, b2.trans a2⟩
  rw [b1, a1]

theorem PathOnly.kind {h h1 : Heap} (a : PathOnly h h1) (x : Nat) : (h1 x).kind = (h x).kind := by
  rw [(a x).1]

theorem PathOnly.parentDir {h h1 : Heap} (a : PathOnly h h1) (x : Nat) :
    (h1 x).parentDir = (h x).parentDir := by
  rw [(a x).1]

theorem PathOnly.directories {h h1 : Heap} (a : PathOnly h h1) (x : Nat) :
    (h1 x).directories = (h x).directories := by
  rw [(a x).1]

theorem PathOnly.files {h h1 : Heap} (a : PathOnly h h1) (x : Nat) :
    (h1 x).files = (h x).files := by
  rw [(a x).1]

theorem PathOnly.name {h h1 : Heap} (a : PathOnly h h1) (x : Nat) :
    filename (h1 x).dirEntryPath = filename (h x).dirEntryPath := (a x).2

theorem PathOnly.symm {h h1 : Heap} (a : PathOnly h h1) : PathOnly h1 h := by
  intro x
  obtain ⟨a1, a2⟩ := a x
  refine ⟨?_, a2.symm⟩
  rw [a1]

theorem PathOnly.shape {h h1 : Heap} (a : PathOnly h h1) {n : Nat} (s : Shape h n) :
    Shape h1 n := by
  intro x hx
  obtain ⟨s1, s2, s3, s4, s5⟩ := s x hx
  simp only [a.directories, a.files, a.kind, a.parentDir]
  exact ⟨s1, s2, s3, s4, s5⟩

theorem PathOnly.graded {h h1 : Heap} (a : PathOnly h h1) {n m : Nat} {dep : Nat → Nat}
    (g : Graded h n dep m) : Graded h1 n dep m := by
  intro x hx
  simp only [a.parentDir]
  exact g x hx

theorem PathOnly.sub {h h1 : Heap} (a : PathOnly h h1) {d x : Nat} (s : Sub h d x) :
    Sub h1 d x := by
  induction s with
  | self => exact Sub.self
  | dir _ hc ih => exact Sub.dir ih (by rw [a.directories]; exact hc)
  | file _ hf ih => exact Sub.file ih (by rw [a.files]; exact hf)

theorem PathOnly.sub_iff {h h1 : Heap} (a : PathOnly h h1) (d x : Nat) :
    Sub h1 d x ↔ Sub h d x :=
  ⟨fun s => a.symm.sub s, fun s => a.sub s⟩

theorem PathOnly_store_path (h : Heap) (e : Nat) (p : Path)
    (hp : filename p = filename (h e).dirEntryPath) :
    PathOnly h (store h e { h e with dirEntryPath := p }) := by
  intro x
  by_cases hx : x = e
  · subst hx; simp [hp]
  · simp [store_other _ _ _ _ hx]

theorem DirectoryEntry.UpdatePath_pathOnly (h : Heap) (e : Nat) :
    PathOnly h (DirectoryEntry.UpdatePath h e) := by
  unfold DirectoryEntry.UpdatePath
  apply PathOnly_store_path
  cases (h e).parentDir <;> simp

theorem DirectoryEntry.UpdatePath_other (h : Heap) (e x : Nat) (hx : x ≠ e) :
    DirectoryEntry.UpdatePath h e x = h x := by
  unfold DirectoryEntry.UpdatePath
  exact store_other _ _ _ _ hx

theorem DirectoryEntry.UpdatePath_path (h : Heap) (e : Nat) :
    (DirectoryEntry.UpdatePath h e e).dirEntryPath =
      match (h e).parentDir with
      | some p => (h p).dirEntryPath ++ [filename (h e).dirEntryPath]
      | none => [filename (h e).dirEntryPath] := by
  unfold DirectoryEntry.UpdatePath
  cases (h e).parentDir <;> simp

theorem updateFiles_pathOnly : ∀ (fs : List Nat) (h : Heap), PathOnly h (updateFiles h fs)
  | [], h => PathOnly.refl h
  | f :: fs, h => by
    unfold updateFiles
    exact (DirectoryEntry.UpdatePath_pathOnly h f).andThen (updateFiles_pathOnly fs _)

theorem updateDirectories_pathOnly (rec : Heap → Nat → Option Heap)
    (hrec : ∀ h d h1, rec h d = some h1 → PathOnly h h1) :
    ∀ (ds : List Nat) (h h1 : Heap), updateDirectories rec h ds = some h1 → PathOnly h h1
  | [], h, h1, e => by
    simp only [updateDirectories, Option.some.injEq] at e
    subst e
    exact PathOnly.refl h
  | d :: ds, h, h1, e => by
    unfold updateDirectories at e
    split at e
    · rename_i h2 e2
      exact (hrec _ _ _ e2).andThen (updateDirectories_pathOnly rec hrec ds _ _ e)
    · cases e

theorem Directory.UpdatePath_onlyPaths :
    ∀ (fuel : Nat) (h : Heap) (d : Nat) (h1 : Heap),
      Directory.UpdatePath fuel h d = some h1 → PathOnly h h1
  | 0, _, _, _, e => by simp [Directory.UpdatePath] at e
  | fuel + 1, h, d, h1, e => by
    unfold Directory.UpdatePath at e
    simp only at e
    have a := DirectoryEntry.UpdatePath_pathOnly h d
    have b := updateFiles_pathOnly (DirectoryEntry.UpdatePath h d d).files
      (DirectoryEntry.UpdatePath h d)
    have c := updateDirectories_pathOnly _ (Directory.UpdatePath_onlyPaths fuel) _ _ _ e
    exact (a.andThen b).andThen c

/-! ## Subtrees -/

theorem Sub.trans {h : Heap} {a b c : Nat} (s1 : Sub h a b) (s2 : Sub h b c) : Sub h a c := by
  induction s2 with
  | self => exact s1
  | dir _ hc ih => exact Sub.dir ih hc
  | file _ hf ih => exact Sub.file ih hf

theorem Sub.lt {h : Heap} {n d x : Nat} (s : Shape h n) (hd : d < n) (hs : Sub h d x) :
    x < n := by
  induction hs with
  | self => exact hd
  | dir _ hc ih => exact ((s _ ih).1 _ hc).1
  | file _ hf ih => exact ((s _ ih).2.1 _ hf).1

theorem Shape.parent_of_dir {h : Heap} {n p c : Nat} (s : Shape h n) (hp : p < n)
    (hc : c ∈ (h p).directories) : c < n ∧ (h c).kind = .DIRECTORY ∧ (h c).parentDir = some p :=
  (s p hp).1 c hc

theorem Shape.parent_of_file {h : Heap} {n p f : Nat} (s : Shape h n) (hp : p < n)
    (hf : f ∈ (h p).files) : f < n ∧ (h f).kind = .FILE ∧ (h f).parentDir = some p :=
  (s p hp).2.1 f hf

theorem Shape.parent_is_dir {h : Heap} {n x p : Nat} (s : Shape h n) (hx : x < n)
    (hp : (h x).parentDir = some p) : p < n ∧ (h p).kind = .DIRECTORY :=
  ⟨((s x hx).2.2.2.2 p hp).1, ((s x hx).2.2.2.2 p hp).2.1⟩

theorem Shape.listed {h : Heap} {n x p : Nat} (s : Shape h n) (hx : x < n)
    (hp : (h x).parentDir = some p) : x ∈ (h p).directories ∨ x ∈ (h p).files := by
  obtain ⟨_, _, h1, h2⟩ := (s x hx).2.2.2.2 p hp
  cases hk : (h x).kind with
  | DIRECTORY => exact Or.inl (h1 hk)
  | FILE => exact Or.inr (h2 hk)

/-- Below `d` an entry other than `d` has its parent in the subtree. -/
theorem Sub.parent {h : Heap} {n d x : Nat} (s : Shape h n) (hd : d < n) (hs : Sub h d x)
    (hne : x ≠ d) : ∃ p, (h x).parentDir = some p ∧ Sub h d p := by
  cases hs with
  | self => exact absurd rfl hne
  | dir hp hc => exact ⟨_, (s.parent_of_dir (hp.lt s hd) hc).2.2, hp⟩
  | file hp hf => exact ⟨_, (s.parent_of_file (hp.lt s hd) hf).2.2, hp⟩

theorem Sub.of_parent {h : Heap} {n d x p : Nat} (s : Shape h n) (hx : x < n)
    (hp : (h x).parentDir = some p) (hs : Sub h d p) : Sub h d x := by
  rcases s.listed hx hp with h1 | h1
  · exact Sub.dir hs h1
  · exact Sub.file hs h1

theorem Sub.dep {h : Heap} {n m d x : Nat} {dep : Nat → Nat} (s : Shape h n)
    (g : Graded h n dep m) (hd : d < n) (hs : Sub h d x) : x = d ∨ dep d < dep x := by
  induction hs with
  | self => exact Or.inl rfl
  | dir hp hc ih =>
    have hc' := s.parent_of_dir (hp.lt s hd) hc
    have := (g _ hc'.1).2 _ hc'.2.2
    rcases ih with rfl | ih
    · right; omega
    · right; omega
  | file hp hf ih =>
    have hf' := s.parent_of_file (hp.lt s hd) hf
    have := (g _ hf'.1).2 _ hf'.2.2
    rcases ih with rfl | ih
    · right; omega
    · right; omega

/-- Two subtrees whose tops lie at the same depth share an entry only when they are the
same subtree. -/
theorem Sub.disjoint {h : Heap} {n m a b x : Nat} {dep : Nat → Nat} (s : Shape h n)
    (g : Graded h n dep m) (ha : a < n) (hb : b < n) (hab : dep a = dep b)
    (h1 : Sub h a x) (h2 : Sub h b x) : a = b := by
  induction h1 with
  | self =>
    rcases h2.dep s g hb with e | e
    · exact e
    · omega
  | dir hp hc ih =>
    rename_i p c
    have hc' := s.parent_of_dir (hp.lt s ha) hc
    by_cases hcb : c = b
    · have := (g _ hc'.1).2 _ hc'.2.2
      rcases hp.dep s g ha with e | e
      · subst e; subst hcb; omega
      · subst hcb; omega
    · obtain ⟨q, hq, hs⟩ := h2.parent s hb hcb
      rw [hc'.2.2] at hq
      cases hq
      exact ih hs
  | file hp hf ih =>
    rename_i p f
    have hf' := s.parent_of_file (hp.lt s ha) hf
    by_cases hfb : f = b
    · have := (g _ hf'.1).2 _ hf'.2.2
      rcases hp.dep s g ha with e | e
      · subst e; subst hfb; omega
      · subst hfb; omega
    · obtain ⟨q, hq, hs⟩ := h2.parent s hb hfb
      rw [hf'.2.2] at hq
      cases hq
      exact ih hs

/-- Everything below `d` is `d`, one of its files, or lies below one of its directories. -/
theorem Sub.top {h : Heap} {n d x : Nat} (s : Shape h n) (hd : d < n) (hs : Sub h d x) :
    x = d ∨ x ∈ (h d).files ∨ ∃ c ∈ (h d).directories, Sub h c x := by
  induction hs with
  | self => exact Or.inl rfl
  | dir hp hc ih =>
    rename_i p c
    rcases ih with rfl | ih | ⟨c1, hc1, ih⟩
    · exact Or.inr (Or.inr ⟨c, hc, Sub.self⟩)
    · have h1 := s.parent_of_file hd ih
      have h2 := s.parent_of_dir h1.1 hc
      have h3 := s.parent_is_dir h2.1 h2.2.2
      rw [h1.2.1] at h3
      exact absurd h3.2 (by decide)
    · exact Or.inr (Or.inr ⟨c1, hc1, Sub.dir ih hc⟩)
  | file hp hf ih =>
    rename_i p f
    rcases ih with rfl | ih | ⟨c1, hc1, ih⟩
    · exact Or.inr (Or.inl hf)
    · have h1 := s.parent_of_file hd ih
      have h2 := s.parent_of_file h1.1 hf
      have h3 := s.parent_is_dir h2.1 h2.2.2
      rw [h1.2.1] at h3
      exact absurd h3.2 (by decide)
    · exact Or.inr (Or.inr ⟨c1, hc1, Sub.file ih hf⟩)

/-! ## The cascade of `UpdatePath` -/

theorem updateFiles_spec (d : Nat) :
    ∀ (fs : List Nat) (h : Heap), (∀ f ∈ fs, (h f).parentDir = some d ∧ f ≠ d) →
      (∀ x, x ∉ fs → updateFiles h fs x = h x) ∧
      (∀ f ∈ fs, (updateFiles h fs f).dirEntryPath =
        (h d).dirEntryPath ++ [filename (h f).dirEntryPath])
  | [], h, _ => by simp [updateFiles]
  | f :: fs, h, hp => by
    have hf := hp f (List.mem_cons_self _ _)
    have a := DirectoryEntry.UpdatePath_pathOnly h f
    have hd : DirectoryEntry.UpdatePath h f d = h d :=
      DirectoryEntry.UpdatePath_other h f d (Ne.symm hf.2)
    obtain ⟨i1, i2⟩ := updateFiles_spec d fs (DirectoryEntry.UpdatePath h f) (by
      intro g hg
      rw [a.parentDir]
      exact hp g (List.mem_cons_of_mem _ hg))
    unfold updateFiles File.UpdatePath
    constructor
    · intro x hx
      rw [List.mem_cons, not_or] at hx
      rw [i1 x hx.2, DirectoryEntry.UpdatePath_other h f x hx.1]
    · intro g hg
      by_cases hgs : g ∈ fs
      · rw [i2 g hgs, hd, a.name]
      · rcases List.mem_cons.mp hg with rfl | hg
        · rw [i1 g hgs, DirectoryEntry.UpdatePath_path, hf.1]
        · exact absurd hg hgs

theorem CachedAt_congr {h h1 : Heap} {x : Nat} (hx : h1 x = h x)
    (hp : ∀ p ∈ (h x).parentDir, h1 p = h p) (c : CachedAt h x) : CachedAt h1 x := by
  intro p hpp
  rw [hx] at hpp ⊢
  rw [hp p hpp]
  exact c p hpp

theorem updateDirectories_spec {n m : Nat} {dep : Nat → Nat} (rec : Heap → Nat → Option Heap)
    (D : Nat) (hD : D < n)
    (hrec : ∀ h d, Shape h n → Graded h n dep m → d < n → dep D < dep d →
      ∃ h1, rec h d = some h1 ∧ UpdatedBelow h h1 d) :
    ∀ (cs : List Nat) (h : Heap), Shape h n → Graded h n dep m →
      (∀ c ∈ cs, c ∈ (h D).directories) → cs.Nodup →
      ∃ h1, updateDirectories rec h cs = some h1 ∧ PathOnly h h1 ∧
        (∀ x, (∀ c ∈ cs, ¬ Sub h c x) → h1 x = h x) ∧
        (∀ c ∈ cs, (h1 c).dirEntryPath = (h D).dirEntryPath ++ [filename (h c).dirEntryPath] ∧
          ∀ x, Sub h c x → x ≠ c → CachedAt h1 x)
  | [], h, _, _, _, _ => ⟨h, rfl, PathOnly.refl h, fun _ _ => rfl, by simp⟩
  | c :: cs, h, s, g, hmem, hnd => by
    have hc := s.parent_of_dir hD (hmem c (List.mem_cons_self _ _))
    obtain ⟨h1, e1, u1, u2, u3, u4⟩ := hrec h c s g hc.1 (by
      have := (g _ hc.1).2 _ hc.2.2
      omega)
    have s1 := u1.shape s
    have g1 := u1.graded g
    obtain ⟨h2, e2, v1, v2, v3⟩ := updateDirectories_spec rec D hD hrec cs h1 s1 g1 (by
      intro c1 hc1
      rw [u1.directories]
      exact hmem c1 (List.mem_cons_of_mem _ hc1)) (List.nodup_cons.mp hnd).2
    have hdepc : ∀ c1 ∈ c :: cs, c1 < n ∧ dep c1 = dep D + 1 := by
      intro c1 hc1
      have := s.parent_of_dir hD (hmem c1 hc1)
      exact ⟨this.1, (g _ this.1).2 _ this.2.2⟩
    have hDc : ∀ c1 ∈ c :: cs, ¬ Sub h c1 D := by
      intro c1 hc1 hs
      obtain ⟨t1, t2⟩ := hdepc c1 hc1
      rcases hs.dep s g t1 with e | e
      · subst e; omega
      · omega
    have hdisj : ∀ x, Sub h c x → ∀ c1 ∈ cs, ¬ Sub h c1 x := by
      intro x hx c1 hc1 hx1
      have a1 := hdepc c (List.mem_cons_self _ _)
      have a2 := hdepc c1 (List.mem_cons_of_mem _ hc1)
      have := Sub.disjoint s g a1.1 a2.1 (by omega) hx hx1
      subst this
      exact (List.nodup_cons.mp hnd).1 hc1
    have hkeep : ∀ x, Sub h c x → h2 x = h1 x := by
      intro x hx
      apply v2
      intro c1 hc1 hs
      exact hdisj x hx c1 hc1 ((u1.sub_iff _ _).mp hs)
    refine ⟨h2, ?_, u1.andThen v1, ?_, ?_⟩
    · unfold updateDirectories
      rw [e1]
      exact e2
    · intro x hx
      rw [v2 x (fun c1 hc1 hs => hx c1 (List.mem_cons_of_mem _ hc1) ((u1.sub_iff _ _).mp hs)),
        u2 x (hx c (List.mem_cons_self _ _))]
    · intro c1 hc1
      rcases List.mem_cons.mp hc1 with rfl | hc1
      · constructor
        · rw [hkeep c1 Sub.self, u3, DirectoryEntry.UpdatePath_path, hc.2.2]
        · intro x hx hne
          obtain ⟨p, hp, hps⟩ := hx.parent s hc.1 hne
          refine CachedAt_congr (hkeep x hx) ?_ (u4 x hx hne)
          intro q hq
          rw [u1.parentDir, hp] at hq
          cases hq
          exact hkeep p hps
      · obtain ⟨w1, w2⟩ := v3 c1 hc1
        constructor
        · rw [w1, u2 D (hDc c (List.mem_cons_self _ _)), u1.name]
        · intro x hx hne
          exact w2 x ((u1.sub_iff _ _).mpr hx) hne


/-- The cascade.  On a store of the right shape with a depth function, `Directory::UpdatePath`
on `d` returns once the stack budget exceeds the depth of the tree below `d`, and it
recomputes every cached path below `d`. -/
theorem Directory.UpdatePath_spec {n m : Nat} {dep : Nat → Nat} :
    ∀ (fuel : Nat) (h : Heap) (d : Nat), Shape h n → Graded h n dep m → d < n →
      m < fuel + dep d → ∃ h1, Directory.UpdatePath fuel h d = some h1 ∧ UpdatedBelow h h1 d
  | 0, h, d, _, g, hd, hf => by
    have := (g d hd).1
    omega
  | fuel + 1, h, d, s, g, hd, hf => by
    have a := DirectoryEntry.UpdatePath_pathOnly h d
    have b := updateFiles_pathOnly (DirectoryEntry.UpdatePath h d d).files
      (DirectoryEntry.UpdatePath h d)
    have hfiles : ∀ f ∈ (h d).files, f < n ∧ (h f).parentDir = some d ∧ f ≠ d ∧
        (h f).kind = .FILE ∧ dep f = dep d + 1 := by
      intro f hf1
      have h1 := s.parent_of_file hd hf1
      have h2 := (g _ h1.1).2 _ h1.2.2
      refine ⟨h1.1, h1.2.2, ?_, h1.2.1, h2⟩
      rintro rfl
      omega
    obtain ⟨f1, f2⟩ := updateFiles_spec d (DirectoryEntry.UpdatePath h d d).files
      (DirectoryEntry.UpdatePath h d) (by
        intro f hf1
        rw [a.files] at hf1
        rw [a.parentDir]
        exact ⟨(hfiles f hf1).2.1, (hfiles f hf1).2.2.1⟩)
    obtain ⟨h1, e1, v1, v2, v3⟩ := updateDirectories_spec (Directory.UpdatePath fuel) d hd
      (fun h0 d0 s0 g0 hd0 hdep =>
        Directory.UpdatePath_spec fuel h0 d0 s0 g0 hd0 (by omega))
      (DirectoryEntry.UpdatePath h d d).directories
      (updateFiles (DirectoryEntry.UpdatePath h d) (DirectoryEntry.UpdatePath h d d).files)
      ((a.andThen b).shape s) ((a.andThen b).graded g)
      (by
        intro c hc
        rw [(a.andThen b).directories]
        rw [a.directories] at hc
        exact hc)
      (by rw [a.directories]; exact (s d hd).2.2.1)
    have ab := a.andThen b
    have hdirs : ∀ c ∈ (h d).directories, c < n ∧ (h c).kind = .DIRECTORY ∧
        (h c).parentDir = some d ∧ dep c = dep d + 1 := by
      intro c hc
      have h1 := s.parent_of_dir hd hc
      exact ⟨h1.1, h1.2.1, h1.2.2, (g _ h1.1).2 _ h1.2.2⟩
    have hdnot : ∀ c ∈ (h d).directories, ¬ Sub h c d := by
      intro c hc hs
      obtain ⟨t1, _, _, t2⟩ := hdirs c hc
      rcases hs.dep s g t1 with e | e
      · subst e; omega
      · omega
    have hdfile : d ∉ (h d).files := fun hm => (hfiles d hm).2.2.1 rfl
    have hfnot : ∀ f ∈ (h d).files, ∀ c ∈ (h d).directories, ¬ Sub h c f := by
      intro f hf1 c hc hs
      obtain ⟨t1, t3, _, t2⟩ := hdirs c hc
      obtain ⟨_, _, _, t4, t5⟩ := hfiles f hf1
      rcases hs.dep s g t1 with e | e
      · subst e; rw [t3] at t4; cases t4
      · omega
    have keepd : h1 d = DirectoryEntry.UpdatePath h d d := by
      rw [v2 d (fun c hc hs => hdnot c (by rw [← a.directories]; exact hc)
        ((ab.sub_iff _ _).mp hs)), f1 d (by rw [a.files]; exact hdfile)]
    refine ⟨h1, ?_, ab.andThen v1, ?_, ?_, ?_⟩
    · unfold Directory.UpdatePath
      exact e1
    · intro x hx
      have hxd : x ≠ d := fun e => hx (e ▸ Sub.self)
      rw [v2 x (fun c hc hs => hx (Sub.trans
          (Sub.dir Sub.self (by rw [← a.directories]; exact hc)) ((ab.sub_iff _ _).mp hs))),
        f1 x (fun hm => hx (Sub.file Sub.self (by rw [← a.files]; exact hm))),
        DirectoryEntry.UpdatePath_other h d x hxd]
    · rw [keepd]
    · intro x hx hne
      rcases hx.top s hd with e | hxf | ⟨c, hc, hxc⟩
      · exact absurd e hne
      · obtain ⟨t1, t2, t3, t4, t5⟩ := hfiles x hxf
        have kx : h1 x = updateFiles (DirectoryEntry.UpdatePath h d)
            (DirectoryEntry.UpdatePath h d d).files x :=
          v2 x (fun c hc hs => hfnot x hxf c (by rw [← a.directories]; exact hc)
            ((ab.sub_iff _ _).mp hs))
        intro p hp
        rw [(ab.andThen v1).parentDir, t2] at hp
        cases hp
        rw [keepd, kx, f2 x (by rw [a.files]; exact hxf)]
        simp
      · have hc2 : c ∈ (DirectoryEntry.UpdatePath h d d).directories := by
          rw [a.directories]; exact hc
        obtain ⟨w1, w2⟩ := v3 c hc2
        by_cases hxc2 : x = c
        · subst hxc2
          intro p hp
          rw [(ab.andThen v1).parentDir, (hdirs x hc).2.2.1] at hp
          cases hp
          rw [keepd, w1, f1 d (by rw [a.files]; exact hdfile)]
          simp
        · exact w2 x ((ab.sub_iff _ _).mpr hxc) hxc2

/-! ## Stores of the same shape -/

theorem Shape_congr {h h1 : Heap} {n : Nat}
    (e : ∀ x, (h1 x).kind = (h x).kind ∧ (h1 x).parentDir = (h x).parentDir ∧
      (h1 x).directories = (h x).directories ∧ (h1 x).files = (h x).files)
    (s : Shape h n) : Shape h1 n := by
  intro x hx
  obtain ⟨s1, s2, s3, s4, s5⟩ := s x hx
  simp only [(e _).1, (e _).2.1, (e _).2.2.1, (e _).2.2.2]
  exact ⟨s1, s2, s3, s4, s5⟩

theorem Sub_congr {h h1 : Heap} {d : Nat}
    (e : ∀ x, Sub h d x → (h1 x).directories = (h x).directories ∧ (h1 x).files = (h x).files)
    (x : Nat) : Sub h1 d x ↔ Sub h d x := by
  constructor
  · intro s
    induction s with
    | self => exact Sub.self
    | dir _ hc ih => exact Sub.dir ih (by rw [← (e _ ih).1]; exact hc)
    | file _ hf ih => exact Sub.file ih (by rw [← (e _ ih).2]; exact hf)
  · intro s
    induction s with
    | self => exact Sub.self
    | dir hp hc ih => exact Sub.dir ih (by rw [(e _ hp).1]; exact hc)
    | file hp hf ih => exact Sub.file ih (by rw [(e _ hp).2]; exact hf)

/-- The depth function given by the length of the cached paths. -/
theorem GoodHeap.grading {h : Heap} {n : Nat} (gh : GoodHeap h n) :
    ∃ m, Graded h n (fun x => (h x).dirEntryPath.length) m := by
  have hb : ∀ k, ∃ m, ∀ x, x < k → (h x).dirEntryPath.length ≤ m := by
    intro k
    induction k with
    | zero => exact ⟨0, fun x hx => absurd hx (Nat.not_lt_zero _)⟩
    | succ k ih =>
      obtain ⟨m, hm⟩ := ih
      refine ⟨max m (h k).dirEntryPath.length, ?_⟩
      intro x hx
      rcases Nat.lt_succ_iff_lt_or_eq.mp hx with h1 | h1
      · exact le_trans (hm x h1) (le_max_left _ _)
      · subst h1; exact le_max_right _ _
  obtain ⟨m, hm⟩ := hb n
  refine ⟨m, fun x hx => ⟨hm x hx, ?_⟩⟩
  intro p hp
  have := gh.2 x hx p hp
  simp only
  rw [this]
  simp

/-- After the cascade the whole store satisfies the representation invariant again, when
it did so outside the subtree before. -/
theorem UpdatedBelow.goodHeap {h h1 : Heap} {n m d : Nat} {dep : Nat → Nat} (s : Shape h n)
    (g : Graded h n dep m) (hd : d < n) (u : UpdatedBelow h h1 d)
    (hc : ∀ x, x < n → ¬ Sub h d x → CachedAt h x) : GoodHeap h1 n := by
  obtain ⟨u1, u2, u3, u4⟩ := u
  refine ⟨u1.shape s, ?_⟩
  intro x hx
  by_cases hs : Sub h d x
  · by_cases hxd : x = d
    · subst hxd
      intro p hp
      rw [u1.parentDir] at hp
      have hpn : ¬ Sub h x p := by
        intro hsp
        have := (g x hx).2 p hp
        rcases hsp.dep s g hx with e | e
        · subst e; omega
        · omega
      rw [u3, DirectoryEntry.UpdatePath_path, u2 p hpn]
      simp only [Option.mem_def] at hp
      rw [hp]
      simp
    · exact u4 x hs hxd
  · refine CachedAt_congr (u2 x hs) ?_ (hc x hx hs)
    intro p hp
    apply u2
    intro hsp
    exact hs (Sub.of_parent s hx hp hsp)

/-- The cascade on a store that satisfies the representation invariant outside the subtree
of `d`: enough stack budget makes `Directory::UpdatePath` return, and the result satisfies
the invariant everywhere. -/
theorem Directory.UpdatePath_goodHeap {h : Heap} {n m d : Nat} {dep : Nat → Nat}
    (s : Shape h n) (g : Graded h n dep m) (hd : d < n)
    (hc : ∀ x, x < n → ¬ Sub h d x → CachedAt h x) (fuel : Nat) (hf : m < fuel) :
    ∃ h1, Directory.UpdatePath fuel h d = some h1 ∧ UpdatedBelow h h1 d ∧ GoodHeap h1 n := by
  obtain ⟨h1, e, u⟩ := Directory.UpdatePath_spec fuel h d s g hd (by omega)
  exact ⟨h1, e, u, u.goodHeap s g hd hc⟩

/-! ## Detaching and attaching a directory -/

theorem insertAt_perm {α : Type} (xs : List α) (k : Nat) (x : α) :
    (insertAt xs k x).Perm (x :: xs) := by
  unfold insertAt
  have h1 : (xs.take k ++ x :: xs.drop k).Perm (x :: (xs.take k ++ xs.drop k)) :=
    List.perm_middle
  rw [List.take_append_drop] at h1
  exact h1

theorem mem_InsertDirectorySorted (p : DirEntrySortType) (h : Heap) (item : Nat)
    (xs : List Nat) (x : Nat) :
    x ∈ Sorter.InsertDirectorySorted p h item xs ↔ x = item ∨ x ∈ xs := by
  rw [InsertDirectorySorted_eq, (insertAt_perm _ _ _).mem_iff, List.mem_cons]

theorem nodup_InsertDirectorySorted (p : DirEntrySortType) (h : Heap) (item : Nat)
    (xs : List Nat) (hn : xs.Nodup) (hi : item ∉ xs) :
    (Sorter.InsertDirectorySorted p h item xs).Nodup := by
  rw [InsertDirectorySorted_eq, (insertAt_perm _ _ _).nodup_iff, List.nodup_cons]
  exact ⟨hi, hn⟩

theorem mem_InsertFileSorted (p : DirEntrySortType) (h : Heap) (item : Nat)
    (xs : List Nat) (x : Nat) :
    x ∈ Sorter.InsertFileSorted p h item xs ↔ x = item ∨ x ∈ xs := by
  rw [InsertFileSorted_eq, (insertAt_perm _ _ _).mem_iff, List.mem_cons]

theorem nodup_InsertFileSorted (p : DirEntrySortType) (h : Heap) (item : Nat)
    (xs : List Nat) (hn : xs.Nodup) (hi : item ∉ xs) :
    (Sorter.InsertFileSorted p h item xs).Nodup := by
  rw [InsertFileSorted_eq, (insertAt_perm _ _ _).nodup_iff, List.nodup_cons]
  exact ⟨hi, hn⟩

/-- A parent is never its own child: the cached paths give a depth. -/
theorem GoodHeap.parent_ne {h : Heap} {n x p : Nat} (gh : GoodHeap h n) (hx : x < n)
    (hp : (h x).parentDir = some p) : p ≠ x := by
  rintro rfl
  have := gh.2 p hx p hp
  have := congrArg List.length this
  simp at this

theorem Directory.DeleteDirectory_eq (fuel : Nat) (h : Heap) (this dir : Nat) :
    Directory.DeleteDirectory fuel h this dir = Directory.UpdatePath fuel (detached h this dir) dir :=
  rfl

theorem Directory.AddDirectoryToDirectory_eq (fuel : Nat) (h : Heap) (wher what : Nat) :
    Directory.AddDirectoryToDirectory fuel h wher what =
      Directory.UpdatePath fuel (attached h wher what) what :=
  rfl

theorem Directory.Rename_eq (fuel : Nat) (h : Heap) (d : Nat) (newName : String) :
    Directory.Rename fuel h d newName = Directory.UpdatePath fuel (renamed h d newName) d :=
  rfl

theorem detached_apply {h : Heap} {P d : Nat} (hPd : P ≠ d) (x : Nat) :
    detached h P d x =
      if x = d then { h d with parentDir := none }
      else if x = P then { h P with directories := (h P).directories.filter (fun c => c ≠ d) }
      else h x := by
  unfold detached
  by_cases h1 : x = d
  · subst h1; simp [store, Ne.symm hPd]
  · by_cases h2 : x = P
    · subst h2; simp [store, h1]
    · simp [store, h1, h2]

theorem detached_kind {h : Heap} {P d : Nat} (hPd : P ≠ d) (x : Nat) :
    (detached h P d x).kind = (h x).kind := by
  rw [detached_apply hPd]; split_ifs with h1 h2
  · subst h1; rfl
  · subst h2; rfl
  · rfl

theorem detached_files {h : Heap} {P d : Nat} (hPd : P ≠ d) (x : Nat) :
    (detached h P d x).files = (h x).files := by
  rw [detached_apply hPd]; split_ifs with h1 h2
  · subst h1; rfl
  · subst h2; rfl
  · rfl

theorem detached_path {h : Heap} {P d : Nat} (hPd : P ≠ d) (x : Nat) :
    (detached h P d x).dirEntryPath = (h x).dirEntryPath := by
  rw [detached_apply hPd]; split_ifs with h1 h2
  · subst h1; rfl
  · subst h2; rfl
  · rfl

theorem detached_parent {h : Heap} {P d : Nat} (hPd : P ≠ d) (x : Nat) (hx : x ≠ d) :
    (detached h P d x).parentDir = (h x).parentDir := by
  rw [detached_apply hPd]; simp only [hx, if_false]; split_ifs with h2
  · subst h2; rfl
  · rfl

theorem detached_parent_self {h : Heap} {P d : Nat} (hPd : P ≠ d) :
    (detached h P d d).parentDir = none := by
  rw [detached_apply hPd]; simp

theorem detached_dirs {h : Heap} {P d : Nat} (hPd : P ≠ d) (x c : Nat) :
    c ∈ (detached h P d x).directories ↔ c ∈ (h x).directories ∧ (x = P → c ≠ d) := by
  rw [detached_apply hPd]; split_ifs with h1 h2
  · subst h1
    simp only [iff_self_and]
    intro _ e; exact absurd e.symm hPd
  · subst h2
    simp [List.mem_filter]
  · simp [h2]

/-- The store in which `Directory::DeleteDirectory` starts its cascade has the right
shape. -/
theorem detach_shape {h : Heap} {n P d : Nat} (gh : GoodHeap h n) (hP : P < n)
    (hd : d ∈ (h P).directories) : Shape (detached h P d) n := by
  obtain ⟨hdn, hdk, hdp⟩ := gh.1.parent_of_dir hP hd
  have hPd : P ≠ d := gh.parent_ne hdn hdp
  intro x hx
  obtain ⟨s1, s2, s3, s4, s5⟩ := gh.1 x hx
  refine ⟨?_, ?_, ?_, ?_, ?_⟩
  · intro c hc
    rw [detached_dirs hPd] at hc
    obtain ⟨t1, t2, t3⟩ := s1 c hc.1
    have hcd : c ≠ d := by
      intro e
      subst e
      rw [hdp] at t3
      cases t3
      exact hc.2 rfl rfl
    exact ⟨t1, by rw [detached_kind hPd]; exact t2, by rw [detached_parent hPd c hcd]; exact t3⟩
  · intro f hf
    rw [detached_files hPd] at hf
    obtain ⟨t1, t2, t3⟩ := s2 f hf
    have hfd : f ≠ d := by
      intro e
      subst e
      rw [hdk] at t2
      cases t2
    exact ⟨t1, by rw [detached_kind hPd]; exact t2, by rw [detached_parent hPd f hfd]; exact t3⟩
  · rw [detached_apply hPd]; split_ifs with h1 h2
    · subst h1; exact s3
    · subst h2; exact s3.filter _
    · exact s3
  · rw [detached_files hPd]; exact s4
  · intro p hp
    by_cases hxd : x = d
    · subst hxd
      rw [detached_parent_self hPd] at hp
      cases hp
    · rw [detached_parent hPd x hxd] at hp
      obtain ⟨t1, t2, t3, t4⟩ := s5 p hp
      refine ⟨t1, by rw [detached_kind hPd]; exact t2, ?_, ?_⟩
      · intro hk
        rw [detached_kind hPd] at hk
        rw [detached_dirs hPd]
        exact ⟨t3 hk, fun _ => hxd⟩
      · intro hk
        rw [detached_kind hPd] at hk
        rw [detached_files hPd]
        exact t4 hk

theorem detach_graded {h : Heap} {n m P d : Nat} {dep : Nat → Nat} (hPd : P ≠ d)
    (g : Graded h n dep m) : Graded (detached h P d) n dep m := by
  intro x hx
  refine ⟨(g x hx).1, ?_⟩
  intro p hp
  by_cases hxd : x = d
  · subst hxd
    rw [detached_parent_self hPd] at hp
    cases hp
  · rw [detached_parent hPd x hxd] at hp
    exact (g x hx).2 p hp

/-- Detaching changes no sequence below the detached directory. -/
theorem detach_sub {h : Heap} {n P d : Nat} (gh : GoodHeap h n) (hP : P < n)
    (hd : d ∈ (h P).directories) (x : Nat) : Sub (detached h P d) d x ↔ Sub h d x := by
  obtain ⟨hdn, hdk, hdp⟩ := gh.1.parent_of_dir hP hd
  have hPd : P ≠ d := gh.parent_ne hdn hdp
  obtain ⟨m, g⟩ := gh.grading
  apply Sub_congr
  intro y hy
  have hyP : y ≠ P := by
    rintro rfl
    have := (g d hdn).2 _ hdp
    rcases hy.dep gh.1 g hdn with e | e
    · exact hPd e
    · simp only at this e; omega
  constructor
  · rw [detached_apply hPd]; split_ifs with h1
    · subst h1; rfl
    · rfl
  · exact detached_files hPd y

theorem detach_cached {h : Heap} {n P d : Nat} (gh : GoodHeap h n) (hP : P < n)
    (hd : d ∈ (h P).directories) (x : Nat) (hx : x < n) (hxd : x ≠ d) :
    CachedAt (detached h P d) x := by
  obtain ⟨hdn, hdk, hdp⟩ := gh.1.parent_of_dir hP hd
  have hPd : P ≠ d := gh.parent_ne hdn hdp
  intro p hp
  rw [detached_parent hPd x hxd] at hp
  rw [detached_path hPd, detached_path hPd]
  exact gh.2 x hx p hp

/-- The method `Directory::DeleteDirectory(dir)` on a child directory, with an explicit
stack budget. -/
theorem Directory.DeleteDirectory_budget {h : Heap} {n m P d : Nat} {dep : Nat → Nat}
    (gh : GoodHeap h n) (g : Graded h n dep m) (hP : P < n) (hd : d ∈ (h P).directories)
    (fuel : Nat) (hf : m < fuel) :
    ∃ h1, Directory.DeleteDirectory fuel h P d = some h1 ∧
      UpdatedBelow (detached h P d) h1 d ∧ GoodHeap h1 n ∧ Graded h1 n dep m := by
  obtain ⟨hdn, hdk, hdp⟩ := gh.1.parent_of_dir hP hd
  have hPd : P ≠ d := gh.parent_ne hdn hdp
  rw [Directory.DeleteDirectory_eq]
  obtain ⟨h1, e, u, g1⟩ := Directory.UpdatePath_goodHeap (detach_shape gh hP hd)
    (detach_graded hPd g) hdn
    (fun x hx hs => detach_cached gh hP hd x hx (fun e => hs (e ▸ Sub.self))) fuel hf
  exact ⟨h1, e, u, g1, u.1.graded (detach_graded hPd g)⟩

/-- The method `Directory::DeleteDirectory(dir)` on a child directory: with enough stack
budget it returns a store that satisfies the representation invariant. -/
theorem Directory.DeleteDirectory_spec {h : Heap} {n P d : Nat} (gh : GoodHeap h n)
    (hP : P < n) (hd : d ∈ (h P).directories) :
    ∃ f0, ∀ fuel, f0 ≤ fuel → ∃ h1, Directory.DeleteDirectory fuel h P d = some h1 ∧
      UpdatedBelow (detached h P d) h1 d ∧ GoodHeap h1 n := by
  obtain ⟨m, g⟩ := gh.grading
  refine ⟨m + 1, fun fuel hf => ?_⟩
  obtain ⟨h1, e, u, g1, _⟩ := Directory.DeleteDirectory_budget gh g hP hd fuel (by omega)
  exact ⟨h1, e, u, g1⟩

theorem attached_apply {h : Heap} {w d : Nat} (hwd : w ≠ d) (x : Nat) :
    attached h w d x =
      if x = d then { h d with parentDir := some w }
      else if x = w then { h w with directories :=
        Sorter.InsertDirectorySorted (h w).sortType h d (h w).directories }
      else h x := by
  unfold attached Directory.AddDirectory
  by_cases h1 : x = d
  · subst h1; simp [store, Ne.symm hwd]
  · by_cases h2 : x = w
    · subst h2; simp [store, h1]
    · simp [store, h1, h2]

theorem attached_kind {h : Heap} {w d : Nat} (hwd : w ≠ d) (x : Nat) :
    (attached h w d x).kind = (h x).kind := by
  rw [attached_apply hwd]; split_ifs with h1 h2
  · subst h1; rfl
  · subst h2; rfl
  · rfl

theorem attached_files {h : Heap} {w d : Nat} (hwd : w ≠ d) (x : Nat) :
    (attached h w d x).files = (h x).files := by
  rw [attached_apply hwd]; split_ifs with h1 h2
  · subst h1; rfl
  · subst h2; rfl
  · rfl

theorem attached_path {h : Heap} {w d : Nat} (hwd : w ≠ d) (x : Nat) :
    (attached h w d x).dirEntryPath = (h x).dirEntryPath := by
  rw [attached_apply hwd]; split_ifs with h1 h2
  · subst h1; rfl
  · subst h2; rfl
  · rfl

theorem attached_parent {h : Heap} {w d : Nat} (hwd : w ≠ d) (x : Nat) (hx : x ≠ d) :
    (attached h w d x).parentDir = (h x).parentDir := by
  rw [attached_apply hwd]; simp only [hx, if_false]; split_ifs with h2
  · subst h2; rfl
  · rfl

theorem attached_parent_self {h : Heap} {w d : Nat} (hwd : w ≠ d) :
    (attached h w d d).parentDir = some w := by
  rw [attached_apply hwd]; simp

theorem attached_dirs {h : Heap} {w d : Nat} (hwd : w ≠ d) (x c : Nat) :
    c ∈ (attached h w d x).directories ↔ c ∈ (h x).directories ∨ (x = w ∧ c = d) := by
  rw [attached_apply hwd]; split_ifs with h1 h2
  · subst h1
    simp only [iff_self_or]
    rintro ⟨e, _⟩; exact absurd e.symm hwd
  · subst h2
    simp only [mem_InsertDirectorySorted, true_and]
    tauto
  · simp [h2]

theorem attached_dirs_of_ne {h : Heap} {w d : Nat} (hwd : w ≠ d) (x : Nat) (hx : x ≠ w) :
    (attached h w d x).directories = (h x).directories := by
  rw [attached_apply hwd]; split_ifs with h1
  · subst h1; rfl
  · rfl

/-- A parentless entry is listed nowhere. -/
theorem GoodHeap.not_listed {h : Heap} {n x d : Nat} (gh : GoodHeap h n) (hx : x < n)
    (hd : (h d).parentDir = none) : d ∉ (h x).directories ∧ d ∉ (h x).files := by
  constructor
  · intro hm
    have := (gh.1.parent_of_dir hx hm).2.2
    rw [hd] at this; cases this
  · intro hm
    have := (gh.1.parent_of_file hx hm).2.2
    rw [hd] at this; cases this

/-- The store in which `Directory::AddDirectoryToDirectory` starts its cascade has the right
shape. -/
theorem attach_shape {h : Heap} {n w d : Nat} (gh : GoodHeap h n) (hw : w < n) (hd : d < n)
    (hwk : (h w).kind = .DIRECTORY) (hdk : (h d).kind = .DIRECTORY)
    (hdp : (h d).parentDir = none) (hwd : w ≠ d) : Shape (attached h w d) n := by
  intro x hx
  obtain ⟨s1, s2, s3, s4, s5⟩ := gh.1 x hx
  refine ⟨?_, ?_, ?_, ?_, ?_⟩
  · intro c hc
    rw [attached_dirs hwd] at hc
    rcases hc with hc | ⟨rfl, rfl⟩
    · obtain ⟨t1, t2, t3⟩ := s1 c hc
      have hcd : c ≠ d := by
        rintro rfl
        exact (gh.not_listed hx hdp).1 hc
      exact ⟨t1, by rw [attached_kind hwd]; exact t2, by rw [attached_parent hwd c hcd]; exact t3⟩
    · exact ⟨hd, by rw [attached_kind hwd]; exact hdk, attached_parent_self hwd⟩
  · intro f hf
    rw [attached_files hwd] at hf
    obtain ⟨t1, t2, t3⟩ := s2 f hf
    have hfd : f ≠ d := by
      rintro rfl
      exact (gh.not_listed hx hdp).2 hf
    exact ⟨t1, by rw [attached_kind hwd]; exact t2, by rw [attached_parent hwd f hfd]; exact t3⟩
  · rw [attached_apply hwd]; split_ifs with h1 h2
    · subst h1; exact s3
    · subst h2
      exact nodup_InsertDirectorySorted _ _ _ _ s3 (gh.not_listed hx hdp).1
    · exact s3
  · rw [attached_files hwd]; exact s4
  · intro p hp
    by_cases hxd : x = d
    · subst hxd
      rw [attached_parent_self hwd] at hp
      cases hp
      refine ⟨hw, by rw [attached_kind hwd]; exact hwk, ?_, ?_⟩
      · intro _
        rw [attached_dirs hwd]
        exact Or.inr ⟨rfl, rfl⟩
      · intro hk
        rw [attached_kind hwd, hdk] at hk
        cases hk
    · rw [attached_parent hwd x hxd] at hp
      obtain ⟨t1, t2, t3, t4⟩ := s5 p hp
      refine ⟨t1, by rw [attached_kind hwd]; exact t2, ?_, ?_⟩
      · intro hk
        rw [attached_kind hwd] at hk
        rw [attached_dirs hwd]
        exact Or.inl (t3 hk)
      · intro hk
        rw [attached_kind hwd] at hk
        rw [attached_files hwd]
        exact t4 hk

/-- Attaching changes no sequence below the attached directory, when the destination lies
outside it. -/
theorem attach_sub {h : Heap} {w d : Nat} (hnot : ¬ Sub h d w) (x : Nat) :
    Sub (attached h w d) d x ↔ Sub h d x := by
  have hwd : w ≠ d := fun e => hnot (e ▸ Sub.self)
  apply Sub_congr
  intro y hy
  have hyw : y ≠ w := fun e => hnot (e ▸ hy)
  exact ⟨attached_dirs_of_ne hwd y hyw, attached_files hwd y⟩

/-- A depth function for the store in which `AddDirectoryToDirectory` starts its cascade:
the subtree of `what` is shifted below `where`. -/
theorem attach_graded {h : Heap} {n m w d : Nat} {dep0 : Nat → Nat} (gh : GoodHeap h n)
    (g : Graded h n dep0 m) (hw : w < n) (hd : d < n) (hnot : ¬ Sub h d w) :
    ∃ dep, Graded (attached h w d) n dep (m + m + 1) := by
  classical
  have hwd : w ≠ d := fun e => hnot (e ▸ Sub.self)
  refine ⟨fun x => if Sub h d x then dep0 x - dep0 d + dep0 w + 1 else dep0 x, ?_⟩
  intro x hx
  have hxm := (g x hx).1
  have hwm := (g w hw).1
  constructor
  · simp only
    split_ifs <;> omega
  · intro p hp
    by_cases hxd : x = d
    · subst hxd
      rw [attached_parent_self hwd] at hp
      cases hp
      simp only [Sub.self, if_true, hnot, if_false]
      omega
    · rw [attached_parent hwd x hxd] at hp
      have hlen := (g x hx).2 p hp
      by_cases hs : Sub h d x
      · obtain ⟨q, hq, hsq⟩ := hs.parent gh.1 hd hxd
        rw [hq] at hp
        cases hp
        simp only [hs, hsq, if_true]
        rcases hsq.dep gh.1 g hd with e | e
        · subst e; omega
        · omega
      · have hsp : ¬ Sub h d p := fun hsp => hs (Sub.of_parent gh.1 hx hp hsp)
        simp only [hs, hsp, if_false]
        exact hlen

theorem attach_cached {h : Heap} {n w d : Nat} (gh : GoodHeap h n) (hwd : w ≠ d)
    (x : Nat) (hx : x < n) (hxd : x ≠ d) : CachedAt (attached h w d) x := by
  intro p hp
  rw [attached_parent hwd x hxd] at hp
  rw [attached_path hwd, attached_path hwd]
  exact gh.2 x hx p hp

/-- The static `Directory::AddDirectoryToDirectory(where, what)` for a parentless directory
`what` and a destination outside its subtree, with an explicit stack budget. -/
theorem Directory.AddDirectoryToDirectory_budget {h : Heap} {n m w d : Nat} {dep : Nat → Nat}
    (gh : GoodHeap h n) (g : Graded h n dep m)
    (hw : w < n) (hd : d < n) (hwk : (h w).kind = .DIRECTORY) (hdk : (h d).kind = .DIRECTORY)
    (hdp : (h d).parentDir = none) (hnot : ¬ Sub h d w) (fuel : Nat) (hf : m + m + 1 < fuel) :
    ∃ h1, Directory.AddDirectoryToDirectory fuel h w d = some h1 ∧
      UpdatedBelow (attached h w d) h1 d ∧ GoodHeap h1 n := by
  have hwd : w ≠ d := fun e => hnot (e ▸ Sub.self)
  obtain ⟨dep1, g1⟩ := attach_graded gh g hw hd hnot
  rw [Directory.AddDirectoryToDirectory_eq]
  exact Directory.UpdatePath_goodHeap (attach_shape gh hw hd hwk hdk hdp hwd) g1 hd
    (fun x hx hs => attach_cached gh hwd x hx (fun e => hs (e ▸ Sub.self))) fuel hf

/-- The static `Directory::AddDirectoryToDirectory(where, what)` for a parentless directory
`what` and a destination outside its subtree: with enough stack budget it returns a store
that satisfies the representation invariant. -/
theorem Directory.AddDirectoryToDirectory_spec {h : Heap} {n w d : Nat} (gh : GoodHeap h n)
    (hw : w < n) (hd : d < n) (hwk : (h w).kind = .DIRECTORY) (hdk : (h d).kind = .DIRECTORY)
    (hdp : (h d).parentDir = none) (hnot : ¬ Sub h d w) :
    ∃ f0, ∀ fuel, f0 ≤ fuel → ∃ h1, Directory.AddDirectoryToDirectory fuel h w d = some h1 ∧
      UpdatedBelow (attached h w d) h1 d ∧ GoodHeap h1 n := by
  obtain ⟨m, g⟩ := gh.grading
  exact ⟨m + m + 2, fun fuel hf =>
    Directory.AddDirectoryToDirectory_budget gh g hw hd hwk hdk hdp hnot fuel (by omega)⟩

theorem renamed_apply (h : Heap) (d : Nat) (newName : String) (x : Nat) :
    renamed h d newName x =
      if x = d then { h d with dirEntryPath := replace_filename (h d).dirEntryPath newName }
      else h x := by
  unfold renamed store
  rfl

theorem renamed_other (h : Heap) (d : Nat) (newName : String) (x : Nat) (hx : x ≠ d) :
    renamed h d newName x = h x := by
  rw [renamed_apply]; simp [hx]

theorem renamed_same (h : Heap) (d : Nat) (newName : String) (x : Nat) :
    (renamed h d newName x).kind = (h x).kind ∧
    (renamed h d newName x).parentDir = (h x).parentDir ∧
    (renamed h d newName x).directories = (h x).directories ∧
    (renamed h d newName x).files = (h x).files := by
  rw [renamed_apply]; split_ifs with h1
  · subst h1; exact ⟨rfl, rfl, rfl, rfl⟩
  · exact ⟨rfl, rfl, rfl, rfl⟩

theorem renamed_name (h : Heap) (d : Nat) (newName : String) :
    filename (renamed h d newName d).dirEntryPath = newName := by
  rw [renamed_apply]; simp [replace_filename]

theorem rename_sub (h : Heap) (d : Nat) (newName : String) (x : Nat) :
    Sub (renamed h d newName) d x ↔ Sub h d x :=
  Sub_congr (fun y _ => ⟨(renamed_same h d newName y).2.2.1, (renamed_same h d newName y).2.2.2⟩) x

/-- The method `DirectoryEntry::Rename` on a directory, with an explicit stack budget. -/
theorem Directory.Rename_budget {h : Heap} {n m d : Nat} {dep : Nat → Nat} (gh : GoodHeap h n)
    (g : Graded h n dep m) (hd : d < n) (newName : String) (fuel : Nat) (hf : m < fuel) :
    ∃ h1, Directory.Rename fuel h d newName = some h1 ∧
      UpdatedBelow (renamed h d newName) h1 d ∧ GoodHeap h1 n := by
  have g1 : Graded (renamed h d newName) n dep m := by
    intro x hx
    rw [(renamed_same h d newName x).2.1]
    exact g x hx
  rw [Directory.Rename_eq]
  refine Directory.UpdatePath_goodHeap (Shape_congr (renamed_same h d newName) gh.1) g1 hd
    ?_ fuel hf
  intro x hx hs
  have hxd : x ≠ d := fun e => hs (e ▸ Sub.self)
  intro p hp
  rw [(renamed_same h d newName x).2.1] at hp
  have hpd : p ≠ d := by
    rintro rfl
    exact hs ((rename_sub h p newName x).mpr (Sub.of_parent gh.1 hx hp Sub.self))
  rw [renamed_other h d newName x hxd, renamed_other h d newName p hpd]
  exact gh.2 x hx p hp

/-- The method `DirectoryEntry::Rename` on a directory: with enough stack budget it returns
a store that satisfies the representation invariant. -/
theorem Directory.Rename_spec {h : Heap} {n d : Nat} (gh : GoodHeap h n) (hd : d < n)
    (newName : String) :
    ∃ f0, ∀ fuel, f0 ≤ fuel → ∃ h1, Directory.Rename fuel h d newName = some h1 ∧
      UpdatedBelow (renamed h d newName) h1 d ∧ GoodHeap h1 n := by
  obtain ⟨m, g⟩ := gh.grading
  exact ⟨m + 1, fun fuel hf => Directory.Rename_budget gh g hd newName fuel (by omega)⟩

/-- Below `d` every cached path starts with the cached path of `d`. -/
theorem Sub.path_prefix {h : Heap} {n d x : Nat} (gh : GoodHeap h n) (hd : d < n)
    (hs : Sub h d x) : (h d).dirEntryPath <+: (h x).dirEntryPath := by
  induction hs with
  | self => exact List.prefix_refl _
  | dir hp hc ih =>
    have t := gh.1.parent_of_dir (hp.lt gh.1 hd) hc
    rw [gh.2 _ t.1 _ t.2.2]
    exact ih.trans (List.prefix_append _ _)
  | file hp hf ih =>
    have t := gh.1.parent_of_file (hp.lt gh.1 hd) hf
    rw [gh.2 _ t.1 _ t.2.2]
    exact ih.trans (List.prefix_append _ _)

/-- C10 (cached-path cascade).  On a store that satisfies the representation invariant:
after `Directory::AddDirectoryToDirectory(where, what)` for a parentless directory `what` and
a destination outside the subtree of `what`, every entry of the subtree of `what`, `what`
included, has a parent and its path is the parent's path followed by its own name; after
`DirectoryEntry::Rename` on a directory `what` the name of `what` is the new name and every
entry of its subtree has the path of its parent (nothing for a parentless `what`) followed
by its own name; and the same holds for a renamed file.  Both recursive calls return once
the stack budget is large enough. -/
theorem cached_path_cascade (h : Heap) (n : Nat) (gh : GoodHeap h n) :
    (∀ wher what, wher < n → what < n → (h wher).kind = .DIRECTORY →
      (h what).kind = .DIRECTORY → (h what).parentDir = none → ¬ Sub h what wher →
      ∃ f0, ∀ fuel, f0 ≤ fuel →
        ∃ h1, Directory.AddDirectoryToDirectory fuel h wher what = some h1 ∧
          ∀ e, Sub h1 what e → ∃ p, (h1 e).parentDir = some p ∧
            GetPath h1 e = slash (GetPath h1 p) (filename (GetPath h1 e))) ∧
    (∀ what newName, what < n →
      ∃ f0, ∀ fuel, f0 ≤ fuel →
        ∃ h1, Directory.Rename fuel h what newName = some h1 ∧
          filename (GetPath h1 what) = newName ∧
          ∀ e, Sub h1 what e →
            GetPath h1 e =
              slash (match (h1 e).parentDir with
                | some p => GetPath h1 p
                | none => []) (filename (GetPath h1 e))) ∧
    (∀ file newName, file < n →
      filename (GetPath (File.Rename h file newName) file) = newName ∧
      GetPath (File.Rename h file newName) file =
        slash (match (File.Rename h file newName file).parentDir with
          | some p => GetPath (File.Rename h file newName) p
          | none => []) (filename (GetPath (File.Rename h file newName) file))) := by
  refine ⟨?_, ?_, ?_⟩
  · intro w d hw hd hwk hdk hdp hnot
    have hwd : w ≠ d := fun e => hnot (e ▸ Sub.self)
    obtain ⟨f0, hf0⟩ := Directory.AddDirectoryToDirectory_spec gh hw hd hwk hdk hdp hnot
    refine ⟨f0, fun fuel hf => ?_⟩
    obtain ⟨h1, e1, u, g1⟩ := hf0 fuel hf
    refine ⟨h1, e1, ?_⟩
    intro e he
    have he1 : e < n := he.lt g1.1 hd
    by_cases hed : e = d
    · subst hed
      have hp : (h1 e).parentDir = some w := by
        rw [u.1.parentDir, attached_parent_self hwd]
      exact ⟨w, hp, g1.2 e he1 w hp⟩
    · obtain ⟨p, hp, _⟩ := he.parent g1.1 hd hed
      exact ⟨p, hp, g1.2 e he1 p hp⟩
  · intro d newName hd
    obtain ⟨f0, hf0⟩ := Directory.Rename_spec gh hd newName
    refine ⟨f0, fun fuel hf => ?_⟩
    obtain ⟨h1, e1, u, g1⟩ := hf0 fuel hf
    refine ⟨h1, e1, ?_, ?_⟩
    · unfold GetPath
      rw [u.1.name, renamed_name]
    · intro e he
      have he1 : e < n := he.lt g1.1 hd
      cases hp : (h1 e).parentDir with
      | some p => exact g1.2 e he1 p hp
      | none =>
        have hed : e = d := by
          by_contra hne
          obtain ⟨p, hp1, _⟩ := he.parent g1.1 hd hne
          rw [hp] at hp1; cases hp1
        subst hed
        simp only [GetPath, slash, List.nil_append]
        rw [u.2.2.1, DirectoryEntry.UpdatePath_path]
        rw [u.1.parentDir] at hp
        rw [hp]
        simp
  · intro f newName hf
    unfold File.Rename File.UpdatePath GetPath
    have hfn : filename (store h f { h f with
        dirEntryPath := replace_filename (h f).dirEntryPath newName } f).dirEntryPath =
        newName := by
      simp [replace_filename]
    have hpar : (store h f { h f with
        dirEntryPath := replace_filename (h f).dirEntryPath newName } f).parentDir =
        (h f).parentDir := by
      simp
    constructor
    · rw [(DirectoryEntry.UpdatePath_pathOnly _ f).name, hfn]
    · rw [(DirectoryEntry.UpdatePath_pathOnly _ f).parentDir,
        (DirectoryEntry.UpdatePath_pathOnly _ f).name, hfn,
        DirectoryEntry.UpdatePath_path, hpar]
      cases hp : (h f).parentDir with
      | none => simp [slash, replace_filename]
      | some p =>
        have hne : p ≠ f := gh.parent_ne hf hp
        simp only [slash]
        rw [DirectoryEntry.UpdatePath_other _ f p hne, hfn]

/-- Witness for C10: on the sample store with `B` detached, attaching `B` to `D`, renaming
the root `A` to `Z` and renaming the file `a.txt`. -/
theorem cached_path_cascade_witness :
    GoodHeap sampleDetached 8 ∧
    (∃ f0, ∀ fuel, f0 ≤ fuel →
      ∃ h1, Directory.AddDirectoryToDirectory fuel sampleDetached 7 3 = some h1 ∧
        ∀ e, Sub h1 3 e → ∃ p, (h1 e).parentDir = some p ∧
          GetPath h1 e = slash (GetPath h1 p) (filename (GetPath h1 e))) ∧
    (∃ f0, ∀ fuel, f0 ≤ fuel →
      ∃ h1, Directory.Rename fuel sampleDetached 0 "Z" = some h1 ∧
        filename (GetPath h1 0) = "Z" ∧
        ∀ e, Sub h1 0 e →
          GetPath h1 e =
            slash (match (h1 e).parentDir with
              | some p => GetPath h1 p
              | none => []) (filename (GetPath h1 e))) ∧
    (filename (GetPath (File.Rename sampleDetached 1 "z.txt") 1) = "z.txt" ∧
      GetPath (File.Rename sampleDetached 1 "z.txt") 1 =
        slash (match (File.Rename sampleDetached 1 "z.txt" 1).parentDir with
          | some p => GetPath (File.Rename sampleDetached 1 "z.txt") p
          | none => []) (filename (GetPath (File.Rename sampleDetached 1 "z.txt") 1))) :=
  ⟨by decide!,
   (cached_path_cascade sampleDetached 8 (by decide!)).1 7 3 (by decide!) (by decide!)
     (by decide!) (by decide!) (by decide!)
     (fun hs => absurd (hs.path_prefix (n := 8) (by decide!) (by decide!)) (by decide!)),
   (cached_path_cascade sampleDetached 8 (by decide!)).2.1 0 "Z" (by decide!),
   (cached_path_cascade sampleDetached 8 (by decide!)).2.2 1 "z.txt" (by decide!)⟩

/-! ## The recursive listing -/

theorem collectEntries_congr (rec1 rec2 : Nat → Option (List Nat)) :
    ∀ (cs : List Nat), (∀ c ∈ cs, rec1 c = rec2 c) →
      collectEntries rec1 cs = collectEntries rec2 cs
  | [], _ => rfl
  | c :: cs, e => by
    unfold collectEntries
    rw [e c (List.mem_cons_self _ _),
      collectEntries_congr rec1 rec2 cs (fun c1 hc1 => e c1 (List.mem_cons_of_mem _ hc1))]

/-- The listing reads the child sequences only. -/
theorem Directory.GetDirEntriesRecursive_congr {h h1 : Heap}
    (e : ∀ x, (h1 x).directories = (h x).directories ∧ (h1 x).files = (h x).files) :
    ∀ (fuel : Nat) (d : Nat),
      Directory.GetDirEntriesRecursive fuel h1 d = Directory.GetDirEntriesRecursive fuel h d
  | 0, _ => rfl
  | fuel + 1, d => by
    unfold Directory.GetDirEntriesRecursive
    rw [(e d).1, (e d).2, collectEntries_congr _ _ _
      (fun c _ => Directory.GetDirEntriesRecursive_congr e fuel c)]

theorem collectEntries_spec {h : Heap} {n m : Nat} {dep : Nat → Nat} (s : Shape h n)
    (g : Graded h n dep m) (rec : Nat → Option (List Nat)) (D : Nat) (hD : D < n)
    (hrec : ∀ d, d < n → dep D < dep d →
      ∃ l, rec d = some l ∧ (∀ x, x ∈ l ↔ Sub h d x ∧ x ≠ d) ∧ l.Nodup) :
    ∀ (cs : List Nat), (∀ c ∈ cs, c ∈ (h D).directories) → cs.Nodup →
      ∃ r, collectEntries rec cs = some r ∧ (∀ x, x ∈ r ↔ ∃ c ∈ cs, Sub h c x) ∧ r.Nodup
  | [], _, _ => ⟨[], rfl, by simp, List.nodup_nil⟩
  | c :: cs, hmem, hnd => by
    have hc := s.parent_of_dir hD (hmem c (List.mem_cons_self _ _))
    have hdc := (g _ hc.1).2 _ hc.2.2
    obtain ⟨l, e1, l1, l2⟩ := hrec c hc.1 (by omega)
    obtain ⟨r, e2, r1, r2⟩ := collectEntries_spec s g rec D hD hrec cs
      (fun c1 hc1 => hmem c1 (List.mem_cons_of_mem _ hc1)) (List.nodup_cons.mp hnd).2
    have hdisj : ∀ x, Sub h c x → ∀ c1 ∈ cs, ¬ Sub h c1 x := by
      intro x hx c1 hc1 hx1
      have a2 := s.parent_of_dir hD (hmem c1 (List.mem_cons_of_mem _ hc1))
      have a3 := (g _ a2.1).2 _ a2.2.2
      have := Sub.disjoint s g hc.1 a2.1 (by omega) hx hx1
      subst this
      exact (List.nodup_cons.mp hnd).1 hc1
    refine ⟨c :: l ++ r, ?_, ?_, ?_⟩
    · unfold collectEntries
      rw [e1, e2]
    · intro x
      simp only [List.cons_append, List.mem_cons, List.mem_append, l1, r1, exists_eq_or_imp]
      constructor
      · rintro (rfl | ⟨h1, _⟩ | h1)
        · exact Or.inl Sub.self
        · exact Or.inl h1
        · exact Or.inr h1
      · rintro (h1 | h1)
        · by_cases hx : x = c
          · exact Or.inl hx
          · exact Or.inr (Or.inl ⟨h1, hx⟩)
        · exact Or.inr (Or.inr h1)
    · rw [List.cons_append, List.nodup_cons, List.nodup_append]
      refine ⟨?_, l2, r2, ?_⟩
      · rw [List.mem_append, l1, r1]
        rintro (⟨_, h1⟩ | ⟨c1, hc1, h1⟩)
        · exact h1 rfl
        · exact hdisj c Sub.self c1 hc1 h1
      · intro x hx1 hx2
        rw [l1] at hx1
        rw [r1] at hx2
        obtain ⟨c1, hc1, h1⟩ := hx2
        exact hdisj x hx1.1 c1 hc1 h1

/-- The method `Directory::GetDirEntriesRecursive` returns, once the stack budget exceeds the
depth of the tree below `d`, every entry below `d` exactly once, and not `d`. -/
theorem Directory.GetDirEntriesRecursive_spec {h : Heap} {n m : Nat} {dep : Nat → Nat}
    (s : Shape h n) (g : Graded h n dep m) :
    ∀ (fuel : Nat) (d : Nat), d < n → m < fuel + dep d →
      ∃ l, Directory.GetDirEntriesRecursive fuel h d = some l ∧
        (∀ x, x ∈ l ↔ Sub h d x ∧ x ≠ d) ∧ l.Nodup
  | 0, d, hd, hf => by
    have := (g d hd).1
    omega
  | fuel + 1, d, hd, hf => by
    obtain ⟨r, e, r1, r2⟩ := collectEntries_spec s g (Directory.GetDirEntriesRecursive fuel h) d
      hd (fun d0 hd0 hdep => Directory.GetDirEntriesRecursive_spec s g fuel d0 hd0 (by omega))
      (h d).directories (fun _ hc => hc) (s d hd).2.2.1
    have hfiles : ∀ f ∈ (h d).files, f ≠ d ∧ ∀ c ∈ (h d).directories, ¬ Sub h c f := by
      intro f hf1
      have h1 := s.parent_of_file hd hf1
      have h2 := (g _ h1.1).2 _ h1.2.2
      refine ⟨by rintro rfl; omega, ?_⟩
      intro c hc hs
      have h3 := s.parent_of_dir hd hc
      have h4 := (g _ h3.1).2 _ h3.2.2
      rcases hs.dep s g h3.1 with e1 | e1
      · subst e1
        rw [h3.2.1] at h1
        cases h1.2.1
      · omega
    have hdnot : ∀ c ∈ (h d).directories, ¬ Sub h c d := by
      intro c hc hs
      have h3 := s.parent_of_dir hd hc
      have h4 := (g _ h3.1).2 _ h3.2.2
      rcases hs.dep s g h3.1 with e1 | e1
      · subst e1; omega
      · omega
    refine ⟨(h d).files ++ r, ?_, ?_, ?_⟩
    · unfold Directory.GetDirEntriesRecursive
      rw [e]
    · intro x
      rw [List.mem_append, r1]
      constructor
      · rintro (h1 | ⟨c, hc, h1⟩)
        · exact ⟨Sub.file Sub.self h1, (hfiles x h1).1⟩
        · exact ⟨Sub.trans (Sub.dir Sub.self hc) h1, fun e1 => hdnot c hc (e1 ▸ h1)⟩
      · rintro ⟨h1, h2⟩
        rcases h1.top s hd with e1 | e1 | e1
        · exact absurd e1 h2
        · exact Or.inl e1
        · exact Or.inr e1
    · rw [List.nodup_append]
      refine ⟨(s d hd).2.2.2.1, r2, ?_⟩
      intro x hx1 hx2
      rw [r1] at hx2
      obtain ⟨c, hc, h1⟩ := hx2
      exact (hfiles x hx1).2 c hc h1

/-! ## The path index -/

theorem mapFind_mem : ∀ (m : List (Path × Nat)) (k : Path) (v : Nat),
    mapFind m k = some v → (k, v) ∈ m
  | [], _, _, e => by simp [mapFind] at e
  | (k1, v1) :: m, k, v, e => by
    unfold mapFind at e
    split_ifs at e with h1
    · cases e; subst h1; exact List.mem_cons_self _ _
    · exact List.mem_cons_of_mem _ (mapFind_mem m k v e)

theorem mapFind_erase : ∀ (m : List (Path × Nat)) (k q : Path),
    mapFind (mapErase m k) q = if q = k then none else mapFind m q
  | [], _, _ => by simp [mapErase, mapFind]
  | (k1, v1) :: m, k, q => by
    have ih := mapFind_erase m k q
    unfold mapErase at ih ⊢
    by_cases h1 : k1 = k
    · subst h1
      simp only [List.filter, ne_eq, not_true_eq_false, decide_False]
      rw [ih]
      by_cases h2 : q = k1
      · simp [h2]
      · simp only [h2, if_false, mapFind]
        rw [if_neg (fun e => h2 e.symm)]
    · simp only [List.filter, ne_eq, h1, not_false_eq_true, decide_True, mapFind]
      by_cases h3 : k1 = q
      · subst h3
        simp [h1]
      · simp only [h3, if_false]
        exact ih

theorem mapFind_append (m : List (Path × Nat)) (k q : Path) (v : Nat) :
    mapFind (m ++ [(k, v)]) q =
      match mapFind m q with
      | some w => some w
      | none => if k = q then some v else none := by
  induction m with
  | nil => simp [mapFind]
  | cons kv m ih =>
    obtain ⟨k1, v1⟩ := kv
    rw [List.cons_append]
    unfold mapFind
    by_cases h1 : k1 = q
    · simp [h1]
    · simp only [h1, if_false]
      exact ih

theorem mapFind_insert (m : List (Path × Nat)) (k q : Path) (v : Nat)
    (hk : mapFind m k = none) :
    mapFind (mapInsert m k v) q = if q = k then some v else mapFind m q := by
  unfold mapInsert
  rw [hk]
  simp only
  rw [mapFind_append]
  by_cases h1 : q = k
  · subst h1
    simp [hk]
  · have h2 : ¬ k = q := fun e => h1 e.symm
    simp only [h1, h2, if_false]
    cases mapFind m q <;> rfl

theorem mapInsert_bound (m : List (Path × Nat)) (k : Path) (v w : Nat)
    (hk : mapFind m k = some w) : mapInsert m k v = m := by
  unfold mapInsert
  rw [hk]

/-! ## `ProcessPathChanges` -/

theorem notify_fields (t : DirectoryTree) (cb : Callback) (e : Nat) (o : Option Path) :
    (t.notify cb e o).heap = t.heap ∧ (t.notify cb e o).next = t.next ∧
    (t.notify cb e o).directories = t.directories ∧ (t.notify cb e o).rootDir = t.rootDir ∧
    (t.notify cb e o).listeners = t.listeners :=
  ⟨rfl, rfl, rfl, rfl, rfl⟩

theorem notify_log (t : DirectoryTree) (cb : Callback) (e : Nat) (o : Option Path) :
    (t.notify cb e o).log = t.log ++ t.listeners.map (fun l =>
      { listener := l, callback := cb, entity := e, oldPath := o, heap := t.heap }) :=
  rfl

/-- The method `ProcessPathChanges` leaves the objects alone, re-keys the index and appends
its listener calls to the log. -/
theorem ProcessPathChanges_spec :
    ∀ (es : List (Nat × Path)) (t : DirectoryTree),
      (t.ProcessPathChanges es).heap = t.heap ∧ (t.ProcessPathChanges es).next = t.next ∧
      (t.ProcessPathChanges es).rootDir = t.rootDir ∧
      (t.ProcessPathChanges es).listeners = t.listeners ∧
      (t.ProcessPathChanges es).directories = rekey t.heap t.directories es ∧
      ∃ ds, (t.ProcessPathChanges es).log = t.log ++ ds ∧
        ds.map Delivery.toCall = pathChangedCalls t.listeners t.heap es
  | [], t => ⟨rfl, rfl, rfl, rfl, rfl, [], by simp [DirectoryTree.ProcessPathChanges], rfl⟩
  | e :: es, t => by
    unfold DirectoryTree.ProcessPathChanges
    by_cases hk : IsDirectory t.heap e.1 = true
    · simp only [hk, if_true]
      obtain ⟨i1, i2, i3, i4, i5, ds, i6, i7⟩ := ProcessPathChanges_spec es
        ({ t with directories :=
              mapInsert (mapErase t.directories e.2) (GetPath t.heap e.1) e.1 }
          |>.NotifyDirectoryPathChanged e.1 e.2)
      refine ⟨i1, i2, i3, i4, ?_, ?_⟩
      · rw [i5]
        simp only [rekey, hk, if_true]
        rfl
      · refine ⟨t.listeners.map (fun l =>
          { listener := l, callback := .OnDirectoryPathChanged, entity := e.1,
            oldPath := some e.2, heap := t.heap }) ++ ds, ?_, ?_⟩
        · rw [i6]
          simp only [DirectoryTree.NotifyDirectoryPathChanged, notify_log, List.append_assoc]
        · rw [List.map_append, i7]
          simp only [pathChangedCalls, hk, if_true, List.map_map]
          rfl
    · simp only [if_neg hk]
      obtain ⟨i1, i2, i3, i4, i5, ds, i6, i7⟩ := ProcessPathChanges_spec es
        (t.NotifyFilePathChanged e.1 e.2)
      refine ⟨i1, i2, i3, i4, ?_, ?_⟩
      · rw [i5]
        simp only [rekey, if_neg hk]
        rfl
      · refine ⟨t.listeners.map (fun l =>
          { listener := l, callback := .OnFilePathChanged, entity := e.1,
            oldPath := some e.2, heap := t.heap }) ++ ds, ?_, ?_⟩
        · rw [i6]
          simp only [DirectoryTree.NotifyFilePathChanged, notify_log, List.append_assoc]
        · rw [List.map_append, i7]
          simp only [pathChangedCalls, if_neg hk, List.map_map]
          rfl

theorem pathChangedCalls_length (ls : List Nat) (h : Heap) :
    ∀ (es : List (Nat × Path)), (pathChangedCalls ls h es).length = es.length * ls.length
  | [] => by simp [pathChangedCalls]
  | e :: es => by
    simp only [pathChangedCalls, List.length_append, List.length_map, List.length_cons,
      pathChangedCalls_length ls h es]
    rw [Nat.succ_mul]
    omega

theorem callsAfter_of_log (t t1 : DirectoryTree) (ds : List Delivery)
    (e : t1.log = t.log ++ ds) : t1.callsAfter t.log.length = ds.map Delivery.toCall := by
  unfold DirectoryTree.callsAfter
  rw [e, List.drop_left]

/-- Re-keying, when no new key is bound beforehand, the new keys are pairwise different and
no new key is an old key of the list: every directory of the list ends up under its new
key, and any other key is unbound if it was an old key and keeps its binding otherwise. -/
theorem rekey_spec (h : Heap) :
    ∀ (es : List (Nat × Path)) (m : List (Path × Nat)),
      (∀ e ∈ es, IsDirectory h e.1 = true → mapFind m (GetPath h e.1) = none) →
      es.Pairwise (fun e e1 => IsDirectory h e.1 = true → IsDirectory h e1.1 = true →
        GetPath h e.1 ≠ GetPath h e1.1) →
      (∀ e ∈ es, ∀ e1 ∈ es, IsDirectory h e.1 = true → IsDirectory h e1.1 = true →
        GetPath h e.1 ≠ e1.2) →
      (∀ e ∈ es, IsDirectory h e.1 = true → mapFind (rekey h m es) (GetPath h e.1) = some e.1) ∧
      (∀ q, (∀ e ∈ es, IsDirectory h e.1 = true → GetPath h e.1 ≠ q) →
        mapFind (rekey h m es) q =
          if ∃ e ∈ es, IsDirectory h e.1 = true ∧ e.2 = q then none else mapFind m q)
  | [], m, _, _, _ => by simp [rekey]
  | e :: es, m, hC, hB, hA => by
    by_cases hk : IsDirectory h e.1 = true
    · have hCe := hC e (List.mem_cons_self _ _) hk
      have hfind : ∀ q, mapFind (mapInsert (mapErase m e.2) (GetPath h e.1) e.1) q =
          if q = GetPath h e.1 then some e.1 else if q = e.2 then none else mapFind m q := by
        intro q
        rw [mapFind_insert _ _ _ _ (by rw [mapFind_erase, hCe]; simp), mapFind_erase]
      obtain ⟨i1, i2⟩ := rekey_spec h es (mapInsert (mapErase m e.2) (GetPath h e.1) e.1)
        (by
          intro e1 he1 hk1
          rw [hfind]
          have hne := (List.pairwise_cons.mp hB).1 e1 he1 hk hk1
          rw [if_neg (fun c => hne c.symm), hC e1 (List.mem_cons_of_mem _ he1) hk1]
          simp)
        (List.pairwise_cons.mp hB).2
        (fun e1 he1 e2 he2 => hA e1 (List.mem_cons_of_mem _ he1) e2 (List.mem_cons_of_mem _ he2))
      have hrk : rekey h m (e :: es) =
          rekey h (mapInsert (mapErase m e.2) (GetPath h e.1) e.1) es := by
        simp only [rekey, hk, if_true]
      rw [hrk]
      constructor
      · intro e1 he1 hk1
        rcases List.mem_cons.mp he1 with rfl | he1
        · rw [i2 _ (fun e2 he2 hk2 => ((List.pairwise_cons.mp hB).1 e2 he2 hk hk2).symm)]
          rw [if_neg, hfind, if_pos rfl]
          rintro ⟨e2, he2, hk2, h2⟩
          exact hA e1 (List.mem_cons_self _ _) e2 (List.mem_cons_of_mem _ he2) hk hk2 h2.symm
        · exact i1 e1 he1 hk1
      · intro q hq
        have hqn : ¬ q = GetPath h e.1 := fun c => hq e (List.mem_cons_self _ _) hk c.symm
        rw [i2 q (fun e1 he1 hk1 => hq e1 (List.mem_cons_of_mem _ he1) hk1), hfind]
        simp only [hqn, if_false]
        by_cases h1 : ∃ e1 ∈ es, IsDirectory h e1.1 = true ∧ e1.2 = q
        · rw [if_pos h1, if_pos]
          obtain ⟨e1, he1, h2⟩ := h1
          exact ⟨e1, List.mem_cons_of_mem _ he1, h2⟩
        · rw [if_neg h1]
          by_cases h2 : q = e.2
          · rw [if_pos h2, if_pos]
            exact ⟨e, List.mem_cons_self _ _, hk, h2.symm⟩
          · rw [if_neg h2, if_neg]
            rintro ⟨e1, he1, hk1, h3⟩
            rcases List.mem_cons.mp he1 with rfl | he1
            · exact h2 h3.symm
            · exact h1 ⟨e1, he1, hk1, h3⟩
    · obtain ⟨i1, i2⟩ := rekey_spec h es m
        (fun e1 he1 => hC e1 (List.mem_cons_of_mem _ he1))
        (List.pairwise_cons.mp hB).2
        (fun e1 he1 e2 he2 => hA e1 (List.mem_cons_of_mem _ he1) e2 (List.mem_cons_of_mem _ he2))
      have hrk : rekey h m (e :: es) = rekey h m es := by
        simp only [rekey, if_neg hk]
      rw [hrk]
      constructor
      · intro e1 he1 hk1
        rcases List.mem_cons.mp he1 with rfl | he1
        · exact absurd hk1 hk
        · exact i1 e1 he1 hk1
      · intro q hq
        rw [i2 q (fun e1 he1 hk1 => hq e1 (List.mem_cons_of_mem _ he1) hk1)]
        by_cases h1 : ∃ e1 ∈ es, IsDirectory h e1.1 = true ∧ e1.2 = q
        · rw [if_pos h1, if_pos]
          obtain ⟨e1, he1, h2⟩ := h1
          exact ⟨e1, List.mem_cons_of_mem _ he1, h2⟩
        · rw [if_neg h1, if_neg]
          rintro ⟨e1, he1, hk1, h3⟩
          rcases List.mem_cons.mp he1 with rfl | he1
          · exact hk hk1
          · exact h1 ⟨e1, he1, hk1, h3⟩

/-! ## Well-formed trees -/

theorem GoodIndex.find {t : DirectoryTree} {root : Nat} (gi : GoodIndex t root) {k : Path}
    {v : Nat} (hf : mapFind t.directories k = some v) :
    v < t.next ∧ (t.heap v).kind = .DIRECTORY ∧ (t.heap v).dirEntryPath = k ∧
    (v = root ∨ ∃ p ∈ (t.heap v).parentDir,
      mapFind t.directories (t.heap p).dirEntryPath = some p) ∧
    (∀ c ∈ (t.heap v).directories, mapFind t.directories (t.heap c).dirEntryPath = some c) :=
  gi (k, v) (mapFind_mem _ _ _ hf) hf

theorem Directory.GetDirectory_some {h : Heap} {P d : Nat} {name : String}
    (e : Directory.GetDirectory h P name = some d) :
    d ∈ (h P).directories ∧ GetDirectoryName h d = name := by
  unfold Directory.GetDirectory at e
  have h1 := List.find?_some e
  have h2 := List.mem_of_find?_eq_some e
  simp only [decide_eq_true_eq] at h1
  exact ⟨h2, h1.symm⟩

theorem Directory.GetFile_some {h : Heap} {P f : Nat} {name : String}
    (e : Directory.GetFile h P name = some f) :
    f ∈ (h P).files ∧ GetFullFileName h f = name := by
  unfold Directory.GetFile at e
  have h1 := List.find?_some e
  have h2 := List.mem_of_find?_eq_some e
  simp only [decide_eq_true_eq] at h1
  exact ⟨h2, h1.symm⟩

theorem SoundTree.lookup {t : DirectoryTree} (st : SoundTree t) {k : Path} {v : Nat}
    (hf : t.GetDirectory k = some v) : v < t.next ∧ (t.heap v).kind = .DIRECTORY :=
  st.2 (k, v) (mapFind_mem _ _ _ hf) hf

theorem GoodTree.sound {t : DirectoryTree} (gt : GoodTree t) : SoundTree t := by
  obtain ⟨root, _, gh, _, _, _, _, _, gi⟩ := gt
  exact ⟨gh, fun kv hm hf => ⟨(gi kv hm hf).1, (gi kv hm hf).2.1⟩⟩

/-- `RenameDirectory` returns: the listing, the renaming cascade and the resulting tree. -/
theorem RenameDirectory_returns {t : DirectoryTree} (st : SoundTree t) {oldPath newPath : Path}
    {P Q d : Nat} (hP : t.GetDirectory (parent_path oldPath) = some P)
    (hQ : t.GetDirectory (parent_path newPath) = some Q)
    (hd : Directory.GetDirectory t.heap P (filename oldPath) = some d) :
    ∃ f0, ∀ fuel, f0 ≤ fuel → ∃ l h1,
      Directory.GetDirEntriesRecursive fuel t.heap d = some l ∧
      (∀ x, x ∈ l ↔ Sub t.heap d x ∧ x ≠ d) ∧ l.Nodup ∧
      Directory.Rename fuel t.heap d (filename newPath) = some h1 ∧
      UpdatedBelow (renamed t.heap d (filename newPath)) h1 d ∧ GoodHeap h1 t.next ∧
      t.RenameDirectory fuel oldPath newPath =
        .ok ({ t with heap := h1 }.ProcessPathChanges
          ((d, GetPath t.heap d) :: l.map (fun e => (e, GetPath t.heap e)))) := by
  have gh := st.1
  have hPn := (st.lookup hP).1
  have hdm := (Directory.GetDirectory_some hd).1
  have hdn := (gh.1.parent_of_dir hPn hdm).1
  obtain ⟨m, g⟩ := gh.grading
  obtain ⟨f1, hf1⟩ := Directory.Rename_spec gh hdn (filename newPath)
  refine ⟨max f1 (m + 1), fun fuel hf => ?_⟩
  obtain ⟨l, e1, l1, l2⟩ := Directory.GetDirEntriesRecursive_spec gh.1 g fuel d hdn
    (by have := le_max_right f1 (m + 1); omega)
  obtain ⟨h1, e2, u, g1⟩ := hf1 fuel (le_trans (le_max_left _ _) hf)
  refine ⟨l, h1, e1, l1, l2, e2, u, g1, ?_⟩
  unfold DirectoryTree.RenameDirectory DirectoryTree.ConstructDirEntityPathPairs
  rw [hP, hQ]
  simp only [hd, e1, e2]

/-- `MoveDirectory` returns when the destination parent lies outside the moved subtree:
the listing, the two cascades and the resulting tree. -/
theorem MoveDirectory_returns {t : DirectoryTree} (st : SoundTree t) {oldPath newPath : Path}
    {P Q d : Nat} (hP : t.GetDirectory (parent_path oldPath) = some P)
    (hQ : t.GetDirectory (parent_path newPath) = some Q)
    (hd : Directory.GetDirectory t.heap P (filename oldPath) = some d)
    (hnot : ¬ Sub t.heap d Q) :
    ∃ f0, ∀ fuel, f0 ≤ fuel → ∃ l h1 h2,
      Directory.GetDirEntriesRecursive fuel t.heap d = some l ∧
      (∀ x, x ∈ l ↔ Sub t.heap d x ∧ x ≠ d) ∧ l.Nodup ∧
      Directory.DeleteDirectory fuel t.heap P d = some h1 ∧
      UpdatedBelow (detached t.heap P d) h1 d ∧ GoodHeap h1 t.next ∧
      Directory.AddDirectoryToDirectory fuel h1 Q d = some h2 ∧
      UpdatedBelow (attached h1 Q d) h2 d ∧ GoodHeap h2 t.next ∧
      t.MoveDirectory fuel oldPath newPath =
        .ok ({ t with heap := h2 }.ProcessPathChanges
          ((d, GetPath t.heap d) :: l.map (fun e => (e, GetPath t.heap e)))) := by
  have gh := st.1
  have hPn := (st.lookup hP).1
  have hQn := (st.lookup hQ).1
  have hQk := (st.lookup hQ).2
  have hdm := (Directory.GetDirectory_some hd).1
  obtain ⟨hdn, hdk, hdp⟩ := gh.1.parent_of_dir hPn hdm
  have hPd : P ≠ d := gh.parent_ne hdn hdp
  obtain ⟨m, g⟩ := gh.grading
  refine ⟨m + m + 2, fun fuel hf => ?_⟩
  obtain ⟨l, e1, l1, l2⟩ := Directory.GetDirEntriesRecursive_spec gh.1 g fuel d hdn (by omega)
  obtain ⟨h1, e2, u1, g1, gr1⟩ := Directory.DeleteDirectory_budget gh g hPn hdm fuel (by omega)
  obtain ⟨h2, e4, u2, g2⟩ := Directory.AddDirectoryToDirectory_budget g1 gr1 hQn hdn
    (by rw [u1.1.kind, detached_kind hPd]; exact hQk)
    (by rw [u1.1.kind, detached_kind hPd]; exact hdk)
    (by rw [u1.1.parentDir, detached_parent_self hPd])
    (by rw [u1.1.sub_iff, detach_sub gh hPn hdm]; exact hnot) fuel (by omega)
  refine ⟨l, h1, h2, e1, l1, l2, e2, u1, g1, e4, u2, g2, ?_⟩
  unfold DirectoryTree.MoveDirectory DirectoryTree.ConstructDirEntityPathPairs
  rw [hP, hQ]
  simp only [hd, e1, e2, e4]

/-! ## Keys and positions -/

/-- Below `d`, the cached paths before and after a change that keeps parents and names
differ only in the leading path of `d`. -/
theorem relative_paths {h h1 : Heap} {n d : Nat} (gh : GoodHeap h n) (g1 : GoodHeap h1 n)
    (hd : d < n)
    (hsame : ∀ x, Sub h d x → x ≠ d → (h1 x).parentDir = (h x).parentDir ∧
      filename (h1 x).dirEntryPath = filename (h x).dirEntryPath) :
    ∀ x, Sub h d x → ∃ r, (h x).dirEntryPath = (h d).dirEntryPath ++ r ∧
      (h1 x).dirEntryPath = (h1 d).dirEntryPath ++ r := by
  obtain ⟨m, g⟩ := gh.grading
  have step : ∀ p c, Sub h d p → (h c).parentDir = some p → c < n → Sub h d c →
      (∃ r, (h p).dirEntryPath = (h d).dirEntryPath ++ r ∧
        (h1 p).dirEntryPath = (h1 d).dirEntryPath ++ r) →
      ∃ r, (h c).dirEntryPath = (h d).dirEntryPath ++ r ∧
        (h1 c).dirEntryPath = (h1 d).dirEntryPath ++ r := by
    intro p c hp hcp hcn hc ⟨r, r1, r2⟩
    have hcd : c ≠ d := by
      rintro rfl
      have := (g c hcn).2 p hcp
      rcases hp.dep gh.1 g hd with e | e
      · subst e; simp only at this; omega
      · simp only at this e; omega
    obtain ⟨s1, s2⟩ := hsame c hc hcd
    refine ⟨r ++ [filename (h c).dirEntryPath], ?_, ?_⟩
    · have e := gh.2 c hcn p hcp
      rw [r1, List.append_assoc] at e
      exact e
    · have e := g1.2 c hcn p (by rw [s1]; exact hcp)
      rw [r2, s2, List.append_assoc] at e
      exact e
  intro x hs
  induction hs with
  | self => exact ⟨[], by simp, by simp⟩
  | dir hp hc ih =>
    have t := gh.1.parent_of_dir (hp.lt gh.1 hd) hc
    exact step _ _ hp t.2.2 t.1 (Sub.dir hp hc) ih
  | file hp hf ih =>
    have t := gh.1.parent_of_file (hp.lt gh.1 hd) hf
    exact step _ _ hp t.2.2 t.1 (Sub.file hp hf) ih

/-- Every directory below an indexed directory is indexed under its path. -/
theorem indexed_below {t : DirectoryTree} {root d : Nat} (gh : GoodHeap t.heap t.next)
    (gi : GoodIndex t root) (hd : mapFind t.directories (t.heap d).dirEntryPath = some d) :
    ∀ x, Sub t.heap d x → (t.heap x).kind = .DIRECTORY →
      mapFind t.directories (t.heap x).dirEntryPath = some x := by
  have hdn := (gi.find hd).1
  intro x hs
  induction hs with
  | self => exact fun _ => hd
  | dir hp hc ih =>
    intro _
    have t1 := gh.1.parent_of_dir (hp.lt gh.1 hdn) hc
    have t2 := gh.1.parent_is_dir t1.1 t1.2.2
    exact (gi.find (ih t2.2)).2.2.2.2 _ hc
  | file hp hf ih =>
    intro hk
    have t1 := gh.1.parent_of_file (hp.lt gh.1 hdn) hf
    rw [t1.2.1] at hk
    cases hk

/-- No key of the index is the empty path. -/
theorem GoodTree.key_ne_nil {t : DirectoryTree} (gt : GoodTree t) {k : Path} {v : Nat}
    (hf : t.GetDirectory k = some v) : k ≠ [] := by
  obtain ⟨root, _, gh, _, _, _, hrp, _, gi⟩ := gt
  obtain ⟨hv, _, hp, hpar, _⟩ := gi.find hf
  rintro rfl
  rcases hpar with rfl | ⟨p, hpp, _⟩
  · rw [hp] at hrp
    cases hrp
  · have := gh.2 v hv p hpp
    rw [hp] at this
    have := congrArg List.length this
    simp at this

/-- A key `q / name / ...` of the index leads through a child directory of the directory
indexed under `q` that is called `name`. -/
theorem key_ancestor {t : DirectoryTree} (gt : GoodTree t) {q : Path} {Q : Nat} {nm : String}
    (hQ : t.GetDirectory q = some Q) :
    ∀ (r : Path) (y : Nat), t.GetDirectory (q ++ nm :: r) = some y →
      ∃ c ∈ (t.heap Q).directories, GetDirectoryName t.heap c = nm ∧ Sub t.heap c y := by
  have hq := gt.key_ne_nil hQ
  obtain ⟨root, _, gh, hrn, hrk, hrpar, hrp, _, gi⟩ := gt
  have hparent : ∀ (k : Path) (z : String) (y : Nat), mapFind t.directories (k ++ [z]) = some y →
      k ≠ [] → ∃ p, (t.heap y).parentDir = some p ∧ mapFind t.directories k = some p ∧
        filename (t.heap y).dirEntryPath = z ∧ y ∈ (t.heap p).directories := by
    intro k z y hy hk
    obtain ⟨hv, hyk, hp, hpar, _⟩ := gi.find hy
    rcases hpar with rfl | ⟨p, hpp, hpi⟩
    · rw [hp] at hrp
      have := congrArg List.length hrp
      simp only [List.length_append, List.length_singleton] at this
      have : k.length = 0 := by omega
      exact absurd (List.length_eq_zero.mp this) hk
    · have e := gh.2 y hv p hpp
      rw [hp] at e
      obtain ⟨e1, e2⟩ := List.append_inj' e rfl
      have hfn : filename (t.heap y).dirEntryPath = z := by
        rw [hp]; simp
      refine ⟨p, hpp, by rw [e1]; exact hpi, hfn, ?_⟩
      obtain ⟨_, _, h1, _⟩ := (gh.1 y hv).2.2.2.2 p hpp
      exact h1 hyk
  intro r
  induction r using List.reverseRecOn with
  | nil =>
    intro y hy
    obtain ⟨p, _, hpq, hfn, hmem⟩ := hparent q nm y hy hq
    have : p = Q := by
      have h1 : mapFind t.directories q = some Q := hQ
      rw [hpq] at h1
      exact Option.some.inj h1
    subst this
    exact ⟨y, hmem, hfn, Sub.self⟩
  | append_singleton r z ih =>
    intro y hy
    have e : q ++ nm :: (r ++ [z]) = (q ++ nm :: r) ++ [z] := by simp
    have hy1 : mapFind t.directories ((q ++ nm :: r) ++ [z]) = some y := by
      rw [← e]; exact hy
    obtain ⟨p, _, hpq, _, hmem⟩ := hparent (q ++ nm :: r) z y hy1 (by simp)
    obtain ⟨c, hc, hcn, hs⟩ := ih p hpq
    exact ⟨c, hc, hcn, Sub.dir hs hmem⟩

theorem IsDirectory_iff (h : Heap) (e : Nat) :
    IsDirectory h e = true ↔ (h e).kind = .DIRECTORY := by
  simp [IsDirectory]

/-- Re-keying a renamed or moved subtree.  `h1` is the store after the structural change to
the subtree of `d`, whose new parent is `P1`; the new paths are unbound beforehand and
pairwise different.  Then the re-keyed index binds every directory below `d` under its new
path, unbinds the old paths, keeps every other binding, and the tree is well formed. -/
theorem rekeyed_goodTree {t t1 : DirectoryTree} (gt : GoodTree t) {d P0 P1 : Nat} {l : List Nat}
    {h1 : Heap} (hdp : (t.heap d).parentDir = some P0)
    (hdi : t.GetDirectory (t.heap d).dirEntryPath = some d)
    (hl : ∀ x, x ∈ l ↔ Sub t.heap d x ∧ x ≠ d) (hnd : l.Nodup)
    (g1 : GoodHeap h1 t.next)
    (hk : ∀ x, (h1 x).kind = (t.heap x).kind)
    (hout : ∀ x, ¬ Sub t.heap d x → (h1 x).dirEntryPath = (t.heap x).dirEntryPath ∧
      (h1 x).parentDir = (t.heap x).parentDir)
    (hin : ∀ x, Sub t.heap d x → x ≠ d → (h1 x).parentDir = (t.heap x).parentDir)
    (hpar : (h1 d).parentDir = some P1) (hP1 : ¬ Sub t.heap d P1)
    (hP1i : t.GetDirectory (t.heap P1).dirEntryPath = some P1)
    (hdirs : ∀ x c, c ∈ (h1 x).directories → c ∈ (t.heap x).directories ∨ c = d)
    (hfree : ∀ x, Sub t.heap d x → (t.heap x).kind = .DIRECTORY →
      t.GetDirectory (h1 x).dirEntryPath = none)
    (hinj : ∀ x y, Sub t.heap d x → Sub t.heap d y → (t.heap x).kind = .DIRECTORY →
      (t.heap y).kind = .DIRECTORY → (h1 x).dirEntryPath = (h1 y).dirEntryPath → x = y)
    (e1 : t1.heap = h1) (e2 : t1.next = t.next) (e3 : t1.rootDir = t.rootDir)
    (e4 : t1.directories =
      rekey h1 t.directories ((d :: l).map (fun e => (e, GetPath t.heap e)))) :
    (∀ x, Sub t.heap d x → (t.heap x).kind = .DIRECTORY →
      t1.GetDirectory (h1 x).dirEntryPath = some x) ∧
    (∀ q, (∀ x, Sub t.heap d x → (t.heap x).kind = .DIRECTORY → (h1 x).dirEntryPath ≠ q) →
      ((∃ x, Sub t.heap d x ∧ (t.heap x).kind = .DIRECTORY ∧ (t.heap x).dirEntryPath = q) →
        t1.GetDirectory q = none) ∧
      ((∀ x, Sub t.heap d x → (t.heap x).kind = .DIRECTORY → (t.heap x).dirEntryPath ≠ q) →
        t1.GetDirectory q = t.GetDirectory q)) ∧
    GoodTree t1 := by
  have gt0 := gt
  obtain ⟨root, hroot, gh, hrn, hrk, hrpar, hrp, hri, gi⟩ := gt
  have hdn : d < t.next := (gi.find hdi).1
  have hmem : ∀ e : Nat × Path, e ∈ (d :: l).map (fun e => (e, GetPath t.heap e)) ↔
      Sub t.heap d e.1 ∧ e.2 = GetPath t.heap e.1 := by
    intro e
    simp only [List.mem_map, List.mem_cons, hl]
    constructor
    · rintro ⟨a, ha, rfl⟩
      refine ⟨?_, rfl⟩
      rcases ha with rfl | ha
      · exact Sub.self
      · exact ha.1
    · rintro ⟨h2, h3⟩
      refine ⟨e.1, ?_, ?_⟩
      · by_cases h4 : e.1 = d
        · exact Or.inl h4
        · exact Or.inr ⟨h2, h4⟩
      · rw [← h3]
  have hib := indexed_below gh gi hdi
  obtain ⟨r3, r4⟩ := rekey_spec h1 ((d :: l).map (fun e => (e, GetPath t.heap e))) t.directories
    (by
      intro e he hke
      rw [hmem] at he
      rw [IsDirectory_iff, hk] at hke
      exact hfree e.1 he.1 hke)
    (by
      rw [List.pairwise_map]
      have hnd1 : (d :: l).Nodup := by
        rw [List.nodup_cons]
        exact ⟨fun hm => ((hl d).mp hm).2 rfl, hnd⟩
      refine List.Pairwise.imp_of_mem ?_ hnd1
      intro a b ha hb hab hka hkb hp
      rw [IsDirectory_iff, hk] at hka hkb
      have sa : Sub t.heap d a := by
        rcases List.mem_cons.mp ha with rfl | ha
        · exact Sub.self
        · exact ((hl a).mp ha).1
      have sb : Sub t.heap d b := by
        rcases List.mem_cons.mp hb with rfl | hb
        · exact Sub.self
        · exact ((hl b).mp hb).1
      exact hab (hinj a b sa sb hka hkb hp))
    (by
      intro e he e0 he0 hke hke0 hp
      rw [hmem] at he he0
      rw [IsDirectory_iff, hk] at hke hke0
      have h2 := hfree e.1 he.1 hke
      have h3 := hib e0.1 he0.1 hke0
      unfold GetPath at hp
      rw [he0.2] at hp
      unfold GetPath at hp
      unfold DirectoryTree.GetDirectory at h2
      rw [hp, h3] at h2
      cases h2)
  have R3 : ∀ x, Sub t.heap d x → (t.heap x).kind = .DIRECTORY →
      t1.GetDirectory (h1 x).dirEntryPath = some x := by
    intro x hx hkx
    unfold DirectoryTree.GetDirectory
    rw [e4]
    exact r3 (x, GetPath t.heap x) ((hmem _).mpr ⟨hx, rfl⟩) (by rw [IsDirectory_iff, hk]; exact hkx)
  have R4 : ∀ q, (∀ x, Sub t.heap d x → (t.heap x).kind = .DIRECTORY →
        (h1 x).dirEntryPath ≠ q) →
      ((∃ x, Sub t.heap d x ∧ (t.heap x).kind = .DIRECTORY ∧ (t.heap x).dirEntryPath = q) →
        t1.GetDirectory q = none) ∧
      ((∀ x, Sub t.heap d x → (t.heap x).kind = .DIRECTORY → (t.heap x).dirEntryPath ≠ q) →
        t1.GetDirectory q = t.GetDirectory q) := by
    intro q hq
    have := r4 q (by
      intro e he hke
      rw [hmem] at he
      rw [IsDirectory_iff, hk] at hke
      exact hq e.1 he.1 hke)
    unfold DirectoryTree.GetDirectory
    rw [e4, this]
    constructor
    · rintro ⟨x, hx, hkx, hpx⟩
      rw [if_pos]
      exact ⟨(x, GetPath t.heap x), (hmem _).mpr ⟨hx, rfl⟩,
        by rw [IsDirectory_iff, hk]; exact hkx, hpx⟩
    · intro hno
      rw [if_neg]
      rintro ⟨e, he, hke, hpe⟩
      rw [hmem] at he
      rw [IsDirectory_iff, hk] at hke
      apply hno e.1 he.1 hke
      rw [← hpe, he.2]
      rfl
  -- a directory outside the subtree keeps its binding
  have O : ∀ y, ¬ Sub t.heap d y → t.GetDirectory (t.heap y).dirEntryPath = some y →
      t1.GetDirectory (h1 y).dirEntryPath = some y := by
    intro y hy hyi
    rw [(hout y hy).1]
    rw [((R4 (t.heap y).dirEntryPath (by
      intro x hx hkx hp
      have := hfree x hx hkx
      rw [hp, hyi] at this
      cases this)).2 (by
      intro x hx hkx hp
      have := hib x hx hkx
      unfold DirectoryTree.GetDirectory at hyi
      rw [hp, hyi] at this
      cases this
      exact hy hx))]
    exact hyi
  refine ⟨R3, R4, ?_⟩
  have hrs : ¬ Sub t.heap d root := by
    intro hs
    by_cases hrd : root = d
    · subst hrd; rw [hrpar] at hdp; cases hdp
    · obtain ⟨p, hp, _⟩ := hs.parent gh.1 hdn hrd
      rw [hrpar] at hp; cases hp
  refine ⟨root, by rw [e3]; exact hroot, by rw [e1, e2]; exact g1, by rw [e2]; exact hrn,
    by rw [e1, hk]; exact hrk, by rw [e1, (hout root hrs).2]; exact hrpar,
    by rw [e1, (hout root hrs).1]; exact hrp, ?_, ?_⟩
  · have := O root hrs hri
    unfold DirectoryTree.GetDirectory at this
    rw [e1]
    exact this
  · intro kv _ hkv
    obtain ⟨k, v⟩ := kv
    simp only at hkv ⊢
    rw [e1, e2]
    have hkv1 : t1.GetDirectory k = some v := hkv
    -- either `k` is a new key, or the binding is an old one outside the subtree
    by_cases hnew : ∃ x, Sub t.heap d x ∧ (t.heap x).kind = .DIRECTORY ∧ (h1 x).dirEntryPath = k
    · obtain ⟨x, hx, hkx, hpx⟩ := hnew
      have := R3 x hx hkx
      rw [hpx, hkv1] at this
      cases this
      refine ⟨hx.lt gh.1 hdn, by rw [hk]; exact hkx, hpx, ?_, ?_⟩
      · right
        by_cases hvd : v = d
        · subst hvd
          refine ⟨P1, hpar, ?_⟩
          have := O P1 hP1 hP1i
          exact this
        · obtain ⟨p, hp, hps⟩ := hx.parent gh.1 hdn hvd
          refine ⟨p, by rw [hin v hx hvd]; exact hp, ?_⟩
          have hpk := (gh.1.parent_is_dir (hx.lt gh.1 hdn) hp).2
          exact R3 p hps hpk
      · intro c hc
        rcases hdirs v c hc with hc1 | rfl
        · have tc := gh.1.parent_of_dir (hx.lt gh.1 hdn) hc1
          exact R3 c (Sub.dir hx hc1) tc.2.1
        · exact R3 c Sub.self (gi.find hdi).2.1
    · have hnew1 : ∀ x, Sub t.heap d x → (t.heap x).kind = .DIRECTORY →
          (h1 x).dirEntryPath ≠ k := fun x hx hkx hp => hnew ⟨x, hx, hkx, hp⟩
      by_cases hold : ∃ x, Sub t.heap d x ∧ (t.heap x).kind = .DIRECTORY ∧
          (t.heap x).dirEntryPath = k
      · rw [(R4 k hnew1).1 hold] at hkv1
        cases hkv1
      · have hold1 : ∀ x, Sub t.heap d x → (t.heap x).kind = .DIRECTORY →
            (t.heap x).dirEntryPath ≠ k := fun x hx hkx hp => hold ⟨x, hx, hkx, hp⟩
        rw [(R4 k hnew1).2 hold1] at hkv1
        obtain ⟨hvn, hvk, hvp, hvpar, hvc⟩ := gi.find hkv1
        have hvs : ¬ Sub t.heap d v := fun hs => hold ⟨v, hs, hvk, hvp⟩
        refine ⟨hvn, by rw [hk]; exact hvk, by rw [(hout v hvs).1]; exact hvp, ?_, ?_⟩
        · rcases hvpar with hr | ⟨p, hp, hpi⟩
          · exact Or.inl hr
          · right
            refine ⟨p, by rw [(hout v hvs).2]; exact hp, ?_⟩
            have hps : ¬ Sub t.heap d p := fun hs => hvs (Sub.of_parent gh.1 hvn hp hs)
            exact O p hps hpi
        · intro c hc
          rcases hdirs v c hc with hc1 | rfl
          · by_cases hcs : Sub t.heap d c
            · have tc := gh.1.parent_of_dir hvn hc1
              exact R3 c hcs tc.2.1
            · exact O c hcs (hvc c hc1)
          · exact R3 c Sub.self (gi.find hdi).2.1

theorem parent_path_slash_filename {p : Path} (hp : p ≠ []) :
    parent_path p ++ [filename p] = p := by
  unfold parent_path filename
  obtain ⟨a, ha⟩ : ∃ a, p.getLast? = some a := by
    cases h : p.getLast? with
    | none => exact absurd (List.getLast?_eq_none_iff.mp h) hp
    | some a => exact ⟨a, rfl⟩
  rw [ha]
  exact List.dropLast_append_getLast? a ha

theorem parent_path_ne_nil {p : Path} (hp : parent_path p ≠ []) : p ≠ [] := by
  rintro rfl
  exact hp rfl

theorem DirectoryExists_false {h : Heap} {P : Nat} {name : String}
    (e : Directory.DirectoryExists h P name = false) :
    ∀ c ∈ (h P).directories, GetDirectoryName h c ≠ name := by
  unfold Directory.DirectoryExists at e
  intro c hc hn
  have := List.any_eq_false.mp e c hc
  simp [hn] at this

/-- The child directory of an indexed directory, found by name: its position and path. -/
theorem child_found {t : DirectoryTree} (gt : GoodTree t) {path : Path} {P d : Nat}
    (hP : t.GetDirectory (parent_path path) = some P)
    (hd : Directory.GetDirectory t.heap P (filename path) = some d) :
    P < t.next ∧ d < t.next ∧ d ∈ (t.heap P).directories ∧ (t.heap d).kind = .DIRECTORY ∧
    (t.heap d).parentDir = some P ∧ (t.heap P).dirEntryPath = parent_path path ∧
    (t.heap d).dirEntryPath = path ∧ t.GetDirectory path = some d ∧ ¬ Sub t.heap d P ∧
    path ≠ [] := by
  have hne : path ≠ [] := parent_path_ne_nil (gt.key_ne_nil hP)
  obtain ⟨root, _, gh, _, _, _, _, _, gi⟩ := gt
  obtain ⟨hPn, _, hPp, _, hPc⟩ := gi.find hP
  obtain ⟨hdm, hdname⟩ := Directory.GetDirectory_some hd
  obtain ⟨hdn, hdk, hdp⟩ := gh.1.parent_of_dir hPn hdm
  have hpath : (t.heap d).dirEntryPath = path := by
    have := gh.2 d hdn P hdp
    unfold GetDirectoryName at hdname
    rw [this, hPp, hdname]
    exact parent_path_slash_filename hne
  have hdi : t.GetDirectory path = some d := by
    have := hPc d hdm
    rw [hpath] at this
    exact this
  refine ⟨hPn, hdn, hdm, hdk, hdp, hPp, hpath, hdi, ?_, hne⟩
  intro hs
  have := hs.path_prefix gh hdn
  rw [gh.2 d hdn P hdp] at this
  have := this.length_le
  simp at this

/-! ## Renaming a directory -/

/-- `RenameDirectory` to a name unused in the parent: the cascade, the re-keyed index and
the resulting well-formed tree. -/
theorem RenameDirectory_full {t : DirectoryTree} (gt : GoodTree t) {oldPath newPath : Path}
    {P d : Nat} (hP : t.GetDirectory (parent_path oldPath) = some P)
    (hd : Directory.GetDirectory t.heap P (filename oldPath) = some d)
    (hsame : parent_path newPath = parent_path oldPath)
    (hfree : Directory.DirectoryExists t.heap P (filename newPath) = false) :
    ∃ f0, ∀ fuel, f0 ≤ fuel → ∃ t1,
      t.RenameDirectory fuel oldPath newPath = .ok t1 ∧
      GetPath t1.heap d = newPath ∧
      (∀ x, Sub t.heap d x → ∃ r, GetPath t.heap x = oldPath ++ r ∧
        GetPath t1.heap x = newPath ++ r) ∧
      (∀ x, Sub t.heap d x → (t.heap x).kind = .DIRECTORY →
        t.GetDirectory (GetPath t.heap x) = some x ∧
        t1.GetDirectory (GetPath t1.heap x) = some x) ∧
      (∀ q, oldPath <+: q → t1.GetDirectory q = none) ∧
      (∀ q, ¬ oldPath <+: q → ¬ newPath <+: q → t1.GetDirectory q = t.GetDirectory q) ∧
      (∀ x, (t1.heap x).kind = (t.heap x).kind ∧ (t1.heap x).parentDir = (t.heap x).parentDir ∧
        (t1.heap x).directories = (t.heap x).directories ∧
        (t1.heap x).files = (t.heap x).files ∧
        (t1.heap x).lastWriteTime = (t.heap x).lastWriteTime ∧
        (t1.heap x).sortType = (t.heap x).sortType) ∧
      (∀ x, x ≠ d → GetDirectoryName t1.heap x = GetDirectoryName t.heap x) ∧
      GetDirectoryName t1.heap d = filename newPath ∧
      (∀ x, ¬ Sub t.heap d x → t1.heap x = t.heap x) ∧
      t1.next = t.next ∧ t1.rootDir = t.rootDir ∧ t1.listeners = t.listeners ∧
      GoodTree t1 := by
  have hQ : t.GetDirectory (parent_path newPath) = some P := by rw [hsame]; exact hP
  obtain ⟨hPn, hdn, hdm, hdk, hdp, hPp, hdpath, hdi, hPs, hone⟩ := child_found gt hP hd
  have hnne : newPath ≠ [] := parent_path_ne_nil (gt.key_ne_nil hQ)
  obtain ⟨f0, hf0⟩ := RenameDirectory_returns gt.sound hP hQ hd
  have gt0 := gt
  obtain ⟨root, hroot, gh, hrn, hrk, hrpar, hrp, hri, gi⟩ := gt
  refine ⟨f0, fun fuel hf => ?_⟩
  obtain ⟨l, h1, e1, l1, l2, e2, u, g1, e3⟩ := hf0 fuel hf
  obtain ⟨i1, i2, i3, i4, i5, _⟩ := ProcessPathChanges_spec
    ((d, GetPath t.heap d) :: l.map (fun e => (e, GetPath t.heap e))) { t with heap := h1 }
  generalize hT : ({ t with heap := h1 } : DirectoryTree).ProcessPathChanges
    ((d, GetPath t.heap d) :: l.map (fun e => (e, GetPath t.heap e))) = T at e3 i1 i2 i3 i4 i5
  simp only at i1 i2 i3 i4 i5
  obtain ⟨u1, u2, u3, u4⟩ := u
  have hPd : P ≠ d := fun e => hPs (e ▸ Sub.self)
  have hsub : ∀ x, Sub (renamed t.heap d (filename newPath)) d x ↔ Sub t.heap d x :=
    rename_sub t.heap d (filename newPath)
  -- the store after the cascade, field by field
  have hsameF : ∀ x, (h1 x).kind = (t.heap x).kind ∧ (h1 x).parentDir = (t.heap x).parentDir ∧
      (h1 x).directories = (t.heap x).directories ∧ (h1 x).files = (t.heap x).files := by
    intro x
    rw [u1.kind, u1.parentDir, u1.directories, u1.files]
    exact renamed_same t.heap d (filename newPath) x
  have hother : ∀ x, ¬ Sub t.heap d x → h1 x = t.heap x := by
    intro x hx
    rw [u2 x (fun hs => hx ((hsub x).mp hs)), renamed_other]
    rintro rfl
    exact hx Sub.self
  have hnewd : (h1 d).dirEntryPath = newPath := by
    rw [u3, DirectoryEntry.UpdatePath_path, (renamed_same t.heap d _ d).2.1, hdp]
    simp only
    rw [renamed_other t.heap d _ P hPd, renamed_name, hPp, ← hsame]
    exact parent_path_slash_filename hnne
  have hnames : ∀ x, x ≠ d → filename (h1 x).dirEntryPath = filename (t.heap x).dirEntryPath := by
    intro x hx
    rw [u1.name, renamed_other t.heap d _ x hx]
  have hrel := relative_paths gh g1 hdn (fun x hx hxd => ⟨(hsameF x).2.1, hnames x hxd⟩)
  have hib := indexed_below gh gi (by rw [hdpath]; exact hdi)
  have hnewpath : newPath = (t.heap P).dirEntryPath ++ [filename newPath] := by
    rw [hPp, ← hsame]
    exact (parent_path_slash_filename hnne).symm
  have hfreeK : ∀ r y, t.GetDirectory (newPath ++ r) = some y → False := by
    intro r y hy
    rw [hnewpath, List.append_assoc, List.singleton_append] at hy
    obtain ⟨c, hc, hcn, _⟩ := key_ancestor gt0 (by rw [hPp]; exact hP) r y hy
    exact DirectoryExists_false hfree c hc hcn
  have hC : ∀ x, Sub t.heap d x → (t.heap x).kind = .DIRECTORY →
      t.GetDirectory (h1 x).dirEntryPath = none := by
    intro x hx _
    obtain ⟨r, _, r2⟩ := hrel x hx
    rw [r2, hnewd]
    cases hy : t.GetDirectory (newPath ++ r) with
    | none => rfl
    | some y => exact absurd (hfreeK r y hy) id
  have hB : ∀ x y, Sub t.heap d x → Sub t.heap d y → (t.heap x).kind = .DIRECTORY →
      (t.heap y).kind = .DIRECTORY → (h1 x).dirEntryPath = (h1 y).dirEntryPath → x = y := by
    intro x y hx hy hkx hky hp
    obtain ⟨r, r1, r2⟩ := hrel x hx
    obtain ⟨s, s1, s2⟩ := hrel y hy
    rw [r2, s2] at hp
    have hrs := List.append_cancel_left hp
    have h2 := hib x hx hkx
    have h3 := hib y hy hky
    rw [r1, hrs, ← s1, h3] at h2
    exact (Option.some.inj h2).symm
  obtain ⟨R3, R4, R5⟩ := @rekeyed_goodTree _ T gt0 _ _ _ _ _ hdp
    (by rw [hdpath]; exact hdi) l1 l2 g1 (fun x => (hsameF x).1)
    (fun x hx => by rw [hother x hx]; exact ⟨rfl, rfl⟩)
    (fun x _ _ => (hsameF x).2.1) (by rw [(hsameF d).2.1]; exact hdp) hPs
    (by rw [hPp]; exact hP)
    (fun x c hc => Or.inl (by rw [(hsameF x).2.2.1] at hc; exact hc)) hC hB i1 i2 i3 i5
  have hlen : newPath.length = oldPath.length := by
    have a := congrArg List.length (parent_path_slash_filename hnne)
    have b := congrArg List.length (parent_path_slash_filename hone)
    rw [hsame] at a
    simp only [List.length_append, List.length_singleton] at a b
    omega
  have hneq : newPath ≠ oldPath := by
    intro e
    apply DirectoryExists_false hfree d hdm
    unfold GetDirectoryName
    rw [hdpath, e]
  have hnotnew : ∀ q, oldPath <+: q → ∀ x, Sub t.heap d x → (t.heap x).kind = .DIRECTORY →
      (h1 x).dirEntryPath ≠ q := by
    intro q hq x hx _ hp
    obtain ⟨r, _, r2⟩ := hrel x hx
    obtain ⟨s, rfl⟩ := hq
    rw [r2, hnewd] at hp
    exact hneq (List.append_inj hp hlen).1
  refine ⟨T, e3, ?_, ?_, ?_, ?_, ?_, ?_, ?_, ?_, ?_, i2, i3, i4, R5⟩
  · unfold GetPath; rw [i1]; exact hnewd
  · intro x hx
    obtain ⟨r, r1, r2⟩ := hrel x hx
    refine ⟨r, ?_, ?_⟩
    · unfold GetPath; rw [r1, hdpath]
    · unfold GetPath; rw [i1, r2, hnewd]
  · intro x hx hkx
    refine ⟨hib x hx hkx, ?_⟩
    unfold GetPath; rw [i1]
    exact R3 x hx hkx
  · intro q hq
    by_cases hold : ∃ x, Sub t.heap d x ∧ (t.heap x).kind = .DIRECTORY ∧
        (t.heap x).dirEntryPath = q
    · exact (R4 q (hnotnew q hq)).1 hold
    · rw [(R4 q (hnotnew q hq)).2 (fun x hx hkx hp => hold ⟨x, hx, hkx, hp⟩)]
      cases hy : t.GetDirectory q with
      | none => rfl
      | some y =>
        exfalso
        apply hold
        obtain ⟨s, rfl⟩ := hq
        have hy1 := hy
        rw [← parent_path_slash_filename hone, List.append_assoc, List.singleton_append] at hy1
        obtain ⟨c, hc, hcn, hcs⟩ := key_ancestor gt0 hP s y hy1
        have tc := gh.1.parent_of_dir hPn hc
        have hcp : (t.heap c).dirEntryPath = oldPath := by
          have := gh.2 c tc.1 P tc.2.2
          unfold GetDirectoryName at hcn
          rw [this, hPp, hcn]
          exact parent_path_slash_filename hone
        have hcd : c = d := by
          have := (gi.find hP).2.2.2.2 c hc
          rw [hcp] at this
          have h2 : mapFind t.directories oldPath = some d := hdi
          rw [this] at h2
          exact Option.some.inj h2
        subst hcd
        exact ⟨y, hcs, (gi.find hy).2.1, (gi.find hy).2.2.1⟩
  · intro q hq1 hq2
    refine (R4 q ?_).2 ?_
    · intro x hx _ hp
      obtain ⟨r, _, r2⟩ := hrel x hx
      rw [r2, hnewd] at hp
      exact hq2 ⟨r, hp⟩
    · intro x hx _ hp
      obtain ⟨r, r1, _⟩ := hrel x hx
      rw [r1, hdpath] at hp
      exact hq1 ⟨r, hp⟩
  · intro x
    rw [i1]
    refine ⟨(hsameF x).1, (hsameF x).2.1, (hsameF x).2.2.1, (hsameF x).2.2.2, ?_, ?_⟩
    · have := (u1 x).1
      rw [this]
      simp only
      rw [renamed_apply]; split_ifs with hx
      · subst hx; rfl
      · rfl
    · have := (u1 x).1
      rw [this]
      simp only
      rw [renamed_apply]; split_ifs with hx
      · subst hx; rfl
      · rfl
  · intro x hx
    unfold GetDirectoryName
    rw [i1]
    exact hnames x hx
  · unfold GetDirectoryName
    rw [i1, hnewd]
  · intro x hx
    rw [i1]
    exact hother x hx

/-- C2 as stated fails for a rename to the directory's own name.  In the scenario tree,
`RenameDirectory("A/B", "A/B")` satisfies the stated preconditions (same parent, no sibling of
`B` is called `B`), returns, and the key `A/B`, which is `oldPath`, is still bound. -/
theorem rename_to_own_name_keeps_key :
    GoodTree specTree ∧
    specTree.GetDirectory (parent_path ["A", "B"]) = some 0 ∧
    Directory.GetDirectory specTree.heap 0 (filename ["A", "B"]) = some 2 ∧
    (∀ c ∈ (specTree.heap 0).directories, c ≠ 2 → GetDirectoryName specTree.heap c ≠ "B") ∧
    (∀ f ∈ (specTree.heap 0).files, GetFullFileName specTree.heap f ≠ "B") ∧
    (specTree.RenameDirectory 3 ["A", "B"] ["A", "B"]).returned = true ∧
    (specTree.RenameDirectory 3 ["A", "B"] ["A", "B"]).tree.GetDirectory ["A", "B"] =
      some 2 := by
  decide!

/-- C2 (rename cascade), amended.  On a well-formed tree, for a directory `d` found at
`oldPath` and a `newPath` with the same parent whose name no child directory of that parent
has (so `newPath` differs from `oldPath`): `RenameDirectory(oldPath, newPath)` returns once
the stack budget is large enough; afterwards the path of `d` is `newPath`; every entry of
the subtree of `d` has the path `newPath` joined with its old path relative to `oldPath`;
every directory of the subtree, `d` included, was bound in the index under its old path and
is bound under its new path; and no key equal to `oldPath` or lying under it is bound. -/
theorem rename_cascade (t : DirectoryTree) (gt : GoodTree t) (oldPath newPath : Path)
    (P d : Nat) (hP : t.GetDirectory (parent_path oldPath) = some P)
    (hd : Directory.GetDirectory t.heap P (filename oldPath) = some d)
    (hsame : parent_path newPath = parent_path oldPath)
    (hfree : Directory.DirectoryExists t.heap P (filename newPath) = false) :
    ∃ f0, ∀ fuel, f0 ≤ fuel → ∃ t1,
      t.RenameDirectory fuel oldPath newPath = .ok t1 ∧
      GetPath t1.heap d = newPath ∧
      (∀ x, Sub t.heap d x → ∃ r, GetPath t.heap x = oldPath ++ r ∧
        GetPath t1.heap x = newPath ++ r) ∧
      t1.GetDirectory newPath = some d ∧
      (∀ x, Sub t.heap d x → (t.heap x).kind = .DIRECTORY →
        t.GetDirectory (GetPath t.heap x) = some x ∧
        t1.GetDirectory (GetPath t1.heap x) = some x) ∧
      (∀ q, oldPath <+: q → t1.GetDirectory q = none) := by
  obtain ⟨f0, hf0⟩ := RenameDirectory_full gt hP hd hsame hfree
  refine ⟨f0, fun fuel hf => ?_⟩
  obtain ⟨t1, e, c1, c2, c3, c4, _⟩ := hf0 fuel hf
  refine ⟨t1, e, c1, c2, ?_, c3, c4⟩
  have := (c3 d Sub.self (child_found gt hP hd).2.2.2.1).2
  rw [c1] at this
  exact this

/-- Witness for C2, the scenario of the specification: renaming `A/B` to `A/C` leaves `A/C`
indexed, `A/B` not indexed and `b.txt` with the path `A/C/b.txt`. -/
theorem rename_cascade_witness :
    GoodTree specTree ∧
    (specTree.RenameDirectory 3 ["A", "B"] ["A", "C"]).returned = true ∧
    (specTree.RenameDirectory 3 ["A", "B"] ["A", "C"]).tree.GetDirectory ["A", "C"] = some 2 ∧
    (specTree.RenameDirectory 3 ["A", "B"] ["A", "C"]).tree.GetDirectory ["A", "B"] = none ∧
    Directory.GetFile (specTree.RenameDirectory 3 ["A", "B"] ["A", "C"]).tree.heap 2 "b.txt" =
      some 3 ∧
    GetPath (specTree.RenameDirectory 3 ["A", "B"] ["A", "C"]).tree.heap 3 =
      ["A", "C", "b.txt"] ∧
    (∃ f0, ∀ fuel, f0 ≤ fuel → ∃ t1,
      specTree.RenameDirectory fuel ["A", "B"] ["A", "C"] = .ok t1 ∧
      GetPath t1.heap 2 = ["A", "C"] ∧
      (∀ x, Sub specTree.heap 2 x → ∃ r, GetPath specTree.heap x = ["A", "B"] ++ r ∧
        GetPath t1.heap x = ["A", "C"] ++ r) ∧
      t1.GetDirectory ["A", "C"] = some 2 ∧
      (∀ x, Sub specTree.heap 2 x → (specTree.heap x).kind = .DIRECTORY →
        specTree.GetDirectory (GetPath specTree.heap x) = some x ∧
        t1.GetDirectory (GetPath t1.heap x) = some x) ∧
      (∀ q, ["A", "B"] <+: q → t1.GetDirectory q = none)) :=
  ⟨by decide!, by decide!, by decide!, by decide!, by decide!, by decide!,
   rename_cascade specTree (by decide!) ["A", "B"] ["A", "C"] 0 2 (by decide!) (by decide!)
     (by decide!) (by decide!)⟩

/-! ## Moving a directory -/

/-- `MoveDirectory` to a destination outside the moved subtree that has no child directory
of the moved directory's name: the two cascades, the re-keyed index and the resulting
well-formed tree.  The directory keeps its name: its new path is the destination parent's
path followed by the old name. -/
theorem MoveDirectory_full {t : DirectoryTree} (gt : GoodTree t) {oldPath newPath : Path}
    {P Q d : Nat} (hP : t.GetDirectory (parent_path oldPath) = some P)
    (hQ : t.GetDirectory (parent_path newPath) = some Q)
    (hd : Directory.GetDirectory t.heap P (filename oldPath) = some d)
    (hfree : Directory.DirectoryExists t.heap Q (filename oldPath) = false)
    (hnot : ¬ Sub t.heap d Q) :
    ∃ f0, ∀ fuel, f0 ≤ fuel → ∃ t1,
      t.MoveDirectory fuel oldPath newPath = .ok t1 ∧
      GetPath t1.heap d = parent_path newPath ++ [filename oldPath] ∧
      (∀ x, Sub t.heap d x → ∃ r, GetPath t.heap x = oldPath ++ r ∧
        GetPath t1.heap x = parent_path newPath ++ [filename oldPath] ++ r) ∧
      (∀ x, Sub t.heap d x → (t.heap x).kind = .DIRECTORY →
        t.GetDirectory (GetPath t.heap x) = some x ∧
        t1.GetDirectory (GetPath t1.heap x) = some x) ∧
      t1.GetDirectory oldPath = none ∧
      d ∈ (t1.heap Q).directories ∧ d ∉ (t1.heap P).directories ∧
      (t1.heap d).parentDir = some Q ∧
      t1.next = t.next ∧ t1.rootDir = t.rootDir ∧ t1.listeners = t.listeners ∧
      GoodTree t1 := by
  obtain ⟨hPn, hdn, hdm, hdk, hdp, hPp, hdpath, hdi, hPs, hone⟩ := child_found gt hP hd
  obtain ⟨f0, hf0⟩ := MoveDirectory_returns gt.sound hP hQ hd hnot
  have gt0 := gt
  obtain ⟨root, hroot, gh, hrn, hrk, hrpar, hrp, hri, gi⟩ := gt
  obtain ⟨hQn, hQk, hQp, _, _⟩ := gi.find hQ
  refine ⟨f0, fun fuel hf => ?_⟩
  obtain ⟨l, h1, h2, e1, l1, l2, _, u1, g1, _, u2, g2, e3⟩ := hf0 fuel hf
  obtain ⟨i1, i2, i3, i4, i5, _⟩ := ProcessPathChanges_spec
    ((d, GetPath t.heap d) :: l.map (fun e => (e, GetPath t.heap e))) { t with heap := h2 }
  generalize hT : ({ t with heap := h2 } : DirectoryTree).ProcessPathChanges
    ((d, GetPath t.heap d) :: l.map (fun e => (e, GetPath t.heap e))) = T at e3 i1 i2 i3 i4 i5
  simp only at i1 i2 i3 i4 i5
  have hPd : P ≠ d := fun e => hPs (e ▸ Sub.self)
  have hQd : Q ≠ d := fun e => hnot (e ▸ Sub.self)
  have hPQ : P ≠ Q := by
    rintro rfl
    apply DirectoryExists_false hfree d hdm
    unfold GetDirectoryName
    rw [hdpath]
  have hsub1 : ∀ x, Sub h1 d x ↔ Sub t.heap d x := by
    intro x
    rw [u1.1.sub_iff, detach_sub gh hPn hdm]
  have hnot1 : ¬ Sub h1 d Q := fun hs => hnot ((hsub1 Q).mp hs)
  have hsub2 : ∀ x, Sub (attached h1 Q d) d x ↔ Sub t.heap d x := by
    intro x
    rw [attach_sub hnot1, hsub1]
  -- the store after both cascades, field by field
  have hkind : ∀ x, (h2 x).kind = (t.heap x).kind := by
    intro x
    rw [u2.1.kind, attached_kind hQd, u1.1.kind, detached_kind hPd]
  have hparent : ∀ x, x ≠ d → (h2 x).parentDir = (t.heap x).parentDir := by
    intro x hx
    rw [u2.1.parentDir, attached_parent hQd x hx, u1.1.parentDir, detached_parent hPd x hx]
  have hparentd : (h2 d).parentDir = some Q := by
    rw [u2.1.parentDir, attached_parent_self hQd]
  have hname : ∀ x, filename (h2 x).dirEntryPath = filename (t.heap x).dirEntryPath := by
    intro x
    rw [u2.1.name, attached_path hQd, u1.1.name, detached_path hPd]
  have hdirsm : ∀ x c, c ∈ (h2 x).directories ↔
      (c ∈ (t.heap x).directories ∧ (x = P → c ≠ d)) ∨ (x = Q ∧ c = d) := by
    intro x c
    rw [u2.1.directories, attached_dirs hQd, u1.1.directories, detached_dirs hPd]
  have hpathout : ∀ x, ¬ Sub t.heap d x → (h2 x).dirEntryPath = (t.heap x).dirEntryPath := by
    intro x hx
    rw [u2.2.1 x (fun hs => hx ((hsub2 x).mp hs)), attached_path hQd,
      u1.2.1 x (fun hs => hx ((detach_sub gh hPn hdm x).mp hs)), detached_path hPd]
  have hnewd : (h2 d).dirEntryPath = parent_path newPath ++ [filename oldPath] := by
    rw [u2.2.2.1, DirectoryEntry.UpdatePath_path, attached_parent_self hQd]
    simp only
    rw [attached_path hQd, attached_path hQd, u1.1.name, detached_path hPd,
      u1.2.1 Q (fun hs => hnot ((detach_sub gh hPn hdm Q).mp hs)), detached_path hPd, hQp,
      hdpath]
  have hrel := relative_paths gh g2 hdn (fun x _ hxd => ⟨hparent x hxd, hname x⟩)
  have hib := indexed_below gh gi (by rw [hdpath]; exact hdi)
  have hfreeK : ∀ r y, t.GetDirectory (parent_path newPath ++ [filename oldPath] ++ r) = some y →
      False := by
    intro r y hy
    rw [List.append_assoc, List.singleton_append] at hy
    obtain ⟨c, hc, hcn, _⟩ := key_ancestor gt0 hQ r y hy
    exact DirectoryExists_false hfree c hc hcn
  have hC : ∀ x, Sub t.heap d x → (t.heap x).kind = .DIRECTORY →
      t.GetDirectory (h2 x).dirEntryPath = none := by
    intro x hx _
    obtain ⟨r, _, r2⟩ := hrel x hx
    rw [r2, hnewd]
    cases hy : t.GetDirectory (parent_path newPath ++ [filename oldPath] ++ r) with
    | none => rfl
    | some y => exact absurd (hfreeK r y hy) id
  have hB : ∀ x y, Sub t.heap d x → Sub t.heap d y → (t.heap x).kind = .DIRECTORY →
      (t.heap y).kind = .DIRECTORY → (h2 x).dirEntryPath = (h2 y).dirEntryPath → x = y := by
    intro x y hx hy hkx hky hp
    obtain ⟨r, r1, r2⟩ := hrel x hx
    obtain ⟨s, s1, s2⟩ := hrel y hy
    rw [r2, s2] at hp
    have hrs := List.append_cancel_left hp
    have h3 := hib x hx hkx
    have h4 := hib y hy hky
    rw [r1, hrs, ← s1, h4] at h3
    exact (Option.some.inj h3).symm
  obtain ⟨R3, R4, R5⟩ := @rekeyed_goodTree _ T gt0 _ _ _ _ _ hdp
    (by rw [hdpath]; exact hdi) l1 l2 g2 hkind
    (fun x hx => ⟨hpathout x hx, hparent x (fun e => hx (e ▸ Sub.self))⟩)
    (fun x _ hxd => hparent x hxd) hparentd hnot
    (by rw [hQp]; exact hQ)
    (fun x c hc => by
      rcases (hdirsm x c).mp hc with h3 | h3
      · exact Or.inl h3.1
      · exact Or.inr h3.2) hC hB i1 i2 i3 i5
  refine ⟨T, e3, ?_, ?_, ?_, ?_, ?_, ?_, ?_, i2, i3, i4, R5⟩
  · unfold GetPath; rw [i1]; exact hnewd
  · intro x hx
    obtain ⟨r, r1, r2⟩ := hrel x hx
    refine ⟨r, ?_, ?_⟩
    · unfold GetPath; rw [r1, hdpath]
    · unfold GetPath; rw [i1, r2, hnewd]
  · intro x hx hkx
    refine ⟨hib x hx hkx, ?_⟩
    unfold GetPath; rw [i1]
    exact R3 x hx hkx
  · refine (R4 oldPath ?_).1 ⟨d, Sub.self, hdk, hdpath⟩
    intro x hx _ hp
    obtain ⟨r, _, r2⟩ := hrel x hx
    rw [r2, hnewd] at hp
    apply hfreeK r d
    rw [hp]
    exact hdi
  · rw [i1, hdirsm]
    exact Or.inr ⟨rfl, rfl⟩
  · rw [i1, hdirsm]
    rintro (⟨_, h3⟩ | ⟨h3, _⟩)
    · exact h3 rfl rfl
    · exact hPQ h3
  · rw [i1]; exact hparentd

/-! ## Moving a directory into its own subtree -/

theorem DirChain.congr {h h1 : Heap} (e : ∀ x, (h1 x).directories = (h x).directories)
    {x n : Nat} (c : DirChain h x n) : DirChain h1 x n := by
  induction c with
  | zero x => exact DirChain.zero x
  | step hc _ ih => exact DirChain.step (by rw [e]; exact hc) ih

theorem updateDirectories_none (rec : Heap → Nat → Option Heap) (c : Nat)
    (good : Heap → Prop) (hkeep : ∀ h d h1, good h → rec h d = some h1 → good h1)
    (hnone : ∀ h, good h → rec h c = none) :
    ∀ (ds : List Nat) (h : Heap), good h → c ∈ ds → updateDirectories rec h ds = none
  | [], _, _, hm => absurd hm (List.not_mem_nil _)
  | d :: ds, h, hg, hm => by
    unfold updateDirectories
    cases hr : rec h d with
    | none => rfl
    | some h1 =>
      simp only
      rcases List.mem_cons.mp hm with rfl | hm1
      · rw [hnone h hg] at hr
        cases hr
      · exact updateDirectories_none rec c good hkeep hnone ds h1 (hkeep h d h1 hg hr) hm1

/-- A chain of nested directories as long as the stack budget exhausts the budget. -/
theorem Directory.UpdatePath_exhausts :
    ∀ (fuel : Nat) (h : Heap) (x : Nat), DirChain h x fuel → Directory.UpdatePath fuel h x = none
  | 0, _, _, _ => rfl
  | fuel + 1, h, x, hc => by
    cases hc with
    | step hm hc1 =>
      rename_i c
      unfold Directory.UpdatePath
      simp only
      have a := DirectoryEntry.UpdatePath_pathOnly h x
      have b := updateFiles_pathOnly (DirectoryEntry.UpdatePath h x x).files
        (DirectoryEntry.UpdatePath h x)
      apply updateDirectories_none (Directory.UpdatePath fuel) c (fun h0 => PathOnly h h0)
      · intro h0 d0 h1 hg hr
        exact hg.andThen (Directory.UpdatePath_onlyPaths fuel h0 d0 h1 hr)
      · intro h0 hg
        exact Directory.UpdatePath_exhausts fuel h0 c (hc1.congr (fun y => hg.directories y))
      · exact a.andThen b
      · rw [a.directories]; exact hm

/-- On a directory cycle there are chains of every length. -/
theorem DirChain.of_cycle {h : Heap} {d c : Nat} (hc : c ∈ (h d).directories)
    (hr : DirReach h c d) : ∀ (n : Nat) (x : Nat), DirReach h x d → DirChain h x n
  | 0, x, _ => DirChain.zero x
  | n + 1, x, hx => by
    cases hx with
    | refl => exact DirChain.step hc (DirChain.of_cycle hc hr n c hr)
    | head hm hy => exact DirChain.step hm (DirChain.of_cycle hc hr n _ hy)

theorem DirReach.tail {h : Heap} {x p c : Nat} (hr : DirReach h x p)
    (hc : c ∈ (h p).directories) : DirReach h x c := by
  induction hr with
  | refl x => exact DirReach.head hc (DirReach.refl c)
  | head hm _ ih => exact DirReach.head hm (ih hc)

theorem DirReach.first {h : Heap} {x y : Nat} (hr : DirReach h x y) :
    x = y ∨ ∃ c ∈ (h x).directories, DirReach h c y := by
  cases hr with
  | refl => exact Or.inl rfl
  | head hm hy => exact Or.inr ⟨_, hm, hy⟩

theorem attached_dirs_dest (h : Heap) (w d : Nat) : d ∈ (attached h w d w).directories := by
  unfold attached Directory.AddDirectory
  by_cases e : w = d
  · subst e
    simp [store, mem_InsertDirectorySorted]
  · simp [store, e, mem_InsertDirectorySorted]

theorem attached_dirs_super (h : Heap) (w d x c : Nat) (hc : c ∈ (h x).directories) :
    c ∈ (attached h w d x).directories := by
  unfold attached Directory.AddDirectory
  by_cases e1 : x = d <;> by_cases e2 : x = w
  · subst e1; subst e2
    simp [store, mem_InsertDirectorySorted, hc]
  · subst e1
    simp only [store, if_true]
    rw [if_neg e2]
    exact hc
  · subst e2
    simp [store, e1, mem_InsertDirectorySorted, hc]
  · simp [store, e1, e2, hc]

theorem Sub.not_parent {h : Heap} {n d P : Nat} (gh : GoodHeap h n) (hd : d < n)
    (hp : (h d).parentDir = some P) : ¬ Sub h d P := by
  intro hs
  have h1 := (hs.path_prefix gh hd).length_le
  have h2 := congrArg List.length (gh.2 d hd P hp)
  unfold GetPath at h2
  simp at h2
  omega

/-- `MoveDirectory` into the moved directory's own subtree never returns: attaching closes a
cycle of directories, and the cascade of `UpdatePath` runs around it until the stack is
exhausted. -/
theorem MoveDirectory_into_subtree {t : DirectoryTree} (st : SoundTree t)
    {oldPath newPath : Path} {P Q d : Nat}
    (hP : t.GetDirectory (parent_path oldPath) = some P)
    (hQ : t.GetDirectory (parent_path newPath) = some Q)
    (hd : Directory.GetDirectory t.heap P (filename oldPath) = some d)
    (hin : Sub t.heap d Q) (fuel : Nat) :
    (t.MoveDirectory fuel oldPath newPath).returned = false := by
  have gh := st.1
  have hPn := (st.lookup hP).1
  have hQk := (st.lookup hQ).2
  have hdm := (Directory.GetDirectory_some hd).1
  obtain ⟨hdn, hdk, hdp⟩ := gh.1.parent_of_dir hPn hdm
  have hPd : P ≠ d := gh.parent_ne hdn hdp
  unfold DirectoryTree.MoveDirectory
  rw [hP, hQ]
  simp only [hd]
  cases h0 : t.ConstructDirEntityPathPairs fuel d with
  | none => rfl
  | some entities =>
    simp only
    cases h1e : Directory.DeleteDirectory fuel t.heap P d with
    | none => rfl
    | some h1 =>
      simp only
      have u1 : PathOnly (detached t.heap P d) h1 :=
        Directory.UpdatePath_onlyPaths fuel _ d h1 h1e
      -- the sequences below `d` are those of the original store
      have hdirs : ∀ x c, Sub t.heap d x → c ∈ (t.heap x).directories →
          c ∈ (attached h1 Q d x).directories := by
        intro x c hx hc
        apply attached_dirs_super
        rw [u1.directories, detached_dirs hPd]
        refine ⟨hc, ?_⟩
        intro e _
        subst e
        -- the old parent would lie below the directory it contains
        exact Sub.not_parent gh hdn hdp hx
      have hreach : ∀ x, Sub t.heap d x → (t.heap x).kind = .DIRECTORY →
          DirReach (attached h1 Q d) d x := by
        intro x hx
        induction hx with
        | self => exact fun _ => DirReach.refl d
        | dir hp hc ih =>
          intro _
          have t1 := gh.1.parent_of_dir (hp.lt gh.1 hdn) hc
          have t2 := gh.1.parent_is_dir t1.1 t1.2.2
          exact (ih t2.2).tail (hdirs _ _ hp hc)
        | file hp hf ih =>
          intro hk
          have t1 := gh.1.parent_of_file (hp.lt gh.1 hdn) hf
          rw [t1.2.1] at hk
          cases hk
      have hchain : DirChain (attached h1 Q d) d fuel := by
        have hQd : DirReach (attached h1 Q d) d Q := hreach Q hin hQk
        rcases hQd.first with e | ⟨c, hm, hy⟩
        · subst e
          exact DirChain.of_cycle (attached_dirs_dest h1 d d) (DirReach.refl d) fuel d
            (DirReach.refl d)
        · exact DirChain.of_cycle hm (hy.tail (attached_dirs_dest h1 Q d)) fuel d
            (DirReach.refl d)
      rw [Directory.AddDirectoryToDirectory_eq, Directory.UpdatePath_exhausts fuel _ d hchain]
      rfl

/-- C3 as stated fails in three ways.  (1) `MoveDirectory` never reads the last component of
`newPath`: moving `A/B` to `A/D/C` in the example tree returns with the directory at
`A/D/B`, and `GetDirectory("A/D/C")` is empty.  (2) Names are not checked: when `A/D`
already holds a directory `B`, moving `A/B` to `A/D/B` returns, the key `A/D/B` keeps its old
binding, and `GetDirectory("A/D/B")` is not the moved directory.  (3) When the destination
parent lies inside the moved directory (`A/B` to `A/B/X/B`) the call does not return, for
any stack budget. -/
theorem MoveDirectory_misses_newPath :
    (GoodTree sampleTree ∧
      sampleTree.GetDirectory (parent_path ["A", "B"]) = some 0 ∧
      sampleTree.GetDirectory (parent_path ["A", "D", "C"]) = some 7 ∧
      Directory.GetDirectory sampleTree.heap 0 (filename ["A", "B"]) = some 3 ∧
      (sampleTree.MoveDirectory 4 ["A", "B"] ["A", "D", "C"]).returned = true ∧
      (sampleTree.MoveDirectory 4 ["A", "B"] ["A", "D", "C"]).tree.GetDirectory
        ["A", "D", "C"] = none ∧
      GetPath (sampleTree.MoveDirectory 4 ["A", "B"] ["A", "D", "C"]).tree.heap 3 =
        ["A", "D", "B"]) ∧
    (GoodTree collideTree ∧
      collideTree.GetDirectory (parent_path ["A", "B"]) = some 0 ∧
      collideTree.GetDirectory (parent_path ["A", "D", "B"]) = some 7 ∧
      Directory.GetDirectory collideTree.heap 0 (filename ["A", "B"]) = some 3 ∧
      (collideTree.MoveDirectory 4 ["A", "B"] ["A", "D", "B"]).returned = true ∧
      (collideTree.MoveDirectory 4 ["A", "B"] ["A", "D", "B"]).tree.GetDirectory
        ["A", "D", "B"] = some 8) ∧
    (sampleTree.GetDirectory (parent_path ["A", "B", "X", "B"]) = some 5 ∧
      ∀ fuel, (sampleTree.MoveDirectory fuel ["A", "B"] ["A", "B", "X", "B"]).returned
        = false) :=
  ⟨by decide!, by decide!, by decide!, fun fuel =>
    @MoveDirectory_into_subtree sampleTree (GoodTree.sound (by decide! : GoodTree sampleTree))
      ["A", "B"] ["A", "B", "X", "B"] 0 5 3 (by decide!) (by decide!) (by decide!)
      (Sub.dir Sub.self (by decide! : 5 ∈ (sampleTree.heap 3).directories)) fuel⟩

/-- C3 (move re-keying), amended.  On a well-formed tree, for `MoveDirectory(oldPath,
newPath)` with both parents indexed and the source directory `d` present, where in addition
`newPath` ends in the name of the moved directory, the destination parent has no child
directory of that name, and the destination parent is not inside `d`: the call returns once
the stack budget is large enough; afterwards `GetDirectory(newPath)` is `d`, the path of `d`
is `newPath`, `d` is a child of the destination parent and not of the old parent, every entry
of the subtree has the path `newPath` joined with its old path relative to `oldPath`, every
directory of the subtree is indexed under its new path, and `GetDirectory(oldPath)` is
empty. -/
theorem move_rekeying (t : DirectoryTree) (gt : GoodTree t) (oldPath newPath : Path)
    (P Q d : Nat) (hP : t.GetDirectory (parent_path oldPath) = some P)
    (hQ : t.GetDirectory (parent_path newPath) = some Q)
    (hd : Directory.GetDirectory t.heap P (filename oldPath) = some d)
    (hname : filename newPath = filename oldPath)
    (hfree : Directory.DirectoryExists t.heap Q (filename newPath) = false)
    (hnot : ¬ Sub t.heap d Q) :
    ∃ f0, ∀ fuel, f0 ≤ fuel → ∃ t1,
      t.MoveDirectory fuel oldPath newPath = .ok t1 ∧
      t1.GetDirectory newPath = some d ∧
      GetPath t1.heap d = newPath ∧
      d ∈ (t1.heap Q).directories ∧ (t1.heap d).parentDir = some Q ∧
      d ∉ (t1.heap P).directories ∧
      (∀ x, Sub t.heap d x → ∃ r, GetPath t.heap x = oldPath ++ r ∧
        GetPath t1.heap x = newPath ++ r) ∧
      (∀ x, Sub t.heap d x → (t.heap x).kind = .DIRECTORY →
        t1.GetDirectory (GetPath t1.heap x) = some x) ∧
      t1.GetDirectory oldPath = none := by
  rw [hname] at hfree
  obtain ⟨f0, hf0⟩ := MoveDirectory_full gt hP hQ hd hfree hnot
  have hnp : parent_path newPath ++ [filename oldPath] = newPath := by
    rw [← hname]
    exact parent_path_slash_filename (parent_path_ne_nil (gt.key_ne_nil hQ))
  refine ⟨f0, fun fuel hf => ?_⟩
  obtain ⟨t1, e, c1, c2, c3, c4, c5, c6, c7, _⟩ := hf0 fuel hf
  rw [hnp] at c1 c2
  refine ⟨t1, e, ?_, c1, c5, c7, c6, c2, fun x hx hk => (c3 x hx hk).2, c4⟩
  have := (c3 d Sub.self (child_found gt hP hd).2.2.2.1).2
  rw [c1] at this
  exact this

/-- Witness for C3: moving `A/B` to `A/D/B` in the example tree. -/
theorem move_rekeying_witness :
    GoodTree sampleTree ∧
    (sampleTree.MoveDirectory 4 ["A", "B"] ["A", "D", "B"]).returned = true ∧
    (sampleTree.MoveDirectory 4 ["A", "B"] ["A", "D", "B"]).tree.GetDirectory
      ["A", "D", "B"] = some 3 ∧
    GetPath (sampleTree.MoveDirectory 4 ["A", "B"] ["A", "D", "B"]).tree.heap 6 =
      ["A", "D", "B", "X", "x.txt"] ∧
    (∃ f0, ∀ fuel, f0 ≤ fuel → ∃ t1,
      sampleTree.MoveDirectory fuel ["A", "B"] ["A", "D", "B"] = .ok t1 ∧
      t1.GetDirectory ["A", "D", "B"] = some 3 ∧
      GetPath t1.heap 3 = ["A", "D", "B"] ∧
      3 ∈ (t1.heap 7).directories ∧ (t1.heap 3).parentDir = some 7 ∧
      3 ∉ (t1.heap 0).directories ∧
      (∀ x, Sub sampleTree.heap 3 x → ∃ r, GetPath sampleTree.heap x = ["A", "B"] ++ r ∧
        GetPath t1.heap x = ["A", "D", "B"] ++ r) ∧
      (∀ x, Sub sampleTree.heap 3 x → (sampleTree.heap x).kind = .DIRECTORY →
        t1.GetDirectory (GetPath t1.heap x) = some x) ∧
      t1.GetDirectory ["A", "B"] = none) :=
  ⟨by decide!, by decide!, by decide!, by decide!,
   move_rekeying sampleTree (by decide!) ["A", "B"] ["A", "D", "B"] 0 7 3 (by decide!)
     (by decide!) (by decide!) (by decide!) (by decide!)
     (fun hs => by
       have e := @Sub.path_prefix sampleTree.heap sampleTree.next 3 7
         (GoodTree.sound (by decide! : GoodTree sampleTree)).1 (by decide! : 3 < sampleTree.next) hs
       have e1 : (sampleTree.heap 3).dirEntryPath = ["A", "B"] := by decide!
       have e2 : (sampleTree.heap 7).dirEntryPath = ["A", "D"] := by decide!
       rw [e1, e2] at e
       exact absurd e (by decide))⟩

/-- C6 as stated fails for a move into the directory's own subtree.  In the example tree the
preconditions of `MoveDirectory("A/B", "A/B/X/B")` hold (both parents are indexed and `B`,
which has three descendants, is present), but the call returns for no stack budget: it never
reaches `ProcessPathChanges`, which makes the path-changed calls after the cascade. -/
theorem move_into_subtree_never_returns :
    GoodTree sampleTree ∧
    sampleTree.GetDirectory (parent_path ["A", "B"]) = some 0 ∧
    sampleTree.GetDirectory (parent_path ["A", "B", "X", "B"]) = some 5 ∧
    Directory.GetDirectory sampleTree.heap 0 (filename ["A", "B"]) = some 3 ∧
    Directory.GetDirEntriesRecursive 4 sampleTree.heap 3 = some [4, 5, 6] ∧
    ∀ fuel, (sampleTree.MoveDirectory fuel ["A", "B"] ["A", "B", "X", "B"]).returned = false :=
  ⟨by decide!, by decide!, by decide!, by decide!, by decide!, fun fuel =>
    @MoveDirectory_into_subtree sampleTree (GoodTree.sound (by decide! : GoodTree sampleTree))
      ["A", "B"] ["A", "B", "X", "B"] 0 5 3 (by decide!) (by decide!) (by decide!)
      (Sub.dir Sub.self (by decide! : 5 ∈ (sampleTree.heap 3).directories)) fuel⟩

/-! ## The path-index invariant -/

/-- A well-formed tree satisfies the path-index invariant in its global form. -/
theorem GoodTree.pathIndexInv {t : DirectoryTree} (gt : GoodTree t) : PathIndexInv t := by
  obtain ⟨root, hroot, gh, hrn, hrk, hrpar, hrp, hri, gi⟩ := gt
  refine ⟨root, hroot, ?_, ?_, ?_⟩
  · intro d hr
    induction hr with
    | root => exact hri
    | child _ hc ih => exact (gi.find ih).2.2.2.2 _ hc
  · have key : ∀ d way, WayFromRoot t.heap root d way → d < t.next ∧ GetPath t.heap d = way := by
      intro d way hw
      induction hw with
      | root => exact ⟨hrn, hrp⟩
      | @child p c way _ hc ih =>
        obtain ⟨hcn, _, hcp⟩ := gh.1.parent_of_dir ih.1 hc
        refine ⟨hcn, ?_⟩
        have := gh.2 c hcn p hcp
        unfold GetPath at ih ⊢
        rw [this, ih.2]
        rfl
    exact fun d way hw => (key d way hw).2
  · have key : ∀ (n : Nat) (k : Path) (d : Nat), k.length = n → t.GetDirectory k = some d →
        Reachable t.heap root d := by
      intro n
      induction n using Nat.strong_induction_on with
      | _ n ih =>
        intro k d hk hf
        obtain ⟨hdn, hdk, hdp, hpar, _⟩ := gi.find hf
        rcases hpar with rfl | ⟨p, hp, hpi⟩
        · exact Reachable.root
        · have hc := gh.2 d hdn p hp
          have hlen : (t.heap p).dirEntryPath.length < n := by
            have := congrArg List.length hc
            rw [hdp] at this
            simp at this
            omega
          have hrp := ih _ hlen _ p rfl hpi
          exact Reachable.child hrp (((gh.1 d hdn).2.2.2.2 p hp).2.2.1 hdk)
    exact fun k d hf => key _ k d rfl hf

theorem Reachable.of_no_directories {h : Heap} {root x : Nat}
    (e : (h root).directories = []) (hr : Reachable h root x) : x = root := by
  induction hr with
  | root => rfl
  | child _ hc ih =>
    subst ih
    rw [e] at hc
    exact absurd hc (List.not_mem_nil _)

/-- C1 fails on `RemoveDirectory`.  The scenario tree satisfies the path-index invariant and
the preconditions of `RemoveDirectory("A/B")` hold (the parent `A` is indexed, `B` is
present); the call returns, and afterwards the index still binds `A/B` to the removed
directory, which is not reachable from the root: part (iii) of the invariant is violated. -/
theorem RemoveDirectory_breaks_path_index :
    PathIndexInv specTree ∧
    specTree.GetDirectory (parent_path ["A", "B"]) = some 0 ∧
    Directory.GetDirectory specTree.heap 0 (filename ["A", "B"]) = some 2 ∧
    (specTree.RemoveDirectory 3 ["A", "B"]).returned = true ∧
    (specTree.RemoveDirectory 3 ["A", "B"]).tree.rootDir = some 0 ∧
    (specTree.RemoveDirectory 3 ["A", "B"]).tree.GetDirectory ["A", "B"] = some 2 ∧
    ¬ Reachable (specTree.RemoveDirectory 3 ["A", "B"]).tree.heap 0 2 ∧
    ¬ PathIndexInv (specTree.RemoveDirectory 3 ["A", "B"]).tree := by
  have hroot : (specTree.RemoveDirectory 3 ["A", "B"]).tree.rootDir = some 0 := by decide!
  have hkey : (specTree.RemoveDirectory 3 ["A", "B"]).tree.GetDirectory ["A", "B"] = some 2 := by
    decide!
  have hnone : ((specTree.RemoveDirectory 3 ["A", "B"]).tree.heap 0).directories = [] := by
    decide!
  have hunreach : ¬ Reachable (specTree.RemoveDirectory 3 ["A", "B"]).tree.heap 0 2 :=
    fun hr => absurd (hr.of_no_directories hnone) (by decide)
  refine ⟨GoodTree.pathIndexInv (by decide!), by decide!, by decide!, by decide!, hroot, hkey,
    hunreach, ?_⟩
  rintro ⟨root, hr, _, _, h3⟩
  rw [hroot] at hr
  cases hr
  exact hunreach (h3 _ _ hkey)

/-! ## A deeper stack changes no result -/

theorem updateDirectories_mono {rec rec1 : Heap → Nat → Option Heap}
    (hrec : ∀ h d h1, rec h d = some h1 → rec1 h d = some h1) :
    ∀ (ds : List Nat) (h h1 : Heap), updateDirectories rec h ds = some h1 →
      updateDirectories rec1 h ds = some h1
  | [], _, _, e => e
  | d :: ds, h, h1, e => by
    unfold updateDirectories at e ⊢
    cases hr : rec h d with
    | none => rw [hr] at e; cases e
    | some h2 =>
      rw [hr] at e
      rw [hrec h d h2 hr]
      exact updateDirectories_mono hrec ds h2 h1 e

theorem Directory.UpdatePath_succ :
    ∀ (fuel : Nat) (h : Heap) (d : Nat) (h1 : Heap), Directory.UpdatePath fuel h d = some h1 →
      Directory.UpdatePath (fuel + 1) h d = some h1
  | 0, _, _, _, e => by cases e
  | fuel + 1, h, d, h1, e => by
    unfold Directory.UpdatePath at e ⊢
    exact updateDirectories_mono (Directory.UpdatePath_succ fuel) _ _ _ e

theorem Directory.UpdatePath_mono {fuel fuel1 : Nat} (hf : fuel ≤ fuel1) {h : Heap} {d : Nat}
    {h1 : Heap} (e : Directory.UpdatePath fuel h d = some h1) :
    Directory.UpdatePath fuel1 h d = some h1 := by
  induction hf with
  | refl => exact e
  | step _ ih => exact Directory.UpdatePath_succ _ _ _ _ ih

theorem collectEntries_mono {rec rec1 : Nat → Option (List Nat)}
    (hrec : ∀ d l, rec d = some l → rec1 d = some l) :
    ∀ (ds : List Nat) (l : List Nat), collectEntries rec ds = some l →
      collectEntries rec1 ds = some l
  | [], _, e => e
  | d :: ds, l, e => by
    unfold collectEntries at e ⊢
    cases hr : rec d with
    | none => rw [hr] at e; cases e
    | some sub =>
      cases hc : collectEntries rec ds with
      | none => rw [hr, hc] at e; cases e
      | some rest =>
        rw [hr, hc] at e
        rw [hrec d sub hr, collectEntries_mono hrec ds rest hc]
        exact e

theorem Directory.GetDirEntriesRecursive_succ (h : Heap) :
    ∀ (fuel : Nat) (d : Nat) (l : List Nat),
      Directory.GetDirEntriesRecursive fuel h d = some l →
      Directory.GetDirEntriesRecursive (fuel + 1) h d = some l
  | 0, _, _, e => by cases e
  | fuel + 1, d, l, e => by
    unfold Directory.GetDirEntriesRecursive at e ⊢
    cases hc : collectEntries (Directory.GetDirEntriesRecursive fuel h) (h d).directories with
    | none => rw [hc] at e; cases e
    | some rest =>
      rw [hc] at e
      rw [collectEntries_mono (Directory.GetDirEntriesRecursive_succ h fuel) _ _ hc]
      exact e

theorem Directory.GetDirEntriesRecursive_mono {fuel fuel1 : Nat} (hf : fuel ≤ fuel1) {h : Heap}
    {d : Nat} {l : List Nat} (e : Directory.GetDirEntriesRecursive fuel h d = some l) :
    Directory.GetDirEntriesRecursive fuel1 h d = some l := by
  induction hf with
  | refl => exact e
  | step _ ih => exact Directory.GetDirEntriesRecursive_succ _ _ _ _ ih

mutual
theorem BuildTree_mono {fuel fuel1 : Nat} (hf : fuel ≤ fuel1) :
    ∀ (scan : DiskDirectory) (t : DirectoryTree) (p : Path) (r : DirectoryTree × Nat),
      DirectoryTree.BuildTree fuel t p scan = some r →
      DirectoryTree.BuildTree fuel1 t p scan = some r
  | .mk o1 o2 entries, t, p, r, e => by
    unfold DirectoryTree.BuildTree at e ⊢
    cases hl : DirectoryTree.BuildTreeLoop fuel
        { (t.CreateDirectory p o1 o2).1 with directories := mapInsert t.directories p t.next }
        p t.next entries with
    | none => rw [hl] at e; cases e
    | some t1 =>
      rw [hl] at e
      rw [BuildTreeLoop_mono hf entries _ p t.next t1 hl]
      exact e
theorem BuildTreeLoop_mono {fuel fuel1 : Nat} (hf : fuel ≤ fuel1) :
    ∀ (entries : DiskEntries) (t : DirectoryTree) (p : Path) (parentDir : Nat)
      (t1 : DirectoryTree), DirectoryTree.BuildTreeLoop fuel t p parentDir entries = some t1 →
      DirectoryTree.BuildTreeLoop fuel1 t p parentDir entries = some t1
  | .nil, _, _, _, _, e => by
    unfold DirectoryTree.BuildTreeLoop at e ⊢
    exact e
  | .cons (.regular_file name o1 o2) rest, t, p, parentDir, t1, e => by
    unfold DirectoryTree.BuildTreeLoop at e ⊢
    exact BuildTreeLoop_mono hf rest _ p parentDir t1 e
  | .cons (.directory name dir) rest, t, p, parentDir, t1, e => by
    unfold DirectoryTree.BuildTreeLoop at e ⊢
    cases hb : DirectoryTree.BuildTree fuel t (slash p name) dir with
    | none => rw [hb] at e; cases e
    | some r =>
      obtain ⟨t2, newDir⟩ := r
      rw [hb] at e
      rw [BuildTree_mono hf dir t (slash p name) _ hb]
      simp only at e ⊢
      cases ha : Directory.AddDirectoryToDirectory fuel t2.heap parentDir newDir with
      | none => rw [ha] at e; cases e
      | some h =>
        rw [ha] at e
        have ha1 : Directory.AddDirectoryToDirectory fuel1 t2.heap parentDir newDir = some h :=
          Directory.UpdatePath_mono hf ha
        rw [ha1]
        exact BuildTreeLoop_mono hf rest _ p parentDir t1 e
  | .cons (.other _) rest, t, p, parentDir, t1, e => by
    unfold DirectoryTree.BuildTreeLoop at e ⊢
    exact BuildTreeLoop_mono hf rest _ p parentDir t1 e
end

/-! ## Name uniqueness and index validity: general facts -/

theorem UniqueNamesAt_iff {h : Heap} {x : Nat} (hd : (h x).directories.Nodup)
    (hf : (h x).files.Nodup) : UniqueNamesAt h x ↔ DistinctAt h x := by
  unfold UniqueNamesAt DistinctAt GetDirectoryName GetFullFileName
  constructor
  · rintro ⟨u1, u2⟩
    exact ⟨fun a ha b hb e => List.inj_on_of_nodup_map u1 ha hb e,
      fun a ha b hb e => List.inj_on_of_nodup_map u2 ha hb e⟩
  · rintro ⟨u1, u2⟩
    exact ⟨(List.nodup_map_iff_inj_on hd).mpr (fun a ha b hb e => u1 a ha b hb e),
      (List.nodup_map_iff_inj_on hf).mpr (fun a ha b hb e => u2 a ha b hb e)⟩

theorem UniqueNames_iff {h : Heap} {n : Nat} (s : Shape h n) :
    UniqueNames h n ↔ ∀ x, x < n → DistinctAt h x := by
  unfold UniqueNames
  constructor
  · intro u x hx
    exact (UniqueNamesAt_iff (s x hx).2.2.1 (s x hx).2.2.2.1).mp (u x hx)
  · intro u x hx
    exact (UniqueNamesAt_iff (s x hx).2.2.1 (s x hx).2.2.2.1).mpr (u x hx)

theorem DistinctAt_congr {h h1 : Heap} {x : Nat}
    (e1 : (h1 x).directories = (h x).directories) (e2 : (h1 x).files = (h x).files)
    (names : ∀ c, filename (h1 c).dirEntryPath = filename (h c).dirEntryPath)
    (u : DistinctAt h x) : DistinctAt h1 x := by
  unfold DistinctAt
  rw [e1, e2]
  exact ⟨fun a ha b hb e => u.1 a ha b hb (by rw [← names a, ← names b]; exact e),
    fun a ha b hb e => u.2 a ha b hb (by rw [← names a, ← names b]; exact e)⟩

theorem PathOnly.keeps_distinct {h h1 : Heap} (a : PathOnly h h1) {x : Nat} (u : DistinctAt h x) :
    DistinctAt h1 x :=
  DistinctAt_congr (a.directories x) (a.files x) (fun c => a.name c) u

theorem SoundTree_iff (t : DirectoryTree) :
    SoundTree t ↔ GoodHeap t.heap t.next ∧ IndexValid t.directories t.heap t.next := by
  unfold SoundTree IndexValid
  constructor
  · rintro ⟨g, v⟩
    exact ⟨g, fun k v1 hf => v (k, v1) (mapFind_mem _ _ _ hf) hf⟩
  · rintro ⟨g, v⟩
    exact ⟨g, fun kv _ hf => v kv.1 kv.2 hf⟩

theorem IndexValid.mono {m : List (Path × Nat)} {h h1 : Heap} {n n1 : Nat}
    (v : IndexValid m h n) (hn : n ≤ n1) (hk : ∀ x, x < n → (h1 x).kind = (h x).kind) :
    IndexValid m h1 n1 := by
  intro k w hf
  obtain ⟨a, b⟩ := v k w hf
  exact ⟨by omega, by rw [hk w a]; exact b⟩

theorem IndexValid.erase {m : List (Path × Nat)} {h : Heap} {n : Nat} (v : IndexValid m h n)
    (key : Path) : IndexValid (mapErase m key) h n := by
  intro k w hf
  rw [mapFind_erase] at hf
  split_ifs at hf
  exact v k w hf

theorem IndexValid.insert {m : List (Path × Nat)} {h : Heap} {n : Nat} (v : IndexValid m h n)
    (key : Path) {value : Nat} (hv : value < n) (hk : (h value).kind = .DIRECTORY) :
    IndexValid (mapInsert m key value) h n := by
  intro k w hf
  cases hm : mapFind m key with
  | some w0 =>
    rw [mapInsert_bound m key value w0 hm] at hf
    exact v k w hf
  | none =>
    rw [mapFind_insert m key k value hm] at hf
    split_ifs at hf
    · cases hf
      exact ⟨hv, hk⟩
    · exact v k w hf

theorem IndexValid.rekey {h : Heap} {n : Nat} :
    ∀ (es : List (Nat × Path)) (m : List (Path × Nat)), IndexValid m h n →
      (∀ e ∈ es, e.1 < n) → IndexValid (rekey h m es) h n
  | [], m, v, _ => v
  | e :: es, m, v, hes => by
    unfold fs.rekey
    by_cases hk : IsDirectory h e.1 = true
    · rw [if_pos hk]
      refine IndexValid.rekey es _ ((v.erase e.2).insert _ (hes e (List.mem_cons_self _ _)) ?_)
        (fun e1 he1 => hes e1 (List.mem_cons_of_mem _ he1))
      unfold IsDirectory at hk
      exact of_decide_eq_true hk
    · rw [if_neg hk]
      exact IndexValid.rekey es m v (fun e1 he1 => hes e1 (List.mem_cons_of_mem _ he1))

theorem removeEntries_fields :
    ∀ (l : List Nat) (t : DirectoryTree),
      (t.removeEntries l).heap = t.heap ∧ (t.removeEntries l).next = t.next ∧
      (t.removeEntries l).rootDir = t.rootDir ∧
      (∀ n, IndexValid t.directories t.heap n →
        IndexValid (t.removeEntries l).directories t.heap n)
  | [], t => ⟨rfl, rfl, rfl, fun _ v => v⟩
  | e :: l, t => by
    unfold DirectoryTree.removeEntries
    by_cases hk : IsDirectory t.heap e = true
    · rw [if_pos hk]
      obtain ⟨a, b, c, d⟩ := removeEntries_fields l
        (DirectoryTree.NotifyDirectoryRemoved
          { t with directories := mapErase t.directories (GetPath t.heap e) } e)
      obtain ⟨n1, n2, n3, n4, _⟩ := notify_fields
        { t with directories := mapErase t.directories (GetPath t.heap e) }
        .OnDirectoryRemoved e none
      unfold DirectoryTree.NotifyDirectoryRemoved at a b c d ⊢
      rw [n1] at a d
      rw [n2] at b
      rw [n4] at c
      rw [n3] at d
      exact ⟨a, b, c, fun n v => d n (v.erase _)⟩
    · rw [if_neg hk]
      obtain ⟨a, b, c, d⟩ := removeEntries_fields l (t.NotifyFileRemoved e)
      obtain ⟨n1, n2, n3, n4, _⟩ := notify_fields t .OnFileRemoved e none
      unfold DirectoryTree.NotifyFileRemoved at a b c d ⊢
      rw [n1] at a d
      rw [n2] at b
      rw [n4] at c
      rw [n3] at d
      exact ⟨a, b, c, d⟩

/-! ## The directory operations keep the invariant -/

theorem ConstructDirEntityPathPairs_mono {fuel fuel1 : Nat} (hf : fuel ≤ fuel1)
    {t : DirectoryTree} {d : Nat} {es : List (Nat × Path)}
    (e : t.ConstructDirEntityPathPairs fuel d = some es) :
    t.ConstructDirEntityPathPairs fuel1 d = some es := by
  unfold DirectoryTree.ConstructDirEntityPathPairs at e ⊢
  cases hg : Directory.GetDirEntriesRecursive fuel t.heap d with
  | none => rw [hg] at e; cases e
  | some l =>
    rw [hg] at e
    rw [Directory.GetDirEntriesRecursive_mono hf hg]
    exact e

theorem MoveDirectory_mono {fuel fuel1 : Nat} (hf : fuel ≤ fuel1) {t t1 : DirectoryTree}
    {oldPath newPath : Path} (e : t.MoveDirectory fuel oldPath newPath = .ok t1) :
    t.MoveDirectory fuel1 oldPath newPath = .ok t1 := by
  unfold DirectoryTree.MoveDirectory at e ⊢
  cases hP : t.GetDirectory (parent_path oldPath) with
  | none => rw [hP] at e; cases e
  | some P =>
    cases hQ : t.GetDirectory (parent_path newPath) with
    | none => rw [hP, hQ] at e; cases e
    | some Q =>
      rw [hP, hQ] at e
      simp only at e ⊢
      cases hd : Directory.GetDirectory t.heap P (filename oldPath) with
      | none => rw [hd] at e; cases e
      | some d =>
        rw [hd] at e
        simp only at e ⊢
        cases hc : t.ConstructDirEntityPathPairs fuel d with
        | none => rw [hc] at e; cases e
        | some es =>
          rw [hc] at e
          rw [ConstructDirEntityPathPairs_mono hf hc]
          simp only at e ⊢
          cases h1 : Directory.DeleteDirectory fuel t.heap P d with
          | none => rw [h1] at e; cases e
          | some h1v =>
            rw [h1] at e
            have h1b : Directory.DeleteDirectory fuel1 t.heap P d = some h1v :=
              Directory.UpdatePath_mono hf h1
            rw [h1b]
            simp only at e ⊢
            cases h2 : Directory.AddDirectoryToDirectory fuel h1v Q d with
            | none => rw [h2] at e; cases e
            | some h2v =>
              rw [h2] at e
              have h2b : Directory.AddDirectoryToDirectory fuel1 h1v Q d = some h2v :=
                Directory.UpdatePath_mono hf h2
              rw [h2b]
              exact e

theorem RenameDirectory_mono {fuel fuel1 : Nat} (hf : fuel ≤ fuel1) {t t1 : DirectoryTree}
    {oldPath newPath : Path} (e : t.RenameDirectory fuel oldPath newPath = .ok t1) :
    t.RenameDirectory fuel1 oldPath newPath = .ok t1 := by
  unfold DirectoryTree.RenameDirectory at e ⊢
  cases hP : t.GetDirectory (parent_path oldPath) with
  | none => rw [hP] at e; cases e
  | some P =>
    cases hQ : t.GetDirectory (parent_path newPath) with
    | none => rw [hP, hQ] at e; cases e
    | some Q =>
      rw [hP, hQ] at e
      simp only at e ⊢
      cases hd : Directory.GetDirectory t.heap P (filename oldPath) with
      | none => rw [hd] at e; cases e
      | some d =>
        rw [hd] at e
        simp only at e ⊢
        cases hc : t.ConstructDirEntityPathPairs fuel d with
        | none => rw [hc] at e; cases e
        | some es =>
          rw [hc] at e
          rw [ConstructDirEntityPathPairs_mono hf hc]
          simp only at e ⊢
          cases h1 : Directory.Rename fuel t.heap d (filename newPath) with
          | none => rw [h1] at e; cases e
          | some h1v =>
            rw [h1] at e
            have h1b : Directory.Rename fuel1 t.heap d (filename newPath) = some h1v :=
              Directory.UpdatePath_mono hf h1
            rw [h1b]
            exact e

theorem RemoveDirectory_mono {fuel fuel1 : Nat} (hf : fuel ≤ fuel1) {t t1 : DirectoryTree}
    {dirPath : Path} (e : t.RemoveDirectory fuel dirPath = .ok t1) :
    t.RemoveDirectory fuel1 dirPath = .ok t1 := by
  unfold DirectoryTree.RemoveDirectory at e ⊢
  cases hP : t.GetDirectory (parent_path dirPath) with
  | none => rw [hP] at e; cases e
  | some P =>
    rw [hP] at e
    simp only at e ⊢
    cases hd : Directory.GetDirectory t.heap P (filename dirPath) with
    | none => rw [hd] at e; exact e
    | some d =>
      rw [hd] at e
      simp only at e ⊢
      cases hc : Directory.GetDirEntriesRecursive fuel t.heap d with
      | none => rw [hc] at e; cases e
      | some es =>
        rw [hc] at e
        rw [Directory.GetDirEntriesRecursive_mono hf hc]
        simp only at e ⊢
        cases h1 : Directory.DeleteDirectory fuel (t.removeEntries es).heap P d with
        | none => rw [h1] at e; cases e
        | some h1v =>
          rw [h1] at e
          have h1b : Directory.DeleteDirectory fuel1 (t.removeEntries es).heap P d = some h1v :=
            Directory.UpdatePath_mono hf h1
          rw [h1b]
          exact e

theorem AddNewDirectory_mono {fuel fuel1 : Nat} (hf : fuel ≤ fuel1) {t t1 : DirectoryTree}
    {dirPath : Path} {scan : DiskDirectory} (e : t.AddNewDirectory fuel dirPath scan = .ok t1) :
    t.AddNewDirectory fuel1 dirPath scan = .ok t1 := by
  unfold DirectoryTree.AddNewDirectory at e ⊢
  cases hP : t.GetDirectory (parent_path dirPath) with
  | none => rw [hP] at e; cases e
  | some P =>
    rw [hP] at e
    simp only at e ⊢
    cases hb : DirectoryTree.BuildTree fuel t dirPath scan with
    | none => rw [hb] at e; cases e
    | some r =>
      obtain ⟨t2, newDir⟩ := r
      rw [hb] at e
      rw [BuildTree_mono hf scan t dirPath _ hb]
      simp only at e ⊢
      cases ha : Directory.AddDirectoryToDirectory fuel t2.heap P newDir with
      | none => rw [ha] at e; cases e
      | some h =>
        rw [ha] at e
        have ha1 : Directory.AddDirectoryToDirectory fuel1 t2.heap P newDir = some h :=
          Directory.UpdatePath_mono hf ha
        rw [ha1]
        exact e

/-- A deeper stack changes no result of a call. -/
theorem Op.run_mono {fuel fuel1 : Nat} (hf : fuel ≤ fuel1) {t t1 : DirectoryTree} :
    ∀ (op : Op), op.run fuel t = .ok t1 → op.run fuel1 t = .ok t1
  | .AddNewFile _ _ _, e => e
  | .AddNewDirectory _ _, e => AddNewDirectory_mono hf e
  | .RemoveFile _, e => e
  | .RemoveDirectory _, e => RemoveDirectory_mono hf e
  | .MoveFile _ _, e => e
  | .MoveDirectory _ _, e => MoveDirectory_mono hf e
  | .RenameFile _ _, e => e
  | .RenameDirectory _ _, e => RenameDirectory_mono hf e

theorem NamesInv.distinct {t : DirectoryTree} (inv : NamesInv t) :
    ∀ x, x < t.next → DistinctAt t.heap x :=
  (UniqueNames_iff inv.1.1.1).mp inv.2

theorem NamesInv.of_parts {t : DirectoryTree} (g : GoodHeap t.heap t.next)
    (v : IndexValid t.directories t.heap t.next) (u : ∀ x, x < t.next → DistinctAt t.heap x) :
    NamesInv t :=
  ⟨(SoundTree_iff t).mpr ⟨g, v⟩, (UniqueNames_iff g.1).mpr u⟩

theorem MoveDirectory_inv {t : DirectoryTree} (inv : NamesInv t) {oldPath newPath : Path}
    {P Q d : Nat} (hP : t.GetDirectory (parent_path oldPath) = some P)
    (hQ : t.GetDirectory (parent_path newPath) = some Q)
    (hd : Directory.GetDirectory t.heap P (filename oldPath) = some d)
    (hfree : Q = P ∨ Directory.DirectoryExists t.heap Q (filename oldPath) = false)
    (hnot : ¬ Sub t.heap d Q) :
    ∃ t1, (∃ f0, ∀ fuel, f0 ≤ fuel → t.MoveDirectory fuel oldPath newPath = .ok t1) ∧
      NamesInv t1 := by
  have st := inv.1
  have gh := st.1
  have hPn := (st.lookup hP).1
  have hdm := (Directory.GetDirectory_some hd).1
  have hdname := (Directory.GetDirectory_some hd).2
  obtain ⟨hdn, hdk, hdp⟩ := gh.1.parent_of_dir hPn hdm
  have hPd : P ≠ d := gh.parent_ne hdn hdp
  have hQd : Q ≠ d := fun e => hnot (e ▸ Sub.self)
  obtain ⟨f0, hf0⟩ := MoveDirectory_returns st hP hQ hd hnot
  obtain ⟨l, h1, h2, _, l1, _, _, u1, _, _, u2, g2, e⟩ := hf0 f0 (Nat.le_refl _)
  refine ⟨_, ⟨f0, fun fuel hf => MoveDirectory_mono hf e⟩, ?_⟩
  obtain ⟨i1, i2, _, _, i5, _⟩ := ProcessPathChanges_spec
    ((d, GetPath t.heap d) :: l.map (fun e => (e, GetPath t.heap e))) { t with heap := h2 }
  have hkind : ∀ x, (h2 x).kind = (t.heap x).kind := by
    intro x
    rw [u2.1.kind, attached_kind hQd, u1.1.kind, detached_kind hPd]
  have hname : ∀ x, filename (h2 x).dirEntryPath = filename (t.heap x).dirEntryPath := by
    intro x
    rw [u2.1.name, attached_path hQd, u1.1.name, detached_path hPd]
  have hfiles : ∀ x, (h2 x).files = (t.heap x).files := by
    intro x
    rw [u2.1.files, attached_files hQd, u1.1.files, detached_files hPd]
  have hdirs : ∀ x c, c ∈ (h2 x).directories ↔
      (c ∈ (t.heap x).directories ∧ (x = P → c ≠ d)) ∨ (x = Q ∧ c = d) := by
    intro x c
    rw [u2.1.directories, attached_dirs hQd, u1.1.directories, detached_dirs hPd]
  apply NamesInv.of_parts
  · rw [i1, i2]; exact g2
  · rw [i1, i2, i5]
    apply IndexValid.rekey
    · exact ((SoundTree_iff t).mp st).2.mono (Nat.le_refl _) (fun x _ => hkind x)
    · intro e he
      rcases List.mem_cons.mp he with rfl | he
      · exact hdn
      · obtain ⟨x, hx, rfl⟩ := List.mem_map.mp he
        exact ((l1 x).mp hx).1.lt gh.1 hdn
  · rw [i1, i2]
    intro x hx
    have u := inv.distinct x hx
    have hnew : ∀ a, a ∈ (t.heap x).directories → (x = P → a ≠ d) → x = Q →
        filename (t.heap a).dirEntryPath = filename (t.heap d).dirEntryPath → False := by
      intro a ha hne hxQ hn
      subst hxQ
      rcases hfree with rfl | hfree
      · exact hne rfl (u.1 a ha d hdm hn)
      · apply DirectoryExists_false hfree a ha
        unfold GetDirectoryName at hdname ⊢
        rw [hn, hdname]
    refine ⟨?_, ?_⟩
    · intro a ha b hb hn
      rw [hname, hname] at hn
      rcases (hdirs x a).mp ha with ⟨ha1, ha2⟩ | ⟨ha1, rfl⟩ <;>
        rcases (hdirs x b).mp hb with ⟨hb1, hb2⟩ | ⟨hb1, rfl⟩
      · exact u.1 a ha1 b hb1 hn
      · exact (hnew a ha1 ha2 hb1 hn).elim
      · exact (hnew b hb1 hb2 ha1 hn.symm).elim
      · rfl
    · intro a ha b hb hn
      rw [hname, hname] at hn
      rw [hfiles] at ha hb
      exact u.2 a ha b hb hn

theorem RenameDirectory_inv {t : DirectoryTree} (inv : NamesInv t) {oldPath newPath : Path}
    {P Q d : Nat} (hP : t.GetDirectory (parent_path oldPath) = some P)
    (hQ : t.GetDirectory (parent_path newPath) = some Q)
    (hd : Directory.GetDirectory t.heap P (filename oldPath) = some d)
    (hfree : filename newPath = filename oldPath ∨
      Directory.DirectoryExists t.heap P (filename newPath) = false) :
    ∃ t1, (∃ f0, ∀ fuel, f0 ≤ fuel → t.RenameDirectory fuel oldPath newPath = .ok t1) ∧
      NamesInv t1 := by
  have st := inv.1
  have gh := st.1
  have hPn := (st.lookup hP).1
  have hdm := (Directory.GetDirectory_some hd).1
  have hdname := (Directory.GetDirectory_some hd).2
  obtain ⟨hdn, hdk, hdp⟩ := gh.1.parent_of_dir hPn hdm
  obtain ⟨f0, hf0⟩ := RenameDirectory_returns st hP hQ hd
  obtain ⟨l, h1, _, l1, _, _, u1, g1, e⟩ := hf0 f0 (Nat.le_refl _)
  refine ⟨_, ⟨f0, fun fuel hf => RenameDirectory_mono hf e⟩, ?_⟩
  obtain ⟨i1, i2, _, _, i5, _⟩ := ProcessPathChanges_spec
    ((d, GetPath t.heap d) :: l.map (fun e => (e, GetPath t.heap e))) { t with heap := h1 }
  have hsame := fun x => renamed_same t.heap d (filename newPath) x
  have hkind : ∀ x, (h1 x).kind = (t.heap x).kind := by
    intro x
    rw [u1.1.kind, (hsame x).1]
  have hname : ∀ x, x ≠ d →
      filename (h1 x).dirEntryPath = filename (t.heap x).dirEntryPath := by
    intro x hx
    rw [u1.1.name, renamed_other _ _ _ _ hx]
  have hnamed : filename (h1 d).dirEntryPath = filename newPath := by
    rw [u1.1.name, renamed_name]
  have hfiles : ∀ x, (h1 x).files = (t.heap x).files := by
    intro x
    rw [u1.1.files, (hsame x).2.2.2]
  have hdirs : ∀ x, (h1 x).directories = (t.heap x).directories := by
    intro x
    rw [u1.1.directories, (hsame x).2.2.1]
  apply NamesInv.of_parts
  · rw [i1, i2]; exact g1
  · rw [i1, i2, i5]
    apply IndexValid.rekey
    · exact ((SoundTree_iff t).mp st).2.mono (Nat.le_refl _) (fun x _ => hkind x)
    · intro e he
      rcases List.mem_cons.mp he with rfl | he
      · exact hdn
      · obtain ⟨x, hx, rfl⟩ := List.mem_map.mp he
        exact ((l1 x).mp hx).1.lt gh.1 hdn
  · rw [i1, i2]
    intro x hx
    have u := inv.distinct x hx
    have hnew : ∀ b, b ∈ (t.heap x).directories → d ∈ (t.heap x).directories → b ≠ d →
        filename newPath = filename (t.heap b).dirEntryPath → False := by
      intro b hb hdx hbd hn
      have hxP : x = P := by
        have := (gh.1.parent_of_dir hx hdx).2.2
        rw [hdp] at this
        exact (Option.some.inj this).symm
      subst hxP
      rcases hfree with hfree | hfree
      · apply hbd
        apply u.1 b hb d hdm
        unfold GetDirectoryName at hdname
        rw [← hn, hfree, hdname]
      · exact DirectoryExists_false hfree b hb hn.symm
    refine ⟨?_, ?_⟩
    · intro a ha b hb hn
      rw [hdirs] at ha hb
      by_cases had : a = d <;> by_cases hbd : b = d
      · rw [had, hbd]
      · subst had
        rw [hnamed, hname b hbd] at hn
        exact (hnew b hb ha hbd hn).elim
      · subst hbd
        rw [hnamed, hname a had] at hn
        exact (hnew a ha hb had hn.symm).elim
      · rw [hname a had, hname b hbd] at hn
        exact u.1 a ha b hb hn
    · intro a ha b hb hn
      rw [hfiles] at ha hb
      have hfd : ∀ f, f ∈ (t.heap x).files → f ≠ d := by
        intro f hf e
        subst e
        have := (gh.1.parent_of_file hx hf).2.1
        rw [hdk] at this
        cases this
      rw [hname a (hfd a ha), hname b (hfd b hb)] at hn
      exact u.2 a ha b hb hn

theorem RemoveDirectory_inv {t : DirectoryTree} (inv : NamesInv t) {dirPath : Path} {P : Nat}
    (hP : t.GetDirectory (parent_path dirPath) = some P) :
    ∃ t1, (∃ f0, ∀ fuel, f0 ≤ fuel → t.RemoveDirectory fuel dirPath = .ok t1) ∧
      NamesInv t1 := by
  have st := inv.1
  have gh := st.1
  have hPn := (st.lookup hP).1
  cases hd : Directory.GetDirectory t.heap P (filename dirPath) with
  | none =>
    refine ⟨t, ⟨0, fun fuel _ => ?_⟩, inv⟩
    unfold DirectoryTree.RemoveDirectory
    rw [hP]
    simp only [hd]
  | some d =>
    have hdm := (Directory.GetDirectory_some hd).1
    obtain ⟨hdn, hdk, hdp⟩ := gh.1.parent_of_dir hPn hdm
    have hPd : P ≠ d := gh.parent_ne hdn hdp
    obtain ⟨m, g⟩ := gh.grading
    obtain ⟨f1, hf1⟩ := Directory.DeleteDirectory_spec gh hPn hdm
    obtain ⟨l, e1, l1, _⟩ := Directory.GetDirEntriesRecursive_spec gh.1 g (max f1 (m + 1)) d hdn
      (by have := Nat.le_max_right f1 (m + 1); omega)
    obtain ⟨h1, e2, u1, g1⟩ := hf1 (max f1 (m + 1)) (Nat.le_max_left _ _)
    obtain ⟨r1, r2, _, r4⟩ := removeEntries_fields l t
    have e : t.RemoveDirectory (max f1 (m + 1)) dirPath =
        .ok { t.removeEntries l with heap := h1 } := by
      unfold DirectoryTree.RemoveDirectory
      rw [hP]
      simp only [hd, e1, r1, e2]
    refine ⟨_, ⟨_, fun fuel hf => RemoveDirectory_mono hf e⟩, ?_⟩
    have hkind : ∀ x, (h1 x).kind = (t.heap x).kind := by
      intro x
      rw [u1.1.kind, detached_kind hPd]
    apply NamesInv.of_parts
    · show GoodHeap h1 (t.removeEntries l).next
      rw [r2]; exact g1
    · show IndexValid (t.removeEntries l).directories h1 (t.removeEntries l).next
      rw [r2]
      exact (r4 t.next ((SoundTree_iff t).mp st).2).mono (Nat.le_refl _) (fun x _ => hkind x)
    · show ∀ x, x < (t.removeEntries l).next → DistinctAt h1 x
      rw [r2]
      intro x hx
      have u := inv.distinct x hx
      apply u1.1.keeps_distinct
      refine ⟨?_, ?_⟩
      · intro a ha b hb hn
        rw [detached_path hPd, detached_path hPd] at hn
        exact u.1 a ((detached_dirs hPd x a).mp ha).1 b ((detached_dirs hPd x b).mp hb).1 hn
      · intro a ha b hb hn
        rw [detached_path hPd, detached_path hPd] at hn
        rw [detached_files hPd] at ha hb
        exact u.2 a ha b hb hn

/-! ## Files: detaching, attaching, renaming -/

/-- Recomputing the path of a file restores the representation invariant when only the
file's own cached path can be out of date. -/
theorem entry_UpdatePath_goodHeap {h : Heap} {n f : Nat} (s : Shape h n) (hf : f < n)
    (hk : (h f).kind = .FILE) (hc : ∀ x, x < n → x ≠ f → CachedAt h x) :
    GoodHeap (DirectoryEntry.UpdatePath h f) n := by
  have a := DirectoryEntry.UpdatePath_pathOnly h f
  refine ⟨a.shape s, ?_⟩
  intro x hx p hp
  rw [a.parentDir] at hp
  have hpf : p ≠ f := by
    rintro rfl
    have := (s.parent_is_dir hx hp).2
    rw [hk] at this
    cases this
  rw [DirectoryEntry.UpdatePath_other h f p hpf]
  by_cases hxf : x = f
  · subst hxf
    rw [a.name, DirectoryEntry.UpdatePath_path]
    simp only [Option.mem_def] at hp
    rw [hp]
  · rw [DirectoryEntry.UpdatePath_other h f x hxf]
    exact hc x hx hxf p hp

theorem detachedFile_apply {h : Heap} {P f : Nat} (hPf : P ≠ f) (x : Nat) :
    detachedFile h P f x =
      if x = f then { h f with parentDir := none }
      else if x = P then { h P with files := (h P).files.filter (fun c => c ≠ f) }
      else h x := by
  unfold detachedFile
  by_cases h1 : x = f
  · subst h1; simp [store, Ne.symm hPf]
  · by_cases h2 : x = P
    · subst h2; simp [store, h1]
    · simp [store, h1, h2]

theorem detachedFile_same {h : Heap} {P f : Nat} (hPf : P ≠ f) (x : Nat) :
    (detachedFile h P f x).kind = (h x).kind ∧
    (detachedFile h P f x).directories = (h x).directories ∧
    (detachedFile h P f x).dirEntryPath = (h x).dirEntryPath ∧
    (x ≠ f → (detachedFile h P f x).parentDir = (h x).parentDir) ∧
    (∀ c, c ∈ (detachedFile h P f x).files ↔ c ∈ (h x).files ∧ (x = P → c ≠ f)) := by
  rw [detachedFile_apply hPf]; split_ifs with h1 h2
  · subst h1
    refine ⟨rfl, rfl, rfl, fun e => absurd rfl e, fun c => ?_⟩
    simp only [iff_self_and]
    intro _ e; exact absurd e.symm hPf
  · subst h2
    exact ⟨rfl, rfl, rfl, fun _ => rfl, fun c => by simp [List.mem_filter]⟩
  · exact ⟨rfl, rfl, rfl, fun _ => rfl, fun c => by simp [h2]⟩

theorem detachedFile_parent_self {h : Heap} {P f : Nat} (hPf : P ≠ f) :
    (detachedFile h P f f).parentDir = none := by
  rw [detachedFile_apply hPf]; simp

theorem attachedFile_apply {h : Heap} {w f : Nat} (hwf : w ≠ f) (x : Nat) :
    attachedFile h w f x =
      if x = f then { h f with parentDir := some w }
      else if x = w then
        { h w with files := Sorter.InsertFileSorted (h w).sortType h f (h w).files }
      else h x := by
  unfold attachedFile Directory.AddFile
  by_cases h1 : x = f
  · subst h1; simp [store, Ne.symm hwf]
  · by_cases h2 : x = w
    · subst h2; simp [store, h1]
    · simp [store, h1, h2]

theorem attachedFile_same {h : Heap} {w f : Nat} (hwf : w ≠ f) (x : Nat) :
    (attachedFile h w f x).kind = (h x).kind ∧
    (attachedFile h w f x).directories = (h x).directories ∧
    (attachedFile h w f x).dirEntryPath = (h x).dirEntryPath ∧
    (x ≠ f → (attachedFile h w f x).parentDir = (h x).parentDir) ∧
    (∀ c, c ∈ (attachedFile h w f x).files ↔ c ∈ (h x).files ∨ (x = w ∧ c = f)) := by
  rw [attachedFile_apply hwf]; split_ifs with h1 h2
  · subst h1
    refine ⟨rfl, rfl, rfl, fun e => absurd rfl e, fun c => ?_⟩
    simp only [iff_self_or]
    rintro ⟨e, _⟩; exact absurd e.symm hwf
  · subst h2
    refine ⟨rfl, rfl, rfl, fun _ => rfl, fun c => ?_⟩
    simp only [mem_InsertFileSorted, true_and]
    tauto
  · exact ⟨rfl, rfl, rfl, fun _ => rfl, fun c => by simp [h2]⟩

theorem attachedFile_parent_self {h : Heap} {w f : Nat} (hwf : w ≠ f) :
    (attachedFile h w f f).parentDir = some w := by
  rw [attachedFile_apply hwf]; simp

theorem attachedFile_nodup {h : Heap} {w f : Nat} (hwf : w ≠ f) (x : Nat)
    (hn : (h x).files.Nodup) (hi : f ∉ (h x).files) : (attachedFile h w f x).files.Nodup := by
  rw [attachedFile_apply hwf]; split_ifs with h1 h2
  · subst h1; exact hn
  · subst h2; exact nodup_InsertFileSorted _ _ _ _ hn hi
  · exact hn

theorem detachedFile_nodup {h : Heap} {P f : Nat} (hPf : P ≠ f) (x : Nat)
    (hn : (h x).files.Nodup) : (detachedFile h P f x).files.Nodup := by
  rw [detachedFile_apply hPf]; split_ifs with h1 h2
  · subst h1; exact hn
  · subst h2; exact hn.filter _
  · exact hn

/-- The method `Directory::DeleteFile(file)` on a child file. -/
theorem Directory.DeleteFile_spec {h : Heap} {n P f : Nat} (gh : GoodHeap h n) (hP : P < n)
    (hf : f ∈ (h P).files) :
    GoodHeap (Directory.DeleteFile h P f) n ∧
    (∀ x, ((Directory.DeleteFile h P f) x).kind = (h x).kind ∧
      ((Directory.DeleteFile h P f) x).directories = (h x).directories ∧
      filename ((Directory.DeleteFile h P f) x).dirEntryPath = filename (h x).dirEntryPath ∧
      (∀ c, c ∈ ((Directory.DeleteFile h P f) x).files ↔
        c ∈ (h x).files ∧ (x = P → c ≠ f))) ∧
    ((Directory.DeleteFile h P f) f).parentDir = none := by
  obtain ⟨hfn, hfk, hfp⟩ := gh.1.parent_of_file hP hf
  have hPk := (gh.1.parent_is_dir hfn hfp).2
  have hPf : P ≠ f := by
    rintro rfl
    rw [hfk] at hPk
    cases hPk
  have e : Directory.DeleteFile h P f = DirectoryEntry.UpdatePath (detachedFile h P f) f := rfl
  have same := detachedFile_same (h := h) hPf
  have a := DirectoryEntry.UpdatePath_pathOnly (detachedFile h P f) f
  have s0 : Shape (detachedFile h P f) n := by
    intro x hx
    obtain ⟨s1, s2, s3, s4, s5⟩ := gh.1 x hx
    refine ⟨?_, ?_, ?_, ?_, ?_⟩
    · intro c hc
      rw [(same x).2.1] at hc
      obtain ⟨t1, t2, t3⟩ := s1 c hc
      have hcf : c ≠ f := by
        rintro rfl
        rw [hfk] at t2
        cases t2
      exact ⟨t1, by rw [(same c).1]; exact t2, by rw [(same c).2.2.2.1 hcf]; exact t3⟩
    · intro c hc
      rw [(same x).2.2.2.2] at hc
      obtain ⟨t1, t2, t3⟩ := s2 c hc.1
      have hcf : c ≠ f := by
        rintro rfl
        rw [hfp] at t3
        exact hc.2 (Option.some.inj t3).symm rfl
      exact ⟨t1, by rw [(same c).1]; exact t2, by rw [(same c).2.2.2.1 hcf]; exact t3⟩
    · rw [(same x).2.1]; exact s3
    · exact detachedFile_nodup hPf x s4
    · intro p hp
      by_cases hxf : x = f
      · subst hxf
        rw [detachedFile_parent_self hPf] at hp
        cases hp
      · rw [(same x).2.2.2.1 hxf] at hp
        obtain ⟨t1, t2, t3, t4⟩ := s5 p hp
        refine ⟨t1, by rw [(same p).1]; exact t2, ?_, ?_⟩
        · intro hk
          rw [(same x).1] at hk
          rw [(same p).2.1]
          exact t3 hk
        · intro hk
          rw [(same x).1] at hk
          rw [(same p).2.2.2.2]
          exact ⟨t4 hk, fun _ => hxf⟩
  have c0 : ∀ x, x < n → x ≠ f → CachedAt (detachedFile h P f) x := by
    intro x hx hxf p hp
    rw [(same x).2.2.2.1 hxf] at hp
    rw [(same x).2.2.1, (same p).2.2.1]
    exact gh.2 x hx p hp
  rw [e]
  refine ⟨entry_UpdatePath_goodHeap s0 hfn (by rw [(same f).1]; exact hfk) c0, ?_, ?_⟩
  · intro x
    refine ⟨by rw [a.kind, (same x).1], by rw [a.directories, (same x).2.1],
      by rw [a.name, (same x).2.2.1], ?_⟩
    intro c
    rw [a.files]
    exact (same x).2.2.2.2 c
  · rw [a.parentDir]
    exact detachedFile_parent_self hPf

/-- The static `Directory::AddFileToDirectory(where, what)` for a parentless file. -/
theorem Directory.AddFileToDirectory_spec {h : Heap} {n w f : Nat} (gh : GoodHeap h n)
    (hw : w < n) (hf : f < n) (hwk : (h w).kind = .DIRECTORY) (hfk : (h f).kind = .FILE)
    (hfp : (h f).parentDir = none) :
    GoodHeap (Directory.AddFileToDirectory h w f) n ∧
    (∀ x, ((Directory.AddFileToDirectory h w f) x).kind = (h x).kind ∧
      ((Directory.AddFileToDirectory h w f) x).directories = (h x).directories ∧
      filename ((Directory.AddFileToDirectory h w f) x).dirEntryPath =
        filename (h x).dirEntryPath ∧
      (∀ c, c ∈ ((Directory.AddFileToDirectory h w f) x).files ↔
        c ∈ (h x).files ∨ (x = w ∧ c = f))) := by
  have hwf : w ≠ f := by
    rintro rfl
    rw [hfk] at hwk
    cases hwk
  have e : Directory.AddFileToDirectory h w f =
      DirectoryEntry.UpdatePath (attachedFile h w f) f := rfl
  have same := attachedFile_same (h := h) hwf
  have a := DirectoryEntry.UpdatePath_pathOnly (attachedFile h w f) f
  have s0 : Shape (attachedFile h w f) n := by
    intro x hx
    obtain ⟨s1, s2, s3, s4, s5⟩ := gh.1 x hx
    refine ⟨?_, ?_, ?_, ?_, ?_⟩
    · intro c hc
      rw [(same x).2.1] at hc
      obtain ⟨t1, t2, t3⟩ := s1 c hc
      have hcf : c ≠ f := by
        rintro rfl
        exact (gh.not_listed hx hfp).1 hc
      exact ⟨t1, by rw [(same c).1]; exact t2, by rw [(same c).2.2.2.1 hcf]; exact t3⟩
    · intro c hc
      rw [(same x).2.2.2.2] at hc
      rcases hc with hc | ⟨rfl, rfl⟩
      · obtain ⟨t1, t2, t3⟩ := s2 c hc
        have hcf : c ≠ f := by
          rintro rfl
          exact (gh.not_listed hx hfp).2 hc
        exact ⟨t1, by rw [(same c).1]; exact t2, by rw [(same c).2.2.2.1 hcf]; exact t3⟩
      · exact ⟨hf, by rw [(same c).1]; exact hfk, attachedFile_parent_self hwf⟩
    · rw [(same x).2.1]; exact s3
    · exact attachedFile_nodup hwf x s4 (gh.not_listed hx hfp).2
    · intro p hp
      by_cases hxf : x = f
      · subst hxf
        rw [attachedFile_parent_self hwf] at hp
        cases hp
        refine ⟨hw, by rw [(same w).1]; exact hwk, ?_, ?_⟩
        · intro hk
          rw [(same x).1, hfk] at hk
          cases hk
        · intro _
          rw [(same w).2.2.2.2]
          exact Or.inr ⟨rfl, rfl⟩
      · rw [(same x).2.2.2.1 hxf] at hp
        obtain ⟨t1, t2, t3, t4⟩ := s5 p hp
        refine ⟨t1, by rw [(same p).1]; exact t2, ?_, ?_⟩
        · intro hk
          rw [(same x).1] at hk
          rw [(same p).2.1]
          exact t3 hk
        · intro hk
          rw [(same x).1] at hk
          rw [(same p).2.2.2.2]
          exact Or.inl (t4 hk)
  have c0 : ∀ x, x < n → x ≠ f → CachedAt (attachedFile h w f) x := by
    intro x hx hxf p hp
    rw [(same x).2.2.2.1 hxf] at hp
    rw [(same x).2.2.1, (same p).2.2.1]
    exact gh.2 x hx p hp
  rw [e]
  refine ⟨entry_UpdatePath_goodHeap s0 hf (by rw [(same f).1]; exact hfk) c0, ?_⟩
  intro x
  refine ⟨by rw [a.kind, (same x).1], by rw [a.directories, (same x).2.1],
    by rw [a.name, (same x).2.2.1], ?_⟩
  intro c
  rw [a.files]
  exact (same x).2.2.2.2 c

/-- The method `DirectoryEntry::Rename(newName)` on a file. -/
theorem File.Rename_keeps {h : Heap} {n f : Nat} (gh : GoodHeap h n) (hf : f < n)
    (hfk : (h f).kind = .FILE) (newName : String) :
    GoodHeap (File.Rename h f newName) n ∧
    (∀ x, ((File.Rename h f newName) x).kind = (h x).kind ∧
      ((File.Rename h f newName) x).directories = (h x).directories ∧
      ((File.Rename h f newName) x).files = (h x).files ∧
      (x ≠ f → filename ((File.Rename h f newName) x).dirEntryPath =
        filename (h x).dirEntryPath)) ∧
    filename ((File.Rename h f newName) f).dirEntryPath = newName := by
  have e : File.Rename h f newName = DirectoryEntry.UpdatePath (renamed h f newName) f := rfl
  have same := renamed_same h f newName
  have a := DirectoryEntry.UpdatePath_pathOnly (renamed h f newName) f
  have c0 : ∀ x, x < n → x ≠ f → CachedAt (renamed h f newName) x := by
    intro x hx hxf p hp
    rw [(same x).2.1] at hp
    have hpf : p ≠ f := by
      rintro rfl
      have := (gh.1.parent_is_dir hx hp).2
      rw [hfk] at this
      cases this
    rw [renamed_other h f newName x hxf, renamed_other h f newName p hpf]
    exact gh.2 x hx p hp
  rw [e]
  refine ⟨entry_UpdatePath_goodHeap (Shape_congr same gh.1) hf
    (by rw [(same f).1]; exact hfk) c0, ?_, ?_⟩
  · intro x
    refine ⟨by rw [a.kind, (same x).1], by rw [a.directories, (same x).2.2.1],
      by rw [a.files, (same x).2.2.2], ?_⟩
    intro hxf
    rw [a.name, renamed_other h f newName x hxf]
  · rw [a.name, renamed_name]

/-! ## The file operations keep the invariant -/

theorem FileExists_false {h : Heap} {P : Nat} {name : String}
    (e : Directory.FileExists h P name = false) :
    ∀ c ∈ (h P).files, GetFullFileName h c ≠ name := by
  unfold Directory.FileExists at e
  intro c hc hn
  have := List.any_eq_false.mp e c hc
  simp [hn] at this

theorem UpdateStatus_same (e : DirectoryEntry) (o : Option Int) :
    (e.UpdateStatus o).kind = e.kind ∧ (e.UpdateStatus o).dirEntryPath = e.dirEntryPath ∧
    (e.UpdateStatus o).parentDir = e.parentDir ∧
    (e.UpdateStatus o).directories = e.directories ∧ (e.UpdateStatus o).files = e.files := by
  unfold DirectoryEntry.UpdateStatus
  cases o with
  | none => exact ⟨rfl, rfl, rfl, rfl, rfl⟩
  | some time =>
    simp only
    split_ifs <;> exact ⟨rfl, rfl, rfl, rfl, rfl⟩

/-- A new parentless object without children keeps the representation invariant. -/
theorem GoodHeap.alloc {h : Heap} {n : Nat} (gh : GoodHeap h n) (e : DirectoryEntry)
    (hp : e.parentDir = none) (hd : e.directories = []) (hf : e.files = []) :
    GoodHeap (store h n e) (n + 1) := by
  have old : ∀ x, x < n → store h n e x = h x := fun x hx => store_other h n x e (by omega)
  constructor
  · intro x hx
    by_cases hxn : x = n
    · subst hxn
      rw [store_same, hd, hf, hp]
      exact ⟨fun c hc => absurd hc (List.not_mem_nil _),
        fun c hc => absurd hc (List.not_mem_nil _), List.nodup_nil, List.nodup_nil,
        fun p hp => by cases hp⟩
    · have hx1 : x < n := by omega
      obtain ⟨s1, s2, s3, s4, s5⟩ := gh.1 x hx1
      rw [old x hx1]
      refine ⟨?_, ?_, s3, s4, ?_⟩
      · intro c hc
        obtain ⟨t1, t2, t3⟩ := s1 c hc
        rw [old c t1]
        exact ⟨by omega, t2, t3⟩
      · intro c hc
        obtain ⟨t1, t2, t3⟩ := s2 c hc
        rw [old c t1]
        exact ⟨by omega, t2, t3⟩
      · intro p hp1
        obtain ⟨t1, t2, t3, t4⟩ := s5 p hp1
        rw [old p t1]
        exact ⟨by omega, t2, t3, t4⟩
  · intro x hx p hp1
    by_cases hxn : x = n
    · subst hxn
      rw [store_same, hp] at hp1
      cases hp1
    · have hx1 : x < n := by omega
      rw [old x hx1] at hp1 ⊢
      rw [old p (gh.1.parent_is_dir hx1 hp1).1]
      exact gh.2 x hx1 p hp1

theorem RemoveFile_inv {t : DirectoryTree} (inv : NamesInv t) {filePath : Path} {P : Nat}
    (hP : t.GetDirectory (parent_path filePath) = some P) :
    ∃ t1, t.RemoveFile filePath = .ok t1 ∧ NamesInv t1 := by
  have st := inv.1
  have gh := st.1
  have hPn := (st.lookup hP).1
  unfold DirectoryTree.RemoveFile
  rw [hP]
  cases hf : Directory.GetFile t.heap P (filename filePath) with
  | none => exact ⟨t, by simp only [hf], inv⟩
  | some f =>
    refine ⟨{ t.NotifyFileRemoved f with
      heap := Directory.DeleteFile (t.NotifyFileRemoved f).heap P f }, by simp only [hf], ?_⟩
    obtain ⟨n1, n2, n3, _⟩ := notify_fields t .OnFileRemoved f none
    obtain ⟨g1, same, _⟩ := Directory.DeleteFile_spec gh hPn (Directory.GetFile_some hf).1
    unfold DirectoryTree.NotifyFileRemoved
    apply NamesInv.of_parts
    · show GoodHeap (Directory.DeleteFile (t.notify .OnFileRemoved f none).heap P f)
        (t.notify .OnFileRemoved f none).next
      rw [n1, n2]; exact g1
    · show IndexValid (t.notify .OnFileRemoved f none).directories
        (Directory.DeleteFile (t.notify .OnFileRemoved f none).heap P f)
        (t.notify .OnFileRemoved f none).next
      rw [n1, n2, n3]
      exact ((SoundTree_iff t).mp st).2.mono (Nat.le_refl _) (fun x _ => (same x).1)
    · show ∀ x, x < (t.notify .OnFileRemoved f none).next →
        DistinctAt (Directory.DeleteFile (t.notify .OnFileRemoved f none).heap P f) x
      rw [n1, n2]
      intro x hx
      have u := inv.distinct x hx
      refine ⟨?_, ?_⟩
      · intro a ha b hb hn
        rw [(same x).2.1] at ha hb
        rw [(same a).2.2.1, (same b).2.2.1] at hn
        exact u.1 a ha b hb hn
      · intro a ha b hb hn
        rw [(same a).2.2.1, (same b).2.2.1] at hn
        exact u.2 a (((same x).2.2.2 a).mp ha).1 b (((same x).2.2.2 b).mp hb).1 hn

theorem RenameFile_inv {t : DirectoryTree} (inv : NamesInv t) {oldPath newPath : Path}
    {P Q f : Nat} (hP : t.GetDirectory (parent_path oldPath) = some P)
    (hQ : t.GetDirectory (parent_path newPath) = some Q)
    (hf : Directory.GetFile t.heap P (filename oldPath) = some f)
    (hfree : filename newPath = filename oldPath ∨
      Directory.FileExists t.heap P (filename newPath) = false) :
    ∃ t1, t.RenameFile oldPath newPath = .ok t1 ∧ NamesInv t1 := by
  have st := inv.1
  have gh := st.1
  have hPn := (st.lookup hP).1
  have hfm := (Directory.GetFile_some hf).1
  have hfname := (Directory.GetFile_some hf).2
  obtain ⟨hfn, hfk, hfp⟩ := gh.1.parent_of_file hPn hfm
  unfold DirectoryTree.RenameFile
  rw [hP, hQ]
  simp only [hf]
  refine ⟨_, rfl, ?_⟩
  obtain ⟨n1, n2, n3, _⟩ := notify_fields
    { t with heap := File.Rename t.heap f (filename newPath) } .OnFilePathChanged f (some oldPath)
  obtain ⟨g1, same, hnew⟩ := File.Rename_keeps gh hfn hfk (filename newPath)
  unfold DirectoryTree.NotifyFilePathChanged
  apply NamesInv.of_parts
  · rw [n1, n2]; exact g1
  · rw [n1, n2, n3]
    exact ((SoundTree_iff t).mp st).2.mono (Nat.le_refl _) (fun x _ => (same x).1)
  · rw [n1, n2]
    intro x hx
    have u := inv.distinct x hx
    have hclash : ∀ b, b ∈ (t.heap x).files → f ∈ (t.heap x).files → b ≠ f →
        filename newPath = filename (t.heap b).dirEntryPath → False := by
      intro b hb hfx hbf hn
      have hxP : x = P := by
        have := (gh.1.parent_of_file hx hfx).2.2
        rw [hfp] at this
        exact (Option.some.inj this).symm
      subst hxP
      rcases hfree with hfree | hfree
      · apply hbf
        apply u.2 b hb f hfm
        unfold GetFullFileName at hfname
        rw [← hn, hfree, hfname]
      · exact FileExists_false hfree b hb hn.symm
    refine ⟨?_, ?_⟩
    · intro a ha b hb hn
      show a = b
      simp only at ha hb hn
      rw [(same x).2.1] at ha hb
      have hdf : ∀ c, c ∈ (t.heap x).directories → c ≠ f := by
        intro c hc e
        subst e
        have := (gh.1.parent_of_dir hx hc).2.1
        rw [hfk] at this
        cases this
      rw [(same a).2.2.2 (hdf a ha), (same b).2.2.2 (hdf b hb)] at hn
      exact u.1 a ha b hb hn
    · intro a ha b hb hn
      show a = b
      simp only at ha hb hn
      rw [(same x).2.2.1] at ha hb
      by_cases haf : a = f <;> by_cases hbf : b = f
      · rw [haf, hbf]
      · subst haf
        rw [hnew, (same b).2.2.2 hbf] at hn
        exact (hclash b hb ha hbf hn).elim
      · subst hbf
        rw [hnew, (same a).2.2.2 haf] at hn
        exact (hclash a ha hb haf hn.symm).elim
      · rw [(same a).2.2.2 haf, (same b).2.2.2 hbf] at hn
        exact u.2 a ha b hb hn

theorem MoveFile_inv {t : DirectoryTree} (inv : NamesInv t) {oldPath newPath : Path}
    {P Q f : Nat} (hP : t.GetDirectory (parent_path oldPath) = some P)
    (hQ : t.GetDirectory (parent_path newPath) = some Q)
    (hf : Directory.GetFile t.heap P (filename oldPath) = some f)
    (hfree : Q = P ∨ Directory.FileExists t.heap Q (filename oldPath) = false) :
    ∃ t1, t.MoveFile oldPath newPath = .ok t1 ∧ NamesInv t1 := by
  have st := inv.1
  have gh := st.1
  have hPn := (st.lookup hP).1
  obtain ⟨hQn, hQk⟩ := st.lookup hQ
  have hfm := (Directory.GetFile_some hf).1
  have hfname := (Directory.GetFile_some hf).2
  obtain ⟨hfn, hfk, hfp⟩ := gh.1.parent_of_file hPn hfm
  unfold DirectoryTree.MoveFile
  rw [hP, hQ]
  simp only [hf]
  refine ⟨_, rfl, ?_⟩
  obtain ⟨n1, n2, n3, _⟩ := notify_fields
    { t with heap := Directory.AddFileToDirectory (Directory.DeleteFile t.heap P f) Q f }
    .OnFilePathChanged f (some oldPath)
  obtain ⟨g1, same1, p1⟩ := Directory.DeleteFile_spec gh hPn hfm
  obtain ⟨g2, same2⟩ := Directory.AddFileToDirectory_spec g1 hQn hfn
    (by rw [(same1 Q).1]; exact hQk) (by rw [(same1 f).1]; exact hfk) p1
  unfold DirectoryTree.NotifyFilePathChanged
  have hname : ∀ x, filename
      ((Directory.AddFileToDirectory (Directory.DeleteFile t.heap P f) Q f) x).dirEntryPath =
      filename (t.heap x).dirEntryPath := by
    intro x
    rw [(same2 x).2.2.1, (same1 x).2.2.1]
  have hfiles : ∀ x c,
      c ∈ ((Directory.AddFileToDirectory (Directory.DeleteFile t.heap P f) Q f) x).files ↔
      (c ∈ (t.heap x).files ∧ (x = P → c ≠ f)) ∨ (x = Q ∧ c = f) := by
    intro x c
    rw [(same2 x).2.2.2, (same1 x).2.2.2]
  apply NamesInv.of_parts
  · rw [n1, n2]; exact g2
  · rw [n1, n2, n3]
    exact ((SoundTree_iff t).mp st).2.mono (Nat.le_refl _)
      (fun x _ => by rw [(same2 x).1, (same1 x).1])
  · rw [n1, n2]
    intro x hx
    have u := inv.distinct x hx
    have hnew : ∀ a, a ∈ (t.heap x).files → (x = P → a ≠ f) → x = Q →
        filename (t.heap a).dirEntryPath = filename (t.heap f).dirEntryPath → False := by
      intro a ha hne hxQ hn
      subst hxQ
      rcases hfree with rfl | hfree
      · exact hne rfl (u.2 a ha f hfm hn)
      · apply FileExists_false hfree a ha
        unfold GetFullFileName at hfname ⊢
        rw [hn, hfname]
    refine ⟨?_, ?_⟩
    · intro a ha b hb hn
      show a = b
      simp only at ha hb hn
      rw [hname, hname] at hn
      rw [(same2 x).2.1, (same1 x).2.1] at ha hb
      exact u.1 a ha b hb hn
    · intro a ha b hb hn
      show a = b
      simp only at ha hb hn
      rw [hname, hname] at hn
      rcases (hfiles x a).mp ha with ⟨ha1, ha2⟩ | ⟨ha1, rfl⟩ <;>
        rcases (hfiles x b).mp hb with ⟨hb1, hb2⟩ | ⟨hb1, rfl⟩
      · exact u.2 a ha1 b hb1 hn
      · exact (hnew a ha1 ha2 hb1 hn).elim
      · exact (hnew b hb1 hb2 ha1 hn.symm).elim
      · rfl

/-- What `CreateFile` followed by `AddFileToDirectory` does to a tree: the body of
`AddNewFile` and of the file branch of `BuildTree`. -/
theorem newFile_attached {t : DirectoryTree} (inv : NamesInv t) (path : Path)
    (o1 o2 : Option Int) {D : Nat} (hDn : D < t.next) (hDk : (t.heap D).kind = .DIRECTORY)
    (hfree : Directory.FileExists t.heap D (filename path) = false) :
    ∃ H, H = Directory.AddFileToDirectory (t.CreateFile path o1 o2).1.heap D t.next ∧
      (∀ T : DirectoryTree, T.heap = H → T.next = t.next + 1 →
        T.directories = t.directories → NamesInv T) ∧
      (∀ x, x < t.next → x ≠ D → H x = t.heap x) ∧
      (H D).kind = .DIRECTORY ∧ (H D).parentDir = (t.heap D).parentDir ∧
      (H D).dirEntryPath = (t.heap D).dirEntryPath ∧
      (H D).directories = (t.heap D).directories ∧
      (∀ c, c ∈ (H D).files ↔ c ∈ (t.heap D).files ∨ c = t.next) ∧
      (∀ c, c < t.next → filename (H c).dirEntryPath = filename (t.heap c).dirEntryPath) ∧
      filename (H t.next).dirEntryPath = filename path := by
  have st := inv.1
  have gh := st.1
  have se := UpdateStatus_same ((newFile path).UpdateStatus o1) o2
  have se1 := UpdateStatus_same (newFile path) o1
  have hc : (t.CreateFile path o1 o2).1.heap =
      store t.heap t.next (((newFile path).UpdateStatus o1).UpdateStatus o2) := rfl
  rw [hc]
  generalize ((newFile path).UpdateStatus o1).UpdateStatus o2 = e0 at se
  have k0 : e0.kind = .FILE := by rw [se.1, se1.1]; rfl
  have p0 : e0.parentDir = none := by rw [se.2.2.1, se1.2.2.1]; rfl
  have d0 : e0.directories = [] := by rw [se.2.2.2.1, se1.2.2.2.1]; rfl
  have f0 : e0.files = [] := by rw [se.2.2.2.2, se1.2.2.2.2]; rfl
  have m0 : e0.dirEntryPath = path := by rw [se.2.1, se1.2.1]; rfl
  have g0 : GoodHeap (store t.heap t.next e0) (t.next + 1) := gh.alloc _ p0 d0 f0
  have old : ∀ x, x < t.next → store t.heap t.next e0 x = t.heap x :=
    fun x hx => store_other t.heap t.next x _ (by omega)
  have new : store t.heap t.next e0 t.next = e0 := store_same _ _ _
  have hDf : D ≠ t.next := by omega
  obtain ⟨g2, same2⟩ := Directory.AddFileToDirectory_spec g0 (w := D) (f := t.next)
    (by omega) (by omega) (by rw [old D hDn]; exact hDk)
    (by rw [new]; exact k0) (by rw [new]; exact p0)
  have hother : ∀ x, x ≠ t.next →
      Directory.AddFileToDirectory (store t.heap t.next e0) D t.next x =
        attachedFile (store t.heap t.next e0) D t.next x :=
    fun x hx => DirectoryEntry.UpdatePath_other _ _ x hx
  have hDv := hother D hDf
  rw [attachedFile_apply hDf, if_neg hDf, if_pos rfl, old D hDn] at hDv
  refine ⟨_, rfl, ?_, ?_, ?_, ?_, ?_, ?_, ?_, ?_, ?_⟩
  · generalize Directory.AddFileToDirectory (store t.heap t.next e0) D t.next = H
      at g2 same2
    intro T e1 e2 e3
    apply NamesInv.of_parts
    · rw [e1, e2]; exact g2
    · rw [e1, e2, e3]
      exact ((SoundTree_iff t).mp st).2.mono (Nat.le_succ _)
        (fun x hx => by rw [(same2 x).1, old x hx])
    · rw [e1, e2]
      intro x hx
      by_cases hxn : x = t.next
      · subst hxn
        refine ⟨?_, ?_⟩
        · intro a ha
          rw [(same2 t.next).2.1, new, d0] at ha
          exact absurd ha (List.not_mem_nil _)
        · intro a ha
          rcases ((same2 t.next).2.2.2 a).mp ha with ha1 | ⟨e, _⟩
          · rw [new, f0] at ha1
            exact absurd ha1 (List.not_mem_nil _)
          · omega
      · have hx1 : x < t.next := by omega
        have u := inv.distinct x hx1
        have hname : ∀ c, c < t.next →
            filename (H c).dirEntryPath = filename (t.heap c).dirEntryPath := by
          intro c hc
          rw [(same2 c).2.2.1, old c hc]
        have hnamen : filename (H t.next).dirEntryPath = filename path := by
          rw [(same2 t.next).2.2.1, new, m0]
        have hnew : ∀ a, a ∈ (t.heap x).files → x = D →
            filename (t.heap a).dirEntryPath = filename path → False := by
          intro a ha hxP hn
          subst hxP
          exact FileExists_false hfree a ha hn
        refine ⟨?_, ?_⟩
        · intro a ha b hb hn
          rw [(same2 x).2.1, old x hx1] at ha hb
          rw [hname a (gh.1.parent_of_dir hx1 ha).1,
            hname b (gh.1.parent_of_dir hx1 hb).1] at hn
          exact u.1 a ha b hb hn
        · intro a ha b hb hn
          rw [(same2 x).2.2.2, old x hx1] at ha hb
          rcases ha with ha | ⟨ha1, rfl⟩ <;> rcases hb with hb | ⟨hb1, rfl⟩
          · rw [hname a (gh.1.parent_of_file hx1 ha).1,
              hname b (gh.1.parent_of_file hx1 hb).1] at hn
            exact u.2 a ha b hb hn
          · rw [hname a (gh.1.parent_of_file hx1 ha).1, hnamen] at hn
            exact (hnew a ha hb1 hn).elim
          · rw [hname b (gh.1.parent_of_file hx1 hb).1, hnamen] at hn
            exact (hnew b hb ha1 hn.symm).elim
          · rfl
  · intro x hx hxD
    rw [hother x (by omega), attachedFile_apply hDf, if_neg (by omega), if_neg hxD, old x hx]
  · rw [hDv]; exact hDk
  · rw [hDv]
  · rw [hDv]
  · rw [hDv]
  · intro c
    rw [(same2 D).2.2.2, old D hDn]
    simp
  · intro c hc
    rw [(same2 c).2.2.1, old c hc]
  · rw [(same2 t.next).2.2.1, new, m0]

theorem AddNewFile_inv {t : DirectoryTree} (inv : NamesInv t) {filePath : Path}
    (o1 o2 : Option Int) {P : Nat} (hP : t.GetDirectory (parent_path filePath) = some P)
    (hfree : Directory.FileExists t.heap P (filename filePath) = false) :
    ∃ t1, t.AddNewFile filePath o1 o2 = .ok t1 ∧ NamesInv t1 := by
  obtain ⟨hPn, hPk⟩ := inv.1.lookup hP
  obtain ⟨H, hH, key, _⟩ := newFile_attached inv filePath o1 o2 hPn hPk hfree
  unfold DirectoryTree.AddNewFile
  rw [hP]
  refine ⟨_, rfl, ?_⟩
  subst hH
  obtain ⟨n1, n2, n3, _⟩ := notify_fields
    { (t.CreateFile filePath o1 o2).1 with
      heap := Directory.AddFileToDirectory (t.CreateFile filePath o1 o2).1.heap P
        (t.CreateFile filePath o1 o2).2 }
    .OnFileAdded (t.CreateFile filePath o1 o2).2 none
  exact key _ n1 n2 n3

/-! ## Adding a directory -/

/-- A subtree rooted at a new object holds new objects only. -/
theorem Sub.above {h h1 : Heap} {n n1 d : Nat} (gh : GoodHeap h n) (g1 : GoodHeap h1 n1)
    (hd : n ≤ d) (hd1 : d < n1)
    (frame : ∀ x, x < n → (h1 x).parentDir = (h x).parentDir) :
    ∀ x, Sub h1 d x → n ≤ x := by
  have step : ∀ p c, n ≤ p → (h1 c).parentDir = some p → n ≤ c := by
    intro p c hp hc
    by_contra hlt
    have hcn : c < n := by omega
    rw [frame c hcn] at hc
    have := (gh.1.parent_is_dir hcn hc).1
    omega
  intro x hs
  induction hs with
  | self => exact hd
  | dir hp hc ih => exact step _ _ ih (g1.1.parent_of_dir (hp.lt g1.1 hd1) hc).2.2
  | file hp hf ih => exact step _ _ ih (g1.1.parent_of_file (hp.lt g1.1 hd1) hf).2.2

/-- What `AddDirectoryToDirectory(D, d)` does to a tree when `d` is a parentless directory
outside whose subtree `D` lies and whose name is free in `D`. -/
theorem dir_attached {t : DirectoryTree} (inv : NamesInv t) {D d : Nat}
    (hDn : D < t.next) (hDk : (t.heap D).kind = .DIRECTORY) (hdn : d < t.next)
    (hdk : (t.heap d).kind = .DIRECTORY) (hdp : (t.heap d).parentDir = none)
    (hnot : ¬ Sub t.heap d D)
    (hfree : ∀ c ∈ (t.heap D).directories,
      filename (t.heap c).dirEntryPath ≠ filename (t.heap d).dirEntryPath) :
    ∃ H, (∃ f0, ∀ fuel, f0 ≤ fuel →
        Directory.AddDirectoryToDirectory fuel t.heap D d = some H) ∧
      (∀ T : DirectoryTree, T.heap = H → T.next = t.next →
        T.directories = t.directories → NamesInv T) ∧
      (∀ x, ¬ Sub t.heap d x → x ≠ D → H x = t.heap x) ∧
      (H D).kind = .DIRECTORY ∧ (H D).parentDir = (t.heap D).parentDir ∧
      (H D).dirEntryPath = (t.heap D).dirEntryPath ∧
      (H D).files = (t.heap D).files ∧
      (∀ c, c ∈ (H D).directories ↔ c ∈ (t.heap D).directories ∨ c = d) ∧
      (∀ c, filename (H c).dirEntryPath = filename (t.heap c).dirEntryPath) := by
  have st := inv.1
  have gh := st.1
  have hDd : D ≠ d := fun e => hnot (e ▸ Sub.self)
  obtain ⟨f0, hf0⟩ := Directory.AddDirectoryToDirectory_spec gh hDn hdn hDk hdk hdp hnot
  obtain ⟨H, e, u, g⟩ := hf0 f0 (Nat.le_refl _)
  have hkind : ∀ x, (H x).kind = (t.heap x).kind := by
    intro x
    rw [u.1.kind, attached_kind hDd]
  have hname : ∀ x, filename (H x).dirEntryPath = filename (t.heap x).dirEntryPath := by
    intro x
    rw [u.1.name, attached_path hDd]
  have hfiles : ∀ x, (H x).files = (t.heap x).files := by
    intro x
    rw [u.1.files, attached_files hDd]
  have hdirs : ∀ x c, c ∈ (H x).directories ↔
      c ∈ (t.heap x).directories ∨ (x = D ∧ c = d) := by
    intro x c
    rw [u.1.directories, attached_dirs hDd]
  have hDv : H D = attached t.heap D d D :=
    u.2.1 D (fun hs => hnot ((attach_sub hnot D).mp hs))
  refine ⟨H, ⟨f0, fun fuel hf => Directory.UpdatePath_mono hf e⟩, ?_, ?_, ?_, ?_, ?_, ?_, ?_,
    hname⟩
  · intro T e1 e2 e3
    apply NamesInv.of_parts
    · rw [e1, e2]; exact g
    · rw [e1, e2, e3]
      exact ((SoundTree_iff t).mp st).2.mono (Nat.le_refl _) (fun x _ => hkind x)
    · rw [e1, e2]
      intro x hx
      have u0 := inv.distinct x hx
      refine ⟨?_, ?_⟩
      · intro a ha b hb hn
        rw [hname, hname] at hn
        rcases (hdirs x a).mp ha with ha1 | ⟨ha1, rfl⟩ <;>
          rcases (hdirs x b).mp hb with hb1 | ⟨hb1, rfl⟩
        · exact u0.1 a ha1 b hb1 hn
        · subst hb1
          exact (hfree a ha1 hn).elim
        · subst ha1
          exact (hfree b hb1 hn.symm).elim
        · rfl
      · intro a ha b hb hn
        rw [hname, hname] at hn
        rw [hfiles] at ha hb
        exact u0.2 a ha b hb hn
  · intro x hx hxD
    rw [u.2.1 x (fun hs => hx ((attach_sub hnot x).mp hs)), attached_apply hDd,
      if_neg (fun (e : x = d) => hx (e ▸ Sub.self)), if_neg hxD]
  · rw [hkind]; exact hDk
  · rw [hDv, attached_parent hDd D hDd]
  · rw [hDv, attached_path hDd]
  · exact hfiles D
  · intro c
    rw [hdirs]
    simp

/-- The first step of `BuildTree`: the new directory object and its index entry. -/
theorem newDirectory_created {t : DirectoryTree} (inv : NamesInv t) (p : Path)
    (o1 o2 : Option Int) :
    NamesInv { (t.CreateDirectory p o1 o2).1 with
      directories := mapInsert t.directories p t.next } ∧
    (∀ x, x < t.next → (t.CreateDirectory p o1 o2).1.heap x = t.heap x) ∧
    ((t.CreateDirectory p o1 o2).1.heap t.next).kind = .DIRECTORY ∧
    ((t.CreateDirectory p o1 o2).1.heap t.next).parentDir = none ∧
    ((t.CreateDirectory p o1 o2).1.heap t.next).dirEntryPath = p ∧
    ((t.CreateDirectory p o1 o2).1.heap t.next).directories = [] ∧
    ((t.CreateDirectory p o1 o2).1.heap t.next).files = [] := by
  have st := inv.1
  have gh := st.1
  have se := UpdateStatus_same ((newDirectory p).UpdateStatus o1) o2
  have se1 := UpdateStatus_same (newDirectory p) o1
  have hc : (t.CreateDirectory p o1 o2).1.heap =
      store t.heap t.next (((newDirectory p).UpdateStatus o1).UpdateStatus o2) := rfl
  rw [hc]
  set e0 := ((newDirectory p).UpdateStatus o1).UpdateStatus o2 with he0
  have k0 : e0.kind = .DIRECTORY := by rw [se.1, se1.1]; rfl
  have p0 : e0.parentDir = none := by rw [se.2.2.1, se1.2.2.1]; rfl
  have d0 : e0.directories = [] := by rw [se.2.2.2.1, se1.2.2.2.1]; rfl
  have f0 : e0.files = [] := by rw [se.2.2.2.2, se1.2.2.2.2]; rfl
  have m0 : e0.dirEntryPath = p := by rw [se.2.1, se1.2.1]; rfl
  have g0 : GoodHeap (store t.heap t.next e0) (t.next + 1) := gh.alloc _ p0 d0 f0
  have old : ∀ x, x < t.next → store t.heap t.next e0 x = t.heap x :=
    fun x hx => store_other t.heap t.next x _ (by omega)
  have new : store t.heap t.next e0 t.next = e0 := store_same _ _ _
  refine ⟨?_, old, by rw [new]; exact k0, by rw [new]; exact p0, by rw [new]; exact m0,
    by rw [new]; exact d0, by rw [new]; exact f0⟩
  apply NamesInv.of_parts
  · exact g0
  · show IndexValid (mapInsert t.directories p t.next) (store t.heap t.next e0) (t.next + 1)
    exact (((SoundTree_iff t).mp st).2.mono (Nat.le_succ _)
      (fun x hx => by rw [old x hx])).insert p (Nat.lt_succ_self _) (by rw [new]; exact k0)
  · show ∀ x, x < t.next + 1 → DistinctAt (store t.heap t.next e0) x
    intro x hx
    by_cases hxn : x = t.next
    · subst hxn
      refine ⟨?_, ?_⟩
      · intro a ha
        rw [new, d0] at ha
        exact absurd ha (List.not_mem_nil _)
      · intro a ha
        rw [new, f0] at ha
        exact absurd ha (List.not_mem_nil _)
    · have hx1 : x < t.next := by omega
      have u := inv.distinct x hx1
      refine ⟨?_, ?_⟩
      · intro a ha b hb hn
        rw [old x hx1] at ha hb
        rw [old a (gh.1.parent_of_dir hx1 ha).1, old b (gh.1.parent_of_dir hx1 hb).1] at hn
        exact u.1 a ha b hb hn
      · intro a ha b hb hn
        rw [old x hx1] at ha hb
        rw [old a (gh.1.parent_of_file hx1 ha).1, old b (gh.1.parent_of_file hx1 hb).1] at hn
        exact u.2 a ha b hb hn

theorem filename_slash (p : Path) (name : String) : filename (slash p name) = name := by
  unfold slash
  exact filename_append_singleton p name

mutual
/-- The method `BuildTree` on a scan with distinct names: with enough stack it returns, the
tree keeps its invariant, nothing allocated before is touched, and the new directory is a
parentless directory with the given path. -/
theorem BuildTree_inv :
    ∀ (scan : DiskDirectory) (t : DirectoryTree) (p : Path), NamesInv t →
      scan.distinctNames = true →
      ∃ t1, (∃ f0, ∀ fuel, f0 ≤ fuel →
          DirectoryTree.BuildTree fuel t p scan = some (t1, t.next)) ∧
        NamesInv t1 ∧ t.next < t1.next ∧ (∀ x, x < t.next → t1.heap x = t.heap x) ∧
        (t1.heap t.next).kind = .DIRECTORY ∧ (t1.heap t.next).parentDir = none ∧
        (t1.heap t.next).dirEntryPath = p
  | .mk o1 o2 entries, t, p, inv, hs => by
    obtain ⟨inv0, old0, k0, p0, m0, d0, f0⟩ := newDirectory_created inv p o1 o2
    unfold DiskDirectory.distinctNames at hs
    simp only [Bool.and_eq_true, decide_eq_true_eq] at hs
    obtain ⟨⟨hs1, hs2⟩, hs3⟩ := hs
    obtain ⟨t1, ⟨fl, hfl⟩, inv1, hn1, fr1, k1, p1, m1⟩ := BuildTreeLoop_inv entries
      { (t.CreateDirectory p o1 o2).1 with directories := mapInsert t.directories p t.next }
      p t.next inv0 (Nat.lt_succ_self _) k0 p0 hs3 hs1 hs2
      (by intro c hc; rw [f0] at hc; exact absurd hc (List.not_mem_nil _))
      (by intro c hc; rw [d0] at hc; exact absurd hc (List.not_mem_nil _))
    refine ⟨t1, ⟨fl, fun fuel hf => ?_⟩, inv1, hn1, ?_, k1, p1, ?_⟩
    · unfold DirectoryTree.BuildTree
      rw [hfl fuel hf]
    · intro x hx
      have h1 := fr1 x (Nat.lt_succ_of_lt hx) (by omega)
      rw [h1]
      exact old0 x hx
    · rw [m1]; exact m0
/-- The loop of `BuildTree` over entries whose names are distinct and new in the directory
being filled. -/
theorem BuildTreeLoop_inv :
    ∀ (entries : DiskEntries) (t : DirectoryTree) (p : Path) (D : Nat), NamesInv t →
      D < t.next → (t.heap D).kind = .DIRECTORY → (t.heap D).parentDir = none →
      entries.distinctBelow = true → entries.fileNames.Nodup → entries.dirNames.Nodup →
      (∀ c ∈ (t.heap D).files, filename (t.heap c).dirEntryPath ∉ entries.fileNames) →
      (∀ c ∈ (t.heap D).directories, filename (t.heap c).dirEntryPath ∉ entries.dirNames) →
      ∃ t1, (∃ f0, ∀ fuel, f0 ≤ fuel →
          DirectoryTree.BuildTreeLoop fuel t p D entries = some t1) ∧
        NamesInv t1 ∧ t.next ≤ t1.next ∧ (∀ x, x < t.next → x ≠ D → t1.heap x = t.heap x) ∧
        (t1.heap D).kind = .DIRECTORY ∧ (t1.heap D).parentDir = none ∧
        (t1.heap D).dirEntryPath = (t.heap D).dirEntryPath
  | .nil, t, p, D, inv, hDn, hDk, hDp, _, _, _, _, _ =>
    ⟨t, ⟨0, fun fuel _ => by unfold DirectoryTree.BuildTreeLoop; rfl⟩, inv, Nat.le_refl _,
      fun _ _ _ => rfl, hDk, hDp, rfl⟩
  | .cons (.other _) rest, t, p, D, inv, hDn, hDk, hDp, hb, hfn, hdn, hff, hfd => by
    unfold DiskEntries.distinctBelow at hb
    unfold DiskEntries.fileNames at hfn hff
    unfold DiskEntries.dirNames at hdn hfd
    obtain ⟨t1, ⟨fl, hfl⟩, rest1⟩ :=
      BuildTreeLoop_inv rest t p D inv hDn hDk hDp hb hfn hdn hff hfd
    exact ⟨t1, ⟨fl, fun fuel hf => by unfold DirectoryTree.BuildTreeLoop; exact hfl fuel hf⟩,
      rest1⟩
  | .cons (.regular_file name o1 o2) rest, t, p, D, inv, hDn, hDk, hDp, hb, hfn, hdn, hff,
      hfd => by
    unfold DiskEntries.distinctBelow at hb
    unfold DiskEntries.fileNames at hfn hff
    unfold DiskEntries.dirNames at hdn hfd
    have gh := inv.1.1
    have hname := filename_slash p name
    have hfree : Directory.FileExists t.heap D (filename (slash p name)) = false := by
      unfold Directory.FileExists
      rw [List.any_eq_false]
      intro c hc
      simp only [decide_eq_true_eq]
      intro e
      apply hff c hc
      unfold GetFullFileName at e
      rw [← e, hname]
      exact List.mem_cons_self _ _
    obtain ⟨H, hH, key, fr, k1, p1, m1, d1, f1, nm, nn⟩ :=
      newFile_attached inv (slash p name) o1 o2 hDn hDk hfree
    obtain ⟨T2, hT2⟩ : ∃ T2, T2 = DirectoryTree.NotifyFileAdded
        { (t.CreateFile (slash p name) o1 o2).1 with
          heap := Directory.AddFileToDirectory (t.CreateFile (slash p name) o1 o2).1.heap D
            (t.CreateFile (slash p name) o1 o2).2 }
        (t.CreateFile (slash p name) o1 o2).2 := ⟨_, rfl⟩
    obtain ⟨n1, n2, n3, _⟩ := notify_fields
      { (t.CreateFile (slash p name) o1 o2).1 with
        heap := Directory.AddFileToDirectory (t.CreateFile (slash p name) o1 o2).1.heap D
          (t.CreateFile (slash p name) o1 o2).2 }
      .OnFileAdded (t.CreateFile (slash p name) o1 o2).2 none
    have e1 : T2.heap = H := by rw [hT2, hH]; exact n1
    have e2 : T2.next = t.next + 1 := by rw [hT2]; exact n2
    have e3 : T2.directories = t.directories := by rw [hT2]; exact n3
    have inv2 : NamesInv T2 := key T2 e1 e2 e3
    obtain ⟨t3, ⟨fl, hfl⟩, inv3, hn3, fr3, k3, p3, m3⟩ := BuildTreeLoop_inv rest T2 p D inv2
      (by rw [e2]; omega) (by rw [e1]; exact k1) (by rw [e1, p1]; exact hDp) hb
      (List.nodup_cons.mp hfn).2 hdn
      (by
        intro c hc
        rw [e1] at hc ⊢
        rcases (f1 c).mp hc with hc1 | rfl
        · rw [nm c (gh.1.parent_of_file hDn hc1).1]
          exact fun hm => hff c hc1 (List.mem_cons_of_mem _ hm)
        · rw [nn, hname]
          exact (List.nodup_cons.mp hfn).1)
      (by
        intro c hc
        rw [e1] at hc ⊢
        rw [d1] at hc
        rw [nm c (gh.1.parent_of_dir hDn hc).1]
        exact hfd c hc)
    refine ⟨t3, ⟨fl, fun fuel hf => ?_⟩, inv3, by rw [e2] at hn3; omega, ?_, k3, p3, ?_⟩
    · unfold DirectoryTree.BuildTreeLoop
      have := hfl fuel hf
      rw [hT2] at this
      exact this
    · intro x hx hxD
      rw [fr3 x (by rw [e2]; omega) hxD, e1]
      exact fr x hx hxD
    · rw [m3, e1]; exact m1
  | .cons (.directory name dir) rest, t, p, D, inv, hDn, hDk, hDp, hb, hfn, hdn, hff,
      hfd => by
    unfold DiskEntries.distinctBelow at hb
    simp only [Bool.and_eq_true] at hb
    unfold DiskEntries.fileNames at hfn hff
    unfold DiskEntries.dirNames at hdn hfd
    have gh := inv.1.1
    have hname := filename_slash p name
    obtain ⟨t1, ⟨fb, hfb⟩, inv1, hn1, fr1, k1, p1, m1⟩ :=
      BuildTree_inv dir t (slash p name) inv hb.1
    have g1 := inv1.1.1
    have above := Sub.above gh g1 (Nat.le_refl _) hn1 (fun x hx => by rw [fr1 x hx])
    have hnot : ¬ Sub t1.heap t.next D := fun hs => by
      have := above D hs
      omega
    have hfree : ∀ c ∈ (t1.heap D).directories,
        filename (t1.heap c).dirEntryPath ≠ filename (t1.heap t.next).dirEntryPath := by
      intro c hc
      rw [fr1 D hDn] at hc
      rw [fr1 c (gh.1.parent_of_dir hDn hc).1, m1, hname]
      exact fun e => hfd c hc (e ▸ List.mem_cons_self _ _)
    obtain ⟨H, ⟨fa, hfa⟩, key, fr, k2, p2, m2, f2, d2, nm⟩ :=
      dir_attached inv1 (D := D) (d := t.next) (by omega) (by rw [fr1 D hDn]; exact hDk) hn1
        k1 p1 hnot hfree
    obtain ⟨T2, hT2⟩ : ∃ T2, T2 = DirectoryTree.NotifyDirectoryAdded
        { t1 with heap := H } t.next := ⟨_, rfl⟩
    obtain ⟨n1, n2, n3, _⟩ := notify_fields { t1 with heap := H } .OnDirectoryAdded t.next none
    have e1 : T2.heap = H := by rw [hT2]; exact n1
    have e2 : T2.next = t1.next := by rw [hT2]; exact n2
    have e3 : T2.directories = t1.directories := by rw [hT2]; exact n3
    have inv2 : NamesInv T2 := key T2 e1 e2 e3
    obtain ⟨t3, ⟨fl, hfl⟩, inv3, hn3, fr3, k3, p3, m3⟩ := BuildTreeLoop_inv rest T2 p D inv2
      (by rw [e2]; omega) (by rw [e1]; exact k2)
      (by rw [e1, p2, fr1 D hDn]; exact hDp) hb.2 hfn (List.nodup_cons.mp hdn).2
      (by
        intro c hc
        rw [e1] at hc ⊢
        rw [f2, fr1 D hDn] at hc
        rw [nm, fr1 c (gh.1.parent_of_file hDn hc).1]
        exact hff c hc)
      (by
        intro c hc
        rw [e1] at hc ⊢
        rw [nm]
        rcases (d2 c).mp hc with hc1 | rfl
        · rw [fr1 D hDn] at hc1
          rw [fr1 c (gh.1.parent_of_dir hDn hc1).1]
          exact fun hm => hfd c hc1 (List.mem_cons_of_mem _ hm)
        · rw [m1, hname]
          exact (List.nodup_cons.mp hdn).1)
    refine ⟨t3, ⟨max fb (max fa fl), fun fuel hf => ?_⟩, inv3,
      by rw [e2] at hn3; omega, ?_, k3, p3, ?_⟩
    · unfold DirectoryTree.BuildTreeLoop
      rw [hfb fuel (le_trans (Nat.le_max_left _ _) hf)]
      simp only
      rw [hfa fuel (le_trans (le_trans (Nat.le_max_left _ _) (Nat.le_max_right _ _)) hf)]
      simp only
      have := hfl fuel (le_trans (le_trans (Nat.le_max_right _ _) (Nat.le_max_right _ _)) hf)
      rw [hT2] at this
      exact this
    · intro x hx hxD
      rw [fr3 x (by rw [e2]; omega) hxD, e1,
        fr x (fun hs => by have := above x hs; omega) hxD]
      exact fr1 x hx
    · rw [m3, e1, m2]
      rw [fr1 D hDn]
end

theorem AddNewDirectory_inv {t : DirectoryTree} (inv : NamesInv t) {dirPath : Path}
    {scan : DiskDirectory} {P : Nat} (hP : t.GetDirectory (parent_path dirPath) = some P)
    (hfree : Directory.DirectoryExists t.heap P (filename dirPath) = false)
    (hs : scan.distinctNames = true) :
    ∃ t1, (∃ f0, ∀ fuel, f0 ≤ fuel → t.AddNewDirectory fuel dirPath scan = .ok t1) ∧
      NamesInv t1 := by
  have gh := inv.1.1
  obtain ⟨hPn, hPk⟩ := inv.1.lookup hP
  obtain ⟨t1, ⟨fb, hfb⟩, inv1, hn1, fr1, k1, p1, m1⟩ := BuildTree_inv scan t dirPath inv hs
  have g1 := inv1.1.1
  have above := Sub.above gh g1 (Nat.le_refl _) hn1 (fun x hx => by rw [fr1 x hx])
  have hnot : ¬ Sub t1.heap t.next P := fun hs => by
    have := above P hs
    omega
  have hfree1 : ∀ c ∈ (t1.heap P).directories,
      filename (t1.heap c).dirEntryPath ≠ filename (t1.heap t.next).dirEntryPath := by
    intro c hc
    rw [fr1 P hPn] at hc
    rw [fr1 c (gh.1.parent_of_dir hPn hc).1, m1]
    exact DirectoryExists_false hfree c hc
  obtain ⟨H, ⟨fa, hfa⟩, key, _⟩ :=
    dir_attached inv1 (D := P) (d := t.next) (by omega) (by rw [fr1 P hPn]; exact hPk) hn1
      k1 p1 hnot hfree1
  obtain ⟨n1, n2, n3, _⟩ := notify_fields { t1 with heap := H } .OnDirectoryAdded t.next none
  refine ⟨DirectoryTree.NotifyDirectoryAdded { t1 with heap := H } t.next,
    ⟨max fb fa, fun fuel hf => ?_⟩, key _ n1 n2 n3⟩
  unfold DirectoryTree.AddNewDirectory
  rw [hP]
  simp only
  rw [hfb fuel (le_trans (Nat.le_max_left _ _) hf)]
  simp only
  rw [hfa fuel (le_trans (Nat.le_max_right _ _) hf)]

/-- Every call whose preconditions hold returns, with enough stack, a tree that satisfies
the invariant again; the result does not depend on the stack budget. -/
theorem Op.step_inv {t : DirectoryTree} (inv : NamesInv t) :
    ∀ (op : Op), op.pre t = true →
      ∃ t1, (∃ f0, ∀ fuel, f0 ≤ fuel → op.run fuel t = .ok t1) ∧ NamesInv t1
  | .AddNewFile filePath o1 o2, h => by
    simp only [Op.pre, Op.stated, Op.nameFree] at h
    cases hP : t.GetDirectory (parent_path filePath) with
    | none => rw [hP] at h; simp at h
    | some P =>
      rw [hP] at h
      simp only [Option.isSome_some, Bool.true_and, Bool.not_eq_true'] at h
      obtain ⟨t1, e, i⟩ := AddNewFile_inv inv o1 o2 hP h
      exact ⟨t1, ⟨0, fun _ _ => e⟩, i⟩
  | .AddNewDirectory dirPath scan, h => by
    simp only [Op.pre, Op.stated, Op.nameFree] at h
    cases hP : t.GetDirectory (parent_path dirPath) with
    | none => rw [hP] at h; simp at h
    | some P =>
      rw [hP] at h
      simp only [Option.isSome_some, Bool.true_and, Bool.and_eq_true, Bool.not_eq_true'] at h
      exact AddNewDirectory_inv inv hP h.1 h.2
  | .RemoveFile filePath, h => by
    simp only [Op.pre, Op.stated, Op.nameFree] at h
    cases hP : t.GetDirectory (parent_path filePath) with
    | none => rw [hP] at h; simp at h
    | some P =>
      obtain ⟨t1, e, i⟩ := RemoveFile_inv inv hP
      exact ⟨t1, ⟨0, fun _ _ => e⟩, i⟩
  | .RemoveDirectory dirPath, h => by
    simp only [Op.pre, Op.stated, Op.nameFree] at h
    cases hP : t.GetDirectory (parent_path dirPath) with
    | none => rw [hP] at h; simp at h
    | some P => exact RemoveDirectory_inv inv hP
  | .MoveFile oldPath newPath, h => by
    simp only [Op.pre, Op.stated, Op.nameFree] at h
    cases hP : t.GetDirectory (parent_path oldPath) with
    | none => rw [hP] at h; simp at h
    | some P =>
      cases hQ : t.GetDirectory (parent_path newPath) with
      | none => rw [hP, hQ] at h; simp at h
      | some Q =>
        rw [hP, hQ] at h
        simp only [Bool.and_eq_true, Bool.or_eq_true, decide_eq_true_eq,
          Bool.not_eq_true'] at h
        cases hf : Directory.GetFile t.heap P (filename oldPath) with
        | none => rw [hf] at h; simp at h
        | some f =>
          obtain ⟨t1, e, i⟩ := MoveFile_inv inv hP hQ hf h.2
          exact ⟨t1, ⟨0, fun _ _ => e⟩, i⟩
  | .MoveDirectory oldPath newPath, h => by
    simp only [Op.pre, Op.stated, Op.nameFree] at h
    cases hP : t.GetDirectory (parent_path oldPath) with
    | none => rw [hP] at h; simp at h
    | some P =>
      cases hQ : t.GetDirectory (parent_path newPath) with
      | none => rw [hP, hQ] at h; simp at h
      | some Q =>
        rw [hP, hQ] at h
        simp only [Bool.and_eq_true, Bool.or_eq_true, decide_eq_true_eq,
          Bool.not_eq_true'] at h
        cases hd : Directory.GetDirectory t.heap P (filename oldPath) with
        | none => rw [hd] at h; simp at h
        | some d =>
          rw [hd] at h
          simp only [Option.isSome_some, true_and, Bool.not_eq_true'] at h
          have hPn := (inv.1.lookup hP).1
          have hdn := (inv.1.1.1.parent_of_dir hPn (Directory.GetDirectory_some hd).1).1
          refine MoveDirectory_inv inv hP hQ hd h.1 (fun hs => ?_)
          have hp := hs.path_prefix inv.1.1 hdn
          have := List.isPrefixOf_iff_prefix.mpr hp
          unfold GetPath at h
          rw [h.2] at this
          cases this
  | .RenameFile oldPath newPath, h => by
    simp only [Op.pre, Op.stated, Op.nameFree] at h
    cases hP : t.GetDirectory (parent_path oldPath) with
    | none => rw [hP] at h; simp at h
    | some P =>
      cases hQ : t.GetDirectory (parent_path newPath) with
      | none => rw [hP, hQ] at h; simp at h
      | some Q =>
        rw [hP, hQ] at h
        simp only [Bool.and_eq_true, Bool.or_eq_true, decide_eq_true_eq,
          Bool.not_eq_true'] at h
        cases hf : Directory.GetFile t.heap P (filename oldPath) with
        | none => rw [hf] at h; simp at h
        | some f =>
          obtain ⟨t1, e, i⟩ := RenameFile_inv inv hP hQ hf h.2
          exact ⟨t1, ⟨0, fun _ _ => e⟩, i⟩
  | .RenameDirectory oldPath newPath, h => by
    simp only [Op.pre, Op.stated, Op.nameFree] at h
    cases hP : t.GetDirectory (parent_path oldPath) with
    | none => rw [hP] at h; simp at h
    | some P =>
      cases hQ : t.GetDirectory (parent_path newPath) with
      | none => rw [hP, hQ] at h; simp at h
      | some Q =>
        rw [hP, hQ] at h
        simp only [Bool.and_eq_true, Bool.or_eq_true, decide_eq_true_eq,
          Bool.not_eq_true'] at h
        cases hd : Directory.GetDirectory t.heap P (filename oldPath) with
        | none => rw [hd] at h; simp at h
        | some d => exact RenameDirectory_inv inv hP hQ hd h.2

/-! ## Sequences of operations -/

/-- Along a sequence of calls whose preconditions hold, every tree passed through satisfies
the invariant, and with enough stack every call returns. -/
theorem states_inv :
    ∀ (ops : List Op) (t : DirectoryTree), NamesInv t →
      (∀ fuel, holdsAlong Op.pre fuel ops t = true → ∀ s ∈ states fuel ops t, NamesInv s) ∧
      (∃ f0, ∀ fuel, f0 ≤ fuel → holdsAlong Op.pre fuel ops t = true →
        (states fuel ops t).length = ops.length)
  | [], t, _ => ⟨fun _ _ s hs => by simp [states] at hs, 0, fun _ _ _ => rfl⟩
  | op :: ops, t, inv => by
    constructor
    · intro fuel hpre s hs
      unfold holdsAlong at hpre
      unfold states at hs
      simp only [Bool.and_eq_true] at hpre
      obtain ⟨t1, ⟨f0, hf0⟩, inv1⟩ := Op.step_inv inv op hpre.1
      cases hr : op.run fuel t with
      | ok t2 =>
        have e1 := Op.run_mono (Nat.le_max_left fuel f0) op hr
        rw [hf0 _ (Nat.le_max_right fuel f0)] at e1
        cases e1
        rw [hr] at hs
        simp only at hs
        have hrest := hpre.2
        rw [hr] at hrest
        simp only at hrest
        rcases List.mem_cons.mp hs with rfl | hs1
        · exact inv1
        · exact (states_inv ops t1 inv1).1 fuel hrest s hs1
      | assertFailed => rw [hr] at hs; simp at hs
      | stackExhausted => rw [hr] at hs; simp at hs
    · cases hp : op.pre t with
      | false =>
        refine ⟨0, fun fuel _ hpre => ?_⟩
        unfold holdsAlong at hpre
        rw [hp] at hpre
        simp at hpre
      | true =>
        obtain ⟨t1, ⟨f0, hf0⟩, inv1⟩ := Op.step_inv inv op hp
        obtain ⟨f1, hf1⟩ := (states_inv ops t1 inv1).2
        refine ⟨max f0 f1, fun fuel hf hpre => ?_⟩
        have hr := hf0 fuel (le_trans (Nat.le_max_left _ _) hf)
        unfold holdsAlong at hpre
        unfold states
        rw [hr] at hpre ⊢
        simp only [Bool.and_eq_true] at hpre
        simp only [List.length_cons]
        rw [hf1 fuel (le_trans (Nat.le_max_right _ _) hf) hpre.2]

/-- C9 as stated fails: the stated preconditions (parent directories indexed, source entries
present) do not keep names unique.  In the scenario tree, whose names are unique,
`AddNewFile("A/a.txt")` returns and leaves `A` with two files named `a.txt`;
`AddNewDirectory("A/B")` returns and leaves `A` with two directories named `B`; and in the
example tree `RenameFile("A/a.txt", "A/c.txt")` returns and leaves `A` with two files named
`c.txt`. -/
theorem stated_preconditions_allow_duplicates :
    (SoundTree specTree ∧ UniqueNames specTree.heap specTree.next ∧
      Op.stated specTree (.AddNewFile ["A", "a.txt"] (some 5) (some 5)) = true ∧
      (specTree.AddNewFile ["A", "a.txt"] (some 5) (some 5)).returned = true ∧
      ((specTree.AddNewFile ["A", "a.txt"] (some 5) (some 5)).tree.heap 0).files.map
        (GetFullFileName (specTree.AddNewFile ["A", "a.txt"] (some 5) (some 5)).tree.heap) =
        ["a.txt", "a.txt"] ∧
      ¬ UniqueNames (specTree.AddNewFile ["A", "a.txt"] (some 5) (some 5)).tree.heap
        (specTree.AddNewFile ["A", "a.txt"] (some 5) (some 5)).tree.next) ∧
    (Op.stated specTree (.AddNewDirectory ["A", "B"] (.mk (some 1) (some 1) .nil)) = true ∧
      (specTree.AddNewDirectory 3 ["A", "B"] (.mk (some 1) (some 1) .nil)).returned = true ∧
      ((specTree.AddNewDirectory 3 ["A", "B"] (.mk (some 1) (some 1) .nil)).tree.heap
        0).directories.map (GetDirectoryName
          (specTree.AddNewDirectory 3 ["A", "B"] (.mk (some 1) (some 1) .nil)).tree.heap) =
        ["B", "B"]) ∧
    (SoundTree sampleTree ∧ UniqueNames sampleTree.heap sampleTree.next ∧
      Op.stated sampleTree (.RenameFile ["A", "a.txt"] ["A", "c.txt"]) = true ∧
      (sampleTree.RenameFile ["A", "a.txt"] ["A", "c.txt"]).returned = true ∧
      ((sampleTree.RenameFile ["A", "a.txt"] ["A", "c.txt"]).tree.heap 0).files.map
        (GetFullFileName (sampleTree.RenameFile ["A", "a.txt"] ["A", "c.txt"]).tree.heap) =
        ["c.txt", "c.txt"]) :=
  ⟨by decide!, by decide!, by decide!⟩

/-- C9 (name uniqueness), amended.  Start from a sound tree (the object graph satisfies its
representation invariant and the index binds keys to allocated directories) with unique
names, and run a sequence of calls of the eight operations such that, at every call, the
stated preconditions hold and the name the call brings into a directory is free there (see
`Op.nameFree`).  Then names are unique in every tree the run passes through, whatever the
stack budget; and with enough stack every call of the sequence returns (a directory added is
one listed without a failing read). -/
theorem names_stay_unique (t : DirectoryTree) (st : SoundTree t)
    (hu : UniqueNames t.heap t.next) (ops : List Op) :
    (∀ fuel, holdsAlong Op.pre fuel ops t = true →
      ∀ s ∈ states fuel ops t, UniqueNames s.heap s.next) ∧
    (∃ f0, ∀ fuel, f0 ≤ fuel → holdsAlong Op.pre fuel ops t = true →
      (states fuel ops t).length = ops.length) := by
  obtain ⟨h1, h2⟩ := states_inv ops t ⟨st, hu⟩
  exact ⟨fun fuel hpre s hs => (h1 fuel hpre s hs).2, h2⟩

/-- Witness for C9: the eight operations in a row on the example tree. -/
theorem names_stay_unique_witness :
    SoundTree sampleTree ∧ UniqueNames sampleTree.heap sampleTree.next ∧
    holdsAlong Op.pre 5 sampleOps sampleTree = true ∧
    (states 5 sampleOps sampleTree).length = 8 ∧
    ((∀ fuel, holdsAlong Op.pre fuel sampleOps sampleTree = true →
      ∀ s ∈ states fuel sampleOps sampleTree, UniqueNames s.heap s.next) ∧
    (∃ f0, ∀ fuel, f0 ≤ fuel → holdsAlong Op.pre fuel sampleOps sampleTree = true →
      (states fuel sampleOps sampleTree).length = sampleOps.length)) :=
  ⟨by decide!, by decide!, by decide!, by decide!,
   names_stay_unique sampleTree (by decide!) (by decide!) sampleOps⟩

/-! ## Failing preconditions of the add operations -/

theorem mapFind_none_iff : ∀ (m : List (Path × Nat)) (k : Path),
    mapFind m k = none ↔ k ∉ m.map Prod.fst
  | [], k => by simp [mapFind]
  | (k1, v1) :: m, k => by
    unfold mapFind
    by_cases h : k1 = k
    · simp [h]
    · simp only [h, if_false, List.map_cons, List.mem_cons, not_or]
      rw [mapFind_none_iff m k]
      exact ⟨fun hm => ⟨fun e => h e.symm, hm⟩, fun hm => hm.2⟩

/-- C11 (add precondition).  `AddNewFile(p)` and `AddNewDirectory(p)` end in a failed
`assert` exactly when the parent path of `p` is not a key of the path index, and then the
tree in which the `assert` fails is the tree the call started from: no object has been
created, no child sequence, index entry or listener log has changed.  (The first two parts
say that `AddNewFile` and `AddNewDirectory` are the two methods below with the tree of a
failing `assert` forgotten.) -/
theorem add_precondition (t : DirectoryTree) (p : Path) (o1 o2 : Option Int) (fuel : Nat)
    (scan : DiskDirectory) :
    (DirectoryTree.AddNewFile.ending t p o1 o2).outcome = t.AddNewFile p o1 o2 ∧
    (DirectoryTree.AddNewDirectory.ending fuel t p scan).outcome =
      t.AddNewDirectory fuel p scan ∧
    (t.AddNewFile p o1 o2 = .assertFailed ↔ parent_path p ∉ t.directories.map Prod.fst) ∧
    (t.AddNewDirectory fuel p scan = .assertFailed ↔
      parent_path p ∉ t.directories.map Prod.fst) ∧
    (parent_path p ∉ t.directories.map Prod.fst →
      DirectoryTree.AddNewFile.ending t p o1 o2 = .assertFailed t ∧
      DirectoryTree.AddNewDirectory.ending fuel t p scan = .assertFailed t) := by
  rw [← mapFind_none_iff]
  unfold DirectoryTree.AddNewFile.ending DirectoryTree.AddNewDirectory.ending
    DirectoryTree.AddNewFile DirectoryTree.AddNewDirectory DirectoryTree.GetDirectory
  cases hP : mapFind t.directories (parent_path p) with
  | none => simp [Ending.outcome]
  | some P =>
    simp only [Ending.outcome, true_and]
    cases hb : DirectoryTree.BuildTree fuel t p scan with
    | none => simp [Ending.outcome]
    | some r =>
      obtain ⟨t1, newDir⟩ := r
      simp only
      cases ha : Directory.AddDirectoryToDirectory fuel t1.heap P newDir with
      | none => simp [Ending.outcome]
      | some h => simp [Ending.outcome]

/-! ## Lookup -/

theorem mapFind_of_mem : ∀ (m : List (Path × Nat)) (k : Path) (v : Nat),
    (m.map Prod.fst).Nodup → (k, v) ∈ m → mapFind m k = some v
  | [], _, _, _, hm => absurd hm (List.not_mem_nil _)
  | (k1, v1) :: m, k, v, hn, hm => by
    unfold mapFind
    simp only [List.map_cons, List.nodup_cons] at hn
    rcases List.mem_cons.mp hm with e | hm1
    · cases e
      simp
    · have hk : k1 ≠ k := by
        rintro rfl
        exact hn.1 (List.mem_map.mpr ⟨(k1, v), hm1, rfl⟩)
      rw [if_neg hk]
      exact mapFind_of_mem m k v hn.2 hm1

/-- The model of `erase` keeps the keys distinct. -/
theorem mapErase_keys (m : List (Path × Nat)) (k : Path) (hn : (m.map Prod.fst).Nodup) :
    ((mapErase m k).map Prod.fst).Nodup := by
  unfold mapErase
  exact hn.sublist ((List.filter_sublist m).map Prod.fst)

/-- The model of `insert` keeps the keys distinct. -/
theorem mapInsert_keys (m : List (Path × Nat)) (k : Path) (v : Nat)
    (hn : (m.map Prod.fst).Nodup) : ((mapInsert m k v).map Prod.fst).Nodup := by
  unfold mapInsert
  cases hf : mapFind m k with
  | some w => exact hn
  | none =>
    simp only [List.map_append, List.map_cons, List.map_nil]
    rw [List.nodup_append]
    refine ⟨hn, List.nodup_singleton _, ?_⟩
    intro a ha hb
    rw [List.mem_singleton] at hb
    subst hb
    exact (mapFind_none_iff m a).mp hf ha

/-- C19 (lookup).  `DirectoryTree::GetDirectory(p)` is a `const` method, embedded as a total
function of the tree: it has a result for every tree and every path and cannot change the
tree, so two consecutive calls give the same result.  The result is a directory bound to
`p` in the index; it is empty exactly when `p` is not a key; and, keys being distinct as in
an `unordered_map`, it is the directory bound to `p`. -/
theorem GetDirectory_lookup (t : DirectoryTree) (p : Path) :
    (∀ d, t.GetDirectory p = some d → (p, d) ∈ t.directories) ∧
    (t.GetDirectory p = none ↔ p ∉ t.directories.map Prod.fst) ∧
    ((t.directories.map Prod.fst).Nodup →
      ∀ d, (p, d) ∈ t.directories → t.GetDirectory p = some d) ∧
    (∀ r1 r2, r1 = t.GetDirectory p → r2 = t.GetDirectory p → r1 = r2) :=
  ⟨fun _ h => mapFind_mem _ _ _ h, mapFind_none_iff _ _,
    fun hn _ hm => mapFind_of_mem _ _ _ hn hm, fun _ _ e1 e2 => e1.trans e2.symm⟩

/-! ## Modification events -/

theorem callsAfter_notify (t : DirectoryTree) (cb : Callback) (e : Nat) (o : Option Path) :
    (t.notify cb e o).callsAfter t.log.length = eventCalls t.listeners cb e o (GetPath t.heap e) := by
  unfold DirectoryTree.callsAfter DirectoryTree.notify eventCalls
  simp only [List.drop_left, List.map_map]
  rfl

theorem callsAfter_self (t : DirectoryTree) : t.callsAfter t.log.length = [] := by
  unfold DirectoryTree.callsAfter
  simp

/-- What `ProcessModifiedFile` and `ProcessModifiedDirectory` do once the entry `e` is
found: `UpdateStatus` on `e`, then one modified-event when the flag is set. -/
theorem processModified_found (t : DirectoryTree) (e : Nat) (observed : Option Int)
    (cb : Callback) :
    ∃ t1, (if ((store t.heap e ((t.heap e).UpdateStatus observed)) e).modified then
        Outcome.ok (({ t with heap := store t.heap e ((t.heap e).UpdateStatus observed) }
          : DirectoryTree).notify cb e none)
      else Outcome.ok { t with heap := store t.heap e ((t.heap e).UpdateStatus observed) })
        = .ok t1 ∧
      t1.heap = store t.heap e ((t.heap e).UpdateStatus observed) ∧
      t1.directories = t.directories ∧ t1.next = t.next ∧ t1.rootDir = t.rootDir ∧
      t1.listeners = t.listeners ∧
      t1.callsAfter t.log.length =
        if ((t.heap e).UpdateStatus observed).modified then
          eventCalls t.listeners cb e none (GetPath t.heap e)
        else [] := by
  have hs : (store t.heap e ((t.heap e).UpdateStatus observed)) e =
      (t.heap e).UpdateStatus observed := store_same _ _ _
  rw [hs]
  by_cases hm : ((t.heap e).UpdateStatus observed).modified = true
  · rw [if_pos hm, if_pos hm]
    refine ⟨_, rfl, rfl, rfl, rfl, rfl, rfl, ?_⟩
    have := callsAfter_notify
      ({ t with heap := store t.heap e ((t.heap e).UpdateStatus observed) } : DirectoryTree)
      cb e none
    rw [this]
    unfold GetPath
    simp only
    rw [hs, (UpdateStatus_same _ _).2.1]
  · rw [if_neg hm, if_neg hm]
    exact ⟨_, rfl, rfl, rfl, rfl, rfl, rfl, callsAfter_self t⟩

theorem UpdateStatus_newer (e : DirectoryEntry) (time : Int) (h : e.lastWriteTime < time) :
    (e.UpdateStatus (some time)).lastWriteTime = time ∧
    (e.UpdateStatus (some time)).modified = true := by
  unfold DirectoryEntry.UpdateStatus
  simp only [gt_iff_lt, h, if_true, and_self]

theorem UpdateStatus_not_newer (e : DirectoryEntry) (time : Int)
    (h : time ≤ e.lastWriteTime) :
    (e.UpdateStatus (some time)).lastWriteTime = e.lastWriteTime ∧
    (e.UpdateStatus (some time)).modified = false := by
  unfold DirectoryEntry.UpdateStatus
  have : ¬ time > e.lastWriteTime := not_lt.mpr h
  simp only [this, if_false, and_self]

theorem UpdateStatus_unreadable (e : DirectoryEntry) :
    (e.UpdateStatus none).lastWriteTime = e.lastWriteTime ∧
    (e.UpdateStatus none).modified = false := by
  unfold DirectoryEntry.UpdateStatus
  simp only [and_self]

/-- C16 (ProcessModified decision).  For an entry `e` found under `p` (parent indexed) whose
on-disk time `time` is readable, `ProcessModifiedFile` / `ProcessModifiedDirectory`
returns; if `time` is newer than the cached time, afterwards the cached time is `time`,
`Modified()` is true and the listener calls of the operation are those of one
modified-event for `e`; otherwise the cached time is unchanged, `Modified()` is false and
no listener is called. -/
theorem ProcessModified_decision (t : DirectoryTree) (p : Path) (P e : Nat) (time : Int)
    (hP : t.GetDirectory (parent_path p) = some P) :
    (Directory.GetFile t.heap P (filename p) = some e →
      ∃ t1, t.ProcessModifiedFile p (some time) = .ok t1 ∧
        (GetLastWriteTime t.heap e < time →
          GetLastWriteTime t1.heap e = time ∧ Modified t1.heap e = true ∧
          t1.callsAfter t.log.length =
            eventCalls t.listeners .OnFileModified e none (GetPath t.heap e)) ∧
        (time ≤ GetLastWriteTime t.heap e →
          GetLastWriteTime t1.heap e = GetLastWriteTime t.heap e ∧
          Modified t1.heap e = false ∧ t1.callsAfter t.log.length = [])) ∧
    (Directory.GetDirectory t.heap P (filename p) = some e →
      ∃ t1, t.ProcessModifiedDirectory p (some time) = .ok t1 ∧
        (GetLastWriteTime t.heap e < time →
          GetLastWriteTime t1.heap e = time ∧ Modified t1.heap e = true ∧
          t1.callsAfter t.log.length =
            eventCalls t.listeners .OnDirectoryModified e none (GetPath t.heap e)) ∧
        (time ≤ GetLastWriteTime t.heap e →
          GetLastWriteTime t1.heap e = GetLastWriteTime t.heap e ∧
          Modified t1.heap e = false ∧ t1.callsAfter t.log.length = [])) := by
  constructor
  · intro hf
    obtain ⟨t1, e1, e2, _, _, _, _, e3⟩ := processModified_found t e (some time) .OnFileModified
    refine ⟨t1, ?_, ?_, ?_⟩
    · unfold DirectoryTree.ProcessModifiedFile
      rw [hP]
      simp only [hf]
      exact e1
    · intro hlt
      obtain ⟨a, b⟩ := UpdateStatus_newer (t.heap e) time hlt
      unfold GetLastWriteTime Modified
      rw [e2, store_same, e3, b]
      exact ⟨a, rfl, rfl⟩
    · intro hle
      obtain ⟨a, b⟩ := UpdateStatus_not_newer (t.heap e) time hle
      unfold GetLastWriteTime Modified
      rw [e2, store_same, e3, b]
      exact ⟨a, rfl, by simp⟩
  · intro hf
    obtain ⟨t1, e1, e2, _, _, _, _, e3⟩ :=
      processModified_found t e (some time) .OnDirectoryModified
    refine ⟨t1, ?_, ?_, ?_⟩
    · unfold DirectoryTree.ProcessModifiedDirectory
      rw [hP]
      simp only [hf]
      exact e1
    · intro hlt
      obtain ⟨a, b⟩ := UpdateStatus_newer (t.heap e) time hlt
      unfold GetLastWriteTime Modified
      rw [e2, store_same, e3, b]
      exact ⟨a, rfl, rfl⟩
    · intro hle
      obtain ⟨a, b⟩ := UpdateStatus_not_newer (t.heap e) time hle
      unfold GetLastWriteTime Modified
      rw [e2, store_same, e3, b]
      exact ⟨a, rfl, by simp⟩

/-- Witness for C16: in the example tree `a.txt` has the cached time 5; a modification seen
at time 9 is recorded and notified, one seen at time 5 is not. -/
theorem ProcessModified_decision_witness :
    GetLastWriteTime sampleTree.heap 1 = 5 ∧
    GetLastWriteTime (sampleTree.ProcessModifiedFile ["A", "a.txt"] (some 9)).tree.heap 1 = 9 ∧
    ((sampleTree.ProcessModifiedFile ["A", "a.txt"] (some 9)).tree.callsAfter
      sampleTree.log.length).length = 1 ∧
    ((sampleTree.ProcessModifiedFile ["A", "a.txt"] (some 5)).tree.callsAfter
      sampleTree.log.length).length = 0 ∧
    ((Directory.GetFile sampleTree.heap 0 (filename ["A", "a.txt"]) = some 1 →
      ∃ t1, sampleTree.ProcessModifiedFile ["A", "a.txt"] (some 9) = .ok t1 ∧
        (GetLastWriteTime sampleTree.heap 1 < 9 →
          GetLastWriteTime t1.heap 1 = 9 ∧ Modified t1.heap 1 = true ∧
          t1.callsAfter sampleTree.log.length =
            eventCalls sampleTree.listeners .OnFileModified 1 none
              (GetPath sampleTree.heap 1)) ∧
        (9 ≤ GetLastWriteTime sampleTree.heap 1 →
          GetLastWriteTime t1.heap 1 = GetLastWriteTime sampleTree.heap 1 ∧
          Modified t1.heap 1 = false ∧ t1.callsAfter sampleTree.log.length = [])) ∧
    (Directory.GetDirectory sampleTree.heap 0 (filename ["A", "a.txt"]) = some 1 →
      ∃ t1, sampleTree.ProcessModifiedDirectory ["A", "a.txt"] (some 9) = .ok t1 ∧
        (GetLastWriteTime sampleTree.heap 1 < 9 →
          GetLastWriteTime t1.heap 1 = 9 ∧ Modified t1.heap 1 = true ∧
          t1.callsAfter sampleTree.log.length =
            eventCalls sampleTree.listeners .OnDirectoryModified 1 none
              (GetPath sampleTree.heap 1)) ∧
        (9 ≤ GetLastWriteTime sampleTree.heap 1 →
          GetLastWriteTime t1.heap 1 = GetLastWriteTime sampleTree.heap 1 ∧
          Modified t1.heap 1 = false ∧ t1.callsAfter sampleTree.log.length = []))) :=
  ⟨by decide!, by decide!, by decide!, by decide!,
   ProcessModified_decision sampleTree ["A", "a.txt"] 0 1 9
     (by decide! : sampleTree.GetDirectory (parent_path ["A", "a.txt"]) = some 0)⟩

theorem processModified_missing (t : DirectoryTree) (p : Path) (P : Nat)
    (observed : Option Int) (hP : t.GetDirectory (parent_path p) = some P) :
    (Directory.GetFile t.heap P (filename p) = none →
      t.ProcessModifiedFile p observed = .assertFailed) ∧
    (Directory.GetDirectory t.heap P (filename p) = none →
      t.ProcessModifiedDirectory p observed = .assertFailed) := by
  constructor
  · intro hf
    unfold DirectoryTree.ProcessModifiedFile
    rw [hP]
    simp only [hf]
  · intro hf
    unfold DirectoryTree.ProcessModifiedDirectory
    rw [hP]
    simp only [hf]

/-- C17 as stated fails: a modification reported for an entry that is no longer there is
not tolerated.  In the example tree the parent `A` of `A/gone.txt` and of `A/gone` is indexed
and has no child of either name; `ProcessModifiedFile("A/gone.txt")` and
`ProcessModifiedDirectory("A/gone")` do not return: each ends in the failed `assert` that
the entry exists. -/
theorem ProcessModified_missing_entry_asserts :
    sampleTree.GetDirectory (parent_path ["A", "gone.txt"]) = some 0 ∧
    Directory.GetFile sampleTree.heap 0 (filename ["A", "gone.txt"]) = none ∧
    sampleTree.ProcessModifiedFile ["A", "gone.txt"] (some 9) = .assertFailed ∧
    (sampleTree.ProcessModifiedFile ["A", "gone.txt"] (some 9)).returned = false ∧
    sampleTree.GetDirectory (parent_path ["A", "gone"]) = some 0 ∧
    Directory.GetDirectory sampleTree.heap 0 (filename ["A", "gone"]) = none ∧
    sampleTree.ProcessModifiedDirectory ["A", "gone"] (some 9) = .assertFailed ∧
    (sampleTree.ProcessModifiedDirectory ["A", "gone"] (some 9)).returned = false :=
  ⟨by decide!, by decide!,
   (processModified_missing sampleTree ["A", "gone.txt"] 0 (some 9) (by decide!)).1 (by decide!),
   by decide!, by decide!, by decide!,
   (processModified_missing sampleTree ["A", "gone"] 0 (some 9) (by decide!)).2 (by decide!),
   by decide!⟩

/-- C18 (timestamp read failure).  When the timestamp cannot be read, `UpdateStatus` keeps
`lastWriteTime` and clears the flag; hence `ProcessModifiedFile` /
`ProcessModifiedDirectory` on an entry `e` found under `p` returns, the cached time of `e`
is unchanged, `Modified()` is false and no listener is called. -/
theorem timestamp_read_failure (t : DirectoryTree) (p : Path) (P e : Nat)
    (hP : t.GetDirectory (parent_path p) = some P) :
    (∀ entry : DirectoryEntry,
      (entry.UpdateStatus none).lastWriteTime = entry.lastWriteTime ∧
      (entry.UpdateStatus none).modified = false) ∧
    (Directory.GetFile t.heap P (filename p) = some e →
      ∃ t1, t.ProcessModifiedFile p none = .ok t1 ∧
        GetLastWriteTime t1.heap e = GetLastWriteTime t.heap e ∧
        Modified t1.heap e = false ∧ t1.callsAfter t.log.length = []) ∧
    (Directory.GetDirectory t.heap P (filename p) = some e →
      ∃ t1, t.ProcessModifiedDirectory p none = .ok t1 ∧
        GetLastWriteTime t1.heap e = GetLastWriteTime t.heap e ∧
        Modified t1.heap e = false ∧ t1.callsAfter t.log.length = []) := by
  obtain ⟨a, b⟩ := UpdateStatus_unreadable (t.heap e)
  refine ⟨UpdateStatus_unreadable, ?_, ?_⟩
  · intro hf
    obtain ⟨t1, e1, e2, _, _, _, _, e3⟩ := processModified_found t e none .OnFileModified
    refine ⟨t1, ?_, ?_⟩
    · unfold DirectoryTree.ProcessModifiedFile
      rw [hP]
      simp only [hf]
      exact e1
    · unfold GetLastWriteTime Modified
      rw [e2, store_same, e3, b]
      exact ⟨a, rfl, by simp⟩
  · intro hf
    obtain ⟨t1, e1, e2, _, _, _, _, e3⟩ := processModified_found t e none .OnDirectoryModified
    refine ⟨t1, ?_, ?_⟩
    · unfold DirectoryTree.ProcessModifiedDirectory
      rw [hP]
      simp only [hf]
      exact e1
    · unfold GetLastWriteTime Modified
      rw [e2, store_same, e3, b]
      exact ⟨a, rfl, by simp⟩

/-- Witness for C18: an unreadable timestamp for `a.txt` in the example tree. -/
theorem timestamp_read_failure_witness :
    (sampleTree.ProcessModifiedFile ["A", "a.txt"] none).returned = true ∧
    GetLastWriteTime (sampleTree.ProcessModifiedFile ["A", "a.txt"] none).tree.heap 1 = 5 ∧
    ((∀ entry : DirectoryEntry,
      (entry.UpdateStatus none).lastWriteTime = entry.lastWriteTime ∧
      (entry.UpdateStatus none).modified = false) ∧
    (Directory.GetFile sampleTree.heap 0 (filename ["A", "a.txt"]) = some 1 →
      ∃ t1, sampleTree.ProcessModifiedFile ["A", "a.txt"] none = .ok t1 ∧
        GetLastWriteTime t1.heap 1 = GetLastWriteTime sampleTree.heap 1 ∧
        Modified t1.heap 1 = false ∧ t1.callsAfter sampleTree.log.length = []) ∧
    (Directory.GetDirectory sampleTree.heap 0 (filename ["A", "a.txt"]) = some 1 →
      ∃ t1, sampleTree.ProcessModifiedDirectory ["A", "a.txt"] none = .ok t1 ∧
        GetLastWriteTime t1.heap 1 = GetLastWriteTime sampleTree.heap 1 ∧
        Modified t1.heap 1 = false ∧ t1.callsAfter sampleTree.log.length = [])) :=
  ⟨by decide!, by decide!,
   timestamp_read_failure sampleTree ["A", "a.txt"] 0 1
     (by decide! : sampleTree.GetDirectory (parent_path ["A", "a.txt"]) = some 0)⟩

/-! ## Removing a file -/

theorem detachedFile_at_parent (h : Heap) (P f : Nat) :
    (detachedFile h P f P).files = (h P).files.filter (fun c => c ≠ f) ∧
    (detachedFile h P f P).directories = (h P).directories := by
  unfold detachedFile
  by_cases e : P = f
  · subst e
    simp [store]
  · simp [store, e]

theorem detachedFile_name (h : Heap) (P f x : Nat) :
    (detachedFile h P f x).dirEntryPath = (h x).dirEntryPath := by
  unfold detachedFile
  by_cases e1 : x = f <;> by_cases e2 : x = P
  · subst e1; subst e2; simp [store]
  · subst e1; simp [store, e2]
  · subst e2; simp [store, e1]
  · simp [store, e1, e2]

/-- What `Directory::DeleteFile(file)` does to the sequences of `this` and to the names, for
any store. -/
theorem Directory.DeleteFile_at_parent (h : Heap) (P f : Nat) :
    ((Directory.DeleteFile h P f) P).files = (h P).files.filter (fun c => c ≠ f) ∧
    ((Directory.DeleteFile h P f) P).directories = (h P).directories ∧
    (∀ x, filename ((Directory.DeleteFile h P f) x).dirEntryPath =
      filename (h x).dirEntryPath) := by
  have e : Directory.DeleteFile h P f = DirectoryEntry.UpdatePath (detachedFile h P f) f := rfl
  have a := DirectoryEntry.UpdatePath_pathOnly (detachedFile h P f) f
  rw [e]
  refine ⟨by rw [a.files]; exact (detachedFile_at_parent h P f).1,
    by rw [a.directories]; exact (detachedFile_at_parent h P f).2, fun x => ?_⟩
  rw [a.name, detachedFile_name]

theorem RemoveFile_found {t : DirectoryTree} {p : Path} {P f : Nat}
    (hP : t.GetDirectory (parent_path p) = some P)
    (hf : Directory.GetFile t.heap P (filename p) = some f) :
    t.RemoveFile p = .ok { t.NotifyFileRemoved f with heap := Directory.DeleteFile t.heap P f } := by
  unfold DirectoryTree.RemoveFile
  rw [hP]
  simp only [hf]
  rfl

/-- C13 (RemoveFile postcondition).  For `RemoveFile(p)` with the parent `P` indexed and a
file `f` found under the name of `p`: the call returns; afterwards the file sequence of `P`
is the old sequence without `f`, the others in their old order; the directory sequence of
`P` and the path index are unchanged; and the listener calls of the operation are those of
one file-removed event for `f`. -/
theorem RemoveFile_postcondition (t : DirectoryTree) (p : Path) (P f : Nat)
    (hP : t.GetDirectory (parent_path p) = some P)
    (hf : Directory.GetFile t.heap P (filename p) = some f) :
    ∃ t1, t.RemoveFile p = .ok t1 ∧
      (t1.heap P).files = (t.heap P).files.filter (fun c => c ≠ f) ∧
      (t1.heap P).directories = (t.heap P).directories ∧
      t1.directories = t.directories ∧
      t1.callsAfter t.log.length =
        eventCalls t.listeners .OnFileRemoved f none (GetPath t.heap f) := by
  refine ⟨_, RemoveFile_found hP hf, (Directory.DeleteFile_at_parent t.heap P f).1,
    (Directory.DeleteFile_at_parent t.heap P f).2.1, rfl, ?_⟩
  exact callsAfter_notify t .OnFileRemoved f none

/-- Witness for C13: removing `a.txt` from `A` in the example tree leaves the file `c.txt`
and the directories `B`, `D`. -/
theorem RemoveFile_postcondition_witness :
    ((sampleTree.RemoveFile ["A", "a.txt"]).tree.heap 0).files = [2] ∧
    ((sampleTree.RemoveFile ["A", "a.txt"]).tree.heap 0).directories = [3, 7] ∧
    (∃ t1, sampleTree.RemoveFile ["A", "a.txt"] = .ok t1 ∧
      (t1.heap 0).files = (sampleTree.heap 0).files.filter (fun c => c ≠ 1) ∧
      (t1.heap 0).directories = (sampleTree.heap 0).directories ∧
      t1.directories = sampleTree.directories ∧
      t1.callsAfter sampleTree.log.length =
        eventCalls sampleTree.listeners .OnFileRemoved 1 none (GetPath sampleTree.heap 1)) :=
  ⟨by decide!, by decide!,
   RemoveFile_postcondition sampleTree ["A", "a.txt"] 0 1
     (by decide! : sampleTree.GetDirectory (parent_path ["A", "a.txt"]) = some 0)
     (by decide! : Directory.GetFile sampleTree.heap 0 (filename ["A", "a.txt"]) = some 1)⟩

/-! ## Removing a directory -/

/-- The loop of `RemoveDirectory` calls listeners in the store it started in. -/
theorem removeEntries_log :
    ∀ (l : List Nat) (t : DirectoryTree),
      ∃ ds, (t.removeEntries l).log = t.log ++ ds ∧
        ∀ c ∈ ds, c.heap = t.heap ∧ c.entity ∈ l ∧ c.oldPath = none ∧
          (c.callback = .OnFileRemoved ∨ c.callback = .OnDirectoryRemoved)
  | [], t => ⟨[], by simp [DirectoryTree.removeEntries], fun c hc => absurd hc (List.not_mem_nil _)⟩
  | e :: l, t => by
    unfold DirectoryTree.removeEntries
    by_cases hk : IsDirectory t.heap e = true
    · rw [if_pos hk]
      obtain ⟨ds, e1, e2⟩ := removeEntries_log l
        (DirectoryTree.NotifyDirectoryRemoved
          { t with directories := mapErase t.directories (GetPath t.heap e) } e)
      refine ⟨t.listeners.map (fun x =>
        Delivery.mk x .OnDirectoryRemoved e none t.heap) ++ ds, ?_, ?_⟩
      · rw [e1]
        unfold DirectoryTree.NotifyDirectoryRemoved DirectoryTree.notify
        simp only [List.append_assoc]
      · intro c hc
        rcases List.mem_append.mp hc with hc1 | hc1
        · obtain ⟨x, _, rfl⟩ := List.mem_map.mp hc1
          exact ⟨rfl, List.mem_cons_self _ _, rfl, Or.inr rfl⟩
        · obtain ⟨a, b, c1, d⟩ := e2 c hc1
          exact ⟨a, List.mem_cons_of_mem _ b, c1, d⟩
    · rw [if_neg hk]
      obtain ⟨ds, e1, e2⟩ := removeEntries_log l (t.NotifyFileRemoved e)
      refine ⟨t.listeners.map (fun x =>
        Delivery.mk x .OnFileRemoved e none t.heap) ++ ds, ?_, ?_⟩
      · rw [e1]
        unfold DirectoryTree.NotifyFileRemoved DirectoryTree.notify
        simp only [List.append_assoc]
      · intro c hc
        rcases List.mem_append.mp hc with hc1 | hc1
        · obtain ⟨x, _, rfl⟩ := List.mem_map.mp hc1
          exact ⟨rfl, List.mem_cons_self _ _, rfl, Or.inl rfl⟩
        · obtain ⟨a, b, c1, d⟩ := e2 c hc1
          exact ⟨a, List.mem_cons_of_mem _ b, c1, d⟩

/-- The index after the loop of `RemoveDirectory`: the paths of the listed directories are
unbound, every other key is bound as before. -/
theorem removeEntries_find :
    ∀ (l : List Nat) (t : DirectoryTree) (q : Path),
      mapFind (t.removeEntries l).directories q =
        if ∃ e ∈ l, IsDirectory t.heap e = true ∧ GetPath t.heap e = q then none
        else mapFind t.directories q
  | [], t, q => by simp [DirectoryTree.removeEntries]
  | e :: l, t, q => by
    unfold DirectoryTree.removeEntries
    by_cases hk : IsDirectory t.heap e = true
    · rw [if_pos hk]
      have ih := removeEntries_find l (DirectoryTree.NotifyDirectoryRemoved
        { t with directories := mapErase t.directories (GetPath t.heap e) } e) q
      rw [ih]
      have h1 : (DirectoryTree.NotifyDirectoryRemoved
          { t with directories := mapErase t.directories (GetPath t.heap e) } e).heap =
          t.heap := rfl
      have h2 : (DirectoryTree.NotifyDirectoryRemoved
          { t with directories := mapErase t.directories (GetPath t.heap e) } e).directories =
          mapErase t.directories (GetPath t.heap e) := rfl
      rw [h1, h2, mapFind_erase]
      by_cases hq : q = GetPath t.heap e
      · have : ∃ e1 ∈ e :: l, IsDirectory t.heap e1 = true ∧ GetPath t.heap e1 = q :=
          ⟨e, List.mem_cons_self _ _, hk, hq.symm⟩
        rw [if_pos this]
        simp [hq]
      · rw [if_neg hq]
        by_cases hex : ∃ e1 ∈ l, IsDirectory t.heap e1 = true ∧ GetPath t.heap e1 = q
        · obtain ⟨e1, m1, k1, q1⟩ := hex
          rw [if_pos ⟨e1, m1, k1, q1⟩, if_pos ⟨e1, List.mem_cons_of_mem _ m1, k1, q1⟩]
        · rw [if_neg hex, if_neg]
          rintro ⟨e1, m1, k1, q1⟩
          rcases List.mem_cons.mp m1 with rfl | m2
          · exact hq q1.symm
          · exact hex ⟨e1, m2, k1, q1⟩
    · rw [if_neg hk]
      have ih := removeEntries_find l (t.NotifyFileRemoved e) q
      rw [ih]
      have h1 : (t.NotifyFileRemoved e).heap = t.heap := rfl
      have h2 : (t.NotifyFileRemoved e).directories = t.directories := rfl
      rw [h1, h2]
      by_cases hex : ∃ e1 ∈ l, IsDirectory t.heap e1 = true ∧ GetPath t.heap e1 = q
      · obtain ⟨e1, m1, k1, q1⟩ := hex
        rw [if_pos ⟨e1, m1, k1, q1⟩, if_pos ⟨e1, List.mem_cons_of_mem _ m1, k1, q1⟩]
      · rw [if_neg hex, if_neg]
        rintro ⟨e1, m1, k1, q1⟩
        rcases List.mem_cons.mp m1 with rfl | m2
        · exact hk k1
        · exact hex ⟨e1, m2, k1, q1⟩

/-- `RemoveDirectory` of a present directory on a sound tree: with enough stack it returns
the tree after the loop over the recursive listing, with the directory detached. -/
theorem RemoveDirectory_returns {t : DirectoryTree} (st : SoundTree t) {p : Path} {P d : Nat}
    (hP : t.GetDirectory (parent_path p) = some P)
    (hd : Directory.GetDirectory t.heap P (filename p) = some d) :
    ∃ l h1, (∀ x, x ∈ l ↔ Sub t.heap d x ∧ x ≠ d) ∧ l.Nodup ∧
      UpdatedBelow (detached t.heap P d) h1 d ∧ GoodHeap h1 t.next ∧
      ∃ f0, ∀ fuel, f0 ≤ fuel →
        Directory.GetDirEntriesRecursive fuel t.heap d = some l ∧
        t.RemoveDirectory fuel p = .ok { t.removeEntries l with heap := h1 } := by
  have gh := st.1
  have hPn := (st.lookup hP).1
  have hdm := (Directory.GetDirectory_some hd).1
  obtain ⟨hdn, hdk, hdp⟩ := gh.1.parent_of_dir hPn hdm
  obtain ⟨m, g⟩ := gh.grading
  obtain ⟨f1, hf1⟩ := Directory.DeleteDirectory_spec gh hPn hdm
  obtain ⟨l, e1, l1, l2⟩ := Directory.GetDirEntriesRecursive_spec gh.1 g (max f1 (m + 1)) d hdn
    (by have := Nat.le_max_right f1 (m + 1); omega)
  obtain ⟨h1, e2, u1, g1⟩ := hf1 (max f1 (m + 1)) (Nat.le_max_left _ _)
  obtain ⟨r1, _⟩ := removeEntries_fields l t
  have e : t.RemoveDirectory (max f1 (m + 1)) p =
      .ok { t.removeEntries l with heap := h1 } := by
    unfold DirectoryTree.RemoveDirectory
    rw [hP]
    simp only [hd, e1, r1, e2]
  exact ⟨l, h1, l1, l2, u1, g1, max f1 (m + 1), fun fuel hf =>
    ⟨Directory.GetDirEntriesRecursive_mono hf e1, RemoveDirectory_mono hf e⟩⟩

/-! ## Removed-events come before the detachment -/

/-- C15 (notify-before-delete).  With the parent `P` of `p` indexed.  `RemoveFile(p)` of a
present file `f` returns, and the listener calls it makes are one file-removed call per
listener, each made in the store the call started in, where `f` is still listed by `P` (so
path and parent reference of `f` are the old ones); in the store after the call `P` no
longer lists `f`.  Whenever `RemoveDirectory(p)` returns, every listener call it made is a
removed-event made in the store the call started in.  And on a tree whose object graph is
well formed `RemoveDirectory(p)` of a present directory `d` returns once the stack suffices,
its listener calls are for entries of the subtree of `d`, made in the store the call started
in, where `P` still lists `d`; in the store after the call `P` no longer lists `d`. -/
theorem notify_before_delete (t : DirectoryTree) (p : Path) (P : Nat)
    (hP : t.GetDirectory (parent_path p) = some P) :
    (∀ f, Directory.GetFile t.heap P (filename p) = some f →
      ∃ t1, t.RemoveFile p = .ok t1 ∧
        t1.log = t.log ++ t.listeners.map (fun l => Delivery.mk l .OnFileRemoved f none t.heap) ∧
        f ∈ (t.heap P).files ∧ f ∉ (t1.heap P).files) ∧
    (∀ fuel t1, t.RemoveDirectory fuel p = .ok t1 →
      ∃ ds, t1.log = t.log ++ ds ∧
        ∀ c ∈ ds, c.heap = t.heap ∧ c.oldPath = none ∧
          (c.callback = .OnFileRemoved ∨ c.callback = .OnDirectoryRemoved)) ∧
    (SoundTree t → ∀ d, Directory.GetDirectory t.heap P (filename p) = some d →
      ∃ t1 ds, (∃ f0, ∀ fuel, f0 ≤ fuel → t.RemoveDirectory fuel p = .ok t1) ∧
        t1.log = t.log ++ ds ∧
        (∀ c ∈ ds, c.heap = t.heap ∧ Sub t.heap d c.entity ∧ c.oldPath = none ∧
          (c.callback = .OnFileRemoved ∨ c.callback = .OnDirectoryRemoved)) ∧
        d ∈ (t.heap P).directories ∧ d ∉ (t1.heap P).directories) := by
  refine ⟨?_, ?_, ?_⟩
  · intro f hf
    refine ⟨_, RemoveFile_found hP hf, rfl, (Directory.GetFile_some hf).1, ?_⟩
    show f ∉ ((Directory.DeleteFile t.heap P f) P).files
    rw [(Directory.DeleteFile_at_parent t.heap P f).1]
    simp [List.mem_filter]
  · intro fuel t1 h
    unfold DirectoryTree.RemoveDirectory at h
    rw [hP] at h
    simp only at h
    cases hd : Directory.GetDirectory t.heap P (filename p) with
    | none =>
      rw [hd] at h
      simp only [Outcome.ok.injEq] at h
      subst h
      exact ⟨[], by simp, fun c hc => absurd hc (List.not_mem_nil _)⟩
    | some d =>
      rw [hd] at h
      simp only at h
      cases he : Directory.GetDirEntriesRecursive fuel t.heap d with
      | none => rw [he] at h; cases h
      | some l =>
        rw [he] at h
        simp only at h
        obtain ⟨ds, e1, e2⟩ := removeEntries_log l t
        cases hx : Directory.DeleteDirectory fuel (t.removeEntries l).heap P d with
        | none => rw [hx] at h; cases h
        | some h1 =>
          rw [hx] at h
          simp only [Outcome.ok.injEq] at h
          subst h
          refine ⟨ds, e1, fun c hc => ?_⟩
          obtain ⟨a, _, c1, c2⟩ := e2 c hc
          exact ⟨a, c1, c2⟩
  · intro st d hd
    obtain ⟨l, h1, l1, _, u1, _, f0, hf0⟩ := RemoveDirectory_returns st hP hd
    obtain ⟨ds, e1, e2⟩ := removeEntries_log l t
    have hPn := (st.lookup hP).1
    have hdm := (Directory.GetDirectory_some hd).1
    obtain ⟨hdn, _, hdp⟩ := st.1.1.parent_of_dir hPn hdm
    have hPd : P ≠ d := st.1.parent_ne hdn hdp
    refine ⟨{ t.removeEntries l with heap := h1 }, ds, ⟨f0, fun fuel hf => (hf0 fuel hf).2⟩,
      e1, fun c hc => ?_, hdm, ?_⟩
    · obtain ⟨a, b, c1, c2⟩ := e2 c hc
      exact ⟨a, ((l1 _).mp b).1, c1, c2⟩
    · show d ∉ (h1 P).directories
      rw [u1.1.directories P]
      intro hm
      exact ((detached_dirs hPd P d).mp hm).2 rfl rfl

/-- Witness for C15 on the example tree, whose object graph is well formed, at the path
`A/B`: the directory `B = 3` is found, and `RemoveDirectory("A/B")` calls the listener
three times. -/
theorem notify_before_delete_witness :
    SoundTree sampleTree ∧
    Directory.GetDirectory sampleTree.heap 0 (filename ["A", "B"]) = some 3 ∧
    ((sampleTree.RemoveDirectory 4 ["A", "B"]).tree.callsAfter sampleTree.log.length).length =
      3 ∧
    ((∀ f, Directory.GetFile sampleTree.heap 0 (filename ["A", "B"]) = some f →
      ∃ t1, sampleTree.RemoveFile ["A", "B"] = .ok t1 ∧
        t1.log = sampleTree.log ++
          sampleTree.listeners.map (fun l => Delivery.mk l .OnFileRemoved f none sampleTree.heap) ∧
        f ∈ (sampleTree.heap 0).files ∧ f ∉ (t1.heap 0).files) ∧
    (∀ fuel t1, sampleTree.RemoveDirectory fuel ["A", "B"] = .ok t1 →
      ∃ ds, t1.log = sampleTree.log ++ ds ∧
        ∀ c ∈ ds, c.heap = sampleTree.heap ∧ c.oldPath = none ∧
          (c.callback = .OnFileRemoved ∨ c.callback = .OnDirectoryRemoved)) ∧
    (SoundTree sampleTree →
      ∀ d, Directory.GetDirectory sampleTree.heap 0 (filename ["A", "B"]) = some d →
      ∃ t1 ds, (∃ f0, ∀ fuel, f0 ≤ fuel → sampleTree.RemoveDirectory fuel ["A", "B"] = .ok t1) ∧
        t1.log = sampleTree.log ++ ds ∧
        (∀ c ∈ ds, c.heap = sampleTree.heap ∧ Sub sampleTree.heap d c.entity ∧ c.oldPath = none ∧
          (c.callback = .OnFileRemoved ∨ c.callback = .OnDirectoryRemoved)) ∧
        d ∈ (sampleTree.heap 0).directories ∧ d ∉ (t1.heap 0).directories)) :=
  ⟨GoodTree.sound (by decide! : GoodTree sampleTree), by decide!, by decide!,
   notify_before_delete sampleTree ["A", "B"] 0
     (by decide! : sampleTree.GetDirectory (parent_path ["A", "B"]) = some 0)⟩

/-! ## Removing a missing entry -/

/-- C14 as stated fails in its last part: a repeated `RemoveFile` can remove again.  In the
scenario tree after `AddNewFile("A/a.txt")` (a well-formed tree in which `A` lists two files
named `a.txt`), `RemoveFile("A/a.txt")` returns and removes the file `1`; the same call
repeated immediately returns, removes the file `4` and calls the listener once more. -/
theorem repeated_RemoveFile_removes_again :
    GoodTree twinTree ∧ (twinTree.heap 0).files = [1, 4] ∧
    (twinTree.RemoveFile ["A", "a.txt"]).returned = true ∧
    ((twinTree.RemoveFile ["A", "a.txt"]).tree.heap 0).files = [4] ∧
    ((twinTree.RemoveFile ["A", "a.txt"]).tree.RemoveFile ["A", "a.txt"]).returned = true ∧
    (((twinTree.RemoveFile ["A", "a.txt"]).tree.RemoveFile ["A", "a.txt"]).tree.heap 0).files =
      [] ∧
    ((twinTree.RemoveFile ["A", "a.txt"]).tree.RemoveFile ["A", "a.txt"]).tree.callsAfter
        (twinTree.RemoveFile ["A", "a.txt"]).tree.log.length =
      [{ listener := 0, callback := .OnFileRemoved, entity := 4, oldPath := none,
         path := ["A", "a.txt"] }] := by
  decide!

/-- After `RemoveFile` found and removed `f`, no file of `P` has the name of `p`, when the
names of the files of `P` were unique. -/
theorem RemoveFile_then_missing {h : Heap} {P f : Nat} {name : String}
    (hu : UniqueNamesAt h P) (hf : Directory.GetFile h P name = some f) :
    Directory.GetFile (Directory.DeleteFile h P f) P name = none := by
  cases hg : Directory.GetFile (Directory.DeleteFile h P f) P name with
  | none => rfl
  | some g =>
    exfalso
    obtain ⟨g1, g2⟩ := Directory.GetFile_some hg
    obtain ⟨f1, f2⟩ := Directory.GetFile_some hf
    obtain ⟨a, _, c⟩ := Directory.DeleteFile_at_parent h P f
    rw [a] at g1
    obtain ⟨g3, g4⟩ := List.mem_filter.mp g1
    have e : GetFullFileName h g = GetFullFileName h f := by
      unfold GetFullFileName at g2 f2 ⊢
      rw [← c g, g2, f2]
    have := List.inj_on_of_nodup_map hu.2 g3 f1 e
    simp [this] at g4

/-- The child directories of an indexed directory of a well-formed tree are told apart by
their names. -/
theorem GoodTree.child_of_name {t : DirectoryTree} (gt : GoodTree t) {k : Path} {P c d : Nat}
    (hP : t.GetDirectory k = some P) (hc : c ∈ (t.heap P).directories)
    (hd : d ∈ (t.heap P).directories)
    (e : filename (t.heap c).dirEntryPath = filename (t.heap d).dirEntryPath) : c = d := by
  obtain ⟨root, _, gh, _, _, _, _, _, gi⟩ := gt
  obtain ⟨hPn, _, _, _, hch⟩ := gi.find hP
  obtain ⟨hcn, _, hcp⟩ := gh.1.parent_of_dir hPn hc
  obtain ⟨hdn, _, hdp⟩ := gh.1.parent_of_dir hPn hd
  have p1 := gh.2 c hcn P hcp
  have p2 := gh.2 d hdn P hdp
  have i1 := hch c hc
  have i2 := hch d hd
  rw [p1, e, ← p2, i2] at i1
  exact (Option.some.inj i1).symm

/-- C14 (remove of a missing entry), amended.  With the parent `P` of `p` indexed:
`RemoveFile(p)` with no file of that name in `P`, and `RemoveDirectory(p)` with no directory
of that name in `P`, return the tree they were given (same store, same index, same log of
listener calls).  When the names of the children of `P` are unique, `RemoveFile(p)` returns
a tree on which `RemoveFile(p)` again returns that same tree; and on a well-formed tree
`RemoveDirectory(p)` returns, once the stack suffices, a tree on which `RemoveDirectory(p)`
again returns that same tree. -/
theorem remove_missing_is_noop (t : DirectoryTree) (p : Path) (P : Nat)
    (hP : t.GetDirectory (parent_path p) = some P) :
    (Directory.GetFile t.heap P (filename p) = none → t.RemoveFile p = .ok t) ∧
    (Directory.GetDirectory t.heap P (filename p) = none →
      ∀ fuel, t.RemoveDirectory fuel p = .ok t) ∧
    (UniqueNamesAt t.heap P → ∃ t1, t.RemoveFile p = .ok t1 ∧ t1.RemoveFile p = .ok t1) ∧
    (GoodTree t → ∃ t1, (∃ f0, ∀ fuel, f0 ≤ fuel → t.RemoveDirectory fuel p = .ok t1) ∧
      ∀ fuel, t1.RemoveDirectory fuel p = .ok t1) := by
  have nofile : ∀ T : DirectoryTree, T.GetDirectory (parent_path p) = some P →
      Directory.GetFile T.heap P (filename p) = none → T.RemoveFile p = .ok T := by
    intro T h1 h2
    unfold DirectoryTree.RemoveFile
    rw [h1]
    simp only [h2]
  have nodir : ∀ T : DirectoryTree, T.GetDirectory (parent_path p) = some P →
      Directory.GetDirectory T.heap P (filename p) = none →
      ∀ fuel, T.RemoveDirectory fuel p = .ok T := by
    intro T h1 h2 fuel
    unfold DirectoryTree.RemoveDirectory
    rw [h1]
    simp only [h2]
  refine ⟨nofile t hP, nodir t hP, ?_, ?_⟩
  · intro hu
    cases hf : Directory.GetFile t.heap P (filename p) with
    | none => exact ⟨t, nofile t hP hf, nofile t hP hf⟩
    | some f =>
      refine ⟨_, RemoveFile_found hP hf, nofile _ hP ?_⟩
      exact RemoveFile_then_missing hu hf
  · intro gt
    cases hd : Directory.GetDirectory t.heap P (filename p) with
    | none => exact ⟨t, ⟨0, fun fuel _ => nodir t hP hd fuel⟩, nodir t hP hd⟩
    | some d =>
      have st := gt.sound
      obtain ⟨l, h1, l1, _, u1, _, f0, hf0⟩ := RemoveDirectory_returns st hP hd
      have hPn := (st.lookup hP).1
      obtain ⟨hdm, hdname⟩ := Directory.GetDirectory_some hd
      obtain ⟨hdn, _, hdp⟩ := st.1.1.parent_of_dir hPn hdm
      have hPd : P ≠ d := st.1.parent_ne hdn hdp
      have hPpath : (t.heap P).dirEntryPath = parent_path p := by
        obtain ⟨root, _, _, _, _, _, _, _, gi⟩ := gt
        exact (gi.find hP).2.2.1
      refine ⟨{ t.removeEntries l with heap := h1 }, ⟨f0, fun fuel hf => (hf0 fuel hf).2⟩,
        nodir _ ?_ ?_⟩
      · show mapFind (t.removeEntries l).directories (parent_path p) = some P
        rw [removeEntries_find, if_neg]
        · exact hP
        · rintro ⟨e, he, _, hq⟩
          have s := ((l1 e).mp he).1
          have pre := (s.path_prefix st.1 hdn).length_le
          have c := congrArg List.length (st.1.2 d hdn P hdp)
          unfold GetPath at hq
          rw [hq, ← hPpath] at pre
          simp at c
          omega
      · show Directory.GetDirectory h1 P (filename p) = none
        cases hc : Directory.GetDirectory h1 P (filename p) with
        | none => rfl
        | some c =>
          exfalso
          obtain ⟨c1, c2⟩ := Directory.GetDirectory_some hc
          rw [u1.1.directories P] at c1
          obtain ⟨c3, c4⟩ := (detached_dirs hPd P c).mp c1
          have e : filename (t.heap c).dirEntryPath = filename (t.heap d).dirEntryPath := by
            unfold GetDirectoryName at c2 hdname
            rw [u1.1.name c, detached_path hPd c] at c2
            rw [c2, hdname]
          exact c4 rfl (gt.child_of_name hP c3 hdm e)

/-- Witness for C14, amended, on the example tree, which is well formed and in which the
names of the children of `A` are unique: `A/zz` names no file and no directory of `A`. -/
theorem remove_missing_is_noop_witness :
    Directory.GetFile sampleTree.heap 0 (filename ["A", "zz"]) = none ∧
    Directory.GetDirectory sampleTree.heap 0 (filename ["A", "zz"]) = none ∧
    UniqueNamesAt sampleTree.heap 0 ∧ GoodTree sampleTree ∧
    ((Directory.GetFile sampleTree.heap 0 (filename ["A", "zz"]) = none →
        sampleTree.RemoveFile ["A", "zz"] = .ok sampleTree) ∧
      (Directory.GetDirectory sampleTree.heap 0 (filename ["A", "zz"]) = none →
        ∀ fuel, sampleTree.RemoveDirectory fuel ["A", "zz"] = .ok sampleTree) ∧
      (UniqueNamesAt sampleTree.heap 0 →
        ∃ t1, sampleTree.RemoveFile ["A", "zz"] = .ok t1 ∧ t1.RemoveFile ["A", "zz"] = .ok t1) ∧
      (GoodTree sampleTree →
        ∃ t1, (∃ f0, ∀ fuel, f0 ≤ fuel → sampleTree.RemoveDirectory fuel ["A", "zz"] = .ok t1) ∧
          ∀ fuel, t1.RemoveDirectory fuel ["A", "zz"] = .ok t1)) :=
  ⟨by decide!, by decide!, by decide!, by decide!,
   remove_missing_is_noop sampleTree ["A", "zz"] 0
     (by decide! : sampleTree.GetDirectory (parent_path ["A", "zz"]) = some 0)⟩

/-! ## Moving a file -/

/-- The comparator of a sort policy reads only the names and the times of the entries. -/
theorem sortComp_congr (p : DirEntrySortType) {h h1 : Heap}
    (e : ∀ x, filename (h1 x).dirEntryPath = filename (h x).dirEntryPath ∧
      (h1 x).lastWriteTime = (h x).lastWriteTime) :
    sortComp p h1 = sortComp p h := by
  funext a b
  cases p <;>
    simp only [sortComp, sorterOf, AlphabeticalSorter.comp, LastWriteTimeSorter.comp,
      GetLastWriteTime, (e a).1, (e b).1, (e a).2, (e b).2]

theorem PathOnly.sortKeys {h h1 : Heap} (a : PathOnly h h1) (x : Nat) :
    (h1 x).lastWriteTime = (h x).lastWriteTime ∧ (h1 x).sortType = (h x).sortType := by
  have := (a x).1
  exact ⟨by rw [this], by rw [this]⟩

/-- What `Directory::DeleteFile(file)` keeps: names, times, policies; and the file sequence
of every directory is a subsequence of the old one. -/
theorem Directory.DeleteFile_keeps {h : Heap} {P f : Nat} (hPf : P ≠ f) (x : Nat) :
    filename ((Directory.DeleteFile h P f) x).dirEntryPath = filename (h x).dirEntryPath ∧
    ((Directory.DeleteFile h P f) x).lastWriteTime = (h x).lastWriteTime ∧
    ((Directory.DeleteFile h P f) x).sortType = (h x).sortType ∧
    ((Directory.DeleteFile h P f) x).files.Sublist (h x).files := by
  have e : Directory.DeleteFile h P f = DirectoryEntry.UpdatePath (detachedFile h P f) f := rfl
  have a := DirectoryEntry.UpdatePath_pathOnly (detachedFile h P f) f
  rw [e, a.name, (a.sortKeys x).1, (a.sortKeys x).2, a.files, detachedFile_apply hPf]
  split_ifs with h1 h2
  · subst h1; exact ⟨rfl, rfl, rfl, List.Sublist.refl _⟩
  · subst h2; exact ⟨rfl, rfl, rfl, List.filter_sublist _⟩
  · exact ⟨rfl, rfl, rfl, List.Sublist.refl _⟩

/-- What `Directory::AddFileToDirectory(where, what)` does to `where` and to `what`, and
what it keeps. -/
theorem Directory.AddFileToDirectory_at {h : Heap} {w f : Nat} (hwf : w ≠ f) :
    ((Directory.AddFileToDirectory h w f) w).files =
      Sorter.InsertFileSorted (h w).sortType h f (h w).files ∧
    ((Directory.AddFileToDirectory h w f) f).parentDir = some w ∧
    ((Directory.AddFileToDirectory h w f) f).dirEntryPath =
      (h w).dirEntryPath ++ [filename (h f).dirEntryPath] ∧
    (∀ x, filename ((Directory.AddFileToDirectory h w f) x).dirEntryPath =
        filename (h x).dirEntryPath ∧
      ((Directory.AddFileToDirectory h w f) x).lastWriteTime = (h x).lastWriteTime ∧
      ((Directory.AddFileToDirectory h w f) x).sortType = (h x).sortType) := by
  have e : Directory.AddFileToDirectory h w f =
      DirectoryEntry.UpdatePath (attachedFile h w f) f := rfl
  have a := DirectoryEntry.UpdatePath_pathOnly (attachedFile h w f) f
  rw [e]
  refine ⟨?_, ?_, ?_, fun x => ?_⟩
  · rw [a.files, attachedFile_apply hwf]
    simp [hwf]
  · rw [a.parentDir]
    exact attachedFile_parent_self hwf
  · rw [DirectoryEntry.UpdatePath_path, attachedFile_parent_self hwf]
    simp only
    rw [(attachedFile_same hwf w).2.2.1, (attachedFile_same hwf f).2.2.1]
  · rw [a.name, (a.sortKeys x).1, (a.sortKeys x).2, attachedFile_apply hwf]
    split_ifs with h1 h2
    · subst h1; exact ⟨rfl, rfl, rfl⟩
    · subst h2; exact ⟨rfl, rfl, rfl⟩
    · exact ⟨rfl, rfl, rfl⟩

/-- C20 as stated fails: `MoveFile` ignores the file name of `newPath`, and a move inside
one directory leaves the file listed.  In the example tree `MoveFile("A/a.txt",
"A/D/z.txt")` returns with the file at `A/D/a.txt`, not at `newPath`; and
`MoveFile("A/a.txt", "A/a.txt")` returns with the file still listed by the source parent
`A`. -/
theorem MoveFile_ignores_new_name :
    GoodTree sampleTree ∧
    sampleTree.GetDirectory (parent_path ["A", "a.txt"]) = some 0 ∧
    sampleTree.GetDirectory (parent_path ["A", "D", "z.txt"]) = some 7 ∧
    Directory.GetFile sampleTree.heap 0 (filename ["A", "a.txt"]) = some 1 ∧
    (sampleTree.MoveFile ["A", "a.txt"] ["A", "D", "z.txt"]).returned = true ∧
    GetPath (sampleTree.MoveFile ["A", "a.txt"] ["A", "D", "z.txt"]).tree.heap 1 =
      ["A", "D", "a.txt"] ∧
    (sampleTree.MoveFile ["A", "a.txt"] ["A", "a.txt"]).returned = true ∧
    1 ∈ ((sampleTree.MoveFile ["A", "a.txt"] ["A", "a.txt"]).tree.heap 0).files := by
  decide!

/-- C20 (MoveFile postcondition), amended.  On a well-formed tree, for `MoveFile(oldPath,
newPath)` with the source parent `P` and the destination parent `Q` indexed, the file `f`
found in `P` under the name of `oldPath`, `newPath` ending in that same name, and the file
sequence of `Q` ordered by the policy of `Q`: the call returns; afterwards `P` no longer
lists `f` when `P` and `Q` differ, `Q` lists `f` and its file sequence is ordered by its
policy, the path of `f` is `newPath`, its parent reference is `Q`, the path index is
unchanged, and the listener calls of the operation are those of one file-path-changed event
for `f` carrying `oldPath`, during which `f` has the path `newPath`. -/
theorem MoveFile_postcondition (t : DirectoryTree) (oldPath newPath : Path) (P Q f : Nat)
    (gt : GoodTree t)
    (hP : t.GetDirectory (parent_path oldPath) = some P)
    (hQ : t.GetDirectory (parent_path newPath) = some Q)
    (hf : Directory.GetFile t.heap P (filename oldPath) = some f)
    (hname : filename newPath = filename oldPath)
    (hord : Ordered (sortComp (t.heap Q).sortType t.heap) (t.heap Q).files) :
    ∃ t1, t.MoveFile oldPath newPath = .ok t1 ∧
      (P ≠ Q → f ∉ (t1.heap P).files) ∧
      f ∈ (t1.heap Q).files ∧
      Ordered (sortComp (t1.heap Q).sortType t1.heap) (t1.heap Q).files ∧
      GetPath t1.heap f = newPath ∧ (t1.heap f).parentDir = some Q ∧
      t1.directories = t.directories ∧
      t1.callsAfter t.log.length =
        eventCalls t.listeners .OnFilePathChanged f (some oldPath) newPath := by
  have st := gt.sound
  have gh := st.1
  have hPn := (st.lookup hP).1
  obtain ⟨hQn, hQk⟩ := st.lookup hQ
  obtain ⟨hfm, hfname⟩ := Directory.GetFile_some hf
  obtain ⟨hfn, hfk, hfp⟩ := gh.1.parent_of_file hPn hfm
  have hPk := (gh.1.parent_is_dir hfn hfp).2
  have hPf : P ≠ f := by
    rintro rfl
    rw [hfk] at hPk
    cases hPk
  have hQf : Q ≠ f := by
    rintro rfl
    rw [hfk] at hQk
    cases hQk
  have hQpath : (t.heap Q).dirEntryPath = parent_path newPath := by
    obtain ⟨root, _, _, _, _, _, _, _, gi⟩ := gt
    exact (gi.find hQ).2.2.1
  have hnew : newPath ≠ [] := parent_path_ne_nil (gt.key_ne_nil hQ)
  have k1 := Directory.DeleteFile_keeps (h := t.heap) hPf
  obtain ⟨a1, a2, a3, a4⟩ :=
    Directory.AddFileToDirectory_at (h := Directory.DeleteFile t.heap P f) hQf
  obtain ⟨_, same1, _⟩ := Directory.DeleteFile_spec gh hPn hfm
  have hpath : (Directory.AddFileToDirectory (Directory.DeleteFile t.heap P f) Q f
      f).dirEntryPath = newPath := by
    rw [a3, (k1 f).1]
    have : (Directory.DeleteFile t.heap P f Q).dirEntryPath = (t.heap Q).dirEntryPath := by
      have e : Directory.DeleteFile t.heap P f =
        DirectoryEntry.UpdatePath (detachedFile t.heap P f) f := rfl
      rw [e, DirectoryEntry.UpdatePath_other _ _ _ hQf, (detachedFile_same hPf Q).2.2.1]
    rw [this, hQpath]
    unfold GetFullFileName at hfname
    rw [hfname, ← hname]
    exact parent_path_slash_filename hnew
  have e : t.MoveFile oldPath newPath = .ok
      ({ t with heap := Directory.AddFileToDirectory (Directory.DeleteFile t.heap P f) Q f
        }.NotifyFilePathChanged f oldPath) := by
    unfold DirectoryTree.MoveFile
    rw [hP, hQ]
    simp only [hf]
  refine ⟨_, e, ?_, ?_, ?_, hpath, a2, rfl, ?_⟩
  · intro hPQ
    show f ∉ (Directory.AddFileToDirectory (Directory.DeleteFile t.heap P f) Q f P).files
    have e2 : Directory.AddFileToDirectory (Directory.DeleteFile t.heap P f) Q f =
        DirectoryEntry.UpdatePath (attachedFile (Directory.DeleteFile t.heap P f) Q f) f := rfl
    rw [e2, (DirectoryEntry.UpdatePath_pathOnly _ f).files,
      (attachedFile_same hQf P).2.2.2.2, (same1 P).2.2.2]
    rintro (⟨_, h2⟩ | ⟨h1, _⟩)
    · exact h2 rfl rfl
    · exact hPQ h1
  · show f ∈ (Directory.AddFileToDirectory (Directory.DeleteFile t.heap P f) Q f Q).files
    rw [a1, mem_InsertFileSorted]
    exact Or.inl rfl
  · show Ordered (sortComp
        (Directory.AddFileToDirectory (Directory.DeleteFile t.heap P f) Q f Q).sortType
        (Directory.AddFileToDirectory (Directory.DeleteFile t.heap P f) Q f))
      (Directory.AddFileToDirectory (Directory.DeleteFile t.heap P f) Q f Q).files
    have c1 : ∀ p, sortComp p (Directory.DeleteFile t.heap P f) = sortComp p t.heap :=
      fun p => sortComp_congr p (fun x => ⟨(k1 x).1, (k1 x).2.1⟩)
    have c2 : ∀ p, sortComp p
        (Directory.AddFileToDirectory (Directory.DeleteFile t.heap P f) Q f) =
        sortComp p t.heap := fun p =>
      (sortComp_congr p (fun x => ⟨(a4 x).1, (a4 x).2.1⟩)).trans (c1 p)
    rw [c2, a1, (a4 Q).2.2, (k1 Q).2.2.1, InsertFileSorted_eq, c1]
    apply insertAt_upper_bound_ordered _ (sortComp_asymm _ _) (sortComp_negtrans _ _)
    exact List.Pairwise.sublist (k1 Q).2.2.2 hord
  · have := callsAfter_notify
      { t with heap := Directory.AddFileToDirectory (Directory.DeleteFile t.heap P f) Q f }
      .OnFilePathChanged f (some oldPath)
    unfold GetPath at this
    simp only [hpath] at this
    exact this

/-- Witness for C20, amended: moving `A/a.txt` to `A/D/a.txt` in the example tree. -/
theorem MoveFile_postcondition_witness :
    GetPath (sampleTree.MoveFile ["A", "a.txt"] ["A", "D", "a.txt"]).tree.heap 1 =
      ["A", "D", "a.txt"] ∧
    ((sampleTree.MoveFile ["A", "a.txt"] ["A", "D", "a.txt"]).tree.heap 0).files = [2] ∧
    ((sampleTree.MoveFile ["A", "a.txt"] ["A", "D", "a.txt"]).tree.heap 7).files = [1] ∧
    (∃ t1, sampleTree.MoveFile ["A", "a.txt"] ["A", "D", "a.txt"] = .ok t1 ∧
      ((0 : Nat) ≠ 7 → 1 ∉ (t1.heap 0).files) ∧
      1 ∈ (t1.heap 7).files ∧
      Ordered (sortComp (t1.heap 7).sortType t1.heap) (t1.heap 7).files ∧
      GetPath t1.heap 1 = ["A", "D", "a.txt"] ∧ (t1.heap 1).parentDir = some 7 ∧
      t1.directories = sampleTree.directories ∧
      t1.callsAfter sampleTree.log.length =
        eventCalls sampleTree.listeners .OnFilePathChanged 1 (some ["A", "a.txt"])
          ["A", "D", "a.txt"]) :=
  ⟨by decide!, by decide!, by decide!,
   MoveFile_postcondition sampleTree ["A", "a.txt"] ["A", "D", "a.txt"] 0 7 1
     (by decide! : GoodTree sampleTree)
     (by decide! : sampleTree.GetDirectory (parent_path ["A", "a.txt"]) = some 0)
     (by decide! : sampleTree.GetDirectory (parent_path ["A", "D", "a.txt"]) = some 7)
     (by decide! : Directory.GetFile sampleTree.heap 0 (filename ["A", "a.txt"]) = some 1)
     (by decide! : filename ["A", "D", "a.txt"] = filename ["A", "a.txt"])
     (by decide! : Ordered (sortComp (sampleTree.heap 7).sortType sampleTree.heap)
       (sampleTree.heap 7).files)⟩

/-! ## Adding entries to a sound tree -/

theorem mapInsert_keeps (m : List (Path × Nat)) (key : Path) (value : Nat) {k : Path} {v : Nat}
    (h : mapFind m k = some v) : mapFind (mapInsert m key value) k = some v := by
  cases hm : mapFind m key with
  | some w => rw [mapInsert_bound m key value w hm]; exact h
  | none =>
    rw [mapFind_insert m key k value hm]
    split_ifs with e
    · subst e; rw [h] at hm; cases hm
    · exact h

theorem mapInsert_new (m : List (Path × Nat)) (key : Path) (value : Nat)
    (hm : mapFind m key = none) : mapFind (mapInsert m key value) key = some value := by
  rw [mapFind_insert m key key value hm]
  simp

/-- The first step of `BuildTree` on a sound tree: the new directory object and its index
entry. -/
theorem newDirectory_sound {t : DirectoryTree} (st : SoundTree t) (p : Path)
    (o1 o2 : Option Int) :
    SoundTree { (t.CreateDirectory p o1 o2).1 with
      directories := mapInsert t.directories p t.next } ∧
    (∀ x, x < t.next → (t.CreateDirectory p o1 o2).1.heap x = t.heap x) ∧
    ((t.CreateDirectory p o1 o2).1.heap t.next).kind = .DIRECTORY ∧
    ((t.CreateDirectory p o1 o2).1.heap t.next).parentDir = none ∧
    ((t.CreateDirectory p o1 o2).1.heap t.next).dirEntryPath = p := by
  have gh := st.1
  have se := UpdateStatus_same ((newDirectory p).UpdateStatus o1) o2
  have se1 := UpdateStatus_same (newDirectory p) o1
  have hc : (t.CreateDirectory p o1 o2).1.heap =
      store t.heap t.next (((newDirectory p).UpdateStatus o1).UpdateStatus o2) := rfl
  rw [hc]
  set e0 := ((newDirectory p).UpdateStatus o1).UpdateStatus o2 with he0
  have k0 : e0.kind = .DIRECTORY := by rw [se.1, se1.1]; rfl
  have p0 : e0.parentDir = none := by rw [se.2.2.1, se1.2.2.1]; rfl
  have d0 : e0.directories = [] := by rw [se.2.2.2.1, se1.2.2.2.1]; rfl
  have f0 : e0.files = [] := by rw [se.2.2.2.2, se1.2.2.2.2]; rfl
  have m0 : e0.dirEntryPath = p := by rw [se.2.1, se1.2.1]; rfl
  have g0 : GoodHeap (store t.heap t.next e0) (t.next + 1) := gh.alloc _ p0 d0 f0
  have old : ∀ x, x < t.next → store t.heap t.next e0 x = t.heap x :=
    fun x hx => store_other t.heap t.next x _ (by omega)
  have new : store t.heap t.next e0 t.next = e0 := store_same _ _ _
  refine ⟨?_, old, by rw [new]; exact k0, by rw [new]; exact p0, by rw [new]; exact m0⟩
  rw [SoundTree_iff]
  refine ⟨g0, ?_⟩
  show IndexValid (mapInsert t.directories p t.next) (store t.heap t.next e0) (t.next + 1)
  exact (((SoundTree_iff t).mp st).2.mono (Nat.le_succ _)
    (fun x hx => by rw [old x hx])).insert p (Nat.lt_succ_self _) (by rw [new]; exact k0)

/-- What `CreateFile` followed by `AddFileToDirectory` does to a sound tree. -/
theorem newFile_sound {t : DirectoryTree} (st : SoundTree t) (path : Path)
    (o1 o2 : Option Int) {D : Nat} (hDn : D < t.next) (hDk : (t.heap D).kind = .DIRECTORY) :
    ∃ H, H = Directory.AddFileToDirectory (t.CreateFile path o1 o2).1.heap D t.next ∧
      (∀ T : DirectoryTree, T.heap = H → T.next = t.next + 1 →
        T.directories = t.directories → SoundTree T) ∧
      (∀ x, x < t.next → x ≠ D → H x = t.heap x) ∧
      (H D).kind = .DIRECTORY ∧ (H D).parentDir = (t.heap D).parentDir ∧
      (H D).dirEntryPath = (t.heap D).dirEntryPath ∧
      (H D).directories = (t.heap D).directories ∧
      (∀ c, c ∈ (H D).files ↔ c ∈ (t.heap D).files ∨ c = t.next) ∧
      (H t.next).parentDir = some D ∧
      (H t.next).dirEntryPath = (t.heap D).dirEntryPath ++ [filename path] := by
  have gh := st.1
  have se := UpdateStatus_same ((newFile path).UpdateStatus o1) o2
  have se1 := UpdateStatus_same (newFile path) o1
  have hc : (t.CreateFile path o1 o2).1.heap =
      store t.heap t.next (((newFile path).UpdateStatus o1).UpdateStatus o2) := rfl
  rw [hc]
  generalize ((newFile path).UpdateStatus o1).UpdateStatus o2 = e0 at se
  have k0 : e0.kind = .FILE := by rw [se.1, se1.1]; rfl
  have p0 : e0.parentDir = none := by rw [se.2.2.1, se1.2.2.1]; rfl
  have d0 : e0.directories = [] := by rw [se.2.2.2.1, se1.2.2.2.1]; rfl
  have f0 : e0.files = [] := by rw [se.2.2.2.2, se1.2.2.2.2]; rfl
  have m0 : e0.dirEntryPath = path := by rw [se.2.1, se1.2.1]; rfl
  have g0 : GoodHeap (store t.heap t.next e0) (t.next + 1) := gh.alloc _ p0 d0 f0
  have old : ∀ x, x < t.next → store t.heap t.next e0 x = t.heap x :=
    fun x hx => store_other t.heap t.next x _ (by omega)
  have new : store t.heap t.next e0 t.next = e0 := store_same _ _ _
  have hDf : D ≠ t.next := by omega
  obtain ⟨g2, same2⟩ := Directory.AddFileToDirectory_spec g0 (w := D) (f := t.next)
    (by omega) (by omega) (by rw [old D hDn]; exact hDk)
    (by rw [new]; exact k0) (by rw [new]; exact p0)
  obtain ⟨_, a2, a3, _⟩ := Directory.AddFileToDirectory_at (h := store t.heap t.next e0) hDf
  have hother : ∀ x, x ≠ t.next →
      Directory.AddFileToDirectory (store t.heap t.next e0) D t.next x =
        attachedFile (store t.heap t.next e0) D t.next x :=
    fun x hx => DirectoryEntry.UpdatePath_other _ _ x hx
  have hDv := hother D hDf
  rw [attachedFile_apply hDf, if_neg hDf, if_pos rfl, old D hDn] at hDv
  refine ⟨_, rfl, ?_, ?_, ?_, ?_, ?_, ?_, ?_, a2, ?_⟩
  · generalize Directory.AddFileToDirectory (store t.heap t.next e0) D t.next = H
      at g2 same2
    intro T e1 e2 e3
    rw [SoundTree_iff, e1, e2, e3]
    exact ⟨g2, ((SoundTree_iff t).mp st).2.mono (Nat.le_succ _)
      (fun x hx => by rw [(same2 x).1, old x hx])⟩
  · intro x hx hxD
    rw [hother x (by omega), attachedFile_apply hDf, if_neg (by omega), if_neg hxD, old x hx]
  · rw [hDv]; exact hDk
  · rw [hDv]
  · rw [hDv]
  · rw [hDv]
  · intro c
    rw [(same2 D).2.2.2, old D hDn]
    simp
  · rw [a3, old D hDn, new, m0]

/-- What `AddDirectoryToDirectory(D, d)` does to a sound tree when `d` is a parentless
directory outside whose subtree `D` lies. -/
theorem dir_attached_sound {t : DirectoryTree} (st : SoundTree t) {D d : Nat}
    (hDn : D < t.next) (hDk : (t.heap D).kind = .DIRECTORY) (hdn : d < t.next)
    (hdk : (t.heap d).kind = .DIRECTORY) (hdp : (t.heap d).parentDir = none)
    (hnot : ¬ Sub t.heap d D) :
    ∃ H, (∃ f0, ∀ fuel, f0 ≤ fuel →
        Directory.AddDirectoryToDirectory fuel t.heap D d = some H) ∧
      (∀ T : DirectoryTree, T.heap = H → T.next = t.next →
        T.directories = t.directories → SoundTree T) ∧
      (∀ x, ¬ Sub t.heap d x → x ≠ D → H x = t.heap x) ∧
      (H D).kind = .DIRECTORY ∧ (H D).parentDir = (t.heap D).parentDir ∧
      (H D).dirEntryPath = (t.heap D).dirEntryPath ∧
      (∀ c, c ∈ (H D).directories ↔ c ∈ (t.heap D).directories ∨ c = d) ∧
      (H d).parentDir = some D ∧
      (H d).dirEntryPath = (t.heap D).dirEntryPath ++ [filename (t.heap d).dirEntryPath] := by
  have gh := st.1
  have hDd : D ≠ d := fun e => hnot (e ▸ Sub.self)
  obtain ⟨f0, hf0⟩ := Directory.AddDirectoryToDirectory_spec gh hDn hdn hDk hdk hdp hnot
  obtain ⟨H, e, u, g⟩ := hf0 f0 (Nat.le_refl _)
  have hkind : ∀ x, (H x).kind = (t.heap x).kind := by
    intro x
    rw [u.1.kind, attached_kind hDd]
  have hdirs : ∀ x c, c ∈ (H x).directories ↔
      c ∈ (t.heap x).directories ∨ (x = D ∧ c = d) := by
    intro x c
    rw [u.1.directories, attached_dirs hDd]
  have hDv : H D = attached t.heap D d D :=
    u.2.1 D (fun hs => hnot ((attach_sub hnot D).mp hs))
  refine ⟨H, ⟨f0, fun fuel hf => Directory.UpdatePath_mono hf e⟩, ?_, ?_, ?_, ?_, ?_, ?_, ?_,
    ?_⟩
  · intro T e1 e2 e3
    rw [SoundTree_iff, e1, e2, e3]
    exact ⟨g, ((SoundTree_iff t).mp st).2.mono (Nat.le_refl _) (fun x _ => hkind x)⟩
  · intro x hx hxD
    rw [u.2.1 x (fun hs => hx ((attach_sub hnot x).mp hs)), attached_apply hDd,
      if_neg (fun (e : x = d) => hx (e ▸ Sub.self)), if_neg hxD]
  · rw [hkind]; exact hDk
  · rw [hDv, attached_parent hDd D hDd]
  · rw [hDv, attached_path hDd]
  · intro c
    rw [hdirs]
    simp
  · rw [u.1.parentDir]
    exact attached_parent_self hDd
  · rw [u.2.2.1, DirectoryEntry.UpdatePath_path, attached_parent_self hDd]
    simp only
    rw [attached_path hDd, attached_path hDd]

mutual
/-- The method `BuildTree` on a sound tree, whatever the scan: with enough stack it returns,
the tree stays sound, nothing allocated before is touched, the new directory is a parentless
directory with the given path, the listeners are kept, every binding of the index is kept,
and the given path is bound to the new directory when it was unbound. -/
theorem BuildTree_sound :
    ∀ (scan : DiskDirectory) (t : DirectoryTree) (p : Path), SoundTree t →
      ∃ t1, (∃ f0, ∀ fuel, f0 ≤ fuel →
          DirectoryTree.BuildTree fuel t p scan = some (t1, t.next)) ∧
        SoundTree t1 ∧ t.next < t1.next ∧ (∀ x, x < t.next → t1.heap x = t.heap x) ∧
        (t1.heap t.next).kind = .DIRECTORY ∧ (t1.heap t.next).parentDir = none ∧
        (t1.heap t.next).dirEntryPath = p ∧ t1.listeners = t.listeners ∧
        (∀ k v, mapFind t.directories k = some v → mapFind t1.directories k = some v) ∧
        (mapFind t.directories p = none → mapFind t1.directories p = some t.next)
  | .mk o1 o2 entries, t, p, st => by
    obtain ⟨st0, old0, k0, p0, m0⟩ := newDirectory_sound st p o1 o2
    obtain ⟨t1, ⟨fl, hfl⟩, st1, hn1, fr1, k1, p1, m1, l1, i1⟩ := BuildTreeLoop_sound entries
      { (t.CreateDirectory p o1 o2).1 with directories := mapInsert t.directories p t.next }
      p t.next st0 (Nat.lt_succ_self _) k0 p0
    refine ⟨t1, ⟨fl, fun fuel hf => ?_⟩, st1, hn1, ?_, k1, p1, ?_, l1, ?_, ?_⟩
    · unfold DirectoryTree.BuildTree
      rw [hfl fuel hf]
    · intro x hx
      have h1 := fr1 x (Nat.lt_succ_of_lt hx) (by omega)
      rw [h1]
      exact old0 x hx
    · rw [m1]; exact m0
    · intro k v hk
      exact i1 k v (mapInsert_keeps t.directories p t.next hk)
    · intro hk
      exact i1 p t.next (mapInsert_new t.directories p t.next hk)
/-- The loop of `BuildTree` on a sound tree, filling the parentless directory `D`. -/
theorem BuildTreeLoop_sound :
    ∀ (entries : DiskEntries) (t : DirectoryTree) (p : Path) (D : Nat), SoundTree t →
      D < t.next → (t.heap D).kind = .DIRECTORY → (t.heap D).parentDir = none →
      ∃ t1, (∃ f0, ∀ fuel, f0 ≤ fuel →
          DirectoryTree.BuildTreeLoop fuel t p D entries = some t1) ∧
        SoundTree t1 ∧ t.next ≤ t1.next ∧ (∀ x, x < t.next → x ≠ D → t1.heap x = t.heap x) ∧
        (t1.heap D).kind = .DIRECTORY ∧ (t1.heap D).parentDir = none ∧
        (t1.heap D).dirEntryPath = (t.heap D).dirEntryPath ∧ t1.listeners = t.listeners ∧
        (∀ k v, mapFind t.directories k = some v → mapFind t1.directories k = some v)
  | .nil, t, p, D, st, hDn, hDk, hDp =>
    ⟨t, ⟨0, fun fuel _ => by unfold DirectoryTree.BuildTreeLoop; rfl⟩, st, Nat.le_refl _,
      fun _ _ _ => rfl, hDk, hDp, rfl, rfl, fun _ _ h => h⟩
  | .cons (.other _) rest, t, p, D, st, hDn, hDk, hDp => by
    obtain ⟨t1, ⟨fl, hfl⟩, rest1⟩ := BuildTreeLoop_sound rest t p D st hDn hDk hDp
    exact ⟨t1, ⟨fl, fun fuel hf => by unfold DirectoryTree.BuildTreeLoop; exact hfl fuel hf⟩,
      rest1⟩
  | .cons (.regular_file name o1 o2) rest, t, p, D, st, hDn, hDk, hDp => by
    obtain ⟨H, hH, key, fr, k1, p1, m1, _⟩ := newFile_sound st (slash p name) o1 o2 hDn hDk
    obtain ⟨T2, hT2⟩ : ∃ T2, T2 = DirectoryTree.NotifyFileAdded
        { (t.CreateFile (slash p name) o1 o2).1 with
          heap := Directory.AddFileToDirectory (t.CreateFile (slash p name) o1 o2).1.heap D
            (t.CreateFile (slash p name) o1 o2).2 }
        (t.CreateFile (slash p name) o1 o2).2 := ⟨_, rfl⟩
    obtain ⟨n1, n2, n3, _, n5⟩ := notify_fields
      { (t.CreateFile (slash p name) o1 o2).1 with
        heap := Directory.AddFileToDirectory (t.CreateFile (slash p name) o1 o2).1.heap D
          (t.CreateFile (slash p name) o1 o2).2 }
      .OnFileAdded (t.CreateFile (slash p name) o1 o2).2 none
    have e1 : T2.heap = H := by rw [hT2, hH]; exact n1
    have e2 : T2.next = t.next + 1 := by rw [hT2]; exact n2
    have e3 : T2.directories = t.directories := by rw [hT2]; exact n3
    have e5 : T2.listeners = t.listeners := by rw [hT2]; exact n5
    have st2 : SoundTree T2 := key T2 e1 e2 e3
    obtain ⟨t3, ⟨fl, hfl⟩, st3, hn3, fr3, k3, p3, m3, l3, i3⟩ :=
      BuildTreeLoop_sound rest T2 p D st2
        (by rw [e2]; omega) (by rw [e1]; exact k1) (by rw [e1, p1]; exact hDp)
    refine ⟨t3, ⟨fl, fun fuel hf => ?_⟩, st3, by rw [e2] at hn3; omega, ?_, k3, p3, ?_,
      by rw [l3, e5], ?_⟩
    · unfold DirectoryTree.BuildTreeLoop
      have := hfl fuel hf
      rw [hT2] at this
      exact this
    · intro x hx hxD
      rw [fr3 x (by rw [e2]; omega) hxD, e1]
      exact fr x hx hxD
    · rw [m3, e1]; exact m1
    · intro k v hk
      exact i3 k v (by rw [e3]; exact hk)
  | .cons (.directory name dir) rest, t, p, D, st, hDn, hDk, hDp => by
    have gh := st.1
    obtain ⟨t1, ⟨fb, hfb⟩, st1, hn1, fr1, k1, p1, m1, l1, i1, _⟩ :=
      BuildTree_sound dir t (slash p name) st
    have g1 := st1.1
    have above := Sub.above gh g1 (Nat.le_refl _) hn1 (fun x hx => by rw [fr1 x hx])
    have hnot : ¬ Sub t1.heap t.next D := fun hs => by
      have := above D hs
      omega
    obtain ⟨H, ⟨fa, hfa⟩, key, fr, k2, p2, m2, _⟩ :=
      dir_attached_sound st1 (D := D) (d := t.next) (by omega)
        (by rw [fr1 D hDn]; exact hDk) hn1 k1 p1 hnot
    obtain ⟨T2, hT2⟩ : ∃ T2, T2 = DirectoryTree.NotifyDirectoryAdded
        { t1 with heap := H } t.next := ⟨_, rfl⟩
    obtain ⟨n1, n2, n3, _, n5⟩ :=
      notify_fields { t1 with heap := H } .OnDirectoryAdded t.next none
    have e1 : T2.heap = H := by rw [hT2]; exact n1
    have e2 : T2.next = t1.next := by rw [hT2]; exact n2
    have e3 : T2.directories = t1.directories := by rw [hT2]; exact n3
    have e5 : T2.listeners = t1.listeners := by rw [hT2]; exact n5
    have st2 : SoundTree T2 := key T2 e1 e2 e3
    obtain ⟨t3, ⟨fl, hfl⟩, st3, hn3, fr3, k3, p3, m3, l3, i3⟩ :=
      BuildTreeLoop_sound rest T2 p D st2
        (by rw [e2]; omega) (by rw [e1]; exact k2)
        (by rw [e1, p2, fr1 D hDn]; exact hDp)
    refine ⟨t3, ⟨max fb (max fa fl), fun fuel hf => ?_⟩, st3,
      by rw [e2] at hn3; omega, ?_, k3, p3, ?_, by rw [l3, e5, l1], ?_⟩
    · unfold DirectoryTree.BuildTreeLoop
      rw [hfb fuel (le_trans (Nat.le_max_left _ _) hf)]
      simp only
      rw [hfa fuel (le_trans (le_trans (Nat.le_max_left _ _) (Nat.le_max_right _ _)) hf)]
      simp only
      have := hfl fuel (le_trans (le_trans (Nat.le_max_right _ _) (Nat.le_max_right _ _)) hf)
      rw [hT2] at this
      exact this
    · intro x hx hxD
      rw [fr3 x (by rw [e2]; omega) hxD, e1,
        fr x (fun hs => by have := above x hs; omega) hxD]
      exact fr1 x hx
    · rw [m3, e1, m2]
      rw [fr1 D hDn]
    · intro k v hk
      exact i3 k v (by rw [e3]; exact i1 k v hk)
end

/-- In a well-formed tree a path is unbound in the index when its parent path is bound to a
directory that has no child directory of that name. -/
theorem GoodTree.unindexed_of_free {t : DirectoryTree} (gt : GoodTree t) {p : Path} {P : Nat}
    (hP : t.GetDirectory (parent_path p) = some P)
    (hfree : Directory.DirectoryExists t.heap P (filename p) = false) :
    t.GetDirectory p = none := by
  have kn := gt.key_ne_nil hP
  obtain ⟨root, _, gh, _, _, _, hrp, _, gi⟩ := gt
  cases hv : t.GetDirectory p with
  | none => rfl
  | some v =>
    exfalso
    obtain ⟨hvn, hvk, hvp, hpar, _⟩ := gi.find hv
    rcases hpar with rfl | ⟨q, hq, hqi⟩
    · rw [hvp] at hrp
      rw [hrp] at kn
      exact kn rfl
    · have c := gh.2 v hvn q hq
      rw [hvp] at c
      have e : parent_path p = (t.heap q).dirEntryPath := by
        rw [c]
        unfold parent_path
        simp
      rw [← e] at hqi
      have hqP : q = P := Option.some.inj (hqi.symm.trans hP)
      subst hqP
      have hm : v ∈ (t.heap q).directories := ((gh.1 v hvn).2.2.2.2 q hq).2.2.1 hvk
      apply DirectoryExists_false hfree v hm
      unfold GetDirectoryName
      rw [hvp]

/-! ## The postcondition of the add operations -/

/-- The add operations on a well-formed tree with the parent `P` of `p` indexed, for a
directory that is listed as `scan`.  `AddNewFile(p)` returns; the file-added event for the
new file `t.next` is the last step, fired on a tree `T` in which the new file is listed by
`P`, has the path `p` and the parent reference `P`.  `AddNewDirectory(p)`, when `P` has no
child directory with the name of `p`, returns once the stack suffices; the directory-added
event for the new directory `t.next` is the last step, fired on a tree `T` in which
`GetDirectory(p)` returns the new directory, `P` lists it, and it is a directory with parent
reference `P` and path `p`. -/
theorem AddNew_postcondition (t : DirectoryTree) (p : Path) (P : Nat) (gt : GoodTree t)
    (hP : t.GetDirectory (parent_path p) = some P) :
    (∀ o1 o2, ∃ (T : DirectoryTree) (g : Nat),
      t.AddNewFile p o1 o2 = .ok (T.NotifyFileAdded t.next) ∧
      T.directories = t.directories ∧
      t.next ∈ (T.heap P).files ∧ GetPath T.heap t.next = p ∧
      (T.heap t.next).parentDir = some P ∧
      Directory.GetFile T.heap P (filename p) = some g ∧
      GetPath T.heap g = p ∧ (T.heap g).parentDir = some P ∧
      (Directory.FileExists t.heap P (filename p) = false → g = t.next) ∧
      (T.NotifyFileAdded t.next).callsAfter t.log.length =
        eventCalls t.listeners .OnFileAdded t.next none p) ∧
    (∀ scan, Directory.DirectoryExists t.heap P (filename p) = false →
      ∃ T : DirectoryTree, (∃ f0, ∀ fuel, f0 ≤ fuel →
          t.AddNewDirectory fuel p scan = .ok (T.NotifyDirectoryAdded t.next)) ∧
        T.GetDirectory p = some t.next ∧ t.next ∈ (T.heap P).directories ∧
        (T.heap t.next).kind = .DIRECTORY ∧ (T.heap t.next).parentDir = some P ∧
        GetPath T.heap t.next = p ∧
        (T.NotifyDirectoryAdded t.next).log = T.log ++
          t.listeners.map (fun l => Delivery.mk l .OnDirectoryAdded t.next none T.heap)) := by
  have st := gt.sound
  have gh := st.1
  obtain ⟨hPn, hPk⟩ := st.lookup hP
  have hPpath : (t.heap P).dirEntryPath = parent_path p := by
    obtain ⟨root, _, _, _, _, _, _, _, gi⟩ := gt
    exact (gi.find hP).2.2.1
  have hp : p ≠ [] := parent_path_ne_nil (gt.key_ne_nil hP)
  have hsplit := parent_path_slash_filename hp
  constructor
  · intro o1 o2
    obtain ⟨H, hH, _, fr, _, _, _, _, f1, par, pth⟩ := newFile_sound st p o1 o2 hPn hPk
    have hnewpath : (H t.next).dirEntryPath = p := by rw [pth, hPpath, hsplit]
    have hnew : t.next ∈ (H P).files := (f1 t.next).mpr (Or.inr rfl)
    have hcall : t.AddNewFile p o1 o2 = .ok (DirectoryTree.NotifyFileAdded
        { (t.CreateFile p o1 o2).1 with heap := H } t.next) := by
      unfold DirectoryTree.AddNewFile
      rw [hP, hH]
      rfl
    have hsome : ∃ g, Directory.GetFile H P (filename p) = some g := by
      cases hg : Directory.GetFile H P (filename p) with
      | some g => exact ⟨g, rfl⟩
      | none =>
        exfalso
        unfold Directory.GetFile at hg
        have := List.find?_eq_none.mp hg t.next hnew
        simp only [decide_eq_true_eq] at this
        apply this
        unfold GetFullFileName
        rw [hnewpath]
    obtain ⟨g, hg⟩ := hsome
    obtain ⟨g1, g2⟩ := Directory.GetFile_some hg
    have hold : g ≠ t.next → g ∈ (t.heap P).files ∧ H g = t.heap g := by
      intro hne
      rcases (f1 g).mp g1 with h1 | h1
      · obtain ⟨a, b, c⟩ := gh.1.parent_of_file hPn h1
        have hgP : g ≠ P := (gh.parent_ne a c).symm
        exact ⟨h1, fr g a hgP⟩
      · exact absurd h1 hne
    refine ⟨{ (t.CreateFile p o1 o2).1 with heap := H }, g, hcall, rfl, hnew, hnewpath, par,
      hg, ?_, ?_, ?_, ?_⟩
    · show (H g).dirEntryPath = p
      by_cases hne : g = t.next
      · rw [hne]; exact hnewpath
      · obtain ⟨h1, h2⟩ := hold hne
        obtain ⟨a, _, c⟩ := gh.1.parent_of_file hPn h1
        unfold GetFullFileName at g2
        rw [h2] at g2 ⊢
        rw [gh.2 g a P c, g2, hPpath, hsplit]
    · show (H g).parentDir = some P
      by_cases hne : g = t.next
      · rw [hne]; exact par
      · obtain ⟨h1, h2⟩ := hold hne
        rw [h2]
        exact (gh.1.parent_of_file hPn h1).2.2
    · intro hfree
      by_contra hne
      obtain ⟨h1, h2⟩ := hold hne
      apply FileExists_false hfree g h1
      unfold GetFullFileName at g2 ⊢
      rw [← h2]
      exact g2
    · have := callsAfter_notify { (t.CreateFile p o1 o2).1 with heap := H }
        .OnFileAdded t.next none
      unfold GetPath at this
      simp only [hnewpath] at this
      exact this
  · intro scan hfree
    have hnone := gt.unindexed_of_free hP hfree
    obtain ⟨t1, ⟨fb, hfb⟩, st1, hn1, fr1, k1, p1, m1, l1, _, i1⟩ := BuildTree_sound scan t p st
    have above := Sub.above gh st1.1 (Nat.le_refl _) hn1 (fun x hx => by rw [fr1 x hx])
    have hnot : ¬ Sub t1.heap t.next P := fun hs => by
      have := above P hs
      omega
    obtain ⟨H, ⟨fa, hfa⟩, _, _, _, _, _, d2, par, pth⟩ :=
      dir_attached_sound st1 (D := P) (d := t.next) (by omega)
        (by rw [fr1 P hPn]; exact hPk) hn1 k1 p1 hnot
    have hkind : (H t.next).kind = .DIRECTORY := by
      obtain ⟨f1, h1⟩ := Directory.AddDirectoryToDirectory_spec st1.1 (show P < t1.next by omega)
        hn1 (by rw [fr1 P hPn]; exact hPk) k1 p1 hnot
      obtain ⟨H1, e1, u1, _⟩ := h1 (max f1 fa) (Nat.le_max_left _ _)
      rw [hfa _ (Nat.le_max_right _ _)] at e1
      cases e1
      have hPd : P ≠ t.next := by omega
      rw [u1.1.kind, attached_kind hPd]
      exact k1
    refine ⟨{ t1 with heap := H }, ⟨max fb fa, fun fuel hf => ?_⟩, i1 hnone,
      (d2 t.next).mpr (Or.inr rfl), hkind, par, ?_, ?_⟩
    · unfold DirectoryTree.AddNewDirectory
      rw [hP]
      simp only
      rw [hfb fuel (le_trans (Nat.le_max_left _ _) hf)]
      simp only
      rw [hfa fuel (le_trans (Nat.le_max_right _ _) hf)]
    · show (H t.next).dirEntryPath = p
      rw [pth, m1, fr1 P hPn, hPpath, hsplit]
    · show (DirectoryTree.notify { t1 with heap := H } .OnDirectoryAdded t.next none).log = _
      rw [notify_log]
      show t1.log ++ t1.listeners.map _ = _
      rw [l1]

/-! ## Ties in the sorted insertion -/

theorem sortComp_strictWeak (p : DirEntrySortType) (h : Heap) : StrictWeak (sortComp p h) :=
  ⟨sortComp_asymm p h, sortComp_negtrans p h⟩

/-- Two entries have the same sort key exactly when neither compares before the other. -/
theorem sameKey_iff (p : DirEntrySortType) (h : Heap) (a b : Nat) :
    sameKey p h a b = true ↔ sortComp p h a b = false ∧ sortComp p h b a = false := by
  cases p <;>
    simp only [sameKey, sortComp, sorterOf, AlphabeticalSorter.comp, LastWriteTimeSorter.comp,
      GetLastWriteTime, decide_eq_true_eq, decide_eq_false_iff_not, Bool.eq_false_iff, ne_eq,
      stringLess_iff, gt_iff_lt, not_lt]
  · exact ⟨fun e => ⟨le_of_eq e.symm, le_of_eq e⟩, fun ⟨x, y⟩ => le_antisymm y x⟩
  · exact ⟨fun e => ⟨le_of_eq e, le_of_eq e.symm⟩, fun ⟨x, y⟩ => le_antisymm x y⟩
  · exact ⟨fun e => ⟨le_of_eq e.symm, le_of_eq e⟩, fun ⟨x, y⟩ => le_antisymm y x⟩
  · exact ⟨fun e => ⟨le_of_eq e, le_of_eq e.symm⟩, fun ⟨x, y⟩ => le_antisymm x y⟩

theorem sameKey_symm (p : DirEntrySortType) (h : Heap) (a b : Nat) :
    sameKey p h a b = sameKey p h b a := by
  have e : sameKey p h a b = true ↔ sameKey p h b a = true := by
    rw [sameKey_iff, sameKey_iff]
    exact And.comm
  cases h1 : sameKey p h a b <;> cases h2 : sameKey p h b a <;> simp_all

/-- C22 (insertion tie-break).  For every policy and every sequence ordered by it,
`InsertDirectorySorted` and `InsertFileSorted` put the item at one position `k` of the
sequence such that no item before it compares after the new item, every item after it
compares strictly after the new item (so none of them has the key of the new item), and,
when some existing item has the key of the new item, the item right before position `k` has
that key: the new item stands immediately after the last existing item with its key. -/
theorem insertion_tie_break (policy : DirEntrySortType) (h : Heap) (item : Nat)
    (xs : List Nat) (hs : Ordered (sortComp policy h) xs) :
    ∃ k, k ≤ xs.length ∧
      Sorter.InsertDirectorySorted policy h item xs = xs.take k ++ item :: xs.drop k ∧
      Sorter.InsertFileSorted policy h item xs = xs.take k ++ item :: xs.drop k ∧
      (∀ x ∈ xs.take k, sortComp policy h item x = false) ∧
      (∀ x ∈ xs.drop k, sortComp policy h item x = true ∧ sameKey policy h x item = false) ∧
      ((∃ x ∈ xs, sameKey policy h x item = true) →
        ∃ l, (xs.take k).getLast? = some l ∧ sameKey policy h l item = true) := by
  have hmono : ∀ (i j : Nat) (x y : Nat), i ≤ j → xs[i]? = some x →
      xs[j]? = some y → sortComp policy h item x = true →
      sortComp policy h item y = true := by
    intro i j x y hij hx hy hxt
    rcases Nat.eq_or_lt_of_le hij with e | e
    · subst e; rw [hx] at hy; cases hy; exact hxt
    · obtain ⟨hi, rfl⟩ := List.getElem?_eq_some.mp hx
      obtain ⟨hj, rfl⟩ := List.getElem?_eq_some.mp hy
      exact sortComp_negtrans _ _ _ _ _ hxt (List.pairwise_iff_getElem.mp hs i j hi hj e)
  obtain ⟨hk, hlo, hhi⟩ := upper_bound_spec _ _ hmono
  refine ⟨upper_bound (fun x => sortComp policy h item x) xs, hk, ?_, ?_, hlo, ?_, ?_⟩
  · rw [InsertDirectorySorted_eq]; rfl
  · rw [InsertFileSorted_eq]; rfl
  · intro x hx
    refine ⟨hhi x hx, ?_⟩
    cases e : sameKey policy h x item with
    | false => rfl
    | true =>
      have := ((sameKey_iff policy h x item).mp e).2
      rw [hhi x hx] at this
      cases this
  · rintro ⟨e, he, hkey⟩
    generalize upper_bound (fun x => sortComp policy h item x) xs = k at hlo hhi
    obtain ⟨e1, e2⟩ := (sameKey_iff policy h e item).mp hkey
    have hmem : e ∈ xs.take k := by
      rw [← List.take_append_drop k xs] at he
      rcases List.mem_append.mp he with h1 | h1
      · exact h1
      · rw [hhi e h1] at e2; cases e2
    have hord : Ordered (sortComp policy h) (xs.take k) :=
      List.Pairwise.sublist (List.take_sublist k xs) hs
    rcases List.eq_nil_or_concat (xs.take k) with hnil | ⟨ini, l, hcat⟩
    · rw [hnil] at hmem
      exact absurd hmem (List.not_mem_nil _)
    · rw [List.concat_eq_append] at hcat
      rw [hcat] at hmem hord
      refine ⟨l, by rw [hcat]; simp, ?_⟩
      rw [sameKey_iff]
      have hl : sortComp policy h item l = false :=
        hlo l (by rw [hcat]; exact List.mem_append_right _ (List.mem_singleton_self l))
      refine ⟨?_, hl⟩
      rcases List.mem_append.mp hmem with h1 | h1
      · unfold Ordered at hord
        rw [List.pairwise_append] at hord
        have hle : sortComp policy h l e = false := hord.2.2 e h1 l (List.mem_singleton_self l)
        cases c : sortComp policy h l item with
        | false => rfl
        | true =>
          have := sortComp_negtrans policy h l item e c e1
          rw [hle] at this
          cases this
      · rw [List.mem_singleton] at h1
        subst h1
        exact e1

/-- Witness for C22: the files `a.txt = 1`, `a.txt = 4` of `A` in the scenario tree with a
second `a.txt` are ordered by name; inserting the file `1` again puts it after both. -/
theorem insertion_tie_break_witness :
    Sorter.InsertFileSorted .ALPHABETICAL_L_TO_H twinTree.heap 1 [1, 4] = [1, 4, 1] ∧
    ∃ k, k ≤ [1, 4].length ∧
      Sorter.InsertDirectorySorted .ALPHABETICAL_L_TO_H twinTree.heap 1 [1, 4] =
        [1, 4].take k ++ 1 :: [1, 4].drop k ∧
      Sorter.InsertFileSorted .ALPHABETICAL_L_TO_H twinTree.heap 1 [1, 4] =
        [1, 4].take k ++ 1 :: [1, 4].drop k ∧
      (∀ x ∈ [1, 4].take k, sortComp .ALPHABETICAL_L_TO_H twinTree.heap 1 x = false) ∧
      (∀ x ∈ [1, 4].drop k, sortComp .ALPHABETICAL_L_TO_H twinTree.heap 1 x = true ∧
        sameKey .ALPHABETICAL_L_TO_H twinTree.heap x 1 = false) ∧
      ((∃ x ∈ [1, 4], sameKey .ALPHABETICAL_L_TO_H twinTree.heap x 1 = true) →
        ∃ l, ([1, 4].take k).getLast? = some l ∧
          sameKey .ALPHABETICAL_L_TO_H twinTree.heap l 1 = true) :=
  ⟨by decide!,
   insertion_tie_break .ALPHABETICAL_L_TO_H twinTree.heap 1 [1, 4]
     (by decide! : Ordered (sortComp .ALPHABETICAL_L_TO_H twinTree.heap) [1, 4])⟩

/-! ## Full sorts -/

theorem insertionSort_fold (comp : Nat → Nat → Bool) (sw : StrictWeak comp) :
    ∀ (xs acc : List Nat), Ordered comp acc →
      (xs.foldl (fun acc x => insertAt acc (upper_bound (fun y => comp x y) acc) x) acc).Perm
          (acc ++ xs) ∧
        Ordered comp
          (xs.foldl (fun acc x => insertAt acc (upper_bound (fun y => comp x y) acc) x) acc)
  | [], acc, ho => by simpa using ho
  | x :: xs, acc, ho => by
    have o1 := insertAt_upper_bound_ordered comp sw.1 sw.2 acc x ho
    obtain ⟨p2, o2⟩ := insertionSort_fold comp sw xs _ o1
    refine ⟨?_, o2⟩
    rw [List.foldl_cons]
    refine p2.trans ?_
    have : (insertAt acc (upper_bound (fun y => comp x y) acc) x).Perm (acc ++ [x]) :=
      (insertAt_perm acc _ x).trans (List.perm_append_singleton x acc).symm
    have := this.append_right xs
    simpa using this

/-- The sample `insertionSort` meets the contract of `std::sort`. -/
theorem insertionSort_conforms : StdSort.Conforms insertionSort := by
  intro comp xs sw
  have := insertionSort_fold comp sw xs [] List.Pairwise.nil
  simpa [insertionSort] using this

theorem SortDirectories_eq (sort : StdSort) (p : DirEntrySortType) (h : Heap) (xs : List Nat) :
    Sorter.SortDirectories sort p h xs = sort (sortComp p h) xs := by
  cases p <;> rfl

theorem SortFiles_eq (sort : StdSort) (p : DirEntrySortType) (h : Heap) (xs : List Nat) :
    Sorter.SortFiles sort p h xs = sort (sortComp p h) xs := by
  cases p <;> rfl

theorem sameKey_trans (p : DirEntrySortType) (h : Heap) (a b c : Nat)
    (h1 : sameKey p h a b = true) (h2 : sameKey p h b c = true) : sameKey p h a c = true := by
  cases p <;>
    simp only [sameKey, sorterOf, decide_eq_true_eq] at h1 h2 ⊢ <;>
    exact h1.trans h2

/-- A sequence of pairwise different keys holds at most one item with a given key. -/
theorem filter_sameKey_short (p : DirEntrySortType) (h : Heap) (x : Nat) :
    ∀ (xs : List Nat), xs.Pairwise (fun a b => sameKey p h a b = false) →
      (xs.filter (sameKey p h x)).length ≤ 1 := by
  intro xs hp
  have hp1 : (xs.filter (sameKey p h x)).Pairwise (fun a b => sameKey p h a b = false) :=
    hp.sublist (List.filter_sublist _)
  match hl : xs.filter (sameKey p h x), hp1 with
  | [], _ => simp
  | [_], _ => simp
  | a :: b :: rest, hp1 =>
    exfalso
    have ha : a ∈ xs.filter (sameKey p h x) := by rw [hl]; simp
    have hb : b ∈ xs.filter (sameKey p h x) := by rw [hl]; simp
    have ka := (List.mem_filter.mp ha).2
    have kb := (List.mem_filter.mp hb).2
    rw [sameKey_symm] at ka
    have := sameKey_trans p h a x b ka kb
    rw [List.pairwise_cons] at hp1
    rw [hp1.1 b (List.mem_cons_self _ _)] at this
    cases this

theorem stable_of_distinct_keys (p : DirEntrySortType) (h : Heap) (xs ys : List Nat)
    (hperm : ys.Perm xs) (hp : xs.Pairwise (fun a b => sameKey p h a b = false)) :
    StableFor p h xs ys := by
  intro x _
  have hf : (ys.filter (sameKey p h x)).Perm (xs.filter (sameKey p h x)) := hperm.filter _
  have hs := filter_sameKey_short p h x xs hp
  match hl : xs.filter (sameKey p h x), hs with
  | [], _ => rw [hl] at hf; exact hf.eq_nil
  | [a], _ => rw [hl] at hf; exact List.perm_singleton.mp hf
  | _ :: _ :: _, hs => simp at hs

/-! ## Switching the sort policy -/

/-- The comparator of a policy does not read the fields `SetSortingType` writes. -/
theorem sortComp_store_fields (q : DirEntrySortType) (h : Heap) (this : Nat)
    (e : DirectoryEntry) (h1 : e.dirEntryPath = (h this).dirEntryPath)
    (h2 : e.lastWriteTime = (h this).lastWriteTime) :
    sortComp q (store h this e) = sortComp q h := by
  apply sortComp_congr
  intro x
  by_cases hx : x = this
  · subst hx; rw [store_same, h1, h2]; exact ⟨rfl, rfl⟩
  · rw [store_other _ _ _ _ hx]; exact ⟨rfl, rfl⟩

theorem Directory.SortFiles_keys (sort : StdSort) (h : Heap) (this x : Nat) :
    filename (Directory.SortFiles sort h this x).dirEntryPath = filename (h x).dirEntryPath ∧
    (Directory.SortFiles sort h this x).lastWriteTime = (h x).lastWriteTime := by
  unfold Directory.SortFiles
  by_cases hx : x = this
  · subst hx; rw [store_same]; exact ⟨rfl, rfl⟩
  · rw [store_other _ _ _ _ hx]; exact ⟨rfl, rfl⟩

theorem Directory.SortDirectories_keys (sort : StdSort) (h : Heap) (this x : Nat) :
    filename (Directory.SortDirectories sort h this x).dirEntryPath =
      filename (h x).dirEntryPath ∧
    (Directory.SortDirectories sort h this x).lastWriteTime = (h x).lastWriteTime := by
  unfold Directory.SortDirectories
  by_cases hx : x = this
  · subst hx; rw [store_same]; exact ⟨rfl, rfl⟩
  · rw [store_other _ _ _ _ hx]; exact ⟨rfl, rfl⟩

/-- The store after `SetSortingType`: at `this` the policy is the new one and both sequences
are the `std::sort` of the old ones under the comparator of the new policy; the comparator
itself is the same in the old and in the new store. -/
theorem Directory.SetSortingType_at (sort : StdSort) (h : Heap) (this : Nat)
    (p : DirEntrySortType) :
    (Directory.SetSortingType sort h this p this).sortType = p ∧
    (Directory.SetSortingType sort h this p this).files = sort (sortComp p h) (h this).files ∧
    (Directory.SetSortingType sort h this p this).directories =
      sort (sortComp p h) (h this).directories ∧
    (∀ q, sortComp q (Directory.SetSortingType sort h this p) = sortComp q h) ∧
    (∀ x, x ≠ this → Directory.SetSortingType sort h this p x = h x) := by
  have c1 : ∀ q, sortComp q (store h this { h this with sortType := p }) = sortComp q h :=
    fun q => sortComp_store_fields q h this _ rfl rfl
  have c2 : ∀ q, sortComp q
      (Directory.SortFiles sort (store h this { h this with sortType := p }) this) =
      sortComp q h :=
    fun q => (sortComp_congr q (Directory.SortFiles_keys sort _ this)).trans (c1 q)
  refine ⟨?_, ?_, ?_, ?_, ?_⟩
  · simp [Directory.SetSortingType, Directory.SortDirectories, Directory.SortFiles, store]
  · simp only [Directory.SetSortingType, Directory.SortDirectories, Directory.SortFiles,
      store_same, SortFiles_eq, c1]
  · unfold Directory.SetSortingType Directory.SortDirectories
    rw [store_same, SortDirectories_eq, c2]
    simp [Directory.SortFiles, store]
  · intro q
    unfold Directory.SetSortingType
    exact (sortComp_congr q (Directory.SortDirectories_keys sort _ this)).trans (c2 q)
  · intro x hx
    simp [Directory.SetSortingType, Directory.SortDirectories, Directory.SortFiles, store, hx]

/-- C21 (switching the sort policy).  With a `std::sort` that meets its contract, for every
directory `this` and every policy `p`: after `SetSortingType(p)`, `GetSortingType()` is `p`,
both child sequences are permutations of what they were and are ordered by the comparator
of `p`, and each is the full sort (`Sorter::SortDirectories`, `Sorter::SortFiles`) of the
previous sequence under `p`. -/
theorem SetSortingType_resorts (sort : StdSort) (hsort : sort.Conforms) (h : Heap)
    (this : Nat) (p : DirEntrySortType) :
    Directory.GetSortingType (Directory.SetSortingType sort h this p) this = p ∧
    (Directory.SetSortingType sort h this p this).directories.Perm (h this).directories ∧
    (Directory.SetSortingType sort h this p this).files.Perm (h this).files ∧
    Ordered (sortComp p (Directory.SetSortingType sort h this p))
      (Directory.SetSortingType sort h this p this).directories ∧
    Ordered (sortComp p (Directory.SetSortingType sort h this p))
      (Directory.SetSortingType sort h this p this).files ∧
    (Directory.SetSortingType sort h this p this).directories =
      Sorter.SortDirectories sort p h (h this).directories ∧
    (Directory.SetSortingType sort h this p this).files =
      Sorter.SortFiles sort p h (h this).files := by
  obtain ⟨a, b, c, d, _⟩ := Directory.SetSortingType_at sort h this p
  have sw := sortComp_strictWeak p h
  unfold Directory.GetSortingType
  rw [d, b, c, SortDirectories_eq, SortFiles_eq]
  exact ⟨a, (hsort _ _ sw).1, (hsort _ _ sw).1, (hsort _ _ sw).2, (hsort _ _ sw).2, rfl, rfl⟩

/-- Witness for C21: the directory `A` of the example tree is switched to descending names
with the sample `insertionSort`; its files `a.txt, c.txt` become `c.txt, a.txt` and its
directories `B, D` become `D, B`. -/
theorem SetSortingType_resorts_witness :
    (Directory.SetSortingType insertionSort sampleTree.heap 0 .ALPHABETICAL_H_TO_L 0).files =
      [2, 1] ∧
    (Directory.SetSortingType insertionSort sampleTree.heap 0
      .ALPHABETICAL_H_TO_L 0).directories = [7, 3] ∧
    (Directory.GetSortingType
        (Directory.SetSortingType insertionSort sampleTree.heap 0 .ALPHABETICAL_H_TO_L) 0 =
        .ALPHABETICAL_H_TO_L ∧
      (Directory.SetSortingType insertionSort sampleTree.heap 0
        .ALPHABETICAL_H_TO_L 0).directories.Perm (sampleTree.heap 0).directories ∧
      (Directory.SetSortingType insertionSort sampleTree.heap 0
        .ALPHABETICAL_H_TO_L 0).files.Perm (sampleTree.heap 0).files ∧
      Ordered (sortComp .ALPHABETICAL_H_TO_L
          (Directory.SetSortingType insertionSort sampleTree.heap 0 .ALPHABETICAL_H_TO_L))
        (Directory.SetSortingType insertionSort sampleTree.heap 0
          .ALPHABETICAL_H_TO_L 0).directories ∧
      Ordered (sortComp .ALPHABETICAL_H_TO_L
          (Directory.SetSortingType insertionSort sampleTree.heap 0 .ALPHABETICAL_H_TO_L))
        (Directory.SetSortingType insertionSort sampleTree.heap 0
          .ALPHABETICAL_H_TO_L 0).files ∧
      (Directory.SetSortingType insertionSort sampleTree.heap 0
          .ALPHABETICAL_H_TO_L 0).directories =
        Sorter.SortDirectories insertionSort .ALPHABETICAL_H_TO_L sampleTree.heap
          (sampleTree.heap 0).directories ∧
      (Directory.SetSortingType insertionSort sampleTree.heap 0 .ALPHABETICAL_H_TO_L 0).files =
        Sorter.SortFiles insertionSort .ALPHABETICAL_H_TO_L sampleTree.heap
          (sampleTree.heap 0).files) :=
  ⟨by decide!, by decide!,
   SetSortingType_resorts insertionSort insertionSort_conforms sampleTree.heap 0
     .ALPHABETICAL_H_TO_L⟩

/-! ## The order of insertions -/

theorem Directory.AddDirectory_at (h : Heap) (this d : Nat) :
    (Directory.AddDirectory h this d this).directories =
      insertAt (h this).directories
        (upper_bound (fun y => sortComp (h this).sortType h d y) (h this).directories) d ∧
    (Directory.AddDirectory h this d this).sortType = (h this).sortType ∧
    (∀ q, sortComp q (Directory.AddDirectory h this d) = sortComp q h) := by
  unfold Directory.AddDirectory
  rw [store_same]
  exact ⟨InsertDirectorySorted_eq _ _ _ _, rfl, fun q => sortComp_store_fields q h this _ rfl rfl⟩

theorem Directory.AddFile_at (h : Heap) (this f : Nat) :
    (Directory.AddFile h this f this).files =
      insertAt (h this).files
        (upper_bound (fun y => sortComp (h this).sortType h f y) (h this).files) f ∧
    (Directory.AddFile h this f this).sortType = (h this).sortType ∧
    (∀ q, sortComp q (Directory.AddFile h this f) = sortComp q h) := by
  unfold Directory.AddFile
  rw [store_same]
  exact ⟨InsertFileSorted_eq _ _ _ _, rfl, fun q => sortComp_store_fields q h this _ rfl rfl⟩

theorem addDirectories_fold (h : Heap) (this : Nat) :
    ∀ (l : List Nat) (h0 : Heap), (∀ q, sortComp q h0 = sortComp q h) →
      (addDirectories h0 this l this).directories =
        l.foldl (fun acc x =>
          insertAt acc (upper_bound (fun y => sortComp (h0 this).sortType h x y) acc) x)
          (h0 this).directories
  | [], _, _ => rfl
  | d :: l, h0, hc => by
    obtain ⟨a, b, c⟩ := Directory.AddDirectory_at h0 this d
    have ih := addDirectories_fold h this l (Directory.AddDirectory h0 this d)
      (fun q => (c q).trans (hc q))
    unfold addDirectories at ih ⊢
    rw [List.foldl_cons, ih, a, b, List.foldl_cons, hc]

theorem addFiles_fold (h : Heap) (this : Nat) :
    ∀ (l : List Nat) (h0 : Heap), (∀ q, sortComp q h0 = sortComp q h) →
      (addFiles h0 this l this).files =
        l.foldl (fun acc x =>
          insertAt acc (upper_bound (fun y => sortComp (h0 this).sortType h x y) acc) x)
          (h0 this).files
  | [], _, _ => rfl
  | d :: l, h0, hc => by
    obtain ⟨a, b, c⟩ := Directory.AddFile_at h0 this d
    have ih := addFiles_fold h this l (Directory.AddFile h0 this d)
      (fun q => (c q).trans (hc q))
    unfold addFiles at ih ⊢
    rw [List.foldl_cons, ih, a, b, List.foldl_cons, hc]

/-- Two sequences with the same items, no two of the same name, both ordered by ascending
name, are equal; and they are strictly ascending. -/
theorem ascending_unique (h : Heap) (l r1 r2 : List Nat)
    (hn : (l.map (fun e => filename (h e).dirEntryPath)).Nodup)
    (p1 : r1.Perm l) (p2 : r2.Perm l)
    (o1 : Ordered (sortComp .ALPHABETICAL_L_TO_H h) r1)
    (o2 : Ordered (sortComp .ALPHABETICAL_L_TO_H h) r2) :
    r1 = r2 ∧
    r1.Pairwise (fun a b => filename (h a).dirEntryPath < filename (h b).dirEntryPath) := by
  have strict : ∀ r : List Nat, r.Perm l → Ordered (sortComp .ALPHABETICAL_L_TO_H h) r →
      r.Pairwise (fun a b => filename (h a).dirEntryPath < filename (h b).dirEntryPath) := by
    intro r pr o
    have hnr : (r.map (fun e => filename (h e).dirEntryPath)).Nodup :=
      (pr.map _).nodup_iff.mpr hn
    have hne := List.pairwise_map.mp hnr
    unfold Ordered at o
    refine (o.and hne).imp ?_
    rintro a b ⟨h1, h2⟩
    simp only [sortComp, sorterOf, AlphabeticalSorter.comp, Bool.eq_false_iff, ne_eq,
      stringLess_iff, not_lt] at h1
    exact lt_of_le_of_ne h1 h2
  have s1 := strict r1 p1 o1
  have s2 := strict r2 p2 o2
  haveI : IsAntisymm Nat
      (fun a b => filename (h a).dirEntryPath < filename (h b).dirEntryPath) :=
    ⟨fun a b h1 h2 => absurd h1 (lt_asymm h2)⟩
  exact ⟨List.eq_of_perm_of_sorted (p1.trans p2.symm) s1 s2, s1⟩

/-- C24 (insertion order does not matter).  For a directory `this` with the policy
alphabetical-ascending and no children, and a list `l1` of entries with pairwise distinct
names: adding the entries of any rearrangement `l2` of `l1` one by one, with `AddDirectory`
or with `AddFile`, gives the same child sequence as adding those of `l1`; that sequence
holds the entries of `l1` in strictly ascending order of name. -/
theorem insertion_order_irrelevant (h : Heap) (this : Nat) (l1 l2 : List Nat)
    (hp : (h this).sortType = .ALPHABETICAL_L_TO_H)
    (hd : (h this).directories = []) (hf : (h this).files = [])
    (hn : (l1.map (fun e => filename (h e).dirEntryPath)).Nodup)
    (hperm : l2.Perm l1) :
    (addDirectories h this l2 this).directories = (addDirectories h this l1 this).directories ∧
    (addFiles h this l2 this).files = (addFiles h this l1 this).files ∧
    (addDirectories h this l1 this).directories.Perm l1 ∧
    (addFiles h this l1 this).files.Perm l1 ∧
    (addDirectories h this l1 this).directories.Pairwise
      (fun a b => GetDirectoryName h a < GetDirectoryName h b) ∧
    (addFiles h this l1 this).files.Pairwise
      (fun a b => GetFullFileName h a < GetFullFileName h b) := by
  have ed : ∀ l, (addDirectories h this l this).directories =
      insertionSort (sortComp .ALPHABETICAL_L_TO_H h) l := by
    intro l
    rw [addDirectories_fold h this l h (fun _ => rfl), hp, hd]
    rfl
  have ef : ∀ l, (addFiles h this l this).files =
      insertionSort (sortComp .ALPHABETICAL_L_TO_H h) l := by
    intro l
    rw [addFiles_fold h this l h (fun _ => rfl), hp, hf]
    rfl
  have sw := sortComp_strictWeak .ALPHABETICAL_L_TO_H h
  obtain ⟨a1, b1⟩ := insertionSort_conforms (sortComp .ALPHABETICAL_L_TO_H h) l1 sw
  obtain ⟨a2, b2⟩ := insertionSort_conforms (sortComp .ALPHABETICAL_L_TO_H h) l2 sw
  obtain ⟨e, s⟩ := ascending_unique h l1 _ _ hn (a2.trans hperm) a1 b2 b1
  rw [ed, ed, ef, ef]
  exact ⟨e, e, a1, a1, e ▸ s, e ▸ s⟩

/-- Witness for C24: in the directory `d`, inserting `b` and then `a` yields `a, b`, as does
inserting `a` and then `b`. -/
theorem insertion_order_irrelevant_witness :
    (addDirectories abHeap 0 [2, 1] 0).directories = [1, 2] ∧
    (addFiles abHeap 0 [2, 1] 0).files = [1, 2] ∧
    ((addDirectories abHeap 0 [2, 1] 0).directories =
        (addDirectories abHeap 0 [1, 2] 0).directories ∧
      (addFiles abHeap 0 [2, 1] 0).files = (addFiles abHeap 0 [1, 2] 0).files ∧
      (addDirectories abHeap 0 [1, 2] 0).directories.Perm [1, 2] ∧
      (addFiles abHeap 0 [1, 2] 0).files.Perm [1, 2] ∧
      (addDirectories abHeap 0 [1, 2] 0).directories.Pairwise
        (fun a b => GetDirectoryName abHeap a < GetDirectoryName abHeap b) ∧
      (addFiles abHeap 0 [1, 2] 0).files.Pairwise
        (fun a b => GetFullFileName abHeap a < GetFullFileName abHeap b)) :=
  ⟨by decide!, by decide!,
   insertion_order_irrelevant abHeap 0 [1, 2] [2, 1] (by decide!) (by decide!) (by decide!)
     (by decide!) (by decide!)⟩

/-! ## Modification under a last-write-time policy -/

/-- C25 fails: a newer timestamp is recorded in place and nobody repositions the entry.
`ProcessModifiedFile` and `ProcessModifiedDirectory` never change a child sequence.  In the
example tree with `A` switched to ascending last-write time, the files of `A` are `a.txt`
(time 5), `c.txt` (time 6) and its directories `B` (time 7), `D` (time 8), both ordered;
`ProcessModifiedFile("A/a.txt")` with the newer time 9 returns and leaves the files as
`a.txt` (9), `c.txt` (6), and `ProcessModifiedDirectory("A/B")` with the newer time 9
returns and leaves the directories as `B` (9), `D` (8): neither is ordered any more. -/
theorem ProcessModified_leaves_sequence_unordered :
    (∀ (t t1 : DirectoryTree) (p : Path) (o : Option Int) (x : Nat),
      (t.ProcessModifiedFile p o = .ok t1 ∨ t.ProcessModifiedDirectory p o = .ok t1) →
      (t1.heap x).files = (t.heap x).files ∧ (t1.heap x).directories = (t.heap x).directories ∧
      (t1.heap x).sortType = (t.heap x).sortType) ∧
    (GoodTree timeTree ∧
      Directory.GetSortingType timeTree.heap 0 = .LAST_WRITE_TIME_L_TO_H ∧
      (timeTree.heap 0).files = [1, 2] ∧ (timeTree.heap 0).directories = [3, 7] ∧
      Ordered (sortComp .LAST_WRITE_TIME_L_TO_H timeTree.heap) (timeTree.heap 0).files ∧
      Ordered (sortComp .LAST_WRITE_TIME_L_TO_H timeTree.heap) (timeTree.heap 0).directories) ∧
    ((timeTree.ProcessModifiedFile ["A", "a.txt"] (some 9)).returned = true ∧
      GetLastWriteTime timeTree.heap 1 = 5 ∧
      GetLastWriteTime (timeTree.ProcessModifiedFile ["A", "a.txt"] (some 9)).tree.heap 1 = 9 ∧
      GetLastWriteTime (timeTree.ProcessModifiedFile ["A", "a.txt"] (some 9)).tree.heap 2 = 6 ∧
      ((timeTree.ProcessModifiedFile ["A", "a.txt"] (some 9)).tree.heap 0).files = [1, 2] ∧
      ¬ Ordered (sortComp .LAST_WRITE_TIME_L_TO_H
          (timeTree.ProcessModifiedFile ["A", "a.txt"] (some 9)).tree.heap)
        ((timeTree.ProcessModifiedFile ["A", "a.txt"] (some 9)).tree.heap 0).files) ∧
    ((timeTree.ProcessModifiedDirectory ["A", "B"] (some 9)).returned = true ∧
      GetLastWriteTime timeTree.heap 3 = 7 ∧
      GetLastWriteTime (timeTree.ProcessModifiedDirectory ["A", "B"] (some 9)).tree.heap 3 = 9 ∧
      GetLastWriteTime (timeTree.ProcessModifiedDirectory ["A", "B"] (some 9)).tree.heap 7 = 8 ∧
      ((timeTree.ProcessModifiedDirectory ["A", "B"] (some 9)).tree.heap 0).directories =
        [3, 7] ∧
      ¬ Ordered (sortComp .LAST_WRITE_TIME_L_TO_H
          (timeTree.ProcessModifiedDirectory ["A", "B"] (some 9)).tree.heap)
        ((timeTree.ProcessModifiedDirectory ["A", "B"] (some 9)).tree.heap 0).directories) := by
  refine ⟨?_, by decide!, by decide!, by decide!⟩
  intro t t1 p o x hr
  have key : ∀ e cb, ∀ r : DirectoryTree,
      (if ((store t.heap e ((t.heap e).UpdateStatus o)) e).modified then
        Outcome.ok (({ t with heap := store t.heap e ((t.heap e).UpdateStatus o) }
          : DirectoryTree).notify cb e none)
      else Outcome.ok { t with heap := store t.heap e ((t.heap e).UpdateStatus o) }) = .ok r →
      (r.heap x).files = (t.heap x).files ∧ (r.heap x).directories = (t.heap x).directories ∧
      (r.heap x).sortType = (t.heap x).sortType := by
    intro e cb r hr
    obtain ⟨r1, e1, e2, _⟩ := processModified_found t e o cb
    rw [hr] at e1
    cases e1
    rw [e2]
    by_cases hx : x = e
    · subst hx
      rw [store_same]
      unfold DirectoryEntry.UpdateStatus
      cases o with
      | none => exact ⟨rfl, rfl, rfl⟩
      | some time => simp only; split_ifs <;> exact ⟨rfl, rfl, rfl⟩
    · rw [store_other _ _ _ _ hx]
      exact ⟨rfl, rfl, rfl⟩
  rcases hr with hr | hr
  · unfold DirectoryTree.ProcessModifiedFile at hr
    cases hP : t.GetDirectory (parent_path p) with
    | none => rw [hP] at hr; cases hr
    | some P =>
      rw [hP] at hr
      simp only at hr
      cases hf : Directory.GetFile t.heap P (filename p) with
      | none => rw [hf] at hr; cases hr
      | some f =>
        rw [hf] at hr
        exact key f .OnFileModified t1 hr
  · unfold DirectoryTree.ProcessModifiedDirectory at hr
    cases hP : t.GetDirectory (parent_path p) with
    | none => rw [hP] at hr; cases hr
    | some P =>
      rw [hP] at hr
      simp only at hr
      cases hf : Directory.GetDirectory t.heap P (filename p) with
      | none => rw [hf] at hr; cases hr
      | some f =>
        rw [hf] at hr
        exact key f .OnDirectoryModified t1 hr

/-! ## The order of the recursive listing -/

theorem collectEntries_foldr (rec : Nat → Option (List Nat)) (below : Nat → List Nat) :
    ∀ (cs : List Nat), (∀ c ∈ cs, rec c = some (below c)) →
      collectEntries rec cs = some (cs.foldr (fun c rest => c :: below c ++ rest) [])
  | [], _ => rfl
  | c :: cs, e => by
    unfold collectEntries
    rw [e c (List.mem_cons_self _ _),
      collectEntries_foldr rec below cs (fun c1 hc1 => e c1 (List.mem_cons_of_mem _ hc1))]
    rfl

/-- C27 (recursive listing order).  In a store of tree shape, for every directory `d`: once
the stack suffices, `GetDirEntriesRecursive(d)` returns; every child directory has a listing
too; the result is the files of `d` in sequence order followed, for each child directory `c`
in sequence order, by `c` and then the listing of `c`; an entry occurs in the result exactly
when it lies below `d` and is not `d`, and no entry occurs twice. -/
theorem recursive_listing_order (h : Heap) (n d : Nat) (gh : GoodHeap h n) (hd : d < n) :
    ∃ f0, ∀ fuel, f0 ≤ fuel →
      ∃ l, Directory.GetDirEntriesRecursive fuel h d = some l ∧
        (∀ c ∈ (h d).directories, (Directory.GetDirEntriesRecursive fuel h c).isSome = true) ∧
        l = listedInOrder (h d).files (h d).directories
          (fun c => (Directory.GetDirEntriesRecursive fuel h c).getD []) ∧
        (∀ x, x ∈ l ↔ Sub h d x ∧ x ≠ d) ∧ l.Nodup ∧ d ∉ l := by
  obtain ⟨m, dep, g⟩ : ∃ m dep, Graded h n dep m := by
    obtain ⟨m, g⟩ := gh.grading
    exact ⟨m, _, g⟩
  refine ⟨m + 1, fun fuel hf => ?_⟩
  obtain ⟨k, rfl⟩ : ∃ k, fuel = k + 1 := ⟨fuel - 1, by omega⟩
  obtain ⟨l, e, l1, l2⟩ := Directory.GetDirEntriesRecursive_spec gh.1 g (k + 1) d hd (by omega)
  have hchild : ∀ c ∈ (h d).directories, ∃ lc,
      Directory.GetDirEntriesRecursive k h c = some lc ∧
      Directory.GetDirEntriesRecursive (k + 1) h c = some lc := by
    intro c hc
    have h3 := gh.1.parent_of_dir hd hc
    have h4 := (g _ h3.1).2 _ h3.2.2
    obtain ⟨lc, ec, _⟩ := Directory.GetDirEntriesRecursive_spec gh.1 g k c h3.1 (by omega)
    exact ⟨lc, ec, Directory.GetDirEntriesRecursive_succ h k c lc ec⟩
  refine ⟨l, e, ?_, ?_, l1, l2, fun hm => ((l1 d).mp hm).2 rfl⟩
  · intro c hc
    obtain ⟨lc, _, e2⟩ := hchild c hc
    rw [e2]; rfl
  · have hfold := collectEntries_foldr (Directory.GetDirEntriesRecursive k h)
      (fun c => (Directory.GetDirEntriesRecursive (k + 1) h c).getD []) (h d).directories
      (fun c hc => by
        obtain ⟨lc, e1, e2⟩ := hchild c hc
        simp only [e1, e2, Option.getD_some])
    unfold Directory.GetDirEntriesRecursive at e
    rw [hfold] at e
    simp only [Option.some.injEq] at e
    rw [← e]
    rfl

/-- Witness for C27 on the example tree: the listing of `A` is `a.txt, c.txt, B, b.txt, X,
x.txt, D`. -/
theorem recursive_listing_order_witness :
    Directory.GetDirEntriesRecursive 4 sampleTree.heap 0 = some [1, 2, 3, 4, 5, 6, 7] ∧
    ∃ f0, ∀ fuel, f0 ≤ fuel →
      ∃ l, Directory.GetDirEntriesRecursive fuel sampleTree.heap 0 = some l ∧
        (∀ c ∈ (sampleTree.heap 0).directories,
          (Directory.GetDirEntriesRecursive fuel sampleTree.heap c).isSome = true) ∧
        l = listedInOrder (sampleTree.heap 0).files (sampleTree.heap 0).directories
          (fun c => (Directory.GetDirEntriesRecursive fuel sampleTree.heap c).getD []) ∧
        (∀ x, x ∈ l ↔ Sub sampleTree.heap 0 x ∧ x ≠ 0) ∧ l.Nodup ∧ 0 ∉ l :=
  ⟨by decide!,
   recursive_listing_order sampleTree.heap sampleTree.next 0
     (GoodTree.sound (by decide! : GoodTree sampleTree)).1 (by decide! : 0 < sampleTree.next)⟩

/-! ## Listener fan-out -/

theorem fanOut_append (listeners : List Nat) (e1 e2 : List Event) :
    fanOut listeners (e1 ++ e2) = fanOut listeners e1 ++ fanOut listeners e2 := by
  induction e1 with
  | nil => rfl
  | cons e es ih =>
    show e.deliveries listeners ++ fanOut listeners (es ++ e2) = _
    rw [ih, ← List.append_assoc]
    rfl

theorem Fan.same {t t1 : DirectoryTree} (h1 : t1.listeners = t.listeners)
    (h2 : t1.log = t.log) : Fan t t1 :=
  ⟨h1, [], by rw [h2]; simp [fanOut]⟩

theorem Fan.followedBy {t t1 t2 : DirectoryTree} (a : Fan t t1) (b : Fan t1 t2) : Fan t t2 := by
  obtain ⟨a1, ea, a2⟩ := a
  obtain ⟨b1, eb, b2⟩ := b
  refine ⟨b1.trans a1, ea ++ eb, ?_⟩
  rw [b2, a2, a1, fanOut_append, List.append_assoc]

theorem Fan.notified (t : DirectoryTree) (cb : Callback) (e : Nat) (o : Option Path) :
    Fan t (t.notify cb e o) :=
  ⟨rfl, [⟨cb, e, o, t.heap⟩], by
    unfold DirectoryTree.notify fanOut Event.deliveries
    simp⟩

theorem Fan.notifyAfter {t T : DirectoryTree} (h1 : T.listeners = t.listeners)
    (h2 : T.log = t.log) (cb : Callback) (e : Nat) (o : Option Path) :
    Fan t (T.notify cb e o) :=
  (Fan.same h1 h2).followedBy (Fan.notified T cb e o)

theorem removeEntries_fan : ∀ (l : List Nat) (t : DirectoryTree), Fan t (t.removeEntries l)
  | [], t => Fan.same rfl rfl
  | e :: l, t => by
    unfold DirectoryTree.removeEntries
    split_ifs
    · refine Fan.followedBy ?_ (removeEntries_fan l _)
      exact Fan.notifyAfter rfl rfl _ _ _
    · refine Fan.followedBy ?_ (removeEntries_fan l _)
      exact Fan.notifyAfter rfl rfl _ _ _

theorem ProcessPathChanges_fan :
    ∀ (l : List (Nat × Path)) (t : DirectoryTree), Fan t (t.ProcessPathChanges l)
  | [], t => Fan.same rfl rfl
  | e :: l, t => by
    unfold DirectoryTree.ProcessPathChanges
    split_ifs
    · refine Fan.followedBy ?_ (ProcessPathChanges_fan l _)
      exact Fan.notifyAfter rfl rfl _ _ _
    · refine Fan.followedBy ?_ (ProcessPathChanges_fan l _)
      exact Fan.notifyAfter rfl rfl _ _ _

mutual
theorem BuildTree_fan :
    ∀ (scan : DiskDirectory) (fuel : Nat) (t : DirectoryTree) (p : Path)
      (r : DirectoryTree × Nat), DirectoryTree.BuildTree fuel t p scan = some r → Fan t r.1
  | .mk o1 o2 entries, fuel, t, p, r, e => by
    unfold DirectoryTree.BuildTree at e
    cases hl : DirectoryTree.BuildTreeLoop fuel
        { (t.CreateDirectory p o1 o2).1 with directories := mapInsert t.directories p t.next }
        p t.next entries with
    | none => rw [hl] at e; cases e
    | some t1 =>
      rw [hl] at e
      cases e
      have ih := BuildTreeLoop_fan entries fuel _ p t.next t1 hl
      exact Fan.followedBy (Fan.same rfl rfl) ih
theorem BuildTreeLoop_fan :
    ∀ (entries : DiskEntries) (fuel : Nat) (t : DirectoryTree) (p : Path) (parentDir : Nat)
      (t1 : DirectoryTree), DirectoryTree.BuildTreeLoop fuel t p parentDir entries = some t1 →
      Fan t t1
  | .nil, _, _, _, _, _, e => by
    unfold DirectoryTree.BuildTreeLoop at e
    cases e
    exact Fan.same rfl rfl
  | .cons (.regular_file name o1 o2) rest, fuel, t, p, parentDir, t1, e => by
    unfold DirectoryTree.BuildTreeLoop at e
    have ih := BuildTreeLoop_fan rest fuel _ p parentDir t1 e
    refine Fan.followedBy ?_ ih
    exact Fan.notifyAfter rfl rfl _ _ _
  | .cons (.directory name dir) rest, fuel, t, p, parentDir, t1, e => by
    unfold DirectoryTree.BuildTreeLoop at e
    cases hb : DirectoryTree.BuildTree fuel t (slash p name) dir with
    | none => rw [hb] at e; cases e
    | some r =>
      obtain ⟨t2, newDir⟩ := r
      rw [hb] at e
      simp only at e
      cases ha : Directory.AddDirectoryToDirectory fuel t2.heap parentDir newDir with
      | none => rw [ha] at e; cases e
      | some h =>
        rw [ha] at e
        simp only at e
        have f1 : Fan t t2 := BuildTree_fan dir fuel t (slash p name) _ hb
        have ih := BuildTreeLoop_fan rest fuel _ p parentDir t1 e
        refine Fan.followedBy (f1.followedBy ?_) ih
        exact Fan.notifyAfter rfl rfl _ _ _
  | .cons (.other _) rest, fuel, t, p, parentDir, t1, e => by
    unfold DirectoryTree.BuildTreeLoop at e
    exact BuildTreeLoop_fan rest fuel _ p parentDir t1 e
end

theorem AddNewFile_fan {t t1 : DirectoryTree} {p : Path} {o1 o2 : Option Int}
    (e : t.AddNewFile p o1 o2 = .ok t1) : Fan t t1 := by
  unfold DirectoryTree.AddNewFile at e
  cases hP : t.GetDirectory (parent_path p) with
  | none => rw [hP] at e; cases e
  | some P =>
    rw [hP] at e
    simp only [Outcome.ok.injEq] at e
    subst e
    exact Fan.notifyAfter rfl rfl _ _ _

theorem AddNewDirectory_fan {t t1 : DirectoryTree} {fuel : Nat} {p : Path}
    {scan : DiskDirectory} (e : t.AddNewDirectory fuel p scan = .ok t1) : Fan t t1 := by
  unfold DirectoryTree.AddNewDirectory at e
  cases hP : t.GetDirectory (parent_path p) with
  | none => rw [hP] at e; cases e
  | some P =>
    rw [hP] at e
    simp only at e
    cases hb : DirectoryTree.BuildTree fuel t p scan with
    | none => rw [hb] at e; cases e
    | some r =>
      obtain ⟨t2, newDir⟩ := r
      rw [hb] at e
      simp only at e
      cases ha : Directory.AddDirectoryToDirectory fuel t2.heap P newDir with
      | none => rw [ha] at e; cases e
      | some h =>
        rw [ha] at e
        simp only [Outcome.ok.injEq] at e
        subst e
        have f1 : Fan t t2 := BuildTree_fan scan fuel t p _ hb
        exact f1.followedBy (Fan.notifyAfter rfl rfl _ _ _)

theorem RemoveFile_fan {t t1 : DirectoryTree} {p : Path} (e : t.RemoveFile p = .ok t1) :
    Fan t t1 := by
  unfold DirectoryTree.RemoveFile at e
  cases hP : t.GetDirectory (parent_path p) with
  | none => rw [hP] at e; cases e
  | some P =>
    rw [hP] at e
    simp only at e
    cases hf : Directory.GetFile t.heap P (filename p) with
    | none =>
      rw [hf] at e
      simp only [Outcome.ok.injEq] at e
      subst e
      exact Fan.same rfl rfl
    | some f =>
      rw [hf] at e
      simp only [Outcome.ok.injEq] at e
      subst e
      exact (Fan.notified t _ _ _).followedBy (Fan.same rfl rfl)

theorem RemoveDirectory_fan {t t1 : DirectoryTree} {fuel : Nat} {p : Path}
    (e : t.RemoveDirectory fuel p = .ok t1) : Fan t t1 := by
  unfold DirectoryTree.RemoveDirectory at e
  cases hP : t.GetDirectory (parent_path p) with
  | none => rw [hP] at e; cases e
  | some P =>
    rw [hP] at e
    simp only at e
    cases hd : Directory.GetDirectory t.heap P (filename p) with
    | none =>
      rw [hd] at e
      simp only [Outcome.ok.injEq] at e
      subst e
      exact Fan.same rfl rfl
    | some d =>
      rw [hd] at e
      simp only at e
      cases he : Directory.GetDirEntriesRecursive fuel t.heap d with
      | none => rw [he] at e; cases e
      | some l =>
        rw [he] at e
        simp only at e
        cases hx : Directory.DeleteDirectory fuel (t.removeEntries l).heap P d with
        | none => rw [hx] at e; cases e
        | some h1 =>
          rw [hx] at e
          simp only [Outcome.ok.injEq] at e
          subst e
          exact (removeEntries_fan l t).followedBy (Fan.same rfl rfl)

theorem MoveFile_fan {t t1 : DirectoryTree} {p q : Path} (e : t.MoveFile p q = .ok t1) :
    Fan t t1 := by
  unfold DirectoryTree.MoveFile at e
  cases hP : t.GetDirectory (parent_path p) with
  | none => rw [hP] at e; cases e
  | some P =>
    cases hQ : t.GetDirectory (parent_path q) with
    | none => rw [hP, hQ] at e; cases e
    | some Q =>
      rw [hP, hQ] at e
      simp only at e
      cases hf : Directory.GetFile t.heap P (filename p) with
      | none => rw [hf] at e; cases e
      | some f =>
        rw [hf] at e
        simp only [Outcome.ok.injEq] at e
        subst e
        exact Fan.notifyAfter rfl rfl _ _ _

theorem RenameFile_fan {t t1 : DirectoryTree} {p q : Path} (e : t.RenameFile p q = .ok t1) :
    Fan t t1 := by
  unfold DirectoryTree.RenameFile at e
  cases hP : t.GetDirectory (parent_path p) with
  | none => rw [hP] at e; cases e
  | some P =>
    cases hQ : t.GetDirectory (parent_path q) with
    | none => rw [hP, hQ] at e; cases e
    | some Q =>
      rw [hP, hQ] at e
      simp only at e
      cases hf : Directory.GetFile t.heap P (filename p) with
      | none => rw [hf] at e; cases e
      | some f =>
        rw [hf] at e
        simp only [Outcome.ok.injEq] at e
        subst e
        exact Fan.notifyAfter rfl rfl _ _ _

theorem MoveDirectory_fan {t t1 : DirectoryTree} {fuel : Nat} {p q : Path}
    (e : t.MoveDirectory fuel p q = .ok t1) : Fan t t1 := by
  unfold DirectoryTree.MoveDirectory at e
  cases hP : t.GetDirectory (parent_path p) with
  | none => rw [hP] at e; cases e
  | some P =>
    cases hQ : t.GetDirectory (parent_path q) with
    | none => rw [hP, hQ] at e; cases e
    | some Q =>
      rw [hP, hQ] at e
      simp only at e
      cases hd : Directory.GetDirectory t.heap P (filename p) with
      | none => rw [hd] at e; cases e
      | some d =>
        rw [hd] at e
        simp only at e
        cases hc : t.ConstructDirEntityPathPairs fuel d with
        | none => rw [hc] at e; cases e
        | some es =>
          rw [hc] at e
          simp only at e
          cases hx : Directory.DeleteDirectory fuel t.heap P d with
          | none => rw [hx] at e; cases e
          | some h1 =>
            rw [hx] at e
            simp only at e
            cases hy : Directory.AddDirectoryToDirectory fuel h1 Q d with
            | none => rw [hy] at e; cases e
            | some h2 =>
              rw [hy] at e
              simp only [Outcome.ok.injEq] at e
              subst e
              exact Fan.followedBy (Fan.same rfl rfl) (ProcessPathChanges_fan es _)

theorem RenameDirectory_fan {t t1 : DirectoryTree} {fuel : Nat} {p q : Path}
    (e : t.RenameDirectory fuel p q = .ok t1) : Fan t t1 := by
  unfold DirectoryTree.RenameDirectory at e
  cases hP : t.GetDirectory (parent_path p) with
  | none => rw [hP] at e; cases e
  | some P =>
    cases hQ : t.GetDirectory (parent_path q) with
    | none => rw [hP, hQ] at e; cases e
    | some Q =>
      rw [hP, hQ] at e
      simp only at e
      cases hd : Directory.GetDirectory t.heap P (filename p) with
      | none => rw [hd] at e; cases e
      | some d =>
        rw [hd] at e
        simp only at e
        cases hc : t.ConstructDirEntityPathPairs fuel d with
        | none => rw [hc] at e; cases e
        | some es =>
          rw [hc] at e
          simp only at e
          cases hx : Directory.Rename fuel t.heap d (filename q) with
          | none => rw [hx] at e; cases e
          | some h1 =>
            rw [hx] at e
            simp only [Outcome.ok.injEq] at e
            subst e
            exact Fan.followedBy (Fan.same rfl rfl) (ProcessPathChanges_fan es _)

theorem ProcessModifiedFile_fan {t t1 : DirectoryTree} {p : Path} {o : Option Int}
    (e : t.ProcessModifiedFile p o = .ok t1) : Fan t t1 := by
  unfold DirectoryTree.ProcessModifiedFile at e
  cases hP : t.GetDirectory (parent_path p) with
  | none => rw [hP] at e; cases e
  | some P =>
    rw [hP] at e
    simp only at e
    cases hf : Directory.GetFile t.heap P (filename p) with
    | none => rw [hf] at e; cases e
    | some f =>
      rw [hf] at e
      simp only at e
      split_ifs at e
      · simp only [Outcome.ok.injEq] at e
        subst e
        exact Fan.notifyAfter rfl rfl _ _ _
      · simp only [Outcome.ok.injEq] at e
        subst e
        exact Fan.same rfl rfl

theorem ProcessModifiedDirectory_fan {t t1 : DirectoryTree} {p : Path} {o : Option Int}
    (e : t.ProcessModifiedDirectory p o = .ok t1) : Fan t t1 := by
  unfold DirectoryTree.ProcessModifiedDirectory at e
  cases hP : t.GetDirectory (parent_path p) with
  | none => rw [hP] at e; cases e
  | some P =>
    rw [hP] at e
    simp only at e
    cases hf : Directory.GetDirectory t.heap P (filename p) with
    | none => rw [hf] at e; cases e
    | some f =>
      rw [hf] at e
      simp only at e
      split_ifs at e
      · simp only [Outcome.ok.injEq] at e
        subst e
        exact Fan.notifyAfter rfl rfl _ _ _
      · simp only [Outcome.ok.injEq] at e
        subst e
        exact Fan.same rfl rfl

theorem BuildRootTree_fan {t t1 : DirectoryTree} {fuel : Nat} {p : Path}
    {scan : DiskDirectory} (e : t.BuildRootTree fuel p scan = .ok t1) : Fan t t1 := by
  unfold DirectoryTree.BuildRootTree at e
  cases hb : DirectoryTree.BuildTree fuel { t with rootDirAbsParentPath := parent_path p }
      [filename p] scan with
  | none => rw [hb] at e; cases e
  | some r =>
    obtain ⟨t2, root⟩ := r
    rw [hb] at e
    simp only [Outcome.ok.injEq] at e
    subst e
    have f1 := BuildTree_fan scan fuel _ [filename p] _ hb
    exact Fan.followedBy (Fan.same rfl rfl) (f1.followedBy (Fan.same rfl rfl))

theorem Op.run_fan {fuel : Nat} {t t1 : DirectoryTree} :
    ∀ (op : Op), op.run fuel t = .ok t1 → Fan t t1
  | .AddNewFile _ _ _, e => AddNewFile_fan e
  | .AddNewDirectory _ _, e => AddNewDirectory_fan e
  | .RemoveFile _, e => RemoveFile_fan e
  | .RemoveDirectory _, e => RemoveDirectory_fan e
  | .MoveFile _ _, e => MoveFile_fan e
  | .MoveDirectory _ _, e => MoveDirectory_fan e
  | .RenameFile _ _, e => RenameFile_fan e
  | .RenameDirectory _ _, e => RenameDirectory_fan e

/-- C26 (listener fan-out).  `AddDirTreeEventListener` puts the listener at the end of the
list, `RemoveDirTreeEventListener` takes it out and keeps the order of the others.  One
notification calls every listener of the list once, in list order, in the store of that
moment.  And for every call of an operation that returns (the eight operations that change
the tree, `ProcessModifiedFile`, `ProcessModifiedDirectory`, `BuildRootTree`): the
listeners are those of before, and the log of listener calls of the returned tree is the log
of before followed by the calls of a sequence of events, each event delivered to every
registered listener in registration order before the next event is. -/
theorem listener_fan_out (t : DirectoryTree) :
    (∀ l, (t.AddDirTreeEventListener l).listeners = t.listeners ++ [l]) ∧
    (∀ l, (t.RemoveDirTreeEventListener l).listeners = t.listeners.filter (fun x => x ≠ l)) ∧
    (∀ cb e o, (t.notify cb e o).log =
      t.log ++ t.listeners.map (fun l => Delivery.mk l cb e o t.heap)) ∧
    (∀ fuel op t1, Op.run fuel t op = .ok t1 →
      t1.listeners = t.listeners ∧ ∃ events, t1.log = t.log ++ fanOut t.listeners events) ∧
    (∀ p o t1, t.ProcessModifiedFile p o = .ok t1 →
      t1.listeners = t.listeners ∧ ∃ events, t1.log = t.log ++ fanOut t.listeners events) ∧
    (∀ p o t1, t.ProcessModifiedDirectory p o = .ok t1 →
      t1.listeners = t.listeners ∧ ∃ events, t1.log = t.log ++ fanOut t.listeners events) ∧
    (∀ fuel p scan t1, t.BuildRootTree fuel p scan = .ok t1 →
      t1.listeners = t.listeners ∧ ∃ events, t1.log = t.log ++ fanOut t.listeners events) :=
  ⟨fun _ => rfl, fun _ => rfl, fun _ _ _ => rfl, fun _ op _ e => Op.run_fan op e,
    fun _ _ _ e => ProcessModifiedFile_fan e, fun _ _ _ e => ProcessModifiedDirectory_fan e,
    fun _ _ _ _ e => BuildRootTree_fan e⟩

/-! ## Every returning call keeps a sound tree sound -/

theorem SoundTree.from_parts {T : DirectoryTree} (g : GoodHeap T.heap T.next)
    (v : IndexValid T.directories T.heap T.next) : SoundTree T :=
  (SoundTree_iff T).mpr ⟨g, v⟩

theorem SoundTree.index {t : DirectoryTree} (st : SoundTree t) :
    IndexValid t.directories t.heap t.next := ((SoundTree_iff t).mp st).2

/-- What `BuildTree` returned on a sound tree, for whatever stack budget it returned. -/
theorem BuildTree_result {t : DirectoryTree} (st : SoundTree t) {fuel : Nat} {p : Path}
    {scan : DiskDirectory} {r : DirectoryTree × Nat}
    (hb : DirectoryTree.BuildTree fuel t p scan = some r) :
    r.2 = t.next ∧ SoundTree r.1 ∧ t.next < r.1.next ∧ (∀ x, x < t.next → r.1.heap x = t.heap x) ∧
    (r.1.heap t.next).kind = .DIRECTORY ∧ (r.1.heap t.next).parentDir = none ∧
    (r.1.heap t.next).dirEntryPath = p ∧ r.1.listeners = t.listeners ∧
    (∀ k v, mapFind t.directories k = some v → mapFind r.1.directories k = some v) ∧
    (mapFind t.directories p = none → mapFind r.1.directories p = some t.next) := by
  obtain ⟨t1, ⟨fb, hfb⟩, rest⟩ := BuildTree_sound scan t p st
  have e1 := BuildTree_mono (Nat.le_max_left fuel fb) scan t p r hb
  rw [hfb _ (Nat.le_max_right fuel fb)] at e1
  cases e1
  exact ⟨rfl, rest⟩

/-- What `AddDirectoryToDirectory` returned on a sound tree, for whatever stack budget it
returned. -/
theorem attach_result {t : DirectoryTree} (st : SoundTree t) {D d : Nat}
    (hDn : D < t.next) (hDk : (t.heap D).kind = .DIRECTORY) (hdn : d < t.next)
    (hdk : (t.heap d).kind = .DIRECTORY) (hdp : (t.heap d).parentDir = none)
    (hnot : ¬ Sub t.heap d D) {fuel : Nat} {H : Heap}
    (ha : Directory.AddDirectoryToDirectory fuel t.heap D d = some H) :
    (∀ T : DirectoryTree, T.heap = H → T.next = t.next →
      T.directories = t.directories → SoundTree T) ∧
    (∀ x, ¬ Sub t.heap d x → x ≠ D → H x = t.heap x) ∧
    (H D).kind = .DIRECTORY ∧ (H D).parentDir = (t.heap D).parentDir ∧
    (H D).dirEntryPath = (t.heap D).dirEntryPath ∧
    (∀ c, c ∈ (H D).directories ↔ c ∈ (t.heap D).directories ∨ c = d) ∧
    (H d).parentDir = some D ∧
    (H d).dirEntryPath = (t.heap D).dirEntryPath ++ [filename (t.heap d).dirEntryPath] ∧
    PathOnly (attached t.heap D d) H := by
  obtain ⟨H1, ⟨fa, hfa⟩, rest⟩ := dir_attached_sound st hDn hDk hdn hdk hdp hnot
  have e1 : Directory.AddDirectoryToDirectory (max fuel fa) t.heap D d = some H :=
    Directory.UpdatePath_mono (Nat.le_max_left fuel fa) ha
  rw [hfa _ (Nat.le_max_right fuel fa)] at e1
  cases e1
  obtain ⟨f1, h1⟩ := Directory.AddDirectoryToDirectory_spec st.1 hDn hdn hDk hdk hdp hnot
  obtain ⟨H2, e2, u, _⟩ := h1 (max fa f1) (Nat.le_max_right _ _)
  rw [hfa _ (Nat.le_max_left fa f1)] at e2
  cases e2
  obtain ⟨a, b, c, d1, e, f, g, i⟩ := rest
  exact ⟨a, b, c, d1, e, f, g, i, u.1⟩

theorem AddNewFile_sound {t t1 : DirectoryTree} (st : SoundTree t) {p : Path}
    {o1 o2 : Option Int} (e : t.AddNewFile p o1 o2 = .ok t1) : SoundTree t1 := by
  unfold DirectoryTree.AddNewFile at e
  cases hP : t.GetDirectory (parent_path p) with
  | none => rw [hP] at e; cases e
  | some P =>
    rw [hP] at e
    simp only [Outcome.ok.injEq] at e
    subst e
    obtain ⟨hPn, hPk⟩ := st.lookup hP
    obtain ⟨H, hH, key, _⟩ := newFile_sound st p o1 o2 hPn hPk
    exact key _ hH.symm rfl rfl

theorem AddNewDirectory_sound {t t1 : DirectoryTree} (st : SoundTree t) {fuel : Nat}
    {p : Path} {scan : DiskDirectory} (e : t.AddNewDirectory fuel p scan = .ok t1) :
    SoundTree t1 := by
  unfold DirectoryTree.AddNewDirectory at e
  cases hP : t.GetDirectory (parent_path p) with
  | none => rw [hP] at e; cases e
  | some P =>
    rw [hP] at e
    simp only at e
    obtain ⟨hPn, hPk⟩ := st.lookup hP
    cases hb : DirectoryTree.BuildTree fuel t p scan with
    | none => rw [hb] at e; cases e
    | some r =>
      obtain ⟨t2, newDir⟩ := r
      rw [hb] at e
      simp only at e
      obtain ⟨r1, st2, hn2, fr2, k2, p2, _⟩ := BuildTree_result st hb
      simp only at r1 st2 hn2 fr2 k2 p2
      subst r1
      cases ha : Directory.AddDirectoryToDirectory fuel t2.heap P t.next with
      | none => rw [ha] at e; cases e
      | some h =>
        rw [ha] at e
        simp only [Outcome.ok.injEq] at e
        subst e
        have above := Sub.above st.1 st2.1 (Nat.le_refl _) hn2 (fun x hx => by rw [fr2 x hx])
        have hnot : ¬ Sub t2.heap t.next P := fun hs => by
          have := above P hs
          omega
        obtain ⟨key, _⟩ := attach_result st2 (D := P) (d := t.next) (by omega)
          (by rw [fr2 P hPn]; exact hPk) hn2 k2 p2 hnot ha
        exact key _ rfl rfl rfl

theorem RemoveFile_sound {t t1 : DirectoryTree} (st : SoundTree t) {p : Path}
    (e : t.RemoveFile p = .ok t1) : SoundTree t1 := by
  unfold DirectoryTree.RemoveFile at e
  cases hP : t.GetDirectory (parent_path p) with
  | none => rw [hP] at e; cases e
  | some P =>
    rw [hP] at e
    simp only at e
    cases hf : Directory.GetFile t.heap P (filename p) with
    | none =>
      rw [hf] at e
      simp only [Outcome.ok.injEq] at e
      subst e
      exact st
    | some f =>
      rw [hf] at e
      simp only [Outcome.ok.injEq] at e
      subst e
      obtain ⟨g1, same, _⟩ := Directory.DeleteFile_spec st.1 (st.lookup hP).1
        (Directory.GetFile_some hf).1
      exact SoundTree.from_parts g1
        (st.index.mono (Nat.le_refl _) (fun x _ => (same x).1))

theorem MoveFile_sound {t t1 : DirectoryTree} (st : SoundTree t) {p q : Path}
    (e : t.MoveFile p q = .ok t1) : SoundTree t1 := by
  unfold DirectoryTree.MoveFile at e
  cases hP : t.GetDirectory (parent_path p) with
  | none => rw [hP] at e; cases e
  | some P =>
    cases hQ : t.GetDirectory (parent_path q) with
    | none => rw [hP, hQ] at e; cases e
    | some Q =>
      rw [hP, hQ] at e
      simp only at e
      cases hf : Directory.GetFile t.heap P (filename p) with
      | none => rw [hf] at e; cases e
      | some f =>
        rw [hf] at e
        simp only [Outcome.ok.injEq] at e
        subst e
        have hPn := (st.lookup hP).1
        obtain ⟨hQn, hQk⟩ := st.lookup hQ
        have hfm := (Directory.GetFile_some hf).1
        obtain ⟨hfn, hfk, _⟩ := st.1.1.parent_of_file hPn hfm
        obtain ⟨g1, same1, p1⟩ := Directory.DeleteFile_spec st.1 hPn hfm
        obtain ⟨g2, same2⟩ := Directory.AddFileToDirectory_spec g1 hQn hfn
          (by rw [(same1 Q).1]; exact hQk) (by rw [(same1 f).1]; exact hfk) p1
        exact SoundTree.from_parts g2
          (st.index.mono (Nat.le_refl _) (fun x _ => ((same2 x).1).trans (same1 x).1))

theorem RenameFile_sound {t t1 : DirectoryTree} (st : SoundTree t) {p q : Path}
    (e : t.RenameFile p q = .ok t1) : SoundTree t1 := by
  unfold DirectoryTree.RenameFile at e
  cases hP : t.GetDirectory (parent_path p) with
  | none => rw [hP] at e; cases e
  | some P =>
    cases hQ : t.GetDirectory (parent_path q) with
    | none => rw [hP, hQ] at e; cases e
    | some Q =>
      rw [hP, hQ] at e
      simp only at e
      cases hf : Directory.GetFile t.heap P (filename p) with
      | none => rw [hf] at e; cases e
      | some f =>
        rw [hf] at e
        simp only [Outcome.ok.injEq] at e
        subst e
        have hPn := (st.lookup hP).1
        have hfm := (Directory.GetFile_some hf).1
        obtain ⟨hfn, hfk, _⟩ := st.1.1.parent_of_file hPn hfm
        obtain ⟨g1, same, _⟩ := File.Rename_keeps st.1 hfn hfk (filename q)
        exact SoundTree.from_parts g1
          (st.index.mono (Nat.le_refl _) (fun x _ => (same x).1))

theorem GoodHeap.transfer {h h1 : Heap} {n : Nat}
    (e : ∀ x, (h1 x).kind = (h x).kind ∧ (h1 x).parentDir = (h x).parentDir ∧
      (h1 x).directories = (h x).directories ∧ (h1 x).files = (h x).files ∧
      (h1 x).dirEntryPath = (h x).dirEntryPath)
    (gh : GoodHeap h n) : GoodHeap h1 n := by
  refine ⟨Shape_congr (fun x => ⟨(e x).1, (e x).2.1, (e x).2.2.1, (e x).2.2.2.1⟩) gh.1, ?_⟩
  intro x hx p hp
  rw [(e x).2.1] at hp
  rw [(e x).2.2.2.2, (e p).2.2.2.2]
  exact gh.2 x hx p hp

theorem RemoveDirectory_sound {t t1 : DirectoryTree} (st : SoundTree t) {fuel : Nat}
    {p : Path} (e : t.RemoveDirectory fuel p = .ok t1) : SoundTree t1 := by
  cases hP : t.GetDirectory (parent_path p) with
  | none =>
    unfold DirectoryTree.RemoveDirectory at e
    rw [hP] at e; cases e
  | some P =>
    cases hd : Directory.GetDirectory t.heap P (filename p) with
    | none =>
      unfold DirectoryTree.RemoveDirectory at e
      rw [hP] at e
      simp only [hd, Outcome.ok.injEq] at e
      subst e
      exact st
    | some d =>
      obtain ⟨l, h1, _, _, u1, g1, f0, hf0⟩ := RemoveDirectory_returns st hP hd
      have e1 := RemoveDirectory_mono (Nat.le_max_left fuel f0) e
      rw [(hf0 _ (Nat.le_max_right fuel f0)).2] at e1
      simp only [Outcome.ok.injEq] at e1
      subst e1
      have hPn := (st.lookup hP).1
      have hdm := (Directory.GetDirectory_some hd).1
      obtain ⟨hdn, _, hdp⟩ := st.1.1.parent_of_dir hPn hdm
      have hPd : P ≠ d := st.1.parent_ne hdn hdp
      obtain ⟨_, r2, _, r4⟩ := removeEntries_fields l t
      apply SoundTree.from_parts
      · show GoodHeap h1 (t.removeEntries l).next
        rw [r2]; exact g1
      · show IndexValid (t.removeEntries l).directories h1 (t.removeEntries l).next
        rw [r2]
        exact (r4 t.next st.index).mono (Nat.le_refl _)
          (fun x _ => by rw [u1.1.kind, detached_kind hPd])

theorem MoveDirectory_sound {t t1 : DirectoryTree} (st : SoundTree t) {fuel : Nat}
    {p q : Path} (e : t.MoveDirectory fuel p q = .ok t1) : SoundTree t1 := by
  cases hP : t.GetDirectory (parent_path p) with
  | none =>
    unfold DirectoryTree.MoveDirectory at e
    rw [hP] at e; cases e
  | some P =>
    cases hQ : t.GetDirectory (parent_path q) with
    | none =>
      unfold DirectoryTree.MoveDirectory at e
      rw [hP, hQ] at e; cases e
    | some Q =>
      cases hd : Directory.GetDirectory t.heap P (filename p) with
      | none =>
        unfold DirectoryTree.MoveDirectory at e
        rw [hP, hQ] at e
        simp only [hd] at e
        cases e
      | some d =>
        have hnot : ¬ Sub t.heap d Q := by
          intro hin
          have := MoveDirectory_into_subtree st hP hQ hd hin fuel
          rw [e] at this
          cases this
        have gh := st.1
        have hPn := (st.lookup hP).1
        have hdm := (Directory.GetDirectory_some hd).1
        obtain ⟨hdn, _, hdp⟩ := gh.1.parent_of_dir hPn hdm
        have hPd : P ≠ d := gh.parent_ne hdn hdp
        have hQd : Q ≠ d := fun e => hnot (e ▸ Sub.self)
        obtain ⟨f0, hf0⟩ := MoveDirectory_returns st hP hQ hd hnot
        obtain ⟨l, h1, h2, _, l1, _, _, u1, _, _, u2, g2, e2⟩ :=
          hf0 (max fuel f0) (Nat.le_max_right fuel f0)
        have e1 := MoveDirectory_mono (Nat.le_max_left fuel f0) e
        rw [e2] at e1
        simp only [Outcome.ok.injEq] at e1
        subst e1
        obtain ⟨i1, i2, _, _, i5, _⟩ := ProcessPathChanges_spec
          ((d, GetPath t.heap d) :: l.map (fun e => (e, GetPath t.heap e)))
          { t with heap := h2 }
        apply SoundTree.from_parts
        · rw [i1, i2]; exact g2
        · rw [i1, i2, i5]
          apply IndexValid.rekey
          · exact st.index.mono (Nat.le_refl _) (fun x _ => by
              rw [u2.1.kind, attached_kind hQd, u1.1.kind, detached_kind hPd])
          · intro e he
            rcases List.mem_cons.mp he with rfl | he
            · exact hdn
            · obtain ⟨x, hx, rfl⟩ := List.mem_map.mp he
              exact ((l1 x).mp hx).1.lt gh.1 hdn

theorem RenameDirectory_sound {t t1 : DirectoryTree} (st : SoundTree t) {fuel : Nat}
    {p q : Path} (e : t.RenameDirectory fuel p q = .ok t1) : SoundTree t1 := by
  cases hP : t.GetDirectory (parent_path p) with
  | none =>
    unfold DirectoryTree.RenameDirectory at e
    rw [hP] at e; cases e
  | some P =>
    cases hQ : t.GetDirectory (parent_path q) with
    | none =>
      unfold DirectoryTree.RenameDirectory at e
      rw [hP, hQ] at e; cases e
    | some Q =>
      cases hd : Directory.GetDirectory t.heap P (filename p) with
      | none =>
        unfold DirectoryTree.RenameDirectory at e
        rw [hP, hQ] at e
        simp only [hd] at e
        cases e
      | some d =>
        have gh := st.1
        have hPn := (st.lookup hP).1
        have hdm := (Directory.GetDirectory_some hd).1
        obtain ⟨hdn, _, _⟩ := gh.1.parent_of_dir hPn hdm
        obtain ⟨f0, hf0⟩ := RenameDirectory_returns st hP hQ hd
        obtain ⟨l, h1, _, l1, _, _, u1, g1, e2⟩ := hf0 (max fuel f0) (Nat.le_max_right fuel f0)
        have e1 := RenameDirectory_mono (Nat.le_max_left fuel f0) e
        rw [e2] at e1
        simp only [Outcome.ok.injEq] at e1
        subst e1
        obtain ⟨i1, i2, _, _, i5, _⟩ := ProcessPathChanges_spec
          ((d, GetPath t.heap d) :: l.map (fun e => (e, GetPath t.heap e)))
          { t with heap := h1 }
        apply SoundTree.from_parts
        · rw [i1, i2]; exact g1
        · rw [i1, i2, i5]
          apply IndexValid.rekey
          · exact st.index.mono (Nat.le_refl _) (fun x _ => by
              rw [u1.1.kind, (renamed_same t.heap d (filename q) x).1])
          · intro e he
            rcases List.mem_cons.mp he with rfl | he
            · exact hdn
            · obtain ⟨x, hx, rfl⟩ := List.mem_map.mp he
              exact ((l1 x).mp hx).1.lt gh.1 hdn

/-- Recording a timestamp keeps a sound tree sound. -/
theorem UpdateStatus_sound {t : DirectoryTree} (st : SoundTree t) (e : Nat) (o : Option Int)
    {T : DirectoryTree} (h1 : T.heap = store t.heap e ((t.heap e).UpdateStatus o))
    (h2 : T.next = t.next) (h3 : T.directories = t.directories) : SoundTree T := by
  have same : ∀ x, (T.heap x).kind = (t.heap x).kind ∧
      (T.heap x).parentDir = (t.heap x).parentDir ∧
      (T.heap x).directories = (t.heap x).directories ∧ (T.heap x).files = (t.heap x).files ∧
      (T.heap x).dirEntryPath = (t.heap x).dirEntryPath := by
    intro x
    rw [h1]
    by_cases hx : x = e
    · subst hx
      rw [store_same]
      obtain ⟨a, b, c, d, f⟩ := UpdateStatus_same (t.heap x) o
      exact ⟨a, c, d, f, b⟩
    · rw [store_other _ _ _ _ hx]
      exact ⟨rfl, rfl, rfl, rfl, rfl⟩
  apply SoundTree.from_parts
  · rw [h2]; exact GoodHeap.transfer same st.1
  · rw [h2, h3]
    exact st.index.mono (Nat.le_refl _) (fun x _ => (same x).1)

theorem ProcessModifiedFile_sound {t t1 : DirectoryTree} (st : SoundTree t) {p : Path}
    {o : Option Int} (e : t.ProcessModifiedFile p o = .ok t1) : SoundTree t1 := by
  unfold DirectoryTree.ProcessModifiedFile at e
  cases hP : t.GetDirectory (parent_path p) with
  | none => rw [hP] at e; cases e
  | some P =>
    rw [hP] at e
    simp only at e
    cases hf : Directory.GetFile t.heap P (filename p) with
    | none => rw [hf] at e; cases e
    | some f =>
      rw [hf] at e
      obtain ⟨r, e1, e2, e3, e4, _⟩ := processModified_found t f o .OnFileModified
      have : Outcome.ok r = Outcome.ok t1 := e1.symm.trans e
      simp only [Outcome.ok.injEq] at this
      subst this
      exact UpdateStatus_sound st f o e2 e4 e3

theorem ProcessModifiedDirectory_sound {t t1 : DirectoryTree} (st : SoundTree t) {p : Path}
    {o : Option Int} (e : t.ProcessModifiedDirectory p o = .ok t1) : SoundTree t1 := by
  unfold DirectoryTree.ProcessModifiedDirectory at e
  cases hP : t.GetDirectory (parent_path p) with
  | none => rw [hP] at e; cases e
  | some P =>
    rw [hP] at e
    simp only at e
    cases hf : Directory.GetDirectory t.heap P (filename p) with
    | none => rw [hf] at e; cases e
    | some f =>
      rw [hf] at e
      obtain ⟨r, e1, e2, e3, e4, _⟩ := processModified_found t f o .OnDirectoryModified
      have : Outcome.ok r = Outcome.ok t1 := e1.symm.trans e
      simp only [Outcome.ok.injEq] at this
      subst this
      exact UpdateStatus_sound st f o e2 e4 e3

theorem BuildRootTree_sound {t t1 : DirectoryTree} (st : SoundTree t) {fuel : Nat} {p : Path}
    {scan : DiskDirectory} (e : t.BuildRootTree fuel p scan = .ok t1) : SoundTree t1 := by
  unfold DirectoryTree.BuildRootTree at e
  cases hb : DirectoryTree.BuildTree fuel { t with rootDirAbsParentPath := parent_path p }
      [filename p] scan with
  | none => rw [hb] at e; cases e
  | some r =>
    obtain ⟨t2, root⟩ := r
    rw [hb] at e
    simp only [Outcome.ok.injEq] at e
    subst e
    have st0 : SoundTree { t with rootDirAbsParentPath := parent_path p } := st
    exact (BuildTree_result st0 hb).2.1

/-- Every call of one of the eight operations that returns, on a sound tree, returns a sound
tree. -/
theorem Op.run_sound {fuel : Nat} {t t1 : DirectoryTree} (st : SoundTree t) :
    ∀ (op : Op), op.run fuel t = .ok t1 → SoundTree t1
  | .AddNewFile _ _ _, e => AddNewFile_sound st e
  | .AddNewDirectory _ _, e => AddNewDirectory_sound st e
  | .RemoveFile _, e => RemoveFile_sound st e
  | .RemoveDirectory _, e => RemoveDirectory_sound st e
  | .MoveFile _ _, e => MoveFile_sound st e
  | .MoveDirectory _ _, e => MoveDirectory_sound st e
  | .RenameFile _ _, e => RenameFile_sound st e
  | .RenameDirectory _ _, e => RenameDirectory_sound st e

/-! ## Files are never indexed -/

theorem Outcome.ok_of_returned {o : Outcome DirectoryTree} (h : o.returned = true) :
    o = .ok o.tree := by
  cases o with
  | ok t => rfl
  | assertFailed => cases h
  | stackExhausted => cases h

theorem empty_sound : SoundTree DirectoryTree.empty := by
  apply SoundTree.from_parts
  · exact ⟨fun x hx => absurd hx (Nat.not_lt_zero x), fun x hx => absurd hx (Nat.not_lt_zero x)⟩
  · intro k v hf
    cases hf

/-- Every tree a client can reach is sound. -/
theorem Reached.soundTree {t : DirectoryTree} (r : Reached t) : SoundTree t := by
  induction r with
  | empty => exact empty_sound
  | AddDirTreeEventListener _ _ ih => exact ih
  | RemoveDirTreeEventListener _ _ ih => exact ih
  | BuildRootTree _ _ _ _ e ih => exact BuildRootTree_sound ih e
  | ClearTree _ ih => exact ih
  | run _ op _ e ih => exact Op.run_sound ih op e
  | ProcessModifiedFile _ _ _ e ih => exact ProcessModifiedFile_sound ih e
  | ProcessModifiedDirectory _ _ _ e ih => exact ProcessModifiedDirectory_sound ih e

theorem sampleTree_reached : Reached sampleTree := by
  have e : (DirectoryTree.BuildRootTree 4 (DirectoryTree.empty.AddDirTreeEventListener 0)
      ["home", "A"] sampleDisk) = .ok sampleTree :=
    Outcome.ok_of_returned (by decide!)
  exact Reached.BuildRootTree 4 ["home", "A"] sampleDisk
    (Reached.AddDirTreeEventListener 0 Reached.empty) e

theorem AddNewFile_index {t t1 : DirectoryTree} {p : Path} {o1 o2 : Option Int}
    (e : t.AddNewFile p o1 o2 = .ok t1) : t1.directories = t.directories := by
  unfold DirectoryTree.AddNewFile at e
  cases hP : t.GetDirectory (parent_path p) with
  | none => rw [hP] at e; cases e
  | some P =>
    rw [hP] at e
    simp only [Outcome.ok.injEq] at e
    subst e
    rfl

theorem RemoveFile_index {t t1 : DirectoryTree} {p : Path} (e : t.RemoveFile p = .ok t1) :
    t1.directories = t.directories := by
  unfold DirectoryTree.RemoveFile at e
  cases hP : t.GetDirectory (parent_path p) with
  | none => rw [hP] at e; cases e
  | some P =>
    rw [hP] at e
    simp only at e
    cases hf : Directory.GetFile t.heap P (filename p) with
    | none =>
      rw [hf] at e
      simp only [Outcome.ok.injEq] at e
      subst e
      rfl
    | some f =>
      rw [hf] at e
      simp only [Outcome.ok.injEq] at e
      subst e
      rfl

theorem MoveFile_index {t t1 : DirectoryTree} {p q : Path} (e : t.MoveFile p q = .ok t1) :
    t1.directories = t.directories := by
  unfold DirectoryTree.MoveFile at e
  cases hP : t.GetDirectory (parent_path p) with
  | none => rw [hP] at e; cases e
  | some P =>
    cases hQ : t.GetDirectory (parent_path q) with
    | none => rw [hP, hQ] at e; cases e
    | some Q =>
      rw [hP, hQ] at e
      simp only at e
      cases hf : Directory.GetFile t.heap P (filename p) with
      | none => rw [hf] at e; cases e
      | some f =>
        rw [hf] at e
        simp only [Outcome.ok.injEq] at e
        subst e
        rfl

theorem RenameFile_index {t t1 : DirectoryTree} {p q : Path} (e : t.RenameFile p q = .ok t1) :
    t1.directories = t.directories := by
  unfold DirectoryTree.RenameFile at e
  cases hP : t.GetDirectory (parent_path p) with
  | none => rw [hP] at e; cases e
  | some P =>
    cases hQ : t.GetDirectory (parent_path q) with
    | none => rw [hP, hQ] at e; cases e
    | some Q =>
      rw [hP, hQ] at e
      simp only at e
      cases hf : Directory.GetFile t.heap P (filename p) with
      | none => rw [hf] at e; cases e
      | some f =>
        rw [hf] at e
        simp only [Outcome.ok.injEq] at e
        subst e
        rfl

theorem ProcessModifiedFile_index {t t1 : DirectoryTree} {p : Path} {o : Option Int}
    (e : t.ProcessModifiedFile p o = .ok t1) : t1.directories = t.directories := by
  unfold DirectoryTree.ProcessModifiedFile at e
  cases hP : t.GetDirectory (parent_path p) with
  | none => rw [hP] at e; cases e
  | some P =>
    rw [hP] at e
    simp only at e
    cases hf : Directory.GetFile t.heap P (filename p) with
    | none => rw [hf] at e; cases e
    | some f =>
      rw [hf] at e
      obtain ⟨r, e1, _, e3, _⟩ := processModified_found t f o .OnFileModified
      have : Outcome.ok r = Outcome.ok t1 := e1.symm.trans e
      simp only [Outcome.ok.injEq] at this
      subst this
      exact e3

theorem ProcessModifiedDirectory_index {t t1 : DirectoryTree} {p : Path} {o : Option Int}
    (e : t.ProcessModifiedDirectory p o = .ok t1) : t1.directories = t.directories := by
  unfold DirectoryTree.ProcessModifiedDirectory at e
  cases hP : t.GetDirectory (parent_path p) with
  | none => rw [hP] at e; cases e
  | some P =>
    rw [hP] at e
    simp only at e
    cases hf : Directory.GetDirectory t.heap P (filename p) with
    | none => rw [hf] at e; cases e
    | some f =>
      rw [hf] at e
      obtain ⟨r, e1, _, e3, _⟩ := processModified_found t f o .OnDirectoryModified
      have : Outcome.ok r = Outcome.ok t1 := e1.symm.trans e
      simp only [Outcome.ok.injEq] at this
      subst this
      exact e3

/-- In a well-formed tree in which no directory holds a file and a child directory of the
same name, no key of the index is the path of a file listed by an indexed directory. -/
theorem key_not_file_path {t : DirectoryTree} (gt : GoodTree t)
    (hn : NoSharedName t.heap t.next) {k q : Path} {v P f : Nat}
    (hk : t.GetDirectory k = some v) (hq : t.GetDirectory q = some P)
    (hf : f ∈ (t.heap P).files) : GetPath t.heap f ≠ k := by
  have hqne := gt.key_ne_nil hq
  obtain ⟨root, hroot, gh, hrn, hrk, hrpar, hrp, hri, gi⟩ := gt
  obtain ⟨hvn, hvk, hvp, hvpar, _⟩ := gi.find hk
  obtain ⟨hPn, hPk, hPp, _, _⟩ := gi.find hq
  obtain ⟨hfn, hfk, hfp⟩ := gh.1.parent_of_file hPn hf
  have cf := gh.2 f hfn P hfp
  intro e
  unfold GetPath at e
  rw [← hvp] at e
  rcases hvpar with rfl | ⟨p1, hp1, hp1i⟩
  · rw [hrp, cf] at e
    have hlen := congrArg List.length e
    simp only [List.length_append, List.length_singleton] at hlen
    have : (t.heap P).dirEntryPath = [] := List.length_eq_zero.mp (by omega)
    exact hqne (hPp ▸ this)
  · have cv := gh.2 v hvn p1 hp1
    rw [cf, cv] at e
    have hlen := congrArg List.length e
    simp only [List.length_append, List.length_singleton] at hlen
    obtain ⟨e1, e2⟩ := List.append_inj e (by omega)
    have hPi : mapFind t.directories (t.heap P).dirEntryPath = some P := by
      rw [hPp]; exact hq
    rw [e1, hp1i] at hPi
    have hpP : p1 = P := Option.some.inj hPi
    subst hpP
    have hvm : v ∈ (t.heap p1).directories := ((gh.1 v hvn).2.2.2.2 p1 hp1).2.2.1 hvk
    apply hn p1 hPn v hvm f hf
    unfold GetDirectoryName GetFullFileName
    exact (List.singleton_inj.mp e2).symm

/-- C30 as stated fails in its last part: a key of the index can be the path of a file, in
two ways.  The scenario tree is well formed and binds `A/B` to the directory `2`;
`AddNewFile("A/B")`, whose parent `A` is indexed, returns and creates the file `4` with path
`A/B`, listed by `A` next to the directory of that name; the key `A/B` of the index, still
bound to the directory `2`, is the path of that file.  And without any shared name: after
`RemoveDirectory("A/B")` the key `A/B` is still in the index, so that `AddNewFile("A/B")`
again creates a file whose path is a key, in a tree where `A` has no child directory left. -/
theorem index_key_can_be_file_path :
    GoodTree specTree ∧ NoSharedName specTree.heap specTree.next ∧
    specTree.GetDirectory (parent_path ["A", "B"]) = some 0 ∧
    specTree.GetDirectory ["A", "B"] = some 2 ∧
    (specTree.AddNewFile ["A", "B"] (some 1) (some 1)).returned = true ∧
    (specTree.AddNewFile ["A", "B"] (some 1) (some 1)).tree.GetDirectory ["A", "B"] =
      some 2 ∧
    ((specTree.AddNewFile ["A", "B"] (some 1) (some 1)).tree.heap 0).files = [4, 1] ∧
    ((specTree.AddNewFile ["A", "B"] (some 1) (some 1)).tree.heap 4).kind = .FILE ∧
    GetPath (specTree.AddNewFile ["A", "B"] (some 1) (some 1)).tree.heap 4 = ["A", "B"] ∧
    (specTree.RemoveDirectory 3 ["A", "B"]).returned = true ∧
    ((specTree.RemoveDirectory 3 ["A", "B"]).tree.AddNewFile ["A", "B"] (some 1)
      (some 1)).returned = true ∧
    reusedKeyTree.GetDirectory ["A", "B"] = some 2 ∧
    reusedKeyTree.GetDirectory ["A"] = some 0 ∧
    (reusedKeyTree.heap 0).directories = [] ∧
    (reusedKeyTree.heap 0).files = [4, 1] ∧
    (reusedKeyTree.heap 4).kind = .FILE ∧
    GetPath reusedKeyTree.heap 4 = ["A", "B"] ∧
    NoSharedName reusedKeyTree.heap reusedKeyTree.next ∧
    ¬ GoodTree reusedKeyTree := by
  decide!

/-- C30 (files are never indexed), amended.  Whenever `AddNewFile`, `RemoveFile`,
`MoveFile`, `RenameFile`, `ProcessModifiedFile` or `ProcessModifiedDirectory` returns, the
path index is the one of before (same keys, same bindings).  In every tree that satisfies
the path-index invariant and in which no directory holds a file and a child directory of the
same name, no key of the path index is the path of a file of the tree, that is, of a file
listed by an indexed directory.  In every tree a client can reach by calls of the public
methods, every key is bound to an allocated object of class `Directory`.  The example tree
satisfies all three conditions. -/
theorem files_never_indexed :
    (∀ t t1 : DirectoryTree,
      ((∃ p o1 o2, t.AddNewFile p o1 o2 = .ok t1) ∨ (∃ p, t.RemoveFile p = .ok t1) ∨
        (∃ p q, t.MoveFile p q = .ok t1) ∨ (∃ p q, t.RenameFile p q = .ok t1) ∨
        (∃ p o, t.ProcessModifiedFile p o = .ok t1) ∨
        (∃ p o, t.ProcessModifiedDirectory p o = .ok t1)) →
      t1.directories = t.directories) ∧
    (∀ t : DirectoryTree, GoodTree t → NoSharedName t.heap t.next →
      ∀ k v, t.GetDirectory k = some v → ∀ q P, t.GetDirectory q = some P →
        ∀ f ∈ (t.heap P).files, (t.heap f).kind = .FILE ∧ GetPath t.heap f ≠ k) ∧
    (∀ t : DirectoryTree, Reached t → ∀ k v, t.GetDirectory k = some v →
      v < t.next ∧ (t.heap v).kind = .DIRECTORY ∧ IsDirectory t.heap v = true) ∧
    GoodTree sampleTree ∧ NoSharedName sampleTree.heap sampleTree.next ∧
    Reached sampleTree := by
  refine ⟨?_, ?_, ?_, by decide!, by decide!, sampleTree_reached⟩
  · rintro t t1 (⟨p, o1, o2, e⟩ | ⟨p, e⟩ | ⟨p, q, e⟩ | ⟨p, q, e⟩ | ⟨p, o, e⟩ | ⟨p, o, e⟩)
    · exact AddNewFile_index e
    · exact RemoveFile_index e
    · exact MoveFile_index e
    · exact RenameFile_index e
    · exact ProcessModifiedFile_index e
    · exact ProcessModifiedDirectory_index e
  · intro t gt hn k v hk q P hq f hf
    refine ⟨?_, key_not_file_path gt hn hk hq hf⟩
    obtain ⟨root, _, gh, _, _, _, _, _, gi⟩ := gt
    exact (gh.1.parent_of_file (gi.find hq).1 hf).2.1
  · intro t r k v hf
    obtain ⟨a, b⟩ := r.soundTree.lookup hf
    exact ⟨a, b, by unfold IsDirectory; simp [b]⟩

/-! ## The events of a scan -/

theorem childrenFirst_mono : ∀ (l seen seen1 : List Event), (∀ e ∈ seen, e ∈ seen1) →
    childrenFirst seen l → childrenFirst seen1 l
  | [], _, _, _, _ => trivial
  | e :: rest, seen, seen1, hs, h => by
    obtain ⟨h1, h2⟩ := h
    refine ⟨fun hc x hx => ?_, childrenFirst_mono rest _ _ ?_ h2⟩
    · obtain ⟨e1, he1, hx1⟩ := h1 hc x hx
      exact ⟨e1, hs e1 he1, hx1⟩
    · intro a ha
      rcases List.mem_append.mp ha with ha | ha
      · exact List.mem_append_left _ (hs a ha)
      · exact List.mem_append_right _ ha

theorem childrenFirst_append : ∀ (a b seen : List Event),
    childrenFirst seen a → childrenFirst (seen ++ a) b → childrenFirst seen (a ++ b)
  | [], b, seen, _, hb => by simpa using hb
  | e :: rest, b, seen, ha, hb => by
    obtain ⟨h1, h2⟩ := ha
    refine ⟨h1, childrenFirst_append rest b _ h2 ?_⟩
    simpa using hb

theorem childrenFirst_split : ∀ (l seen pre : List Event) (e : Event) (post : List Event),
    childrenFirst seen l → l = pre ++ e :: post → e.callback = .OnDirectoryAdded →
    ∀ x ∈ children e.heap e.entity, ∃ e1 ∈ seen ++ pre, e1.entity = x
  | [], _, pre, e, post, _, hl, _ => by
    cases pre <;> cases hl
  | a :: rest, seen, [], e, post, h, hl, hc => by
    simp only [List.nil_append, List.cons.injEq] at hl
    obtain ⟨rfl, rfl⟩ := hl
    simpa using h.1 hc
  | a :: rest, seen, b :: pre, e, post, h, hl, hc => by
    simp only [List.cons_append, List.cons.injEq] at hl
    obtain ⟨rfl, hl⟩ := hl
    have := childrenFirst_split rest (seen ++ [a]) pre e post h.2 hl hc
    simpa using this

theorem Event.settledIn.keep {e : Event} {h1 h2 : Heap} (s : e.settledIn h1)
    (hf : (h2 e.entity).files = (h1 e.entity).files)
    (hd : (h2 e.entity).directories = (h1 e.entity).directories)
    (hp : (h2 e.entity).parentDir = (h1 e.entity).parentDir) : e.settledIn h2 :=
  ⟨hf.trans s.1, hd.trans s.2.1, hp.trans s.2.2⟩

/-- The children of a freshly built, still parentless directory are objects created after
it. -/
theorem new_children_above {t t2 : DirectoryTree} (st : SoundTree t) (st2 : SoundTree t2)
    (hn : t.next < t2.next) (fr : ∀ x, x < t.next → t2.heap x = t.heap x)
    (hp : (t2.heap t.next).parentDir = none) :
    ∀ x ∈ children t2.heap t.next, t.next + 1 ≤ x ∧ x < t2.next := by
  intro x hx
  have sh := st2.1.1 t.next hn
  have hpar : x < t2.next ∧ (t2.heap x).parentDir = some t.next := by
    rcases List.mem_append.mp hx with hf | hd
    · exact ⟨(sh.2.1 x hf).1, (sh.2.1 x hf).2.2⟩
    · exact ⟨(sh.1 x hd).1, (sh.1 x hd).2.2⟩
  refine ⟨?_, hpar.1⟩
  by_contra hlt
  rcases Nat.lt_or_eq_of_le (Nat.le_of_lt_succ (Nat.lt_of_not_le hlt)) with h1 | h1
  · have e1 := hpar.2
    rw [fr x h1] at e1
    have := ((st.1.1 x h1).2.2.2.2 t.next (by rw [e1]; rfl)).1
    omega
  · rw [h1, hp] at hpar
    cases hpar.2

/-- With enough stack `AddDirectoryToDirectory` leaves every cached path as it was when the
cached path of the attached directory already is the path of the destination followed by
its name. -/
theorem attach_paths {h : Heap} {n D d : Nat} (gh : GoodHeap h n) (hDn : D < n)
    (hDk : (h D).kind = .DIRECTORY) (hdn : d < n) (hdk : (h d).kind = .DIRECTORY)
    (hdp : (h d).parentDir = none) (hnot : ¬ Sub h d D) {fuel : Nat} {H : Heap}
    (ha : Directory.AddDirectoryToDirectory fuel h D d = some H)
    (hq : (h D).dirEntryPath ++ [filename (h d).dirEntryPath] = (h d).dirEntryPath) :
    ∀ x, (H x).dirEntryPath = (h x).dirEntryPath := by
  have hDd : D ≠ d := fun e => hnot (e ▸ Sub.self)
  obtain ⟨f1, h1⟩ := Directory.AddDirectoryToDirectory_spec gh hDn hdn hDk hdk hdp hnot
  obtain ⟨H2, e2, u, _⟩ := h1 (max fuel f1) (Nat.le_max_right _ _)
  have e1 : Directory.AddDirectoryToDirectory (max fuel f1) h D d = some H :=
    Directory.UpdatePath_mono (Nat.le_max_left fuel f1) ha
  rw [e1] at e2
  cases e2
  have hd1 : (H d).dirEntryPath = (h d).dirEntryPath := by
    rw [u.2.2.1, DirectoryEntry.UpdatePath_path, attached_parent_self hDd]
    simp only
    rw [attached_path hDd, attached_path hDd]
    exact hq
  have below : ∀ x, Sub h d x → (H x).dirEntryPath = (h x).dirEntryPath := by
    intro x hs
    induction hs with
    | self => exact hd1
    | @dir p c hp hc ih =>
      have hpn := Sub.lt gh.1 hdn hp
      have hcs := (gh.1 p hpn).1 c hc
      have hcd : c ≠ d := fun e => by rw [e, hdp] at hcs; cases hcs.2.2
      have ca := u.2.2.2 c ((attach_sub hnot c).mpr (Sub.dir hp hc)) hcd p
        (by rw [u.1.parentDir, attached_parent hDd c hcd, hcs.2.2]; rfl)
      rw [ca, ih, u.1.name, attached_path hDd]
      exact (gh.2 c hcs.1 p (by rw [hcs.2.2]; rfl)).symm
    | @file p c hp hc ih =>
      have hpn := Sub.lt gh.1 hdn hp
      have hcs := (gh.1 p hpn).2.1 c hc
      have hcd : c ≠ d := fun e => by rw [e, hdk] at hcs; cases hcs.2.1
      have ca := u.2.2.2 c ((attach_sub hnot c).mpr (Sub.file hp hc)) hcd p
        (by rw [u.1.parentDir, attached_parent hDd c hcd, hcs.2.2]; rfl)
      rw [ca, ih, u.1.name, attached_path hDd]
      exact (gh.2 c hcs.1 p (by rw [hcs.2.2]; rfl)).symm
  intro x
  by_cases hs : Sub h d x
  · exact below x hs
  · rw [u.2.1 x (fun hs1 => hs ((attach_sub hnot x).mp hs1)), attached_path hDd]

/-- What the loop of `BuildTree` returned on a sound tree, for whatever stack budget it
returned. -/
theorem BuildTreeLoop_result {t : DirectoryTree} (st : SoundTree t) {fuel : Nat} {p : Path}
    {D : Nat} {entries : DiskEntries} {t1 : DirectoryTree} (hDn : D < t.next)
    (hDk : (t.heap D).kind = .DIRECTORY) (hDp : (t.heap D).parentDir = none)
    (hl : DirectoryTree.BuildTreeLoop fuel t p D entries = some t1) :
    SoundTree t1 ∧ t.next ≤ t1.next ∧ (∀ x, x < t.next → x ≠ D → t1.heap x = t.heap x) ∧
    (t1.heap D).kind = .DIRECTORY ∧ (t1.heap D).parentDir = none ∧
    (t1.heap D).dirEntryPath = (t.heap D).dirEntryPath ∧ t1.listeners = t.listeners := by
  obtain ⟨t2, ⟨fb, hfb⟩, a, b, c, d, e, f, g, _⟩ := BuildTreeLoop_sound entries t p D st hDn hDk hDp
  have e1 := BuildTreeLoop_mono (Nat.le_max_left fuel fb) entries t p D t1 hl
  rw [hfb _ (Nat.le_max_right fuel fb)] at e1
  cases e1
  exact ⟨a, b, c, d, e, f, g⟩

/-- One file of the scan: the state after `CreateFile`, `AddFileToDirectory` and
`NotifyFileAdded`. -/
theorem loop_file_step {t : DirectoryTree} (st : SoundTree t) (path : Path)
    (o1 o2 : Option Int) {D : Nat} (hDn : D < t.next) (hDk : (t.heap D).kind = .DIRECTORY)
    {T2 : DirectoryTree}
    (hT2 : T2 = DirectoryTree.NotifyFileAdded
        { (t.CreateFile path o1 o2).1 with
          heap := Directory.AddFileToDirectory (t.CreateFile path o1 o2).1.heap D
            (t.CreateFile path o1 o2).2 }
        (t.CreateFile path o1 o2).2) :
    SoundTree T2 ∧ T2.next = t.next + 1 ∧ T2.directories = t.directories ∧
    T2.listeners = t.listeners ∧
    T2.log = t.log ++ fanOut t.listeners [⟨.OnFileAdded, t.next, none, T2.heap⟩] ∧
    (∀ x, x < t.next → x ≠ D → T2.heap x = t.heap x) ∧
    (T2.heap D).kind = .DIRECTORY ∧ (T2.heap D).parentDir = (t.heap D).parentDir ∧
    (T2.heap D).dirEntryPath = (t.heap D).dirEntryPath ∧
    (T2.heap D).directories = (t.heap D).directories ∧
    (∀ c, c ∈ (T2.heap D).files ↔ c ∈ (t.heap D).files ∨ c = t.next) ∧
    (T2.heap t.next).kind = .FILE ∧ (T2.heap t.next).parentDir = some D ∧
    (T2.heap t.next).dirEntryPath = (t.heap D).dirEntryPath ++ [filename path] := by
  obtain ⟨H, hH, key, fr, k1, p1, m1, d1, f1, q1, r1⟩ := newFile_sound st path o1 o2 hDn hDk
  obtain ⟨n1, n2, n3, _, n5⟩ := notify_fields
    { (t.CreateFile path o1 o2).1 with
      heap := Directory.AddFileToDirectory (t.CreateFile path o1 o2).1.heap D
        (t.CreateFile path o1 o2).2 }
    .OnFileAdded (t.CreateFile path o1 o2).2 none
  have e1 : T2.heap = H := by rw [hT2, hH]; exact n1
  have e2 : T2.next = t.next + 1 := by rw [hT2]; exact n2
  have e3 : T2.directories = t.directories := by rw [hT2]; exact n3
  have e5 : T2.listeners = t.listeners := by rw [hT2]; exact n5
  have st2 : SoundTree T2 := key T2 e1 e2 e3
  have hk : (T2.heap t.next).kind = .FILE := by
    have := (st2.1.1 D (by rw [e2]; omega)).2.1 t.next
      (by rw [e1]; exact (f1 t.next).mpr (Or.inr rfl))
    exact this.2.1
  refine ⟨st2, e2, e3, e5, ?_, ?_, ?_, ?_, ?_, ?_, ?_, hk, ?_, ?_⟩
  · rw [hT2]
    unfold DirectoryTree.NotifyFileAdded DirectoryTree.notify fanOut Event.deliveries
    simp
    rfl
  · rw [e1]; exact fr
  · rw [e1]; exact k1
  · rw [e1]; exact p1
  · rw [e1]; exact m1
  · rw [e1]; exact d1
  · rw [e1]; exact f1
  · rw [e1]; exact q1
  · rw [e1]; exact r1

/-- One directory of the scan: the state after the recursive `BuildTree`,
`AddDirectoryToDirectory` and `NotifyDirectoryAdded`. -/
theorem loop_dir_step {t : DirectoryTree} (st : SoundTree t) {D : Nat} (hDn : D < t.next)
    (hDk : (t.heap D).kind = .DIRECTORY) {fuel : Nat} {q : Path} {dir : DiskDirectory}
    {t2 : DirectoryTree} {newDir : Nat} {H : Heap}
    (hb : DirectoryTree.BuildTree fuel t q dir = some (t2, newDir))
    (ha : Directory.AddDirectoryToDirectory fuel t2.heap D newDir = some H)
    {T2 : DirectoryTree}
    (hT2 : T2 = DirectoryTree.NotifyDirectoryAdded { t2 with heap := H } newDir) :
    newDir = t.next ∧ SoundTree t2 ∧ t.next < t2.next ∧
    (∀ x, x < t.next → t2.heap x = t.heap x) ∧ (t2.heap t.next).parentDir = none ∧
    (t2.heap t.next).dirEntryPath = q ∧
    SoundTree T2 ∧ T2.next = t2.next ∧ T2.directories = t2.directories ∧
    T2.listeners = t.listeners ∧
    T2.log = t2.log ++ fanOut t.listeners [⟨.OnDirectoryAdded, t.next, none, T2.heap⟩] ∧
    (∀ x, x < t.next → x ≠ D → T2.heap x = t.heap x) ∧
    (∀ x, x ≠ D → (T2.heap x).files = (t2.heap x).files ∧
      (T2.heap x).directories = (t2.heap x).directories ∧
      (T2.heap x).kind = (t2.heap x).kind ∧
      (x ≠ t.next → (T2.heap x).parentDir = (t2.heap x).parentDir)) ∧
    (T2.heap D).kind = .DIRECTORY ∧ (T2.heap D).parentDir = (t.heap D).parentDir ∧
    (T2.heap D).dirEntryPath = (t.heap D).dirEntryPath ∧
    (T2.heap D).files = (t.heap D).files ∧
    (∀ c, c ∈ (T2.heap D).directories ↔ c ∈ (t.heap D).directories ∨ c = t.next) ∧
    (T2.heap t.next).kind = .DIRECTORY ∧ (T2.heap t.next).parentDir = some D ∧
    (T2.heap t.next).dirEntryPath = (t.heap D).dirEntryPath ++ [filename q] ∧
    ((t.heap D).dirEntryPath ++ [filename q] = q →
      ∀ x, (T2.heap x).dirEntryPath = (t2.heap x).dirEntryPath) := by
  obtain ⟨hnew, st1, hn1, fr1, k1, p1, m1, l1, _, _⟩ := BuildTree_result st hb
  simp only at hnew st1 hn1 fr1 k1 p1 m1 l1
  subst hnew
  have above := Sub.above st.1 st1.1 (Nat.le_refl _) hn1 (fun x hx => by rw [fr1 x hx])
  have hnot : ¬ Sub t2.heap t.next D := fun hs => by
    have := above D hs
    omega
  have hDd : D ≠ t.next := by omega
  have hDn2 : D < t2.next := by omega
  have hDk2 : (t2.heap D).kind = .DIRECTORY := by rw [fr1 D hDn]; exact hDk
  obtain ⟨key, fr, k2, p2, m2, d2, q2, r2, po⟩ := attach_result st1 hDn2 hDk2 hn1 k1 p1 hnot ha
  obtain ⟨n1, n2, n3, _, n5⟩ :=
    notify_fields { t2 with heap := H } .OnDirectoryAdded t.next none
  have e1 : T2.heap = H := by rw [hT2]; exact n1
  have e2 : T2.next = t2.next := by rw [hT2]; exact n2
  have e3 : T2.directories = t2.directories := by rw [hT2]; exact n3
  have e5 : T2.listeners = t2.listeners := by rw [hT2]; exact n5
  have st2 : SoundTree T2 := key T2 e1 e2 e3
  refine ⟨rfl, st1, hn1, fr1, p1, m1, st2, e2, e3, e5.trans l1, ?_, ?_, ?_, ?_, ?_, ?_, ?_,
    ?_, ?_, ?_, ?_, ?_⟩
  · rw [hT2, ← l1]
    unfold DirectoryTree.NotifyDirectoryAdded DirectoryTree.notify fanOut Event.deliveries
    simp
  · intro x hx hxD
    rw [e1, fr x (fun hs => by have := above x hs; omega) hxD]
    exact fr1 x hx
  · intro x hxD
    rw [e1]
    refine ⟨?_, ?_, ?_, fun hx => ?_⟩
    · rw [po.files, attached_files hDd]
    · rw [po.directories, attached_dirs_of_ne hDd x hxD]
    · rw [po.kind, attached_kind hDd]
    · rw [po.parentDir, attached_parent hDd x hx]
  · rw [e1]; exact k2
  · rw [e1, p2, fr1 D hDn]
  · rw [e1, m2, fr1 D hDn]
  · rw [e1, po.files, attached_files hDd, fr1 D hDn]
  · intro c
    rw [e1, d2, fr1 D hDn]
  · rw [e1, po.kind, attached_kind hDd]; exact k1
  · rw [e1]; exact q2
  · rw [e1, r2, fr1 D hDn, m1]
  · intro hq x
    rw [e1]
    exact attach_paths st1.1 hDn2 hDk2 hn1 k1 p1 hnot ha
      (by rw [fr1 D hDn, m1]; exact hq) x

theorem range_cons_of_lt {a b : Nat} (h : a < b) :
    List.range' a (b - a) = a :: List.range' (a + 1) (b - (a + 1)) := by
  have e : b - a = (b - (a + 1)) + 1 := by omega
  rw [e, List.range'_succ]

theorem range_split {a b c : Nat} (h1 : a ≤ b) (h2 : b ≤ c) :
    List.range' a (b - a) ++ List.range' b (c - b) = List.range' a (c - a) := by
  have e : List.range' b (c - b) = List.range' (a + (b - a)) (c - b) := by
    rw [Nat.add_sub_cancel' h1]
  rw [e, List.range'_append_1]
  congr 1
  omega

mutual
/-- The events of `BuildTree` on a sound tree: one added-event for every object created
after the new directory itself, children first. -/
theorem BuildTree_events :
    ∀ (scan : DiskDirectory) (fuel : Nat) (t : DirectoryTree) (p : Path)
      (r : DirectoryTree × Nat), SoundTree t →
      DirectoryTree.BuildTree fuel t p scan = some r →
      ∃ events, ScanEvents t r.1 (t.next + 1) events
  | .mk o1 o2 entries, fuel, t, p, r, st, e => by
    unfold DirectoryTree.BuildTree at e
    cases hl : DirectoryTree.BuildTreeLoop fuel
        { (t.CreateDirectory p o1 o2).1 with directories := mapInsert t.directories p t.next }
        p t.next entries with
    | none => rw [hl] at e; cases e
    | some t1 =>
      rw [hl] at e
      cases e
      obtain ⟨st0, _, k0, p0, _⟩ := newDirectory_sound st p o1 o2
      obtain ⟨ev, h⟩ := BuildTreeLoop_events entries fuel _ p t.next t1 st0
        (Nat.lt_succ_self _) k0 p0 hl
      exact ⟨ev, h⟩
/-- The events of the loop of `BuildTree` on a sound tree: one added-event for every object
it creates, children first. -/
theorem BuildTreeLoop_events :
    ∀ (entries : DiskEntries) (fuel : Nat) (t : DirectoryTree) (p : Path) (D : Nat)
      (t1 : DirectoryTree), SoundTree t → D < t.next → (t.heap D).kind = .DIRECTORY →
      (t.heap D).parentDir = none →
      DirectoryTree.BuildTreeLoop fuel t p D entries = some t1 →
      ∃ events, ScanEvents t t1 t.next events
  | .nil, _, t, _, _, t1, _, _, _, _, e => by
    unfold DirectoryTree.BuildTreeLoop at e
    cases e
    refine ⟨[], by simp [fanOut], ?_, fun _ h => (by cases h), trivial⟩
    simp
  | .cons (.other _) rest, fuel, t, p, D, t1, st, hDn, hDk, hDp, e => by
    unfold DirectoryTree.BuildTreeLoop at e
    exact BuildTreeLoop_events rest fuel t p D t1 st hDn hDk hDp e
  | .cons (.regular_file name o1 o2) rest, fuel, t, p, D, t1, st, hDn, hDk, hDp, e => by
    unfold DirectoryTree.BuildTreeLoop at e
    simp only at e
    obtain ⟨T2, hT2⟩ : ∃ T2, T2 = DirectoryTree.NotifyFileAdded
        { (t.CreateFile (slash p name) o1 o2).1 with
          heap := Directory.AddFileToDirectory (t.CreateFile (slash p name) o1 o2).1.heap D
            (t.CreateFile (slash p name) o1 o2).2 }
        (t.CreateFile (slash p name) o1 o2).2 := ⟨_, rfl⟩
    rw [← hT2] at e
    obtain ⟨st2, e2, e3, e5, elog, fr, kD, pD, mD, dD, fD, kf, pf, mf⟩ :=
      loop_file_step st (slash p name) o1 o2 hDn hDk hT2
    have hDn2 : D < T2.next := by omega
    have hDp2 : (T2.heap D).parentDir = none := by rw [pD]; exact hDp
    obtain ⟨st3, hn3, fr3, _⟩ := BuildTreeLoop_result st2 hDn2 kD hDp2 e
    obtain ⟨ev, l3, perm3, all3, cf3⟩ :=
      BuildTreeLoop_events rest fuel T2 p D t1 st2 hDn2 kD hDp2 e
    have hlast : t1.heap t.next = T2.heap t.next := fr3 t.next (by omega) (by omega)
    refine ⟨⟨.OnFileAdded, t.next, none, T2.heap⟩ :: ev, ?_, ?_, ?_, ?_, ?_⟩
    · rw [l3, elog, e5, List.append_assoc, ← fanOut_append]
      rfl
    · rw [range_cons_of_lt (by omega : t.next < t1.next)]
      rw [e2] at perm3
      exact List.Perm.cons _ perm3
    · intro a ha
      rcases List.mem_cons.mp ha with rfl | ha
      · exact ⟨⟨rfl, Or.inl ⟨rfl, kf⟩⟩, by rw [hlast], by rw [hlast], by rw [hlast]⟩
      · exact all3 a ha
    · intro hc
      cases hc
    · exact childrenFirst_mono ev _ _ (fun _ h => by cases h) cf3
  | .cons (.directory name dir) rest, fuel, t, p, D, t1, st, hDn, hDk, hDp, e => by
    unfold DirectoryTree.BuildTreeLoop at e
    cases hb : DirectoryTree.BuildTree fuel t (slash p name) dir with
    | none => rw [hb] at e; cases e
    | some r =>
      obtain ⟨t2, newDir⟩ := r
      rw [hb] at e
      simp only at e
      cases ha : Directory.AddDirectoryToDirectory fuel t2.heap D newDir with
      | none => rw [ha] at e; cases e
      | some H =>
        rw [ha] at e
        simp only at e
        obtain ⟨T2, hT2⟩ : ∃ T2, T2 = DirectoryTree.NotifyDirectoryAdded
            { t2 with heap := H } newDir := ⟨_, rfl⟩
        rw [← hT2] at e
        obtain ⟨hnew, st1, hn1, fr1, p1, m1, st2, e2, e3, e5, elog, frT, keep, kD, pD, mD,
          fD, dD, kd, pd, md, _⟩ := loop_dir_step st hDn hDk hb ha hT2
        subst hnew
        have hDn2 : D < T2.next := by omega
        have hDp2 : (T2.heap D).parentDir = none := by rw [pD]; exact hDp
        obtain ⟨st3, hn3, fr3, _⟩ := BuildTreeLoop_result st2 hDn2 kD hDp2 e
        obtain ⟨ev1, l1, perm1, all1, cf1⟩ :=
          BuildTree_events dir fuel t (slash p name) (t2, t.next) st hb
        simp only at l1 perm1 all1
        obtain ⟨ev3, l3, perm3, all3, cf3⟩ :=
          BuildTreeLoop_events rest fuel T2 p D t1 st2 hDn2 kD hDp2 e
        have hrange : ∀ a ∈ ev1, t.next + 1 ≤ a.entity ∧ a.entity < t2.next := by
          intro a ha
          have h1 : a.entity ∈ ev1.map Event.entity := List.mem_map_of_mem _ ha
          have h2 := (perm1.mem_iff).mp h1
          rw [List.mem_range'_1] at h2
          omega
        have hlast : t1.heap t.next = T2.heap t.next := fr3 t.next (by omega) (by omega)
        have hkids : ∀ x ∈ children T2.heap t.next, ∃ e1 ∈ ev1, e1.entity = x := by
          intro x hx
          have hx2 : x ∈ children t2.heap t.next := by
            unfold children at hx ⊢
            rw [(keep t.next (by omega)).1, (keep t.next (by omega)).2.1] at hx
            exact hx
          have hb2 := new_children_above st st1 hn1 fr1 p1 x hx2
          have h2 : x ∈ ev1.map Event.entity :=
            (perm1.mem_iff).mpr (by rw [List.mem_range'_1]; omega)
          obtain ⟨e1, he1, hx1⟩ := List.mem_map.mp h2
          exact ⟨e1, he1, hx1⟩
        refine ⟨ev1 ++ ⟨.OnDirectoryAdded, t.next, none, T2.heap⟩ :: ev3, ?_, ?_, ?_, ?_⟩
        · rw [l3, elog, l1, e5, List.append_assoc, List.append_assoc, ← fanOut_append,
            ← fanOut_append]
          rfl
        · rw [List.map_append, List.map_cons]
          rw [e2] at perm3
          have q1 := (perm1.append (List.Perm.cons t.next perm3)).trans List.perm_middle
          rw [range_split (by omega : t.next + 1 ≤ t2.next) (by omega : t2.next ≤ t1.next)] at q1
          rw [range_cons_of_lt (by omega : t.next < t1.next)]
          exact q1
        · intro a ha
          rcases List.mem_append.mp ha with ha | ha
          · obtain ⟨hlo, hhi⟩ := hrange a ha
            have hk := keep a.entity (by omega)
            have hf3 : t1.heap a.entity = T2.heap a.entity :=
              fr3 a.entity (by omega) (by omega)
            refine ⟨(all1 a ha).1, (all1 a ha).2.keep ?_ ?_ ?_⟩
            · rw [hf3]; exact hk.1
            · rw [hf3]; exact hk.2.1
            · rw [hf3]; exact hk.2.2.2 (by omega)
          · rcases List.mem_cons.mp ha with rfl | ha
            · exact ⟨⟨rfl, Or.inr ⟨rfl, kd⟩⟩, by rw [hlast], by rw [hlast], by rw [hlast]⟩
            · exact all3 a ha
        · refine childrenFirst_append ev1 _ [] cf1 ⟨fun _ x hx => ?_, ?_⟩
          · obtain ⟨e1, he1, hx1⟩ := hkids x hx
            exact ⟨e1, List.mem_append_right _ he1, hx1⟩
          · exact childrenFirst_mono ev3 _ _ (fun _ h => by cases h) cf3
end

/-- From the events of a scan to what a listener sees at a directory-added event. -/
theorem events_order {t1 : DirectoryTree} (st1 : SoundTree t1) {events : List Event}
    (hall : ∀ e ∈ events, e.entity < t1.next ∧ e.isAdded ∧ e.settledIn t1.heap)
    (cf : childrenFirst [] events) :
    ∀ pre ev post, events = pre ++ ev :: post → ev.callback = .OnDirectoryAdded →
      (ev.heap ev.entity).kind = .DIRECTORY ∧
      (∀ x ∈ children ev.heap ev.entity, ∃ e1 ∈ pre, e1.entity = x ∧ e1.isAdded ∧
        (e1.heap x).parentDir = some ev.entity) ∧
      children t1.heap ev.entity = children ev.heap ev.entity := by
  intro pre ev post hsplit hc
  have hev : ev ∈ events := by rw [hsplit]; simp
  obtain ⟨hn, had, hs⟩ := hall ev hev
  have hsame : children t1.heap ev.entity = children ev.heap ev.entity := by
    unfold children
    rw [hs.1, hs.2.1]
  refine ⟨?_, fun x hx => ?_, hsame⟩
  · rcases had.2 with ⟨h1, _⟩ | ⟨_, h2⟩
    · rw [hc] at h1; cases h1
    · exact h2
  · obtain ⟨e1, he1, hx1⟩ := childrenFirst_split events [] pre ev post cf hsplit hc x hx
    rw [List.nil_append] at he1
    have he1s : e1 ∈ events := by rw [hsplit]; exact List.mem_append_left _ he1
    obtain ⟨_, had1, hs1⟩ := hall e1 he1s
    refine ⟨e1, he1, hx1, had1, ?_⟩
    have hx2 : x ∈ children t1.heap ev.entity := by rw [hsame]; exact hx
    have sh := st1.1.1 ev.entity hn
    have hp : (t1.heap x).parentDir = some ev.entity := by
      rcases List.mem_append.mp hx2 with hf | hd
      · exact (sh.2.1 x hf).2.2
      · exact (sh.1 x hd).2.2
    rw [← hx1, ← hs1.2.2, hx1]
    exact hp

/-- The events of `BuildRootTree` on a sound tree: one added-event for every object created
except the root directory, children first. -/
theorem BuildRootTree_events {t t1 : DirectoryTree} (st : SoundTree t) {fuel : Nat} {p : Path}
    {scan : DiskDirectory} (e : t.BuildRootTree fuel p scan = .ok t1) :
    t1.rootDir = some t.next ∧ t.next < t1.next ∧
    ∃ events, ScanEvents t t1 (t.next + 1) events := by
  unfold DirectoryTree.BuildRootTree at e
  cases hb : DirectoryTree.BuildTree fuel { t with rootDirAbsParentPath := parent_path p }
      [filename p] scan with
  | none => rw [hb] at e; cases e
  | some r =>
    obtain ⟨t2, root⟩ := r
    rw [hb] at e
    simp only [Outcome.ok.injEq] at e
    subst e
    have st0 : SoundTree { t with rootDirAbsParentPath := parent_path p } := st
    obtain ⟨hroot, _, hn, _⟩ := BuildTree_result st0 hb
    obtain ⟨events, h⟩ := BuildTree_events scan fuel _ [filename p] _ st0 hb
    simp only at hroot
    subst hroot
    exact ⟨rfl, hn, events, h⟩

/-- The events of `AddNewDirectory` on a sound tree: one added-event for every object
created, children first, the new directory last. -/
theorem AddNewDirectory_events {t t1 : DirectoryTree} (st : SoundTree t) {fuel : Nat}
    {p : Path} {scan : DiskDirectory} (e : t.AddNewDirectory fuel p scan = .ok t1) :
    ∃ events, ScanEvents t t1 t.next events := by
  unfold DirectoryTree.AddNewDirectory at e
  cases hP : t.GetDirectory (parent_path p) with
  | none => rw [hP] at e; cases e
  | some P =>
    rw [hP] at e
    simp only at e
    cases hb : DirectoryTree.BuildTree fuel t p scan with
    | none => rw [hb] at e; cases e
    | some r =>
      obtain ⟨t2, newDir⟩ := r
      rw [hb] at e
      simp only at e
      cases ha : Directory.AddDirectoryToDirectory fuel t2.heap P newDir with
      | none => rw [ha] at e; cases e
      | some H =>
        rw [ha] at e
        simp only [Outcome.ok.injEq] at e
        obtain ⟨hPn, hPk⟩ := st.lookup hP
        obtain ⟨hnew, st1, hn1, fr1, p1, m1, st2, e2, e3, e5, elog, frT, keep, kD, pD, mD,
          fD, dD, kd, pd, md, _⟩ := loop_dir_step st hPn hPk hb ha e.symm
        subst hnew
        obtain ⟨ev1, l1, perm1, all1, cf1⟩ := BuildTree_events scan fuel t p (t2, t.next) st hb
        simp only at l1 perm1 all1
        have hrange : ∀ a ∈ ev1, t.next + 1 ≤ a.entity ∧ a.entity < t2.next := by
          intro a ha
          have h1 : a.entity ∈ ev1.map Event.entity := List.mem_map_of_mem _ ha
          have h2 := (perm1.mem_iff).mp h1
          rw [List.mem_range'_1] at h2
          omega
        have hkids : ∀ x ∈ children t1.heap t.next, ∃ e1 ∈ ev1, e1.entity = x := by
          intro x hx
          have hx2 : x ∈ children t2.heap t.next := by
            unfold children at hx ⊢
            rw [(keep t.next (by omega)).1, (keep t.next (by omega)).2.1] at hx
            exact hx
          have hb2 := new_children_above st st1 hn1 fr1 p1 x hx2
          have h2 : x ∈ ev1.map Event.entity :=
            (perm1.mem_iff).mpr (by rw [List.mem_range'_1]; omega)
          obtain ⟨e1, he1, hx1⟩ := List.mem_map.mp h2
          exact ⟨e1, he1, hx1⟩
        refine ⟨ev1 ++ [⟨.OnDirectoryAdded, t.next, none, t1.heap⟩], ?_, ?_, ?_, ?_⟩
        · rw [elog, l1, List.append_assoc, ← fanOut_append]
        · rw [List.map_append, List.map_cons, List.map_nil, e2,
            range_cons_of_lt (by omega : t.next < t2.next)]
          exact (perm1.append (List.Perm.refl [t.next])).trans
            (List.perm_append_singleton t.next _)
        · intro a ha
          rcases List.mem_append.mp ha with ha | ha
          · obtain ⟨hlo, hhi⟩ := hrange a ha
            have hk := keep a.entity (by omega)
            exact ⟨(all1 a ha).1, (all1 a ha).2.keep hk.1 hk.2.1 (hk.2.2.2 (by omega))⟩
          · rw [List.mem_singleton] at ha
            subst ha
            exact ⟨⟨rfl, Or.inr ⟨rfl, kd⟩⟩, rfl, rfl, rfl⟩
        · refine childrenFirst_append ev1 _ [] cf1 ⟨fun _ x hx => ?_, trivial⟩
          obtain ⟨e1, he1, hx1⟩ := hkids x hx
          exact ⟨e1, List.mem_append_right _ he1, hx1⟩

theorem ScanEvents.allocated {t t1 : DirectoryTree} {first : Nat} {events : List Event}
    (s : ScanEvents t t1 first events) :
    ∀ e ∈ events, e.entity < t1.next ∧ e.isAdded ∧ e.settledIn t1.heap := by
  intro a ha
  have h1 : a.entity ∈ events.map Event.entity := List.mem_map_of_mem _ ha
  have h2 := (s.2.1.mem_iff).mp h1
  rw [List.mem_range'_1] at h2
  exact ⟨by omega, s.2.2.1 a ha⟩

theorem BuildRootTree_returns {t : DirectoryTree} (st : SoundTree t) (p : Path)
    (scan : DiskDirectory) :
    ∃ f0, ∀ fuel, f0 ≤ fuel → (t.BuildRootTree fuel p scan).returned = true := by
  have st0 : SoundTree { t with rootDirAbsParentPath := parent_path p } := st
  obtain ⟨t1, ⟨fb, hfb⟩, _⟩ := BuildTree_sound scan _ [filename p] st0
  refine ⟨fb, fun fuel hf => ?_⟩
  unfold DirectoryTree.BuildRootTree
  rw [hfb fuel hf]
  rfl

theorem AddNewDirectory_returns {t : DirectoryTree} (st : SoundTree t) {p : Path} {P : Nat}
    (hP : t.GetDirectory (parent_path p) = some P) (scan : DiskDirectory) :
    ∃ f0, ∀ fuel, f0 ≤ fuel → (t.AddNewDirectory fuel p scan).returned = true := by
  obtain ⟨hPn, hPk⟩ := st.lookup hP
  obtain ⟨t2, ⟨fb, hfb⟩, st1, hn1, fr1, k1, p1, _⟩ := BuildTree_sound scan t p st
  have above := Sub.above st.1 st1.1 (Nat.le_refl _) hn1 (fun x hx => by rw [fr1 x hx])
  have hnot : ¬ Sub t2.heap t.next P := fun hs => by
    have := above P hs
    omega
  obtain ⟨H, ⟨fa, hfa⟩, _⟩ := dir_attached_sound st1 (D := P) (d := t.next) (by omega)
    (by rw [fr1 P hPn]; exact hPk) hn1 k1 p1 hnot
  refine ⟨max fb fa, fun fuel hf => ?_⟩
  unfold DirectoryTree.AddNewDirectory
  rw [hP]
  simp only
  rw [hfb fuel (le_trans (Nat.le_max_left _ _) hf)]
  simp only
  rw [hfa fuel (le_trans (Nat.le_max_right _ _) hf)]
  rfl

theorem mem_deliveries {listeners : List Nat} {e : Event} {c : Delivery}
    (h : c ∈ e.deliveries listeners) :
    c.listener ∈ listeners ∧ c = ⟨c.listener, e.callback, e.entity, e.oldPath, e.heap⟩ := by
  unfold Event.deliveries at h
  obtain ⟨l, hl, rfl⟩ := List.mem_map.mp h
  exact ⟨hl, rfl⟩

/-- A call in the log of a sequence of events belongs to one of the events, and the calls of
all earlier events precede it. -/
theorem fanOut_split (listeners : List Nat) : ∀ (events : List Event) (pre : List Delivery)
    (c : Delivery) (post : List Delivery), fanOut listeners events = pre ++ c :: post →
    ∃ pre1 ev post1, events = pre1 ++ ev :: post1 ∧ c ∈ ev.deliveries listeners ∧
      ∀ d ∈ fanOut listeners pre1, d ∈ pre
  | [], pre, c, post, h => by
    cases pre <;> cases h
  | e :: es, pre, c, post, h => by
    have h1 : e.deliveries listeners ++ fanOut listeners es = pre ++ c :: post := h
    rcases List.append_eq_append_iff.mp h1 with ⟨a, ha1, ha2⟩ | ⟨a, ha1, ha2⟩
    · obtain ⟨pre1, ev, post1, hs, hc, hd⟩ := fanOut_split listeners es a c post ha2
      refine ⟨e :: pre1, ev, post1, by rw [hs]; rfl, hc, fun d hdm => ?_⟩
      have : d ∈ e.deliveries listeners ++ fanOut listeners pre1 := hdm
      rw [ha1]
      rcases List.mem_append.mp this with h2 | h2
      · exact List.mem_append_left _ h2
      · exact List.mem_append_right _ (hd d h2)
    · cases a with
      | nil =>
        simp only [List.nil_append] at ha2
        obtain ⟨pre1, ev, post1, hs, hc, hd⟩ :=
          fanOut_split listeners es [] c post (by rw [← ha2]; rfl)
        refine ⟨e :: pre1, ev, post1, by rw [hs]; rfl, hc, fun d hdm => ?_⟩
        have : d ∈ e.deliveries listeners ++ fanOut listeners pre1 := hdm
        rw [List.append_nil] at ha1
        rcases List.mem_append.mp this with h2 | h2
        · rw [← ha1]; exact h2
        · cases hd d h2
      | cons b a =>
        simp only [List.cons_append, List.cons.injEq] at ha2
        refine ⟨[], e, es, rfl, ?_, fun d hdm => by cases hdm⟩
        rw [ha1, ha2.1]
        simp

theorem mem_fanOut {listeners : List Nat} {l : Nat} (hl : l ∈ listeners) :
    ∀ {events : List Event} {e : Event}, e ∈ events →
      (⟨l, e.callback, e.entity, e.oldPath, e.heap⟩ : Delivery) ∈ fanOut listeners events
  | [], _, h => by cases h
  | a :: es, e, h => by
    show _ ∈ a.deliveries listeners ++ fanOut listeners es
    rcases List.mem_cons.mp h with rfl | h
    · refine List.mem_append_left _ ?_
      unfold Event.deliveries
      exact List.mem_map.mpr ⟨l, hl, rfl⟩
    · exact List.mem_append_right _ (mem_fanOut hl h)

/-- From the events of a scan to the calls the listeners receive. -/
theorem deliveries_order {t t1 : DirectoryTree} (st1 : SoundTree t1) {first : Nat}
    {events : List Event} (s : ScanEvents t t1 first events) :
    ∀ pre c post, t1.log = t.log ++ (pre ++ c :: post) → c.callback = .OnDirectoryAdded →
      (c.heap c.entity).kind = .DIRECTORY ∧
      (∀ x ∈ children c.heap c.entity, ∃ c1 ∈ pre, c1.listener = c.listener ∧
        c1.entity = x ∧ c1.oldPath = none ∧
        ((c1.callback = .OnFileAdded ∧ (c1.heap x).kind = .FILE) ∨
          (c1.callback = .OnDirectoryAdded ∧ (c1.heap x).kind = .DIRECTORY)) ∧
        (c1.heap x).parentDir = some c.entity) ∧
      children t1.heap c.entity = children c.heap c.entity := by
  intro pre c post hlog hc
  have hfan : fanOut t.listeners events = pre ++ c :: post :=
    List.append_cancel_left (s.1.symm.trans hlog)
  obtain ⟨pre1, ev, post1, hs, hmem, hbefore⟩ := fanOut_split t.listeners events pre c post hfan
  obtain ⟨hl, hceq⟩ := mem_deliveries hmem
  have hcb : c.callback = ev.callback := by rw [hceq]
  have hen : c.entity = ev.entity := by rw [hceq]
  have hhp : c.heap = ev.heap := by rw [hceq]
  obtain ⟨k, kids, same⟩ := events_order st1 s.allocated s.2.2.2 pre1 ev post1 hs
    (by rw [← hcb]; exact hc)
  rw [hen, hhp]
  refine ⟨k, fun x hx => ?_, same⟩
  obtain ⟨e1, he1, hx1, had, hp⟩ := kids x hx
  refine ⟨⟨c.listener, e1.callback, e1.entity, e1.oldPath, e1.heap⟩,
    hbefore _ (mem_fanOut hl he1), rfl, hx1, had.1, ?_, hp⟩
  rw [← hx1]
  exact had.2

/-! ## Children are announced before their directory -/

/-- C29: `BuildRootTree` and `AddNewDirectory` on a sound tree, for a directory listed
without a failing read, return when the stack suffices (for `AddNewDirectory`: when the
parent path is indexed), and in the calls they log,
every directory-added call comes after added calls, to the same listener, for each immediate
child of the directory, each made when that child was already attached to the directory;
the directory has during its call exactly the children it has when the operation
returns. -/
theorem children_added_before_directory (t : DirectoryTree) (p : Path) (scan : DiskDirectory)
    (st : SoundTree t) :
    (∃ f0, ∀ fuel, f0 ≤ fuel → (t.BuildRootTree fuel p scan).returned = true) ∧
    (∀ P, t.GetDirectory (parent_path p) = some P →
      ∃ f0, ∀ fuel, f0 ≤ fuel → (t.AddNewDirectory fuel p scan).returned = true) ∧
    ∀ fuel t1,
      (t.BuildRootTree fuel p scan = .ok t1 ∨ t.AddNewDirectory fuel p scan = .ok t1) →
      ∀ pre c post, t1.log = t.log ++ (pre ++ c :: post) → c.callback = .OnDirectoryAdded →
        (c.heap c.entity).kind = .DIRECTORY ∧
        (∀ x ∈ children c.heap c.entity, ∃ c1 ∈ pre, c1.listener = c.listener ∧
          c1.entity = x ∧ c1.oldPath = none ∧
          ((c1.callback = .OnFileAdded ∧ (c1.heap x).kind = .FILE) ∨
            (c1.callback = .OnDirectoryAdded ∧ (c1.heap x).kind = .DIRECTORY)) ∧
          (c1.heap x).parentDir = some c.entity) ∧
        children t1.heap c.entity = children c.heap c.entity := by
  refine ⟨BuildRootTree_returns st p scan, fun P hP => AddNewDirectory_returns st hP scan, ?_⟩
  intro fuel t1 e
  rcases e with e | e
  · obtain ⟨_, _, events, s⟩ := BuildRootTree_events st e
    exact deliveries_order (BuildRootTree_sound st e) s
  · obtain ⟨events, s⟩ := AddNewDirectory_events st e
    exact deliveries_order (AddNewDirectory_sound st e) s

theorem children_added_before_directory_witness :
    SoundTree (DirectoryTree.empty.AddDirTreeEventListener 0) ∧
    ((DirectoryTree.empty.AddDirTreeEventListener 0).BuildRootTree 4 ["home", "A"]
        sampleDisk = .ok sampleTree ∨
      (DirectoryTree.empty.AddDirTreeEventListener 0).AddNewDirectory 4 ["home", "A"]
        sampleDisk = .ok sampleTree) ∧
    ∀ pre c post,
      sampleTree.log = (DirectoryTree.empty.AddDirTreeEventListener 0).log ++
        (pre ++ c :: post) →
      c.callback = .OnDirectoryAdded →
        (c.heap c.entity).kind = .DIRECTORY ∧
        (∀ x ∈ children c.heap c.entity, ∃ c1 ∈ pre, c1.listener = c.listener ∧
          c1.entity = x ∧ c1.oldPath = none ∧
          ((c1.callback = .OnFileAdded ∧ (c1.heap x).kind = .FILE) ∨
            (c1.callback = .OnDirectoryAdded ∧ (c1.heap x).kind = .DIRECTORY)) ∧
          (c1.heap x).parentDir = some c.entity) ∧
        children sampleTree.heap c.entity = children c.heap c.entity :=
  have st : SoundTree (DirectoryTree.empty.AddDirTreeEventListener 0) :=
    ⟨⟨fun x hx => absurd hx (Nat.not_lt_zero x), fun x hx => absurd hx (Nat.not_lt_zero x)⟩,
      fun kv hkv => by cases hkv⟩
  have e : (DirectoryTree.empty.AddDirTreeEventListener 0).BuildRootTree 4 ["home", "A"]
      sampleDisk = .ok sampleTree := Outcome.ok_of_returned (by decide!)
  ⟨st, Or.inl e,
    (children_added_before_directory (DirectoryTree.empty.AddDirTreeEventListener 0)
      ["home", "A"] sampleDisk st).2.2 4 sampleTree (Or.inl e)⟩

/-! ## What a scan creates -/

theorem created_split (f : Nat → Bool) {a b c : Nat} (h1 : a ≤ b) (h2 : b ≤ c) :
    (List.range' a (c - a)).filter f =
      (List.range' a (b - a)).filter f ++ (List.range' b (c - b)).filter f := by
  rw [← range_split h1 h2, List.filter_append]

theorem created_congr {f g : Nat → Bool} {a b : Nat}
    (h : ∀ x, a ≤ x → x < b → f x = g x) :
    (List.range' a (b - a)).filter f = (List.range' a (b - a)).filter g := by
  apply List.filter_congr
  intro x hx
  rw [List.mem_range'_1] at hx
  exact h x hx.1 (by omega)

theorem mem_createdDirectories {h : Heap} {a b x : Nat} :
    x ∈ createdDirectories h a b ↔ (a ≤ x ∧ x < b) ∧ (h x).kind = .DIRECTORY := by
  unfold createdDirectories
  rw [List.mem_filter, List.mem_range'_1, decide_eq_true_iff]
  constructor
  · rintro ⟨⟨h1, h2⟩, h3⟩; exact ⟨⟨h1, by omega⟩, h3⟩
  · rintro ⟨⟨h1, h2⟩, h3⟩; exact ⟨⟨h1, by omega⟩, h3⟩

theorem mem_createdFiles {h : Heap} {a b x : Nat} :
    x ∈ createdFiles h a b ↔ (a ≤ x ∧ x < b) ∧ (h x).kind = .FILE := by
  unfold createdFiles
  rw [List.mem_filter, List.mem_range'_1, decide_eq_true_iff]
  constructor
  · rintro ⟨⟨h1, h2⟩, h3⟩; exact ⟨⟨h1, by omega⟩, h3⟩
  · rintro ⟨⟨h1, h2⟩, h3⟩; exact ⟨⟨h1, by omega⟩, h3⟩

theorem slash_prefix_inj {p k : Path} {a b : String} (h1 : slash p a <+: k)
    (h2 : slash p b <+: k) : a = b := by
  obtain ⟨s1, e1⟩ := h1
  obtain ⟨s2, e2⟩ := h2
  unfold slash at e1 e2
  rw [← e2, List.append_assoc, List.append_assoc] at e1
  have := List.append_cancel_left e1
  simp only [List.singleton_append, List.cons.injEq] at this
  exact this.1

theorem not_slash_prefix_self (p : Path) (a : String) : ¬ slash p a <+: p := by
  intro h
  have := h.length_le
  unfold slash at this
  simp at this

mutual
/-- Every directory path of a scan of `p` extends `p`. -/
theorem DiskDirectory.dirPaths_extend :
    ∀ (scan : DiskDirectory) (p : Path), ∀ k ∈ scan.dirPaths p, p <+: k
  | .mk _ _ entries, p, k, hk => by
    unfold DiskDirectory.dirPaths at hk
    rcases List.mem_cons.mp hk with rfl | hk
    · exact List.prefix_refl _
    · obtain ⟨name, _, hp⟩ := DiskEntries.entryPaths_extend entries p k hk
      exact (List.prefix_append p [name]).trans hp
/-- Every directory path among the entries of `p` extends `p / name` for the name of one of
the entries that are directories. -/
theorem DiskEntries.entryPaths_extend :
    ∀ (entries : DiskEntries) (p : Path), ∀ k ∈ entries.dirPaths p,
      ∃ name ∈ entries.dirNames, slash p name <+: k
  | .nil, _, _, hk => by
    unfold DiskEntries.dirPaths at hk
    cases hk
  | .cons (.regular_file _ _ _) rest, p, k, hk => by
    unfold DiskEntries.dirPaths at hk
    exact DiskEntries.entryPaths_extend rest p k hk
  | .cons (.other _) rest, p, k, hk => by
    unfold DiskEntries.dirPaths at hk
    exact DiskEntries.entryPaths_extend rest p k hk
  | .cons (.directory name dir) rest, p, k, hk => by
    unfold DiskEntries.dirPaths at hk
    rcases List.mem_append.mp hk with h1 | h1
    · exact ⟨name, List.mem_cons_self _ _, DiskDirectory.dirPaths_extend dir _ k h1⟩
    · obtain ⟨n1, hn1, hp⟩ := DiskEntries.entryPaths_extend rest p k h1
      exact ⟨n1, List.mem_cons_of_mem _ hn1, hp⟩
end

mutual
/-- In a scan with distinct names no directory path occurs twice. -/
theorem DiskDirectory.dirPaths_nodup :
    ∀ (scan : DiskDirectory) (p : Path), scan.distinctNames = true → (scan.dirPaths p).Nodup
  | .mk _ _ entries, p, hd => by
    unfold DiskDirectory.distinctNames at hd
    simp only [Bool.and_eq_true, decide_eq_true_eq] at hd
    unfold DiskDirectory.dirPaths
    refine List.nodup_cons.mpr ⟨fun hk => ?_, DiskEntries.entryPaths_nodup entries p hd.1.2 hd.2⟩
    obtain ⟨name, _, hp⟩ := DiskEntries.entryPaths_extend entries p p hk
    exact not_slash_prefix_self p name hp
theorem DiskEntries.entryPaths_nodup :
    ∀ (entries : DiskEntries) (p : Path), entries.dirNames.Nodup →
      entries.distinctBelow = true → (entries.dirPaths p).Nodup
  | .nil, _, _, _ => by
    unfold DiskEntries.dirPaths
    exact List.nodup_nil
  | .cons (.regular_file _ _ _) rest, p, hn, hd => by
    unfold DiskEntries.dirPaths
    unfold DiskEntries.distinctBelow at hd
    exact DiskEntries.entryPaths_nodup rest p hn hd
  | .cons (.other _) rest, p, hn, hd => by
    unfold DiskEntries.dirPaths
    unfold DiskEntries.distinctBelow at hd
    exact DiskEntries.entryPaths_nodup rest p hn hd
  | .cons (.directory name dir) rest, p, hn, hd => by
    unfold DiskEntries.dirPaths
    unfold DiskEntries.distinctBelow at hd
    simp only [Bool.and_eq_true] at hd
    have hn1 : name ∉ rest.dirNames ∧ rest.dirNames.Nodup := List.nodup_cons.mp hn
    rw [List.nodup_append]
    refine ⟨DiskDirectory.dirPaths_nodup dir _ hd.1,
      DiskEntries.entryPaths_nodup rest p hn1.2 hd.2, ?_⟩
    intro k h1 h2
    have p1 := DiskDirectory.dirPaths_extend dir _ k h1
    obtain ⟨n2, hn2, p2⟩ := DiskEntries.entryPaths_extend rest p k h2
    have := slash_prefix_inj p1 p2
    exact hn1.1 (this ▸ hn2)
end

/-- Membership in a subtree survives when the sequences of the allocated directories only
grow. -/
theorem Sub.grow {h h1 : Heap} {n d x : Nat} (s : Shape h n) (hd : d < n)
    (hdirs : ∀ y, y < n → ∀ c ∈ (h y).directories, c ∈ (h1 y).directories)
    (hfiles : ∀ y, y < n → ∀ c ∈ (h y).files, c ∈ (h1 y).files)
    (hs : Sub h d x) : Sub h1 d x := by
  induction hs with
  | self => exact Sub.self
  | dir hp hc ih => exact Sub.dir ih (hdirs _ (Sub.lt s hd hp) _ hc)
  | file hp hc ih => exact Sub.file ih (hfiles _ (Sub.lt s hd hp) _ hc)

theorem created_cons_true (f : Nat → Bool) {a b : Nat} (h : a < b) (hf : f a = true) :
    (List.range' a (b - a)).filter f = a :: (List.range' (a + 1) (b - (a + 1))).filter f := by
  rw [range_cons_of_lt h]
  simp [List.filter_cons, hf]

theorem created_cons_false (f : Nat → Bool) {a b : Nat} (h : a < b) (hf : f a = false) :
    (List.range' a (b - a)).filter f = (List.range' (a + 1) (b - (a + 1))).filter f := by
  rw [range_cons_of_lt h]
  simp [List.filter_cons, hf]

/-- The created objects of a range are the same, with the same paths, in two stores that
agree on the class and the path of every object of the range. -/
theorem created_same {h h1 : Heap} {a b : Nat}
    (same : ∀ x, a ≤ x → x < b →
      (h1 x).kind = (h x).kind ∧ (h1 x).dirEntryPath = (h x).dirEntryPath) :
    createdDirectories h1 a b = createdDirectories h a b ∧
    createdFiles h1 a b = createdFiles h a b ∧
    (createdDirectories h1 a b).map (GetPath h1) = (createdDirectories h a b).map (GetPath h) ∧
    (createdFiles h1 a b).map (GetPath h1) = (createdFiles h a b).map (GetPath h) ∧
    (createdDirectories h1 a b).map (fun x => (GetPath h1 x, x)) =
      (createdDirectories h a b).map (fun x => (GetPath h x, x)) := by
  have e1 : createdDirectories h1 a b = createdDirectories h a b := by
    unfold createdDirectories
    exact created_congr (fun x h1 h2 => by rw [(same x h1 h2).1])
  have e2 : createdFiles h1 a b = createdFiles h a b := by
    unfold createdFiles
    exact created_congr (fun x h1 h2 => by rw [(same x h1 h2).1])
  refine ⟨e1, e2, ?_, ?_, ?_⟩
  · rw [e1]
    apply List.map_congr_left
    intro x hx
    have := (mem_createdDirectories.mp hx).1
    exact (same x this.1 this.2).2
  · rw [e2]
    apply List.map_congr_left
    intro x hx
    have := (mem_createdFiles.mp hx).1
    exact (same x this.1 this.2).2
  · rw [e1]
    apply List.map_congr_left
    intro x hx
    have := (mem_createdDirectories.mp hx).1
    show (GetPath h1 x, x) = (GetPath h x, x)
    unfold GetPath
    rw [(same x this.1 this.2).2]

theorem createdDirectories_split (h : Heap) {a b c : Nat} (h1 : a ≤ b) (h2 : b ≤ c) :
    createdDirectories h a c = createdDirectories h a b ++ createdDirectories h b c :=
  created_split _ h1 h2

theorem createdFiles_split (h : Heap) {a b c : Nat} (h1 : a ≤ b) (h2 : b ≤ c) :
    createdFiles h a c = createdFiles h a b ++ createdFiles h b c :=
  created_split _ h1 h2

/-- The rest of the loop of `BuildTree` keeps what is below the directory it fills. -/
theorem Sub.through_loop {T2 t3 : DirectoryTree} {D x : Nat} (st2 : SoundTree T2)
    (hDn : D < T2.next) (fr3 : ∀ y, y < T2.next → y ≠ D → t3.heap y = T2.heap y)
    (hd : ∀ c ∈ (T2.heap D).directories, c ∈ (t3.heap D).directories)
    (hf : ∀ c ∈ (T2.heap D).files, c ∈ (t3.heap D).files)
    (hs : Sub T2.heap D x) : Sub t3.heap D x := by
  refine Sub.grow st2.1.1 hDn (fun y hy c hc => ?_) (fun y hy c hc => ?_) hs
  · by_cases hyD : y = D
    · subst hyD; exact hd c hc
    · rw [fr3 y hy hyD]; exact hc
  · by_cases hyD : y = D
    · subst hyD; exact hf c hc
    · rw [fr3 y hy hyD]; exact hc

theorem mapInsert_fresh {m : List (Path × Nat)} {q : Path} (v : Nat)
    (hfresh : ∀ kv ∈ m, ¬ q <+: kv.1) : mapInsert m q v = m ++ [(q, v)] := by
  have hnone : mapFind m q = none := by
    rw [mapFind_none_iff]
    intro hk
    obtain ⟨kv, hkv, e⟩ := List.mem_map.mp hk
    exact hfresh kv hkv (e ▸ List.prefix_refl _)
  unfold mapInsert
  rw [hnone]

mutual
/-- What `BuildTree` creates for a scan with distinct names, on a sound tree whose index has
no key that extends the path `q`: in creation order, the new `Directory` objects have the
paths of the scanned directories and the new `File` objects those of the scanned regular
files, the index gains one binding per new directory, from its path to it, and every new
object lies below the new directory. -/
theorem BuildTree_covers :
    ∀ (scan : DiskDirectory) (fuel : Nat) (t : DirectoryTree) (q : Path)
      (r : DirectoryTree × Nat), SoundTree t → scan.distinctNames = true →
      (∀ kv ∈ t.directories, ¬ q <+: kv.1) →
      DirectoryTree.BuildTree fuel t q scan = some r →
      (createdDirectories r.1.heap t.next r.1.next).map (GetPath r.1.heap) = scan.dirPaths q ∧
      (createdFiles r.1.heap t.next r.1.next).map (GetPath r.1.heap) = scan.filePaths q ∧
      r.1.directories = t.directories ++
        (createdDirectories r.1.heap t.next r.1.next).map (fun x => (GetPath r.1.heap x, x)) ∧
      (∀ x, t.next ≤ x → x < r.1.next → Sub r.1.heap t.next x)
  | .mk o1 o2 entries, fuel, t, q, r, st, hdist, hfresh, e => by
    unfold DirectoryTree.BuildTree at e
    cases hl : DirectoryTree.BuildTreeLoop fuel
        { (t.CreateDirectory q o1 o2).1 with directories := mapInsert t.directories q t.next }
        q t.next entries with
    | none => rw [hl] at e; cases e
    | some t1 =>
      rw [hl] at e
      cases e
      unfold DiskDirectory.distinctNames at hdist
      simp only [Bool.and_eq_true, decide_eq_true_eq] at hdist
      obtain ⟨st0, old0, k0, p0, m0⟩ := newDirectory_sound st q o1 o2
      have hins := mapInsert_fresh t.next hfresh
      have hfresh0 : ∀ kv ∈ mapInsert t.directories q t.next, ∀ name ∈ entries.dirNames,
          ¬ slash q name <+: kv.1 := by
        intro kv hkv name _ hp
        rw [hins] at hkv
        rcases List.mem_append.mp hkv with h1 | h1
        · exact hfresh kv h1 ((List.prefix_append q [name]).trans hp)
        · rw [List.mem_singleton] at h1
          subst h1
          exact not_slash_prefix_self q name hp
      obtain ⟨st1, hn1, fr1, k1, _, m1, _⟩ :=
        BuildTreeLoop_result st0 (Nat.lt_succ_self _) k0 p0 hl
      obtain ⟨cd, cf, ci, cs, _⟩ := BuildTreeLoop_covers entries fuel _ q t.next t1 st0
        (Nat.lt_succ_self _) k0 p0 m0 hdist.1.2 hdist.2 hfresh0 hl
      have hlt : t.next < t1.next := hn1
      have hpath : GetPath t1.heap t.next = q := by unfold GetPath; rw [m1]; exact m0
      have cd1 : (createdDirectories t1.heap (t.next + 1) t1.next).map (GetPath t1.heap) =
          entries.dirPaths q := cd
      have cf1 : (createdFiles t1.heap (t.next + 1) t1.next).map (GetPath t1.heap) =
          entries.filePaths q := cf
      have ci1 : t1.directories = mapInsert t.directories q t.next ++
          (createdDirectories t1.heap (t.next + 1) t1.next).map
            (fun x => (GetPath t1.heap x, x)) := ci
      have hd : createdDirectories t1.heap t.next t1.next =
          t.next :: createdDirectories t1.heap (t.next + 1) t1.next := by
        unfold createdDirectories
        exact created_cons_true _ hlt (by simp [k1])
      have hf : createdFiles t1.heap t.next t1.next =
          createdFiles t1.heap (t.next + 1) t1.next := by
        unfold createdFiles
        exact created_cons_false _ hlt (by simp [k1])
      refine ⟨?_, ?_, ?_, ?_⟩
      · show (createdDirectories t1.heap t.next t1.next).map (GetPath t1.heap) = _
        rw [hd, List.map_cons, hpath, cd1]
        unfold DiskDirectory.dirPaths
        rfl
      · show (createdFiles t1.heap t.next t1.next).map (GetPath t1.heap) = _
        rw [hf, cf1]
        unfold DiskDirectory.filePaths
        rfl
      · show t1.directories = t.directories ++
          (createdDirectories t1.heap t.next t1.next).map (fun x => (GetPath t1.heap x, x))
        rw [ci1, hins, hd, List.map_cons, hpath, List.append_assoc]
        rfl
      · intro x h1 h2
        rcases Nat.eq_or_lt_of_le h1 with h3 | h3
        · rw [← h3]; exact Sub.self
        · exact cs x h3 h2
/-- What the loop of `BuildTree` creates while it fills the parentless directory `D` whose
cached path is `p`. -/
theorem BuildTreeLoop_covers :
    ∀ (entries : DiskEntries) (fuel : Nat) (t : DirectoryTree) (p : Path) (D : Nat)
      (t1 : DirectoryTree), SoundTree t → D < t.next → (t.heap D).kind = .DIRECTORY →
      (t.heap D).parentDir = none → (t.heap D).dirEntryPath = p →
      entries.dirNames.Nodup → entries.distinctBelow = true →
      (∀ kv ∈ t.directories, ∀ name ∈ entries.dirNames, ¬ slash p name <+: kv.1) →
      DirectoryTree.BuildTreeLoop fuel t p D entries = some t1 →
      (createdDirectories t1.heap t.next t1.next).map (GetPath t1.heap) = entries.dirPaths p ∧
      (createdFiles t1.heap t.next t1.next).map (GetPath t1.heap) = entries.filePaths p ∧
      t1.directories = t.directories ++
        (createdDirectories t1.heap t.next t1.next).map (fun x => (GetPath t1.heap x, x)) ∧
      (∀ x, t.next ≤ x → x < t1.next → Sub t1.heap D x) ∧
      (∀ c ∈ (t.heap D).directories, c ∈ (t1.heap D).directories) ∧
      (∀ c ∈ (t.heap D).files, c ∈ (t1.heap D).files)
  | .nil, _, t, p, D, t1, _, _, _, _, _, _, _, _, e => by
    unfold DirectoryTree.BuildTreeLoop at e
    cases e
    unfold createdDirectories createdFiles DiskEntries.dirPaths DiskEntries.filePaths
    simp only [Nat.sub_self, List.range'_zero, List.filter_nil, List.map_nil, List.append_nil,
      true_and]
    exact ⟨fun x h1 h2 => by omega, fun _ h => h, fun _ h => h⟩
  | .cons (.other _) rest, fuel, t, p, D, t1, st, hDn, hDk, hDp, hpath, hnd, hdist, hfresh,
      e => by
    unfold DirectoryTree.BuildTreeLoop at e
    unfold DiskEntries.dirNames at hnd hfresh
    unfold DiskEntries.distinctBelow at hdist
    unfold DiskEntries.dirPaths DiskEntries.filePaths
    exact BuildTreeLoop_covers rest fuel t p D t1 st hDn hDk hDp hpath hnd hdist hfresh e
  | .cons (.regular_file name o1 o2) rest, fuel, t, p, D, t1, st, hDn, hDk, hDp, hpath, hnd,
      hdist, hfresh, e => by
    unfold DirectoryTree.BuildTreeLoop at e
    simp only at e
    unfold DiskEntries.dirNames at hnd hfresh
    unfold DiskEntries.distinctBelow at hdist
    obtain ⟨T2, hT2⟩ : ∃ T2, T2 = DirectoryTree.NotifyFileAdded
        { (t.CreateFile (slash p name) o1 o2).1 with
          heap := Directory.AddFileToDirectory (t.CreateFile (slash p name) o1 o2).1.heap D
            (t.CreateFile (slash p name) o1 o2).2 }
        (t.CreateFile (slash p name) o1 o2).2 := ⟨_, rfl⟩
    rw [← hT2] at e
    obtain ⟨st2, e2, e3, e5, elog, fr, kD, pD, mD, dD, fD, kf, pf, mf⟩ :=
      loop_file_step st (slash p name) o1 o2 hDn hDk hT2
    have hDn2 : D < T2.next := by omega
    have hDp2 : (T2.heap D).parentDir = none := by rw [pD]; exact hDp
    obtain ⟨st3, hn3, fr3, _⟩ := BuildTreeLoop_result st2 hDn2 kD hDp2 e
    obtain ⟨cd, cf, ci, cs, cmd, cmf⟩ := BuildTreeLoop_covers rest fuel T2 p D t1 st2 hDn2 kD
      hDp2 (by rw [mD]; exact hpath) hnd hdist (by rw [e3]; exact hfresh) e
    rw [e2] at cd cf ci cs
    have hlast : t1.heap t.next = T2.heap t.next := fr3 t.next (by omega) (by omega)
    have hlt : t.next < t1.next := by omega
    have hk : (t1.heap t.next).kind = .FILE := by rw [hlast]; exact kf
    have hp : GetPath t1.heap t.next = slash p name := by
      unfold GetPath
      rw [hlast, mf, hpath, filename_slash]
      rfl
    have hd : createdDirectories t1.heap t.next t1.next =
        createdDirectories t1.heap (t.next + 1) t1.next := by
      unfold createdDirectories
      exact created_cons_false _ hlt (by simp [hk])
    have hf : createdFiles t1.heap t.next t1.next =
        t.next :: createdFiles t1.heap (t.next + 1) t1.next := by
      unfold createdFiles
      exact created_cons_true _ hlt (by simp [hk])
    refine ⟨?_, ?_, ?_, ?_, ?_, ?_⟩
    · unfold DiskEntries.dirPaths
      rw [hd, cd]
    · unfold DiskEntries.filePaths
      rw [hf, List.map_cons, hp, cf]
    · rw [hd, ci, e3]
    · intro x h1 h2
      rcases Nat.eq_or_lt_of_le h1 with h3 | h3
      · rw [← h3]
        exact Sub.file Sub.self (cmf t.next ((fD t.next).mpr (Or.inr rfl)))
      · exact cs x h3 h2
    · intro c hc
      exact cmd c (by rw [dD]; exact hc)
    · intro c hc
      exact cmf c ((fD c).mpr (Or.inl hc))
  | .cons (.directory name dir) rest, fuel, t, p, D, t1, st, hDn, hDk, hDp, hpath, hnd,
      hdist, hfresh, e => by
    unfold DirectoryTree.BuildTreeLoop at e
    unfold DiskEntries.dirNames at hnd hfresh
    unfold DiskEntries.distinctBelow at hdist
    simp only [Bool.and_eq_true] at hdist
    cases hb : DirectoryTree.BuildTree fuel t (slash p name) dir with
    | none => rw [hb] at e; cases e
    | some r =>
      obtain ⟨t2, newDir⟩ := r
      rw [hb] at e
      simp only at e
      cases ha : Directory.AddDirectoryToDirectory fuel t2.heap D newDir with
      | none => rw [ha] at e; cases e
      | some H =>
        rw [ha] at e
        simp only at e
        obtain ⟨T2, hT2⟩ : ∃ T2, T2 = DirectoryTree.NotifyDirectoryAdded
            { t2 with heap := H } newDir := ⟨_, rfl⟩
        rw [← hT2] at e
        obtain ⟨hnew, st1, hn1, fr1, p1, m1, st2, e2, e3, e5, elog, frT, keep, kD, pD, mD,
          fD, dD, kd, pd, md, allp⟩ := loop_dir_step st hDn hDk hb ha hT2
        subst hnew
        have hDn2 : D < T2.next := by omega
        have hDp2 : (T2.heap D).parentDir = none := by rw [pD]; exact hDp
        obtain ⟨st3, hn3, fr3, _⟩ := BuildTreeLoop_result st2 hDn2 kD hDp2 e
        have hnd1 : name ∉ rest.dirNames ∧ rest.dirNames.Nodup := List.nodup_cons.mp hnd
        have hq : (t.heap D).dirEntryPath ++ [filename (slash p name)] = slash p name := by
          rw [hpath, filename_slash]
          rfl
        have paths := allp hq
        obtain ⟨bd, bf, bi, bs⟩ := BuildTree_covers dir fuel t (slash p name) (t2, t.next) st
          hdist.1 (fun kv hkv => hfresh kv hkv name (List.mem_cons_self _ _)) hb
        simp only at bd bf bi bs
        have same : ∀ x, t.next ≤ x → x < t2.next →
            (t1.heap x).kind = (t2.heap x).kind ∧
            (t1.heap x).dirEntryPath = (t2.heap x).dirEntryPath := by
          intro x h1 h2
          rw [fr3 x (by omega) (by omega)]
          exact ⟨(keep x (by omega)).2.2.1, paths x⟩
        obtain ⟨s1, s2, s3, s4, s5⟩ := created_same same
        have hfresh3 : ∀ kv ∈ T2.directories, ∀ nm ∈ rest.dirNames,
            ¬ slash p nm <+: kv.1 := by
          intro kv hkv nm hnm hp
          rw [e3, bi] at hkv
          rcases List.mem_append.mp hkv with h1 | h1
          · exact hfresh kv h1 nm (List.mem_cons_of_mem _ hnm) hp
          · obtain ⟨x, hx, rfl⟩ := List.mem_map.mp h1
            have hk : GetPath t2.heap x ∈ dir.dirPaths (slash p name) := by
              rw [← bd]
              exact List.mem_map_of_mem _ hx
            have := slash_prefix_inj (DiskDirectory.dirPaths_extend dir _ _ hk) hp
            exact hnd1.1 (this ▸ hnm)
        obtain ⟨cd, cf, ci, cs, cmd, cmf⟩ := BuildTreeLoop_covers rest fuel T2 p D t1 st2
          hDn2 kD hDp2 (by rw [mD]; exact hpath) hnd1.2 hdist.2 hfresh3 e
        rw [e2] at cd cf ci cs
        have hle1 : t.next ≤ t2.next := by omega
        have hle2 : t2.next ≤ t1.next := by omega
        refine ⟨?_, ?_, ?_, ?_, ?_, ?_⟩
        · unfold DiskEntries.dirPaths
          rw [createdDirectories_split t1.heap hle1 hle2, List.map_append, s3, bd, cd]
        · unfold DiskEntries.filePaths
          rw [createdFiles_split t1.heap hle1 hle2, List.map_append, s4, bf, cf]
        · rw [ci, e3, bi, createdDirectories_split t1.heap hle1 hle2, List.map_append, s5,
            List.append_assoc]
        · intro x h1 h2
          by_cases hx : x < t2.next
          · have sx : Sub t2.heap t.next x := bs x h1 hx
            have sx2 : Sub T2.heap t.next x := by
              refine Sub.grow st1.1.1 hn1 (fun y hy c hc => ?_) (fun y hy c hc => ?_) sx
              · by_cases hyD : y = D
                · rw [hyD] at hc ⊢
                  rw [fr1 D hDn] at hc
                  exact (dD c).mpr (Or.inl hc)
                · rw [(keep y hyD).2.1]; exact hc
              · by_cases hyD : y = D
                · rw [hyD] at hc ⊢
                  rw [fr1 D hDn] at hc
                  rw [fD]; exact hc
                · rw [(keep y hyD).1]; exact hc
            have sd : Sub T2.heap D t.next := Sub.dir Sub.self ((dD t.next).mpr (Or.inr rfl))
            exact Sub.through_loop st2 hDn2 fr3 cmd cmf (sd.trans sx2)
          · exact cs x (by omega) h2
        · intro c hc
          exact cmd c ((dD c).mpr (Or.inl hc))
        · intro c hc
          exact cmf c (by rw [fD]; exact hc)
end

/-! ## Coverage of the initial scan -/

/-- The scan of the scenario of the specification, from an empty index: the root directory
`A` (object `0`) is created, and the listener is called for `a.txt`, for `b.txt` and for the
directory `B`, but never for the root. -/
theorem BuildRootTree_fires_no_event_for_root :
    (DirectoryTree.empty.AddDirTreeEventListener 0).directories = [] ∧
    (DirectoryTree.empty.AddDirTreeEventListener 0).log = [] ∧
    specDisk.distinctNames = true ∧
    (DirectoryTree.empty.AddDirTreeEventListener 0).BuildRootTree 3 ["home", "A"] specDisk =
      .ok specTree ∧
    specTree.GetRootDirectory = some 0 ∧
    IsDirectory specTree.heap 0 = true ∧ GetPath specTree.heap 0 = ["A"] ∧
    specTree.callsAfter 0 =
      [ { listener := 0, callback := .OnFileAdded, entity := 1, oldPath := none,
          path := ["A", "a.txt"] },
        { listener := 0, callback := .OnFileAdded, entity := 3, oldPath := none,
          path := ["A", "B", "b.txt"] },
        { listener := 0, callback := .OnDirectoryAdded, entity := 2, oldPath := none,
          path := ["A", "B"] } ] :=
  ⟨rfl, rfl, by decide!, Outcome.ok_of_returned (by decide!), by decide!, by decide!,
    by decide!, by decide!⟩

/-- C28 (as the code has it): `BuildRootTree` on a sound tree with an empty path index, for a
scan with distinct names (a directory listed without a failing read), returns when the stack
suffices, and then the objects created are
exactly those below the root; in creation order the new `Directory` objects have the paths of
the scanned directories (the root first, paths relative to the parent of the watched root)
and the new `File` objects those of the scanned regular files; the path index consists of
one binding for each new directory, from its path to it, and looks up exactly these; and
exactly one event, an added-event, is fired for every object created other than the root
directory. -/
theorem initial_scan_coverage (t : DirectoryTree) (p : Path) (scan : DiskDirectory)
    (st : SoundTree t) (hempty : t.directories = []) (hdist : scan.distinctNames = true) :
    (∃ f0, ∀ fuel, f0 ≤ fuel → (t.BuildRootTree fuel p scan).returned = true) ∧
    ∀ fuel t1, t.BuildRootTree fuel p scan = .ok t1 →
      t1.GetRootDirectory = some t.next ∧
      (∀ x, Sub t1.heap t.next x ↔ t.next ≤ x ∧ x < t1.next) ∧
      (createdDirectories t1.heap t.next t1.next).map (GetPath t1.heap) =
        scan.dirPaths [filename p] ∧
      (createdFiles t1.heap t.next t1.next).map (GetPath t1.heap) =
        scan.filePaths [filename p] ∧
      t1.directories =
        (createdDirectories t1.heap t.next t1.next).map (fun x => (GetPath t1.heap x, x)) ∧
      (∀ k v, t1.GetDirectory k = some v ↔
        (t.next ≤ v ∧ v < t1.next) ∧ (t1.heap v).kind = .DIRECTORY ∧ GetPath t1.heap v = k) ∧
      ∃ events, t1.log = t.log ++ fanOut t.listeners events ∧
        (events.map Event.entity).Perm (List.range' (t.next + 1) (t1.next - (t.next + 1))) ∧
        ∀ e ∈ events, e.isAdded := by
  refine ⟨BuildRootTree_returns st p scan, fun fuel t1 e => ?_⟩
  obtain ⟨hroot, hlt, events, s⟩ := BuildRootTree_events st e
  have st1 := BuildRootTree_sound st e
  unfold DirectoryTree.BuildRootTree at e
  cases hb : DirectoryTree.BuildTree fuel { t with rootDirAbsParentPath := parent_path p }
      [filename p] scan with
  | none => rw [hb] at e; cases e
  | some r =>
    obtain ⟨t2, root⟩ := r
    rw [hb] at e
    simp only [Outcome.ok.injEq] at e
    have st0 : SoundTree { t with rootDirAbsParentPath := parent_path p } := st
    obtain ⟨_, _, _, fr, _⟩ := BuildTree_result st0 hb
    have fr1 : ∀ x, x < t.next → t2.heap x = t.heap x := fr
    obtain ⟨cd, cf, ci, cs⟩ := BuildTree_covers scan fuel _ [filename p] _ st0 hdist
      (fun kv hkv => by rw [hempty] at hkv; cases hkv) hb
    have cd1 : (createdDirectories t2.heap t.next t2.next).map (GetPath t2.heap) =
        scan.dirPaths [filename p] := cd
    have cf1 : (createdFiles t2.heap t.next t2.next).map (GetPath t2.heap) =
        scan.filePaths [filename p] := cf
    have ci1 : t2.directories = t.directories ++
        (createdDirectories t2.heap t.next t2.next).map (fun x => (GetPath t2.heap x, x)) := ci
    have cs1 : ∀ x, t.next ≤ x → x < t2.next → Sub t2.heap t.next x := cs
    rw [hempty, List.nil_append] at ci1
    subst e
    have hlt2 : t.next < t2.next := hlt
    have keys : (t2.directories.map Prod.fst).Nodup := by
      rw [ci1, List.map_map]
      have : (Prod.fst ∘ fun x => (GetPath t2.heap x, x)) = GetPath t2.heap := rfl
      rw [this, cd1]
      exact DiskDirectory.dirPaths_nodup scan _ hdist
    refine ⟨hroot, fun x => ⟨fun hs => ⟨?_, ?_⟩, fun hx => cs1 x hx.1 hx.2⟩, cd1, cf1, ci1,
      fun k v => ⟨fun hf => ?_, fun hv => ?_⟩, events, s.1, s.2.1, fun a ha => (s.2.2.1 a ha).1⟩
    · exact Sub.above st.1 st1.1 (Nat.le_refl _) hlt2
        (fun y hy => by show (t2.heap y).parentDir = _; rw [fr1 y hy]) x hs
    · exact Sub.lt st1.1.1 hlt2 hs
    · have hm : (k, v) ∈ t2.directories := mapFind_mem _ k v hf
      rw [ci1] at hm
      obtain ⟨x, hx, hxe⟩ := List.mem_map.mp hm
      simp only [Prod.mk.injEq] at hxe
      obtain ⟨h1, h2⟩ := mem_createdDirectories.mp hx
      rw [← hxe.2]
      exact ⟨h1, h2, hxe.1⟩
    · have hm : (k, v) ∈ t2.directories := by
        rw [ci1]
        exact List.mem_map.mpr ⟨v, mem_createdDirectories.mpr ⟨hv.1, hv.2.1⟩,
          by rw [hv.2.2]⟩
      exact mapFind_of_mem _ k v keys hm

theorem initial_scan_coverage_witness :
    SoundTree (DirectoryTree.empty.AddDirTreeEventListener 0) ∧
    (DirectoryTree.empty.AddDirTreeEventListener 0).directories = [] ∧
    sampleDisk.distinctNames = true ∧
    (∃ f0, ∀ fuel, f0 ≤ fuel →
      ((DirectoryTree.empty.AddDirTreeEventListener 0).BuildRootTree fuel ["home", "A"]
        sampleDisk).returned = true) ∧
    ∀ fuel t1,
      (DirectoryTree.empty.AddDirTreeEventListener 0).BuildRootTree fuel ["home", "A"]
        sampleDisk = .ok t1 →
      t1.GetRootDirectory = some (DirectoryTree.empty.AddDirTreeEventListener 0).next ∧
      (∀ x, Sub t1.heap (DirectoryTree.empty.AddDirTreeEventListener 0).next x ↔
        (DirectoryTree.empty.AddDirTreeEventListener 0).next ≤ x ∧ x < t1.next) ∧
      (createdDirectories t1.heap (DirectoryTree.empty.AddDirTreeEventListener 0).next
          t1.next).map (GetPath t1.heap) = sampleDisk.dirPaths [filename ["home", "A"]] ∧
      (createdFiles t1.heap (DirectoryTree.empty.AddDirTreeEventListener 0).next
          t1.next).map (GetPath t1.heap) = sampleDisk.filePaths [filename ["home", "A"]] ∧
      t1.directories =
        (createdDirectories t1.heap (DirectoryTree.empty.AddDirTreeEventListener 0).next
          t1.next).map (fun x => (GetPath t1.heap x, x)) ∧
      (∀ k v, t1.GetDirectory k = some v ↔
        ((DirectoryTree.empty.AddDirTreeEventListener 0).next ≤ v ∧ v < t1.next) ∧
          (t1.heap v).kind = .DIRECTORY ∧ GetPath t1.heap v = k) ∧
      ∃ events, t1.log = (DirectoryTree.empty.AddDirTreeEventListener 0).log ++
          fanOut (DirectoryTree.empty.AddDirTreeEventListener 0).listeners events ∧
        (events.map Event.entity).Perm
          (List.range' ((DirectoryTree.empty.AddDirTreeEventListener 0).next + 1)
            (t1.next - ((DirectoryTree.empty.AddDirTreeEventListener 0).next + 1))) ∧
        ∀ e ∈ events, e.isAdded :=
  have st : SoundTree (DirectoryTree.empty.AddDirTreeEventListener 0) :=
    ⟨⟨fun x hx => absurd hx (Nat.not_lt_zero x), fun x hx => absurd hx (Nat.not_lt_zero x)⟩,
      fun kv hkv => by cases hkv⟩
  have hd : sampleDisk.distinctNames = true := by decide!
  ⟨st, rfl, hd,
    initial_scan_coverage (DirectoryTree.empty.AddDirTreeEventListener 0) ["home", "A"]
      sampleDisk st rfl hd⟩

/-! ## Change event records -/

/-- C33 (change event records).  `CreateAddedEvent(p)` has type `ADDED`, `newPath = p` and
an empty `oldPath`; `CreateRemovedEvent(p)` and `CreateModifiedEvent(p)` have type `REMOVED`
and `MODIFIED`, `oldPath = p` and an empty `newPath`; `CreateMovedEvent(o, n)` and
`CreateRenamedEvent(o, n)` have type `MOVED` and `RENAMED`, `oldPath = o` and
`newPath = n`. -/
theorem change_event_records (p o n : Path) :
    ((FileEvent.CreateAddedEvent p).type = .ADDED ∧
      (FileEvent.CreateAddedEvent p).newPath = p ∧ (FileEvent.CreateAddedEvent p).oldPath = []) ∧
    ((FileEvent.CreateRemovedEvent p).type = .REMOVED ∧
      (FileEvent.CreateRemovedEvent p).oldPath = p ∧
      (FileEvent.CreateRemovedEvent p).newPath = []) ∧
    ((FileEvent.CreateModifiedEvent p).type = .MODIFIED ∧
      (FileEvent.CreateModifiedEvent p).oldPath = p ∧
      (FileEvent.CreateModifiedEvent p).newPath = []) ∧
    ((FileEvent.CreateMovedEvent o n).type = .MOVED ∧
      (FileEvent.CreateMovedEvent o n).oldPath = o ∧
      (FileEvent.CreateMovedEvent o n).newPath = n) ∧
    ((FileEvent.CreateRenamedEvent o n).type = .RENAMED ∧
      (FileEvent.CreateRenamedEvent o n).oldPath = o ∧
      (FileEvent.CreateRenamedEvent o n).newPath = n) :=
  ⟨⟨rfl, rfl, rfl⟩, ⟨rfl, rfl, rfl⟩, ⟨rfl, rfl, rfl⟩, ⟨rfl, rfl, rfl⟩, ⟨rfl, rfl, rfl⟩⟩

/-! ## The hand-off queue of the watcher -/

/-- The invariant of a run: what was retrieved, followed by what is left in the queue, is
what was in the queue, followed by what was added. -/
theorem FileSystemWatcher.run_spec : ∀ (calls : List WatcherCall) (w w1 : FileSystemWatcher)
    (retrieved : List FileEvent), FileSystemWatcher.run calls w = some (retrieved, w1) →
    retrieved ++ w1.fileEvents = w.fileEvents ++ addedEvents calls ∧
    retrieved.length = retrieveCount calls
  | [], w, w1, retrieved, e => by
    simp only [FileSystemWatcher.run, Option.some.injEq, Prod.mk.injEq] at e
    obtain ⟨rfl, rfl⟩ := e
    simp [addedEvents, retrieveCount]
  | .AddFileEvent a :: calls, w, w1, retrieved, e => by
    simp only [FileSystemWatcher.run] at e
    obtain ⟨h1, h2⟩ := FileSystemWatcher.run_spec calls _ w1 retrieved e
    refine ⟨?_, h2⟩
    rw [h1]
    simp [FileSystemWatcher.AddFileEvent, addedEvents]
  | .RetrieveFileEvent :: calls, w, w1, retrieved, e => by
    simp only [FileSystemWatcher.run] at e
    cases hq : w.fileEvents with
    | nil =>
      simp [FileSystemWatcher.RetrieveFileEvent, hq] at e
    | cons a rest =>
      simp only [FileSystemWatcher.RetrieveFileEvent, hq] at e
      cases hr : FileSystemWatcher.run calls { w with fileEvents := rest } with
      | none => simp [hr] at e
      | some r =>
        obtain ⟨r1, w2⟩ := r
        simp only [hr, Option.some.injEq, Prod.mk.injEq] at e
        obtain ⟨rfl, rfl⟩ := e
        obtain ⟨h1, h2⟩ := FileSystemWatcher.run_spec calls _ w2 r1 hr
        refine ⟨?_, by simp [retrieveCount, h2]⟩
        simp only [List.cons_append, h1]
        simp [addedEvents]

/-- C34 (the hand-off queue is first-in-first-out).  For every sequence of `AddFileEvent` and
`RetrieveFileEvent` calls on a freshly constructed watcher in which no `RetrieveFileEvent`
is made on an empty queue: there is one retrieved event per `RetrieveFileEvent`, the `k`-th
retrieved event is the `k`-th event passed to `AddFileEvent`, the queue holds the remaining
added events in order, `FileEventsAvailable()` is the number of adds minus the number of
retrieves, and `HasFileEvents()` is true exactly when that number is not zero. -/
theorem watcher_queue_fifo (calls : List WatcherCall) (retrieved : List FileEvent)
    (w1 : FileSystemWatcher)
    (hrun : FileSystemWatcher.run calls FileSystemWatcher.new = some (retrieved, w1)) :
    retrieved.length = retrieveCount calls ∧
    (∀ k, k < retrieveCount calls → retrieved[k]? = (addedEvents calls)[k]?) ∧
    retrieved = (addedEvents calls).take (retrieveCount calls) ∧
    w1.fileEvents = (addedEvents calls).drop (retrieveCount calls) ∧
    w1.FileEventsAvailable = (addedEvents calls).length - retrieveCount calls ∧
    (w1.HasFileEvents = true ↔ (addedEvents calls).length - retrieveCount calls ≠ 0) := by
  obtain ⟨h1, h2⟩ := FileSystemWatcher.run_spec calls _ w1 retrieved hrun
  have h3 : retrieved ++ w1.fileEvents = addedEvents calls := by
    rw [h1]; rfl
  have ht : retrieved = (addedEvents calls).take (retrieveCount calls) := by
    rw [← h3, ← h2, List.take_left']
    rfl
  have hd : w1.fileEvents = (addedEvents calls).drop (retrieveCount calls) := by
    rw [← h3, ← h2, List.drop_left']
    rfl
  have hn : w1.FileEventsAvailable = (addedEvents calls).length - retrieveCount calls := by
    unfold FileSystemWatcher.FileEventsAvailable
    rw [hd, List.length_drop]
  refine ⟨h2, fun k hk => ?_, ht, hd, hn, ?_⟩
  · rw [ht, List.getElem?_take_of_lt hk]
  · rw [← hn]
    unfold FileSystemWatcher.HasFileEvents FileSystemWatcher.FileEventsAvailable
    cases w1.fileEvents <;> simp

/-- Witness for C34: add `e1`, add `e2`, retrieve, add `e3`, retrieve. -/
theorem watcher_queue_fifo_witness :
    FileSystemWatcher.run
        [.AddFileEvent (FileEvent.CreateAddedEvent ["A", "x"]),
         .AddFileEvent (FileEvent.CreateRemovedEvent ["A", "y"]),
         .RetrieveFileEvent,
         .AddFileEvent (FileEvent.CreateModifiedEvent ["A", "z"]),
         .RetrieveFileEvent] FileSystemWatcher.new =
      some ([FileEvent.CreateAddedEvent ["A", "x"], FileEvent.CreateRemovedEvent ["A", "y"]],
        { fileEvents := [FileEvent.CreateModifiedEvent ["A", "z"]] }) ∧
    FileSystemWatcher.FileEventsAvailable
        { fileEvents := [FileEvent.CreateModifiedEvent ["A", "z"]] } = 3 - 2 :=
  ⟨rfl,
   (watcher_queue_fifo
      [.AddFileEvent (FileEvent.CreateAddedEvent ["A", "x"]),
       .AddFileEvent (FileEvent.CreateRemovedEvent ["A", "y"]),
       .RetrieveFileEvent,
       .AddFileEvent (FileEvent.CreateModifiedEvent ["A", "z"]),
       .RetrieveFileEvent]
      [FileEvent.CreateAddedEvent ["A", "x"], FileEvent.CreateRemovedEvent ["A", "y"]]
      { fileEvents := [FileEvent.CreateModifiedEvent ["A", "z"]] } rfl).2.2.2.2.1⟩

/-! ## The cached timestamp -/

theorem UpdateStatus_time (e : DirectoryEntry) (o : Option Int) :
    e.lastWriteTime ≤ (e.UpdateStatus o).lastWriteTime ∧
    (∀ time, o = some time → (e.UpdateStatus o).lastWriteTime = max e.lastWriteTime time) ∧
    (o = none → (e.UpdateStatus o).lastWriteTime = e.lastWriteTime) ∧
    ((e.UpdateStatus o).modified = true ↔ e.lastWriteTime < (e.UpdateStatus o).lastWriteTime) := by
  cases o with
  | none =>
    obtain ⟨h1, h2⟩ := UpdateStatus_unreadable e
    rw [h1, h2]
    simp
  | some time =>
    rcases lt_or_le e.lastWriteTime time with h | h
    · obtain ⟨h1, h2⟩ := UpdateStatus_newer e time h
      rw [h1, h2]
      refine ⟨le_of_lt h, fun t ht => ?_, fun hn => (by cases hn), (by simp [h])⟩
      cases ht
      exact (max_eq_right (le_of_lt h)).symm
    · obtain ⟨h1, h2⟩ := UpdateStatus_not_newer e time h
      rw [h1, h2]
      refine ⟨le_refl _, fun t ht => ?_, fun hn => (by cases hn), (by simp)⟩
      cases ht
      exact (max_eq_left h).symm

theorem updateStatusAll_append (e : DirectoryEntry) (os1 os2 : List (Option Int)) :
    updateStatusAll e (os1 ++ os2) = updateStatusAll (updateStatusAll e os1) os2 := by
  unfold updateStatusAll
  rw [List.foldl_append]

theorem updateStatusAll_mono : ∀ (os : List (Option Int)) (e : DirectoryEntry),
    e.lastWriteTime ≤ (updateStatusAll e os).lastWriteTime
  | [], _ => le_refl _
  | o :: os, e =>
    le_trans (UpdateStatus_time e o).1 (updateStatusAll_mono os (e.UpdateStatus o))

/-- C36 (the cached timestamp is monotone).  For every entry and every sequence of
`UpdateStatus` calls with arbitrary observed timestamps and read failures: `lastWriteTime`
after a longer sequence of calls is never below its value after a shorter one; one call
with a readable timestamp `time` leaves the maximum of the previous value and `time`, one
call with a failed read leaves the previous value; and `Modified()` is true after a call
exactly when that call strictly increased `lastWriteTime`. -/
theorem cached_timestamp_monotone (e : DirectoryEntry) (os1 os2 : List (Option Int))
    (o : Option Int) :
    (updateStatusAll e os1).lastWriteTime ≤ (updateStatusAll e (os1 ++ os2)).lastWriteTime ∧
    e.lastWriteTime ≤ (updateStatusAll e os1).lastWriteTime ∧
    updateStatusAll e (os1 ++ [o]) = (updateStatusAll e os1).UpdateStatus o ∧
    (∀ time, o = some time →
      (updateStatusAll e (os1 ++ [o])).lastWriteTime =
        max (updateStatusAll e os1).lastWriteTime time) ∧
    (o = none →
      (updateStatusAll e (os1 ++ [o])).lastWriteTime = (updateStatusAll e os1).lastWriteTime) ∧
    ((updateStatusAll e (os1 ++ [o])).modified = true ↔
      (updateStatusAll e os1).lastWriteTime <
        (updateStatusAll e (os1 ++ [o])).lastWriteTime) := by
  have hstep : updateStatusAll e (os1 ++ [o]) = (updateStatusAll e os1).UpdateStatus o := by
    rw [updateStatusAll_append]
    rfl
  obtain ⟨_, h2, h3, h4⟩ := UpdateStatus_time (updateStatusAll e os1) o
  refine ⟨?_, updateStatusAll_mono os1 e, hstep, ?_, ?_, ?_⟩
  · rw [updateStatusAll_append]
    exact updateStatusAll_mono os2 _
  · rw [hstep]; exact h2
  · rw [hstep]; exact h3
  · rw [hstep]; exact h4

/-! ## Fresh entries -/

theorem fresh_entry_status (e : DirectoryEntry) (time : Int) :
    ((e.UpdateStatus (some time)).UpdateStatus (some time)).lastWriteTime =
      max e.lastWriteTime time ∧
    ((e.UpdateStatus (some time)).UpdateStatus (some time)).modified = false := by
  have h1 := (UpdateStatus_time e (some time)).2.1 time rfl
  have h2 : time ≤ (e.UpdateStatus (some time)).lastWriteTime := by
    rw [h1]; exact le_max_right _ _
  obtain ⟨h3, h4⟩ := UpdateStatus_not_newer (e.UpdateStatus (some time)) time h2
  exact ⟨h3.trans h1, h4⟩

/-- C35 fails for a timestamp before the default-constructed one.  `CreateFile` and
`CreateDirectory` with the same readable timestamp `time` in both reads return an entry with
`Modified() = false` whose `GetLastWriteTime()` is the later of `time` and the
default-constructed `lastWriteTime{}` (the epoch of the file clock, `0`): it is `time` when
`time` is not before the epoch.  For `time = -1` the first `UpdateStatus` finds
`time > lastWriteTime` false and keeps the epoch: `GetLastWriteTime()` is `0`, not `-1`. -/
theorem fresh_entry_before_epoch_keeps_default_time :
    (∀ (t : DirectoryTree) (p : Path) (time : Int),
      GetLastWriteTime (t.CreateFile p (some time) (some time)).1.heap
          (t.CreateFile p (some time) (some time)).2 = max 0 time ∧
      Modified (t.CreateFile p (some time) (some time)).1.heap
          (t.CreateFile p (some time) (some time)).2 = false ∧
      GetLastWriteTime (t.CreateDirectory p (some time) (some time)).1.heap
          (t.CreateDirectory p (some time) (some time)).2 = max 0 time ∧
      Modified (t.CreateDirectory p (some time) (some time)).1.heap
          (t.CreateDirectory p (some time) (some time)).2 = false) ∧
    (∀ (t : DirectoryTree) (p : Path) (time : Int), 0 ≤ time →
      GetLastWriteTime (t.CreateFile p (some time) (some time)).1.heap
          (t.CreateFile p (some time) (some time)).2 = time ∧
      GetLastWriteTime (t.CreateDirectory p (some time) (some time)).1.heap
          (t.CreateDirectory p (some time) (some time)).2 = time) ∧
    (newFile ["A", "old.txt"]).lastWriteTime = 0 ∧
    ((newFile ["A", "old.txt"]).UpdateStatus (some (-1))).lastWriteTime = 0 ∧
    GetLastWriteTime (specTree.CreateFile ["A", "old.txt"] (some (-1)) (some (-1))).1.heap
        (specTree.CreateFile ["A", "old.txt"] (some (-1)) (some (-1))).2 = 0 ∧
    GetLastWriteTime (specTree.CreateDirectory ["A", "old"] (some (-1)) (some (-1))).1.heap
        (specTree.CreateDirectory ["A", "old"] (some (-1)) (some (-1))).2 = 0 := by
  have gen : ∀ (t : DirectoryTree) (p : Path) (time : Int),
      GetLastWriteTime (t.CreateFile p (some time) (some time)).1.heap
          (t.CreateFile p (some time) (some time)).2 = max 0 time ∧
      Modified (t.CreateFile p (some time) (some time)).1.heap
          (t.CreateFile p (some time) (some time)).2 = false ∧
      GetLastWriteTime (t.CreateDirectory p (some time) (some time)).1.heap
          (t.CreateDirectory p (some time) (some time)).2 = max 0 time ∧
      Modified (t.CreateDirectory p (some time) (some time)).1.heap
          (t.CreateDirectory p (some time) (some time)).2 = false := by
    intro t p time
    obtain ⟨f1, f2⟩ := fresh_entry_status (newFile p) time
    obtain ⟨d1, d2⟩ := fresh_entry_status (newDirectory p) time
    unfold GetLastWriteTime Modified DirectoryTree.CreateFile DirectoryTree.CreateDirectory
    simp only [store_same]
    exact ⟨f1, f2, d1, d2⟩
  refine ⟨gen, fun t p time h0 => ?_, rfl, by decide, ?_, ?_⟩
  · obtain ⟨a, _, c, _⟩ := gen t p time
    rw [a, c, max_eq_right h0]
    exact ⟨rfl, rfl⟩
  · rw [(gen specTree ["A", "old.txt"] (-1)).1]; decide
  · rw [(gen specTree ["A", "old"] (-1)).2.2.1]; decide

/-! ## Clearing the tree -/

/-- C31 fails: `ClearTree` only resets `rootDir`.  Afterwards `GetRootDirectory()` is empty,
but `GetDirectory(p)` returns for every path what it returned before.  In the scenario tree
the paths `A` and `A/B` are still bound to the directories of the discarded tree. -/
theorem ClearTree_keeps_index :
    (∀ (t : DirectoryTree) (p : Path),
      t.ClearTree.GetRootDirectory = none ∧ t.ClearTree.GetDirectory p = t.GetDirectory p ∧
      t.ClearTree.directories = t.directories) ∧
    specTree.GetRootDirectory = some 0 ∧
    specTree.ClearTree.GetDirectory ["A"] = some 0 ∧
    specTree.ClearTree.GetDirectory ["A", "B"] = some 2 :=
  ⟨fun _ _ => ⟨rfl, rfl, rfl⟩, by decide!, by decide!, by decide!⟩

/-! ## Deleting a child by name -/

theorem find_at_findIdx (p : Nat → Bool) : ∀ (xs : List Nat), xs.find? p = xs[xs.findIdx p]?
  | [] => rfl
  | x :: xs => by
    rw [List.findIdx_cons, List.find?_cons]
    cases hp : p x
    · simp only [cond_false, List.getElem?_cons_succ]
      exact find_at_findIdx p xs
    · simp

theorem eraseIdx_eq_filter : ∀ (xs : List Nat) (i c : Nat), xs.Nodup → xs[i]? = some c →
    xs.eraseIdx i = xs.filter (fun d => d ≠ c)
  | [], i, c, _, e => by simp at e
  | x :: xs, 0, c, hn, e => by
    simp only [List.getElem?_cons_zero, Option.some.injEq] at e
    subst e
    have hx := (List.nodup_cons.mp hn).1
    simp only [List.eraseIdx_cons_zero, ne_eq, not_true_eq_false, decide_False,
      Bool.false_eq_true, not_false_eq_true, List.filter_cons_of_neg]
    symm
    rw [List.filter_eq_self]
    intro a ha
    simp only [decide_eq_true_eq]
    rintro rfl
    exact hx ha
  | x :: xs, i + 1, c, hn, e => by
    simp only [List.getElem?_cons_succ] at e
    obtain ⟨hx, hn1⟩ := List.nodup_cons.mp hn
    have hc : c ∈ xs := List.mem_iff_getElem?.mpr ⟨i, e⟩
    have hxc : x ≠ c := fun h => hx (h ▸ hc)
    simp only [List.eraseIdx_cons_succ]
    rw [List.filter_cons_of_pos (by simpa using hxc), eraseIdx_eq_filter xs i c hn1 e]

theorem store_comm (h : Heap) {a b : Nat} (hab : a ≠ b) (e1 e2 : DirectoryEntry) :
    store (store h a e1) b e2 = store (store h b e2) a e1 := by
  funext x
  unfold store
  by_cases h1 : x = a
  · subst h1; simp [hab]
  · by_cases h2 : x = b
    · subst h2; simp [h1]
    · simp [h1, h2]

theorem store_store (h : Heap) (a : Nat) (e1 e2 : DirectoryEntry) :
    store (store h a e1) a e2 = store h a e2 := by
  funext x
  unfold store
  by_cases h1 : x = a <;> simp [h1]

theorem Free.pathOnly {h h1 : Heap} {P d : Nat} (f : Free h P d) (a : PathOnly h h1) :
    Free h1 P d := by
  intro x hs
  have := f x ((a.sub_iff d x).mp hs)
  rw [a.parentDir]
  exact this

theorem Free.child {h : Heap} {P d c : Nat} (f : Free h P d) (hs : Sub h d c) : Free h P c :=
  fun x hx => f x (hs.trans hx)

theorem entry_UpdatePath_frame (h : Heap) {P d : Nat} (e : DirectoryEntry) (hd : d ≠ P)
    (hp : (h d).parentDir ≠ some P) :
    DirectoryEntry.UpdatePath (store h P e) d = store (DirectoryEntry.UpdatePath h d) P e := by
  unfold DirectoryEntry.UpdatePath
  rw [store_other h P d e hd]
  simp only
  cases hq : (h d).parentDir with
  | none => exact store_comm h (Ne.symm hd) _ _
  | some p =>
    have hpP : p ≠ P := fun e1 => hp (by rw [hq, e1])
    simp only
    rw [store_other h P p e hpP]
    exact store_comm h (Ne.symm hd) _ _

theorem updateFiles_frame {P : Nat} (e : DirectoryEntry) : ∀ (fs : List Nat) (h : Heap),
    (∀ f ∈ fs, f ≠ P ∧ (h f).parentDir ≠ some P) →
    updateFiles (store h P e) fs = store (updateFiles h fs) P e
  | [], _, _ => rfl
  | f :: fs, h, hf => by
    unfold updateFiles File.UpdatePath
    obtain ⟨h1, h2⟩ := hf f (List.mem_cons_self _ _)
    rw [entry_UpdatePath_frame h e h1 h2]
    apply updateFiles_frame e fs
    intro g hg
    have := hf g (List.mem_cons_of_mem _ hg)
    rw [(DirectoryEntry.UpdatePath_pathOnly h f).parentDir]
    exact this

theorem updateDirectories_frame {P : Nat} (e : DirectoryEntry)
    (rec : Heap → Nat → Option Heap)
    (hpo : ∀ h d h1, rec h d = some h1 → PathOnly h h1)
    (hrec : ∀ h c, Free h P c → rec (store h P e) c = (rec h c).map (fun H => store H P e)) :
    ∀ (ds : List Nat) (h : Heap), (∀ c ∈ ds, Free h P c) →
    updateDirectories rec (store h P e) ds =
      (updateDirectories rec h ds).map (fun H => store H P e)
  | [], _, _ => rfl
  | c :: ds, h, hf => by
    unfold updateDirectories
    rw [hrec h c (hf c (List.mem_cons_self _ _))]
    cases hr : rec h c with
    | none => rfl
    | some h1 =>
      simp only [Option.map_some']
      apply updateDirectories_frame e rec hpo hrec ds
      intro c1 hc1
      exact (hf c1 (List.mem_cons_of_mem _ hc1)).pathOnly (hpo _ _ _ hr)

/-- The cascade of `Directory::UpdatePath` on `d` neither reads nor writes an object `P`
that is not below `d` and is the parent of nothing below `d`. -/
theorem Directory.UpdatePath_frame {P : Nat} (e : DirectoryEntry) :
    ∀ (fuel : Nat) (h : Heap) (d : Nat), Free h P d →
      Directory.UpdatePath fuel (store h P e) d =
        (Directory.UpdatePath fuel h d).map (fun H => store H P e)
  | 0, _, _, _ => rfl
  | fuel + 1, h, d, f => by
    unfold Directory.UpdatePath
    simp only
    obtain ⟨hd, hp⟩ := f d Sub.self
    have a := DirectoryEntry.UpdatePath_pathOnly h d
    rw [entry_UpdatePath_frame h e hd hp, store_other _ P d e hd]
    have b := updateFiles_pathOnly (DirectoryEntry.UpdatePath h d d).files
      (DirectoryEntry.UpdatePath h d)
    rw [updateFiles_frame e]
    · apply updateDirectories_frame e _ (Directory.UpdatePath_onlyPaths fuel)
        (Directory.UpdatePath_frame e fuel)
      intro c hc
      rw [a.directories] at hc
      exact (f.child (Sub.dir Sub.self hc)).pathOnly (a.andThen b)
    · intro g hg
      rw [a.files] at hg
      have := f g (Sub.file Sub.self hg)
      rw [a.parentDir]
      exact this

theorem store_self (h : Heap) (a : Nat) : store h a (h a) = h := by
  funext x
  unfold store
  by_cases h1 : x = a
  · subst h1; simp
  · simp [h1]

/-- On a store of tree shape, deleting a child directory by name is deleting, by pointer, the
first child directory with that name. -/
theorem Directory.DeleteDirectoryNamed_eq {h : Heap} {n P c : Nat} {name : String}
    (gh : GoodHeap h n) (hP : P < n) (hc : Directory.GetDirectory h P name = some c)
    (fuel : Nat) :
    Directory.DeleteDirectoryNamed fuel h P name = Directory.DeleteDirectory fuel h P c := by
  obtain ⟨hcm, _⟩ := Directory.GetDirectory_some hc
  obtain ⟨hcn, hck, hcp⟩ := gh.1.parent_of_dir hP hcm
  have hPc : P ≠ c := gh.parent_ne hcn hcp
  have hat : (h P).directories[(h P).directories.findIdx
      (fun dir => decide (name = GetDirectoryName h dir))]? = some c := by
    rw [← find_at_findIdx]
    exact hc
  have hnd : (h P).directories.Nodup := (gh.1 P hP).2.2.1
  have hfree : Free (detached h P c) P c := by
    intro x hs
    have hs1 := (detach_sub gh hP hcm x).mp hs
    have hxP : x ≠ P := fun e => Sub.not_parent gh hcn hcp (e ▸ hs1)
    refine ⟨hxP, ?_⟩
    rw [detached_apply hPc]
    by_cases hxc : x = c
    · simp [hxc]
    · simp only [hxc, hxP, if_false]
      obtain ⟨p, hp, hsp⟩ := Sub.parent gh.1 hcn hs1 hxc
      rw [hp]
      intro e
      cases e
      exact Sub.not_parent gh hcn hcp hsp
  have hclear : store h c { h c with parentDir := none } =
      store (detached h P c) P (h P) := by
    funext x
    by_cases hxP : x = P
    · subst hxP
      rw [store_same, store_other _ _ _ _ hPc]
    · rw [store_other _ _ _ _ hxP, detached_apply hPc]
      by_cases hxc : x = c
      · subst hxc; simp
      · simp [hxc, hxP, store_other _ _ _ _ hxc]
  have hself := Directory.UpdatePath_frame (detached h P c P) fuel (detached h P c) c hfree
  rw [store_self] at hself
  unfold Directory.DeleteDirectoryNamed
  simp only
  rw [hat]
  simp only
  unfold Directory.ClearParentDirectory
  rw [hclear, Directory.UpdatePath_frame (h P) fuel (detached h P c) c hfree,
    Directory.DeleteDirectory_eq]
  cases hu : Directory.UpdatePath fuel (detached h P c) c with
  | none => rfl
  | some H1 =>
    rw [hu] at hself
    simp only [Option.map_some', Option.some.injEq] at hself ⊢
    rw [store_same, store_store, eraseIdx_eq_filter _ _ c hnd hat]
    have hP0 : detached h P c P =
        { h P with directories := (h P).directories.filter (fun d => d ≠ c) } := by
      rw [detached_apply hPc]
      simp [hPc]
    rw [← hP0]
    exact hself.symm

/-- On a store of tree shape, deleting a child file by name is deleting, by pointer, the
first child file with that name. -/
theorem Directory.DeleteFileNamed_eq {h : Heap} {n P f : Nat} {name : String}
    (gh : GoodHeap h n) (hP : P < n) (hf : Directory.GetFile h P name = some f) :
    Directory.DeleteFileNamed h P name = Directory.DeleteFile h P f := by
  obtain ⟨hfm, _⟩ := Directory.GetFile_some hf
  obtain ⟨hfn, hfk, hfp⟩ := gh.1.parent_of_file hP hfm
  have hPk := (gh.1.parent_is_dir hfn hfp).2
  have hPf : P ≠ f := by
    rintro rfl
    rw [hfk] at hPk
    cases hPk
  have hat : (h P).files[(h P).files.findIdx
      (fun file => decide (name = GetFullFileName h file))]? = some f := by
    rw [← find_at_findIdx]
    exact hf
  have hnd : (h P).files.Nodup := (gh.1 P hP).2.2.2.1
  have hclear : store h f { h f with parentDir := none } =
      store (detachedFile h P f) P (h P) := by
    funext x
    by_cases hxP : x = P
    · subst hxP
      rw [store_same, store_other _ _ _ _ hPf]
    · rw [store_other _ _ _ _ hxP, detachedFile_apply hPf]
      by_cases hxf : x = f
      · subst hxf; simp
      · simp [hxf, hxP, store_other _ _ _ _ hxf]
  have e : Directory.DeleteFile h P f = DirectoryEntry.UpdatePath (detachedFile h P f) f := rfl
  have hpar : (detachedFile h P f f).parentDir ≠ some P := by
    rw [detachedFile_parent_self hPf]
    intro e1; cases e1
  unfold Directory.DeleteFileNamed
  simp only
  rw [hat]
  simp only
  unfold File.ClearParentDirectory File.UpdatePath
  rw [hclear, entry_UpdatePath_frame _ (h P) (Ne.symm hPf) hpar, store_same, store_store,
    eraseIdx_eq_filter _ _ f hnd hat, e]
  have hP0 : DirectoryEntry.UpdatePath (detachedFile h P f) f P =
      { h P with files := (h P).files.filter (fun d => d ≠ f) } := by
    rw [DirectoryEntry.UpdatePath_other _ _ _ hPf, detachedFile_apply hPf]
    simp [hPf]
  rw [← hP0, store_self]

/-- C32 (delete by name).  In a store of tree shape, for every directory `this` and every
name: when no child directory has the name, `DeleteDirectory(name)` returns and leaves the
whole store as it is; when `c` is the (first) child directory with the name, it returns once
the stack suffices, the sequence of child directories is the old one with `c` erased, the
other children in their order, the files are untouched, the parent reference of `c` is
cleared, nothing outside the subtree of `c` other than `this` changes, and the store still
has tree shape.  `DeleteFile(name)` does the same for the child files, without recursion. -/
theorem delete_by_name (h : Heap) (n this : Nat) (name : String) (gh : GoodHeap h n)
    (hthis : this < n) :
    (Directory.GetDirectory h this name = none →
      ∀ fuel, Directory.DeleteDirectoryNamed fuel h this name = some h) ∧
    (∀ c, Directory.GetDirectory h this name = some c →
      ∃ f0, ∀ fuel, f0 ≤ fuel →
        ∃ H, Directory.DeleteDirectoryNamed fuel h this name = some H ∧
          (H this).directories = (h this).directories.erase c ∧
          c ∉ (H this).directories ∧ (H this).files = (h this).files ∧
          (H c).parentDir = none ∧ (∀ x, ¬ Sub h c x → x ≠ this → H x = h x) ∧
          GoodHeap H n) ∧
    (Directory.GetFile h this name = none → Directory.DeleteFileNamed h this name = h) ∧
    (∀ f, Directory.GetFile h this name = some f →
      (Directory.DeleteFileNamed h this name this).files = (h this).files.erase f ∧
      f ∉ (Directory.DeleteFileNamed h this name this).files ∧
      (Directory.DeleteFileNamed h this name this).directories = (h this).directories ∧
      (Directory.DeleteFileNamed h this name f).parentDir = none ∧
      (∀ x, x ≠ f → x ≠ this → Directory.DeleteFileNamed h this name x = h x) ∧
      GoodHeap (Directory.DeleteFileNamed h this name) n) := by
  refine ⟨fun hnone fuel => ?_, fun c hc => ?_, fun hnone => ?_, fun f hf => ?_⟩
  · unfold Directory.DeleteDirectoryNamed
    simp only
    rw [← find_at_findIdx]
    unfold Directory.GetDirectory at hnone
    rw [hnone]
  · obtain ⟨hcm, _⟩ := Directory.GetDirectory_some hc
    obtain ⟨hcn, hck, hcp⟩ := gh.1.parent_of_dir hthis hcm
    have hPc : this ≠ c := gh.parent_ne hcn hcp
    have hnd : (h this).directories.Nodup := (gh.1 this hthis).2.2.1
    obtain ⟨f0, hf0⟩ := Directory.DeleteDirectory_spec gh hthis hcm
    refine ⟨f0, fun fuel hfuel => ?_⟩
    obtain ⟨H, e, u, g⟩ := hf0 fuel hfuel
    have hnot : ¬ Sub (detached h this c) c this := fun hs =>
      Sub.not_parent gh hcn hcp ((detach_sub gh hthis hcm this).mp hs)
    have hdirs : (H this).directories = (h this).directories.filter (fun d => d ≠ c) := by
      rw [u.1.directories, detached_apply hPc]
      simp [hPc]
    refine ⟨H, by rw [Directory.DeleteDirectoryNamed_eq gh hthis hc]; exact e, ?_, ?_, ?_, ?_,
      ?_, g⟩
    · rw [hdirs, hnd.erase_eq_filter]
      apply List.filter_congr
      intro x _
      by_cases hx : x = c <;> simp [hx]
    · rw [hdirs]
      simp [List.mem_filter]
    · rw [u.1.files, detached_files hPc]
    · rw [u.1.parentDir, detached_parent_self hPc]
    · intro x hx hxP
      rw [u.2.1 x (fun hs => hx ((detach_sub gh hthis hcm x).mp hs)), detached_apply hPc]
      have hxc : x ≠ c := fun e1 => hx (e1 ▸ Sub.self)
      simp [hxc, hxP]
  · unfold Directory.DeleteFileNamed
    simp only
    rw [← find_at_findIdx]
    unfold Directory.GetFile at hnone
    rw [hnone]
  · obtain ⟨hfm, _⟩ := Directory.GetFile_some hf
    obtain ⟨hfn, hfk, hfp⟩ := gh.1.parent_of_file hthis hfm
    have hPk := (gh.1.parent_is_dir hfn hfp).2
    have hPf : this ≠ f := by
      rintro rfl
      rw [hfk] at hPk
      cases hPk
    have hnd : (h this).files.Nodup := (gh.1 this hthis).2.2.2.1
    rw [Directory.DeleteFileNamed_eq gh hthis hf]
    obtain ⟨g, _, hp⟩ := Directory.DeleteFile_spec gh hthis hfm
    obtain ⟨a1, a2, _⟩ := Directory.DeleteFile_at_parent h this f
    have hfilter : (h this).files.filter (fun c => decide (c ≠ f)) = (h this).files.erase f := by
      rw [hnd.erase_eq_filter]
      apply List.filter_congr
      intro x _
      by_cases hx : x = f <;> simp [hx]
    refine ⟨by rw [a1, hfilter], by rw [a1]; simp [List.mem_filter], a2, hp, ?_, g⟩
    intro x hxf hxP
    have e : Directory.DeleteFile h this f =
        DirectoryEntry.UpdatePath (detachedFile h this f) f := rfl
    rw [e, DirectoryEntry.UpdatePath_other _ _ _ hxf, detachedFile_apply hPf]
    simp [hxf, hxP]

/-- Witness for C32: in the example tree, `A.DeleteDirectory("B")` leaves the directories
`[D]`, and `A.DeleteFile("a.txt")` leaves the files `[c.txt]`. -/
theorem delete_by_name_witness :
    ((Directory.DeleteDirectoryNamed 4 sampleTree.heap 0 "B").map
      (fun H => ((H 0).directories, (H 3).parentDir))) = some ([7], none) ∧
    ((Directory.DeleteFileNamed sampleTree.heap 0 "a.txt") 0).files = [2] ∧
    (Directory.GetDirectory sampleTree.heap 0 "B" = none →
      ∀ fuel, Directory.DeleteDirectoryNamed fuel sampleTree.heap 0 "B" =
        some sampleTree.heap) ∧
    (∀ c, Directory.GetDirectory sampleTree.heap 0 "B" = some c →
      ∃ f0, ∀ fuel, f0 ≤ fuel →
        ∃ H, Directory.DeleteDirectoryNamed fuel sampleTree.heap 0 "B" = some H ∧
          (H 0).directories = (sampleTree.heap 0).directories.erase c ∧
          c ∉ (H 0).directories ∧ (H 0).files = (sampleTree.heap 0).files ∧
          (H c).parentDir = none ∧
          (∀ x, ¬ Sub sampleTree.heap c x → x ≠ 0 → H x = sampleTree.heap x) ∧
          GoodHeap H sampleTree.next) ∧
    (Directory.GetFile sampleTree.heap 0 "B" = none →
      Directory.DeleteFileNamed sampleTree.heap 0 "B" = sampleTree.heap) ∧
    (∀ f, Directory.GetFile sampleTree.heap 0 "B" = some f →
      (Directory.DeleteFileNamed sampleTree.heap 0 "B" 0).files =
        (sampleTree.heap 0).files.erase f ∧
      f ∉ (Directory.DeleteFileNamed sampleTree.heap 0 "B" 0).files ∧
      (Directory.DeleteFileNamed sampleTree.heap 0 "B" 0).directories =
        (sampleTree.heap 0).directories ∧
      (Directory.DeleteFileNamed sampleTree.heap 0 "B" f).parentDir = none ∧
      (∀ x, x ≠ f → x ≠ 0 → Directory.DeleteFileNamed sampleTree.heap 0 "B" x =
        sampleTree.heap x) ∧
      GoodHeap (Directory.DeleteFileNamed sampleTree.heap 0 "B") sampleTree.next) :=
  ⟨by decide!, by decide!,
   delete_by_name sampleTree.heap sampleTree.next 0 "B"
     (GoodTree.sound (by decide! : GoodTree sampleTree)).1 (by decide! : 0 < sampleTree.next)⟩

/-! ## The three recursive accessors -/

theorem filter_files_only {h : Heap} {fs : List Nat} (hf : ∀ f ∈ fs, (h f).kind = .FILE) :
    fs.filter (IsFile h) = fs ∧ fs.filter (IsDirectory h) = [] := by
  constructor
  · rw [List.filter_eq_self]
    intro f hm
    unfold IsFile
    simp [hf f hm]
  · rw [List.filter_eq_nil_iff]
    intro f hm
    unfold IsDirectory
    simp [hf f hm]

theorem filter_kinds_length (h : Heap) : ∀ (l : List Nat),
    l.length = (l.filter (IsFile h)).length + (l.filter (IsDirectory h)).length
  | [] => rfl
  | x :: l => by
    have ih := filter_kinds_length h l
    cases hk : (h x).kind
    · have h1 : IsFile h x = false := by unfold IsFile; simp [hk]
      have h2 : IsDirectory h x = true := by unfold IsDirectory; simp [hk]
      simp only [List.filter_cons, h1, h2, List.length_cons, if_true, Bool.false_eq_true,
        if_false]
      omega
    · have h1 : IsFile h x = true := by unfold IsFile; simp [hk]
      have h2 : IsDirectory h x = false := by unfold IsDirectory; simp [hk]
      simp only [List.filter_cons, h1, h2, List.length_cons, if_true, Bool.false_eq_true,
        if_false]
      omega

/-- The loops of the three accessors agree when the recursive calls do. -/
theorem collect_agree {h : Heap} {recE recF recD : Nat → Option (List Nat)} :
    ∀ (ds : List Nat) (rest : List Nat), (∀ d ∈ ds, (h d).kind = .DIRECTORY) →
    (∀ d ∈ ds, ∀ le, recE d = some le →
      recF d = some (le.filter (IsFile h)) ∧ recD d = some (le.filter (IsDirectory h))) →
    collectEntries recE ds = some rest →
    collectFiles recF ds = some (rest.filter (IsFile h)) ∧
    collectEntries recD ds = some (rest.filter (IsDirectory h))
  | [], rest, _, _, e => by
    simp only [collectEntries, Option.some.injEq] at e
    subst e
    exact ⟨rfl, rfl⟩
  | d :: ds, rest, hk, hrec, e => by
    unfold collectEntries at e
    cases h1 : recE d with
    | none => simp [h1] at e
    | some sub =>
      cases h2 : collectEntries recE ds with
      | none => simp [h1, h2] at e
      | some rest1 =>
        simp only [h1, h2, Option.some.injEq] at e
        subst e
        obtain ⟨a1, a2⟩ := hrec d (List.mem_cons_self _ _) sub h1
        obtain ⟨b1, b2⟩ := collect_agree ds rest1
          (fun x hx => hk x (List.mem_cons_of_mem _ hx))
          (fun x hx => hrec x (List.mem_cons_of_mem _ hx)) h2
        have hd := hk d (List.mem_cons_self _ _)
        have f1 : IsFile h d = false := by unfold IsFile; simp [hd]
        have f2 : IsDirectory h d = true := by unfold IsDirectory; simp [hd]
        unfold collectFiles collectEntries
        rw [a1, a2, b1, b2]
        simp [List.filter_cons, f1, f2]

/-- Whenever `GetDirEntriesRecursive` returns, for whatever stack budget, the other two
accessors return with the same budget, and they return its files and its directories. -/
theorem recursive_agree {h : Heap} {n : Nat} (s : Shape h n) :
    ∀ (fuel : Nat) (d : Nat) (le : List Nat), d < n →
      Directory.GetDirEntriesRecursive fuel h d = some le →
      Directory.GetFilesRecursive fuel h d = some (le.filter (IsFile h)) ∧
      Directory.GetDirectoriesRecursive fuel h d = some (le.filter (IsDirectory h))
  | 0, _, _, _, e => by simp [Directory.GetDirEntriesRecursive] at e
  | fuel + 1, d, le, hd, e => by
    unfold Directory.GetDirEntriesRecursive at e
    cases h1 : collectEntries (Directory.GetDirEntriesRecursive fuel h) (h d).directories with
    | none => simp [h1] at e
    | some rest =>
      simp only [h1, Option.some.injEq] at e
      subst e
      obtain ⟨a1, a2⟩ := collect_agree (h := h) (h d).directories rest
        (fun c hc => (s.parent_of_dir hd hc).2.1)
        (fun c hc le1 he => recursive_agree s fuel c le1 (s.parent_of_dir hd hc).1 he) h1
      obtain ⟨f1, f2⟩ := @filter_files_only h (h d).files
        (fun f hf => (s.parent_of_file hd hf).2.1)
      unfold Directory.GetFilesRecursive Directory.GetDirectoriesRecursive
      rw [a1, a2, List.filter_append, List.filter_append, f1, f2]
      exact ⟨rfl, rfl⟩

/-- C37 (the three recursive accessors agree).  In a store of tree shape, for every
directory `d`: once the stack suffices the three accessors return; keeping only the files of
`GetDirEntriesRecursive(d)` gives `GetFilesRecursive(d)`, in the same order, keeping only the
directories gives `GetDirectoriesRecursive(d)`, in the same order, and the length of
`GetDirEntriesRecursive(d)` is the sum of the lengths of the other two. -/
theorem recursive_accessors_agree (h : Heap) (n d : Nat) (gh : GoodHeap h n) (hd : d < n) :
    ∃ f0, ∀ fuel, f0 ≤ fuel →
      ∃ entries files dirs,
        Directory.GetDirEntriesRecursive fuel h d = some entries ∧
        Directory.GetFilesRecursive fuel h d = some files ∧
        Directory.GetDirectoriesRecursive fuel h d = some dirs ∧
        entries.filter (IsFile h) = files ∧ entries.filter (IsDirectory h) = dirs ∧
        entries.length = files.length + dirs.length := by
  obtain ⟨m, dep, g⟩ : ∃ m dep, Graded h n dep m := by
    obtain ⟨m, g⟩ := gh.grading
    exact ⟨m, _, g⟩
  refine ⟨m + 1, fun fuel hf => ?_⟩
  obtain ⟨le, e, _⟩ := Directory.GetDirEntriesRecursive_spec gh.1 g fuel d hd (by omega)
  obtain ⟨a1, a2⟩ := recursive_agree gh.1 fuel d le hd e
  exact ⟨le, _, _, e, a1, a2, rfl, rfl, filter_kinds_length h le⟩

/-- Witness for C37: the directory `A` of the example tree. -/
theorem recursive_accessors_agree_witness :
    (Directory.GetDirEntriesRecursive 4 sampleTree.heap 0 = some [1, 2, 3, 4, 5, 6, 7] ∧
      Directory.GetFilesRecursive 4 sampleTree.heap 0 = some [1, 2, 4, 6] ∧
      Directory.GetDirectoriesRecursive 4 sampleTree.heap 0 = some [3, 5, 7]) ∧
    ∃ f0, ∀ fuel, f0 ≤ fuel →
      ∃ entries files dirs,
        Directory.GetDirEntriesRecursive fuel sampleTree.heap 0 = some entries ∧
        Directory.GetFilesRecursive fuel sampleTree.heap 0 = some files ∧
        Directory.GetDirectoriesRecursive fuel sampleTree.heap 0 = some dirs ∧
        entries.filter (IsFile sampleTree.heap) = files ∧
        entries.filter (IsDirectory sampleTree.heap) = dirs ∧
        entries.length = files.length + dirs.length :=
  ⟨by decide!,
   recursive_accessors_agree sampleTree.heap sampleTree.next 0
     (GoodTree.sound (by decide! : GoodTree sampleTree)).1 (by decide! : 0 < sampleTree.next)⟩

/-! ## Moving a directory into its own subtree -/

/-- C38 fails when the destination parent lies inside the moved directory's own subtree.
On a sound tree, for `MoveDirectory(oldPath, newPath)` with both parents indexed and the
directory present: when the destination parent is the moved directory or lies below it, the
call returns for no stack budget (attaching closes a cycle and the cascade of `UpdatePath`
recurses around it until the stack overflows); otherwise it returns once the stack suffices,
and the object graph of the returned tree has tree shape again.  In the example tree the
preconditions of `MoveDirectory("A/B", "A/B/X/B")` and of `MoveDirectory("A/B", "A/B/B")`
hold, and neither call returns. -/
theorem MoveDirectory_into_own_subtree_overflows :
    (∀ (t : DirectoryTree) (oldPath newPath : Path) (P Q d : Nat), SoundTree t →
      t.GetDirectory (parent_path oldPath) = some P →
      t.GetDirectory (parent_path newPath) = some Q →
      Directory.GetDirectory t.heap P (filename oldPath) = some d →
      (Sub t.heap d Q → ∀ fuel, (t.MoveDirectory fuel oldPath newPath).returned = false) ∧
      (¬ Sub t.heap d Q → ∃ f0, ∀ fuel, f0 ≤ fuel → ∃ t1,
        t.MoveDirectory fuel oldPath newPath = .ok t1 ∧ GoodHeap t1.heap t1.next)) ∧
    (GoodTree sampleTree ∧
      sampleTree.GetDirectory (parent_path ["A", "B"]) = some 0 ∧
      Directory.GetDirectory sampleTree.heap 0 (filename ["A", "B"]) = some 3 ∧
      sampleTree.GetDirectory (parent_path ["A", "B", "X", "B"]) = some 5 ∧
      sampleTree.GetDirectory (parent_path ["A", "B", "B"]) = some 3 ∧
      (∀ fuel,
        (sampleTree.MoveDirectory fuel ["A", "B"] ["A", "B", "X", "B"]).returned = false) ∧
      (∀ fuel, (sampleTree.MoveDirectory fuel ["A", "B"] ["A", "B", "B"]).returned = false)) := by
  have gen : ∀ (t : DirectoryTree) (oldPath newPath : Path) (P Q d : Nat), SoundTree t →
      t.GetDirectory (parent_path oldPath) = some P →
      t.GetDirectory (parent_path newPath) = some Q →
      Directory.GetDirectory t.heap P (filename oldPath) = some d →
      (Sub t.heap d Q → ∀ fuel, (t.MoveDirectory fuel oldPath newPath).returned = false) ∧
      (¬ Sub t.heap d Q → ∃ f0, ∀ fuel, f0 ≤ fuel → ∃ t1,
        t.MoveDirectory fuel oldPath newPath = .ok t1 ∧ GoodHeap t1.heap t1.next) := by
    intro t oldPath newPath P Q d st hP hQ hd
    refine ⟨fun hin fuel => MoveDirectory_into_subtree st hP hQ hd hin fuel, fun hnot => ?_⟩
    obtain ⟨f0, hf0⟩ := MoveDirectory_returns st hP hQ hd hnot
    refine ⟨f0, fun fuel hf => ?_⟩
    obtain ⟨l, h1, h2, _, _, _, _, _, _, _, _, _, e⟩ := hf0 fuel hf
    exact ⟨_, e, (MoveDirectory_sound st e).1⟩
  have st : SoundTree sampleTree := GoodTree.sound (by decide! : GoodTree sampleTree)
  have hP : sampleTree.GetDirectory (parent_path ["A", "B"]) = some 0 := by decide!
  have hd : Directory.GetDirectory sampleTree.heap 0 (filename ["A", "B"]) = some 3 := by
    decide!
  have hQ1 : sampleTree.GetDirectory (parent_path ["A", "B", "X", "B"]) = some 5 := by decide!
  have hQ2 : sampleTree.GetDirectory (parent_path ["A", "B", "B"]) = some 3 := by decide!
  refine ⟨gen, by decide!, hP, hd, hQ1, hQ2, ?_, ?_⟩
  · exact (gen sampleTree ["A", "B"] ["A", "B", "X", "B"] 0 5 3 st hP hQ1 hd).1
      (Sub.dir Sub.self (by decide! : 5 ∈ (sampleTree.heap 3).directories))
  · exact (gen sampleTree ["A", "B"] ["A", "B", "B"] 0 3 3 st hP hQ2 hd).1 Sub.self

/-! ## The two re-keying implementations -/

theorem rekey_append (h : Heap) : ∀ (a b : List (Nat × Path)) (m : List (Path × Nat)),
    rekey h m (a ++ b) = rekey h (rekey h m a) b
  | [], _, _ => rfl
  | e :: a, b, m => by
    simp only [List.cons_append, rekey]
    split_ifs
    · exact rekey_append h a b _
    · exact rekey_append h a b _

theorem rekey_files (h : Heap) : ∀ (es : List (Nat × Path)) (m : List (Path × Nat)),
    (∀ e ∈ es, IsDirectory h e.1 = false) → rekey h m es = m
  | [], _, _ => rfl
  | e :: es, m, hf => by
    simp only [rekey, hf e (List.mem_cons_self _ _), Bool.false_eq_true, if_false]
    exact rekey_files h es m (fun e1 he1 => hf e1 (List.mem_cons_of_mem _ he1))

theorem mapFind_insert_other (m : List (Path × Nat)) {k q : Path} (v : Nat) (hq : q ≠ k) :
    mapFind (mapInsert m k v) q = mapFind m q := by
  cases hk : mapFind m k with
  | some w => rw [mapInsert_bound m k v w hk]
  | none => rw [mapFind_insert m k q v hk, if_neg hq]

/-- Re-keying leaves the binding of a path that is neither an old key nor a new key of a
directory of the list. -/
theorem rekey_find_other (h : Heap) (q : Path) :
    ∀ (es : List (Nat × Path)) (m : List (Path × Nat)),
      (∀ e ∈ es, IsDirectory h e.1 = true → q ≠ e.2 ∧ q ≠ GetPath h e.1) →
      mapFind (rekey h m es) q = mapFind m q
  | [], _, _ => rfl
  | e :: es, m, hne => by
    unfold rekey
    by_cases hk : IsDirectory h e.1 = true
    · simp only [hk, if_true]
      obtain ⟨h1, h2⟩ := hne e (List.mem_cons_self _ _) hk
      rw [rekey_find_other h q es _ (fun e1 he1 => hne e1 (List.mem_cons_of_mem _ he1)),
        mapFind_insert_other _ _ h2, mapFind_erase, if_neg h1]
    · simp only [hk, Bool.false_eq_true, if_false]
      exact rekey_find_other h q es m (fun e1 he1 => hne e1 (List.mem_cons_of_mem _ he1))

/-- Whatever `GetDirEntriesRecursive` lists lies below the directory. -/
theorem listing_below (h : Heap) : ∀ (fuel : Nat) (x : Nat) (l : List Nat),
    Directory.GetDirEntriesRecursive fuel h x = some l → ∀ y ∈ l, Sub h x y
  | 0, _, _, e => by simp [Directory.GetDirEntriesRecursive] at e
  | fuel + 1, x, l, e => by
    unfold Directory.GetDirEntriesRecursive at e
    cases h1 : collectEntries (Directory.GetDirEntriesRecursive fuel h) (h x).directories with
    | none => simp [h1] at e
    | some rest =>
      simp only [h1, Option.some.injEq] at e
      subst e
      have loop : ∀ (cs : List Nat) (r : List Nat), (∀ c ∈ cs, c ∈ (h x).directories) →
          collectEntries (Directory.GetDirEntriesRecursive fuel h) cs = some r →
          ∀ y ∈ r, Sub h x y := by
        intro cs
        induction cs with
        | nil =>
          intro r _ er y hy
          simp only [collectEntries, Option.some.injEq] at er
          subst er
          cases hy
        | cons c cs ih =>
          intro r hm er y hy
          unfold collectEntries at er
          cases h2 : Directory.GetDirEntriesRecursive fuel h c with
          | none => simp [h2] at er
          | some sub =>
            cases h3 : collectEntries (Directory.GetDirEntriesRecursive fuel h) cs with
            | none => simp [h2, h3] at er
            | some r1 =>
              simp only [h2, h3, Option.some.injEq] at er
              subst er
              have hc : Sub h x c := Sub.dir Sub.self (hm c (List.mem_cons_self _ _))
              rcases List.mem_cons.mp hy with rfl | hy
              · exact hc
              · rcases List.mem_append.mp hy with hy | hy
                · exact hc.trans (listing_below h fuel c sub h2 y hy)
                · exact ih r1 (fun c1 hc1 => hm c1 (List.mem_cons_of_mem _ hc1)) h3 y hy
      intro y hy
      rcases List.mem_append.mp hy with hy | hy
      · exact Sub.file Sub.self hy
      · exact loop _ rest (fun _ hc => hc) h1 y hy

theorem newKeyPath_eq (np rel : Path) :
    (if rel = [] then np else join np rel) = np ++ rel := by
  by_cases hr : rel = []
  · simp [hr]
  · simp [hr, join]

/-- The recursive re-keying of the earlier implementation computes, on the old store `h`, the
index that the list-driven re-keying computes on the new store `h1` from the snapshot of old
paths, provided the new paths are the old ones moved below `np`, old paths tell the
directories of the subtree apart, and no old path is a new path. -/
theorem resolve_agree {h h1 : Heap} {d : Nat} {np : Path}
    (Dk : ∀ x, Sub h d x → ∀ c ∈ (h x).directories, IsDirectory h1 c = true)
    (Fk : ∀ x, Sub h d x → ∀ f ∈ (h x).files, IsDirectory h1 f = false)
    (Pc : ∀ x, Sub h d x → ∀ c ∈ (h x).directories,
      GetPath h1 c = GetPath h1 x ++ [filename (GetPath h c)])
    (Nd : ∀ x, Sub h d x → (h x).directories.Nodup)
    (Inj : ∀ y e, Sub h d y → Sub h d e → IsDirectory h1 y = true → IsDirectory h1 e = true →
      GetPath h y = GetPath h e → y = e)
    (Acy : ∀ x, Sub h d x → ∀ c ∈ (h x).directories, ¬ Sub h c x)
    (Dis : ∀ x, Sub h d x → ∀ c ∈ (h x).directories, ∀ c1 ∈ (h x).directories, c ≠ c1 →
      ∀ y, Sub h c y → ¬ Sub h c1 y)
    (Fresh : ∀ y e, Sub h d y → Sub h d e → GetPath h y ≠ GetPath h1 e) :
    ∀ (fuel x : Nat) (rel : Path) (m : List (Path × Nat)) (l : List Nat),
      Sub h d x → IsDirectory h1 x = true → GetPath h1 x = np ++ rel →
      (∀ y, Sub h x y → IsDirectory h1 y = true → mapFind m (GetPath h y) = some y) →
      Directory.GetDirEntriesRecursive fuel h x = some l →
      Earlier.ResolveDirectoryMapLinks fuel h m np rel x =
        .ok (rekey h1 m ((x, GetPath h x) :: l.map (fun e => (e, GetPath h e))))
  | 0, _, _, _, _, _, _, _, _, e => by simp [Directory.GetDirEntriesRecursive] at e
  | fuel + 1, x, rel, m, l, sx, kx, px, inv, e => by
    unfold Directory.GetDirEntriesRecursive at e
    cases hc : collectEntries (Directory.GetDirEntriesRecursive fuel h) (h x).directories with
    | none => simp [hc] at e
    | some rest =>
      simp only [hc, Option.some.injEq] at e
      subst e
      have loop : ∀ (cs : List Nat) (m2 : List (Path × Nat)) (r : List Nat),
          (∀ c ∈ cs, c ∈ (h x).directories) → cs.Nodup →
          (∀ c ∈ cs, ∀ y, Sub h c y → IsDirectory h1 y = true →
            mapFind m2 (GetPath h y) = some y) →
          collectEntries (Directory.GetDirEntriesRecursive fuel h) cs = some r →
          resolveChildren
            (fun m1 rel1 dir => Earlier.ResolveDirectoryMapLinks fuel h m1 np rel1 dir)
            h rel m2 cs = .ok (rekey h1 m2 (r.map (fun e => (e, GetPath h e)))) := by
        intro cs
        induction cs with
        | nil =>
          intro m2 r _ _ _ er
          simp only [collectEntries, Option.some.injEq] at er
          subst er
          rfl
        | cons c cs ih =>
          intro m2 r hm hnd inv2 er
          unfold collectEntries at er
          cases h2 : Directory.GetDirEntriesRecursive fuel h c with
          | none => simp [h2] at er
          | some sub =>
            cases h3 : collectEntries (Directory.GetDirEntriesRecursive fuel h) cs with
            | none => simp [h2, h3] at er
            | some r1 =>
              simp only [h2, h3, Option.some.injEq] at er
              subst er
              have cmem : c ∈ (h x).directories := hm c (List.mem_cons_self _ _)
              have sc : Sub h d c := Sub.dir sx cmem
              have kc : IsDirectory h1 c = true := Dk x sx c cmem
              have pc : GetPath h1 c = np ++ slash rel (filename (GetPath h c)) := by
                rw [Pc x sx c cmem, px]
                simp [slash]
              have rc := resolve_agree Dk Fk Pc Nd Inj Acy Dis Fresh fuel c
                (slash rel (filename (GetPath h c))) m2 sub sc kc pc
                (inv2 c (List.mem_cons_self _ _)) h2
              have inv3 : ∀ c1 ∈ cs, ∀ y, Sub h c1 y → IsDirectory h1 y = true →
                  mapFind (rekey h1 m2 ((c, GetPath h c) :: sub.map (fun e => (e, GetPath h e))))
                    (GetPath h y) = some y := by
                intro c1 hc1 y sy ky
                have c1mem : c1 ∈ (h x).directories := hm c1 (List.mem_cons_of_mem _ hc1)
                have hne : c ≠ c1 := by
                  rintro rfl
                  exact (List.nodup_cons.mp hnd).1 hc1
                have sdy : Sub h d y := (Sub.dir sx c1mem).trans sy
                rw [rekey_find_other h1 (GetPath h y) _ m2]
                · exact inv2 c1 (List.mem_cons_of_mem _ hc1) y sy ky
                · intro e he ke
                  have se : Sub h c e.1 ∧ e.2 = GetPath h e.1 := by
                    rcases List.mem_cons.mp he with rfl | he
                    · exact ⟨Sub.self, rfl⟩
                    · obtain ⟨z, hz, rfl⟩ := List.mem_map.mp he
                      exact ⟨listing_below h fuel c sub h2 z hz, rfl⟩
                  have sde : Sub h d e.1 := sc.trans se.1
                  refine ⟨?_, Fresh y e.1 sdy sde⟩
                  rw [se.2]
                  intro heq
                  have := Inj y e.1 sdy sde ky ke heq
                  exact Dis x sx c cmem c1 c1mem hne y (this ▸ se.1) sy
              simp only [resolveChildren, inv2 c (List.mem_cons_self _ _) c Sub.self kc, rc]
              rw [ih _ r1 (fun c1 hc1 => hm c1 (List.mem_cons_of_mem _ hc1))
                (List.nodup_cons.mp hnd).2 inv3 h3]
              simp only [List.map_cons, List.map_append]
              rw [rekey_append]
      unfold Earlier.ResolveDirectoryMapLinks
      simp only [inv x Sub.self kx, newKeyPath_eq]
      have inv1 : ∀ c ∈ (h x).directories, ∀ y, Sub h c y → IsDirectory h1 y = true →
          mapFind (mapInsert (mapErase m (GetPath h x)) (np ++ rel) x) (GetPath h y) =
            some y := by
        intro c hc y sy ky
        have sxy : Sub h x y := (Sub.dir Sub.self hc).trans sy
        have hne : GetPath h y ≠ GetPath h x := by
          intro heq
          have := Inj y x (sx.trans sxy) sx ky kx heq
          exact Acy x sx c hc (this ▸ sy)
        have hfr : GetPath h y ≠ np ++ rel := by
          rw [← px]
          exact Fresh y x (sx.trans sxy) sx
        rw [mapFind_insert_other _ _ hfr, mapFind_erase, if_neg hne]
        exact inv y sxy ky
      rw [loop (h x).directories _ rest (fun _ hc => hc) (Nd x sx) inv1 hc]
      simp only [List.map_append, rekey, kx, if_true, px]
      rw [rekey_append, rekey_files h1 ((h x).files.map (fun e => (e, GetPath h e))) _ (by
        intro e he
        obtain ⟨f, hf, rfl⟩ := List.mem_map.mp he
        exact Fk x sx f hf)]

/-- C39 (the two re-keying implementations agree on rename): on a well-formed tree (the
path-index invariant holds), for a same-parent `RenameDirectory(oldPath, newPath)` of an
existing directory to a name no sibling directory has, both implementations return, for all
sufficient fuel: the earlier one (recursive `ResolveDirectoryMapLinks` that re-keys before
renaming) and the current one (snapshot by `ConstructDirEntityPathPairs`, rename, then
`ProcessPathChanges`), and they produce the same object store (hence the same tree and the
same cached paths), the same root, and the same path index, binding for binding and in the
same order; the resulting tree is well-formed again. -/
theorem rename_rekeyings_agree {t : DirectoryTree} (gt : GoodTree t) {oldPath newPath : Path}
    {P d : Nat} (hP : t.GetDirectory (parent_path oldPath) = some P)
    (hd : Directory.GetDirectory t.heap P (filename oldPath) = some d)
    (hsame : parent_path newPath = parent_path oldPath)
    (hfree : Directory.DirectoryExists t.heap P (filename newPath) = false) :
    ∃ f0, ∀ fuel, f0 ≤ fuel → ∃ (t1 t2 : DirectoryTree),
      Earlier.RenameDirectory fuel t oldPath newPath = .ok t1 ∧
      t.RenameDirectory fuel oldPath newPath = .ok t2 ∧
      t1.heap = t2.heap ∧ (∀ x, GetPath t1.heap x = GetPath t2.heap x) ∧
      t1.directories = t2.directories ∧ (∀ q, t1.GetDirectory q = t2.GetDirectory q) ∧
      t1.rootDir = t2.rootDir ∧ t1.next = t2.next ∧ t1.listeners = t2.listeners ∧
      GoodTree t1 ∧ GoodTree t2 := by
  have hQ : t.GetDirectory (parent_path newPath) = some P := by rw [hsame]; exact hP
  obtain ⟨hPn, hdn, hdm, hdk, hdp, hPp, hdpath, hdi, hPs, hone⟩ := child_found gt hP hd
  have hnne : newPath ≠ [] := parent_path_ne_nil (gt.key_ne_nil hQ)
  obtain ⟨fa, hfa⟩ := RenameDirectory_returns gt.sound hP hQ hd
  obtain ⟨fb, hfb⟩ := RenameDirectory_full gt hP hd hsame hfree
  obtain ⟨root, hroot, gh, hrn, hrk, hrpar, hrp, hri, gi⟩ := gt
  obtain ⟨mx, g⟩ := gh.grading
  refine ⟨max fa fb, fun fuel hf => ?_⟩
  obtain ⟨l, h1, e1, _, _, e2, _, _, e3⟩ := hfa fuel (le_trans (le_max_left _ _) hf)
  obtain ⟨t2, r1, F1, F2, F3, _, _, F4, F5, _, _, F6, F7, F8, gt2⟩ :=
    hfb fuel (le_trans (le_max_right _ _) hf)
  obtain ⟨i1, i2, i3, i4, i5, _⟩ := ProcessPathChanges_spec
    ((d, GetPath t.heap d) :: l.map (fun e => (e, GetPath t.heap e))) { t with heap := h1 }
  rw [r1] at e3
  have e4 := Outcome.ok.inj e3
  rw [← e4] at i1 i2 i3 i4 i5
  simp only at i1 i2 i3 i4 i5
  have g2 : GoodHeap t2.heap t2.next := by
    obtain ⟨_, _, g2, _⟩ := gt2
    exact g2
  have hlen : newPath.length = oldPath.length := by
    have a := congrArg List.length (parent_path_slash_filename hnne)
    have b := congrArg List.length (parent_path_slash_filename hone)
    rw [hsame] at a
    simp only [List.length_append, List.length_singleton] at a b
    omega
  have hneq : newPath ≠ oldPath := by
    intro e
    apply DirectoryExists_false hfree d hdm
    unfold GetDirectoryName
    rw [hdpath, e]
  have kdir : ∀ x, IsDirectory t2.heap x = true ↔ (t.heap x).kind = .DIRECTORY := by
    intro x
    simp [IsDirectory, (F4 x).1]
  have Acy : ∀ x, Sub t.heap d x → ∀ c ∈ (t.heap x).directories, ¬ Sub t.heap c x := by
    intro x sx c hc hs
    have hx := Sub.lt gh.1 hdn sx
    have tc := gh.1.parent_of_dir hx hc
    have dc := (g c tc.1).2 x tc.2.2
    rcases Sub.dep gh.1 g tc.1 hs with rfl | hlt
    · simp only at dc
      omega
    · simp only at dc hlt
      omega
  have ra := @resolve_agree t.heap t2.heap d newPath
    (fun x sx c hc =>
      (kdir c).mpr (gh.1.parent_of_dir (Sub.lt gh.1 hdn sx) hc).2.1)
    (fun x sx f hf => by
      have := (gh.1.parent_of_file (Sub.lt gh.1 hdn sx) hf).2.1
      simp [IsDirectory, (F4 f).1, this])
    (fun x sx c hc => by
      have hx := Sub.lt gh.1 hdn sx
      have tc := gh.1.parent_of_dir hx hc
      have hcd : c ≠ d := by
        rintro rfl
        exact Acy x sx c hc sx
      have ca := g2.2 c (by rw [F6]; exact tc.1) x (by rw [(F4 c).2.1]; exact tc.2.2)
      have hn := F5 c hcd
      unfold GetDirectoryName at hn
      unfold GetPath
      rw [ca, hn])
    (fun x sx => (gh.1 x (Sub.lt gh.1 hdn sx)).2.2.1)
    (fun y e sy se ky ke hp => by
      have a := (F3 y sy ((kdir y).mp ky)).1
      have b := (F3 e se ((kdir e).mp ke)).1
      rw [hp, b] at a
      exact (Option.some.inj a).symm)
    Acy
    (fun x sx c hc c1 hc1 hne y sy sy1 => by
      have hx := Sub.lt gh.1 hdn sx
      have tc := gh.1.parent_of_dir hx hc
      have tc1 := gh.1.parent_of_dir hx hc1
      have dc := (g c tc.1).2 x tc.2.2
      have dc1 := (g c1 tc1.1).2 x tc1.2.2
      exact hne (Sub.disjoint gh.1 g tc.1 tc1.1 (dc.trans dc1.symm) sy sy1))
    (fun y e sy se hp => by
      obtain ⟨r, a, _⟩ := F2 y sy
      obtain ⟨s, _, b⟩ := F2 e se
      rw [a, b] at hp
      exact hneq (List.append_inj hp hlen.symm).1.symm)
    fuel d [] t.directories l Sub.self ((kdir d).mpr hdk) (by rw [F1, List.append_nil])
    (fun y sy ky => (F3 y sy ((kdir y).mp ky)).1) e1
  have e5 : Earlier.RenameDirectory fuel t oldPath newPath =
      .ok { t with heap := h1, directories := t2.directories } := by
    unfold Earlier.RenameDirectory
    simp only [hP, hQ, hd, ra, e2, i5, i1]
  have hh : h1 = t2.heap := i1.symm
  have gt1 : GoodTree ({ t with heap := h1, directories := t2.directories } : DirectoryTree) := by
    have gt3 := gt2
    unfold GoodTree GoodIndex at gt3 ⊢
    simp only
    rw [hh, ← F6, ← F7]
    exact gt3
  exact ⟨_, t2, e5, r1, hh, fun x => by rw [hh], rfl, fun q => rfl, F7.symm, F6.symm,
    F8.symm, gt1, gt2⟩

/-- C39 at the sample tree: renaming `A/B` (the directory 3, which holds the directory `X`)
to `A/Z`. -/
theorem rename_rekeyings_agree_witness :
    GoodTree sampleTree ∧
    sampleTree.GetDirectory (parent_path ["A", "B"]) = some 0 ∧
    Directory.GetDirectory sampleTree.heap 0 (filename ["A", "B"]) = some 3 ∧
    parent_path ["A", "Z"] = parent_path ["A", "B"] ∧
    Directory.DirectoryExists sampleTree.heap 0 (filename ["A", "Z"]) = false ∧
    (Earlier.RenameDirectory 4 sampleTree ["A", "B"] ["A", "Z"]).returned = true ∧
    (Earlier.RenameDirectory 4 sampleTree ["A", "B"] ["A", "Z"]).tree.directories =
      (sampleTree.RenameDirectory 4 ["A", "B"] ["A", "Z"]).tree.directories ∧
    (Earlier.RenameDirectory 4 sampleTree ["A", "B"] ["A", "Z"]).tree.GetDirectory
      ["A", "Z", "X"] = some 5 ∧
    (Earlier.RenameDirectory 4 sampleTree ["A", "B"] ["A", "Z"]).tree.GetDirectory
      ["A", "B", "X"] = none ∧
    (∃ f0, ∀ fuel, f0 ≤ fuel → ∃ (t1 t2 : DirectoryTree),
      Earlier.RenameDirectory fuel sampleTree ["A", "B"] ["A", "Z"] = .ok t1 ∧
      sampleTree.RenameDirectory fuel ["A", "B"] ["A", "Z"] = .ok t2 ∧
      t1.heap = t2.heap ∧ (∀ x, GetPath t1.heap x = GetPath t2.heap x) ∧
      t1.directories = t2.directories ∧ (∀ q, t1.GetDirectory q = t2.GetDirectory q) ∧
      t1.rootDir = t2.rootDir ∧ t1.next = t2.next ∧ t1.listeners = t2.listeners ∧
      GoodTree t1 ∧ GoodTree t2) :=
  ⟨by decide!, by decide!, by decide!, by decide!, by decide!, by decide!, by decide!,
   by decide!, by decide!,
   @rename_rekeyings_agree sampleTree (by decide!) ["A", "B"] ["A", "Z"] 0 3 (by decide!)
     (by decide!) (by decide!) (by decide!)⟩

/-! ## Path-changed events -/

theorem staleTree_reached : Reached staleTree :=
  Reached.run 4 (.RemoveDirectory ["A", "D"]) sampleTree_reached
    (Outcome.ok_of_returned (by decide! : (sampleTree.RemoveDirectory 4 ["A", "D"]).returned = true))

/-- C6 (path-changed events), amended.  In every tree whose object graph satisfies the
representation invariant (every tree reached through returning calls of the public methods
does, whether or not the index holds stale keys), for a directory `d` found at `oldPath` (both parents indexed):
`RenameDirectory` returns once the stack budget is large enough, and so does `MoveDirectory`
when the destination parent lies outside the subtree of `d` (otherwise the call does not
return, see `MoveDirectory_into_subtree`).  With `l` the recursive listing of `d`, which
holds every descendant of `d` exactly once, the listener calls made by the operation are,
for `d` and then for each entry of `l` in order, one path-changed call per listener
(`OnDirectoryPathChanged` for a directory, `OnFilePathChanged` for a file); each call
carries the path the entry had before the operation, and during the call the entry has the
path it has after the operation.  Each listener is called once per entry, `l.length + 1`
times. -/
theorem path_changed_events (t : DirectoryTree) (st : SoundTree t) (oldPath newPath : Path)
    (P Q d : Nat) (hP : t.GetDirectory (parent_path oldPath) = some P)
    (hQ : t.GetDirectory (parent_path newPath) = some Q)
    (hd : Directory.GetDirectory t.heap P (filename oldPath) = some d) :
    (∃ f0, ∀ fuel, f0 ≤ fuel → ∃ t1 l,
      t.RenameDirectory fuel oldPath newPath = .ok t1 ∧
      Directory.GetDirEntriesRecursive fuel t.heap d = some l ∧
      (∀ x, x ∈ l ↔ Sub t.heap d x ∧ x ≠ d) ∧ l.Nodup ∧
      t1.callsAfter t.log.length =
        pathChangedCalls t.listeners t1.heap ((d :: l).map (fun e => (e, GetPath t.heap e))) ∧
      (t1.callsAfter t.log.length).length = (l.length + 1) * t.listeners.length) ∧
    (¬ Sub t.heap d Q → ∃ f0, ∀ fuel, f0 ≤ fuel → ∃ t1 l,
      t.MoveDirectory fuel oldPath newPath = .ok t1 ∧
      Directory.GetDirEntriesRecursive fuel t.heap d = some l ∧
      (∀ x, x ∈ l ↔ Sub t.heap d x ∧ x ≠ d) ∧ l.Nodup ∧
      t1.callsAfter t.log.length =
        pathChangedCalls t.listeners t1.heap ((d :: l).map (fun e => (e, GetPath t.heap e))) ∧
      (t1.callsAfter t.log.length).length = (l.length + 1) * t.listeners.length) := by
  constructor
  · obtain ⟨f0, hf0⟩ := RenameDirectory_returns st hP hQ hd
    refine ⟨f0, fun fuel hf => ?_⟩
    obtain ⟨l, h1, e1, l1, l2, _, _, _, e2⟩ := hf0 fuel hf
    obtain ⟨i1, _, _, _, _, ds, i6, i7⟩ := ProcessPathChanges_spec
      ((d, GetPath t.heap d) :: l.map (fun e => (e, GetPath t.heap e))) { t with heap := h1 }
    have hc := callsAfter_of_log t _ ds i6
    rw [i7] at hc
    refine ⟨_, l, e2, e1, l1, l2, ?_, ?_⟩
    · rw [hc, i1]
      rfl
    · rw [hc, pathChangedCalls_length]
      simp
  · intro hnot
    obtain ⟨f0, hf0⟩ := MoveDirectory_returns st hP hQ hd hnot
    refine ⟨f0, fun fuel hf => ?_⟩
    obtain ⟨l, h1, h2, e1, l1, l2, _, _, _, _, _, _, e2⟩ := hf0 fuel hf
    obtain ⟨i1, _, _, _, _, ds, i6, i7⟩ := ProcessPathChanges_spec
      ((d, GetPath t.heap d) :: l.map (fun e => (e, GetPath t.heap e))) { t with heap := h2 }
    have hc := callsAfter_of_log t _ ds i6
    rw [i7] at hc
    refine ⟨_, l, e2, e1, l1, l2, ?_, ?_⟩
    · rw [hc, i1]
      rfl
    · rw [hc, pathChangedCalls_length]
      simp

/-- Witness for C6: renaming `A/B` to `A/C` in the scenario tree of the specification fires
one directory-path-changed and one file-path-changed event; moving `A/B` to `A/D/B` in the
sample tree is covered as well; and so is renaming `A/B` to `A/C` in the example tree after
`RemoveDirectory("A/D")`, which is not well formed: the index still holds the key `A/D` of
the removed directory. -/
theorem path_changed_events_witness :
    GoodTree specTree ∧
    (specTree.RenameDirectory 3 ["A", "B"] ["A", "C"]).returned = true ∧
    (specTree.RenameDirectory 3 ["A", "B"] ["A", "C"]).tree.callsAfter specTree.log.length =
      [ { listener := 0, callback := .OnDirectoryPathChanged, entity := 2,
          oldPath := some ["A", "B"], path := ["A", "C"] },
        { listener := 0, callback := .OnFilePathChanged, entity := 3,
          oldPath := some ["A", "B", "b.txt"], path := ["A", "C", "b.txt"] } ] ∧
    (∃ f0, ∀ fuel, f0 ≤ fuel → ∃ t1 l,
      specTree.RenameDirectory fuel ["A", "B"] ["A", "C"] = .ok t1 ∧
      Directory.GetDirEntriesRecursive fuel specTree.heap 2 = some l ∧
      (∀ x, x ∈ l ↔ Sub specTree.heap 2 x ∧ x ≠ 2) ∧ l.Nodup ∧
      t1.callsAfter specTree.log.length =
        pathChangedCalls specTree.listeners t1.heap
          ((2 :: l).map (fun e => (e, GetPath specTree.heap e))) ∧
      (t1.callsAfter specTree.log.length).length = (l.length + 1) * specTree.listeners.length) ∧
    (∃ f0, ∀ fuel, f0 ≤ fuel → ∃ t1 l,
      sampleTree.MoveDirectory fuel ["A", "B"] ["A", "D", "B"] = .ok t1 ∧
      Directory.GetDirEntriesRecursive fuel sampleTree.heap 3 = some l ∧
      (∀ x, x ∈ l ↔ Sub sampleTree.heap 3 x ∧ x ≠ 3) ∧ l.Nodup ∧
      t1.callsAfter sampleTree.log.length =
        pathChangedCalls sampleTree.listeners t1.heap
          ((3 :: l).map (fun e => (e, GetPath sampleTree.heap e))) ∧
      (t1.callsAfter sampleTree.log.length).length =
        (l.length + 1) * sampleTree.listeners.length) ∧
    staleTree.GetDirectory ["A", "D"] = some 7 ∧ (staleTree.heap 0).directories = [3] ∧
    ¬ GoodTree staleTree ∧
    (∃ f0, ∀ fuel, f0 ≤ fuel → ∃ t1 l,
      staleTree.RenameDirectory fuel ["A", "B"] ["A", "C"] = .ok t1 ∧
      Directory.GetDirEntriesRecursive fuel staleTree.heap 3 = some l ∧
      (∀ x, x ∈ l ↔ Sub staleTree.heap 3 x ∧ x ≠ 3) ∧ l.Nodup ∧
      t1.callsAfter staleTree.log.length =
        pathChangedCalls staleTree.listeners t1.heap
          ((3 :: l).map (fun e => (e, GetPath staleTree.heap e))) ∧
      (t1.callsAfter staleTree.log.length).length =
        (l.length + 1) * staleTree.listeners.length) :=
  ⟨by decide!, by decide!, by decide!,
   (path_changed_events specTree (GoodTree.sound (by decide!)) ["A", "B"] ["A", "C"] 0 0 2
     (by decide!) (by decide!) (by decide!)).1,
   (path_changed_events sampleTree sampleTree_reached.soundTree ["A", "B"] ["A", "D", "B"] 0 7 3
     (by decide!) (by decide!) (by decide!)).2
     (fun hs => absurd (hs.path_prefix (n := 8) (by decide!) (by decide!)) (by decide!)),
   by decide!, by decide!, by decide!,
   (path_changed_events staleTree staleTree_reached.soundTree ["A", "B"] ["A", "C"] 0 0 3
     (by decide!) (by decide!) (by decide!)).1⟩

/-! ## Modification of a missing entry -/

/-- C17 (modify of an already-removed entry), amended.  With the parent `P` of `p` indexed,
`ProcessModifiedFile(p)` / `ProcessModifiedDirectory(p)` ends in a failed `assert` exactly
when `P` has no file, respectively no child directory, named like `p`: the presence of the
entry is a precondition of the call, which then does not return; and the tree in which the
`assert` fails is the tree the call started from: nothing in the tree or the path index has
changed and no event was fired.  When the entry is present the call returns.  (The first two
parts say that the two methods are the methods below with the tree of a failing `assert`
forgotten.) -/
theorem ProcessModified_requires_entry (t : DirectoryTree) (p : Path) (P : Nat)
    (observed : Option Int) (hP : t.GetDirectory (parent_path p) = some P) :
    (DirectoryTree.ProcessModifiedFile.ending t p observed).outcome =
      t.ProcessModifiedFile p observed ∧
    (DirectoryTree.ProcessModifiedDirectory.ending t p observed).outcome =
      t.ProcessModifiedDirectory p observed ∧
    (t.ProcessModifiedFile p observed = .assertFailed ↔
      Directory.GetFile t.heap P (filename p) = none) ∧
    (t.ProcessModifiedDirectory p observed = .assertFailed ↔
      Directory.GetDirectory t.heap P (filename p) = none) ∧
    (Directory.GetFile t.heap P (filename p) = none →
      DirectoryTree.ProcessModifiedFile.ending t p observed = .assertFailed t ∧
      (t.ProcessModifiedFile p observed).returned = false) ∧
    (Directory.GetDirectory t.heap P (filename p) = none →
      DirectoryTree.ProcessModifiedDirectory.ending t p observed = .assertFailed t ∧
      (t.ProcessModifiedDirectory p observed).returned = false) ∧
    (Directory.GetFile t.heap P (filename p) ≠ none →
      (t.ProcessModifiedFile p observed).returned = true) ∧
    (Directory.GetDirectory t.heap P (filename p) ≠ none →
      (t.ProcessModifiedDirectory p observed).returned = true) := by
  unfold DirectoryTree.ProcessModifiedFile.ending DirectoryTree.ProcessModifiedDirectory.ending
    DirectoryTree.ProcessModifiedFile DirectoryTree.ProcessModifiedDirectory
  rw [hP]
  simp only
  refine ⟨?_, ?_, ?_, ?_, ?_, ?_, ?_, ?_⟩
  · cases hf : Directory.GetFile t.heap P (filename p) with
    | none => rfl
    | some f => simp only; split_ifs <;> rfl
  · cases hf : Directory.GetDirectory t.heap P (filename p) with
    | none => rfl
    | some f => simp only; split_ifs <;> rfl
  · cases hf : Directory.GetFile t.heap P (filename p) with
    | none => simp
    | some f => simp only; split_ifs <;> simp
  · cases hf : Directory.GetDirectory t.heap P (filename p) with
    | none => simp
    | some f => simp only; split_ifs <;> simp
  · intro hf
    simp [hf, Outcome.returned]
  · intro hf
    simp [hf, Outcome.returned]
  · cases hf : Directory.GetFile t.heap P (filename p) with
    | none => intro hn; exact absurd rfl hn
    | some f => intro _; simp only; split_ifs <;> rfl
  · cases hf : Directory.GetDirectory t.heap P (filename p) with
    | none => intro hn; exact absurd rfl hn
    | some f => intro _; simp only; split_ifs <;> rfl

/-- Witness for C17, amended: `A/gone.txt` and `A/gone` in the example tree, whose parent `A`
is the directory `0`. -/
theorem ProcessModified_requires_entry_witness :
    sampleTree.GetDirectory (parent_path ["A", "gone.txt"]) = some 0 ∧
    Directory.GetFile sampleTree.heap 0 (filename ["A", "gone.txt"]) = none ∧
    Directory.GetFile sampleTree.heap 0 (filename ["A", "a.txt"]) = some 1 ∧
    (sampleTree.ProcessModifiedFile ["A", "a.txt"] (some 9)).returned = true ∧
    (DirectoryTree.ProcessModifiedFile.ending sampleTree ["A", "gone.txt"] (some 9)).outcome =
      sampleTree.ProcessModifiedFile ["A", "gone.txt"] (some 9) ∧
    (DirectoryTree.ProcessModifiedDirectory.ending sampleTree ["A", "gone.txt"]
        (some 9)).outcome =
      sampleTree.ProcessModifiedDirectory ["A", "gone.txt"] (some 9) ∧
    (sampleTree.ProcessModifiedFile ["A", "gone.txt"] (some 9) = .assertFailed ↔
      Directory.GetFile sampleTree.heap 0 (filename ["A", "gone.txt"]) = none) ∧
    (sampleTree.ProcessModifiedDirectory ["A", "gone.txt"] (some 9) = .assertFailed ↔
      Directory.GetDirectory sampleTree.heap 0 (filename ["A", "gone.txt"]) = none) ∧
    (Directory.GetFile sampleTree.heap 0 (filename ["A", "gone.txt"]) = none →
      DirectoryTree.ProcessModifiedFile.ending sampleTree ["A", "gone.txt"] (some 9) =
        .assertFailed sampleTree ∧
      (sampleTree.ProcessModifiedFile ["A", "gone.txt"] (some 9)).returned = false) ∧
    (Directory.GetDirectory sampleTree.heap 0 (filename ["A", "gone.txt"]) = none →
      DirectoryTree.ProcessModifiedDirectory.ending sampleTree ["A", "gone.txt"] (some 9) =
        .assertFailed sampleTree ∧
      (sampleTree.ProcessModifiedDirectory ["A", "gone.txt"] (some 9)).returned = false) ∧
    (Directory.GetFile sampleTree.heap 0 (filename ["A", "gone.txt"]) ≠ none →
      (sampleTree.ProcessModifiedFile ["A", "gone.txt"] (some 9)).returned = true) ∧
    (Directory.GetDirectory sampleTree.heap 0 (filename ["A", "gone.txt"]) ≠ none →
      (sampleTree.ProcessModifiedDirectory ["A", "gone.txt"] (some 9)).returned = true) :=
  ⟨by decide!, by decide!, by decide!, by decide!,
   ProcessModified_requires_entry sampleTree ["A", "gone.txt"] 0 (some 9) (by decide!)⟩

/-! ## Scans that fail -/

mutual
/-- When every read of the disk succeeds, `BuildTree` with failing reads is `BuildTree` on
the listing. -/
theorem BuildTree_reading (fuel : Nat) : ∀ (scan : ScanDirectory) (disk : DiskDirectory)
    (t : DirectoryTree) (p : Path), scan.listing = some disk →
    DirectoryTree.BuildTree.reading fuel t p scan =
      Scanned.ofOption (DirectoryTree.BuildTree fuel t p disk)
  | .mk o1 o2 entries, disk, t, p, hl => by
    unfold ScanDirectory.listing at hl
    cases he : entries.listing with
    | none => simp [he] at hl
    | some es =>
      simp only [he, Option.some.injEq] at hl
      subst hl
      unfold DirectoryTree.BuildTree.reading DirectoryTree.BuildTree
      rw [BuildTreeLoop_reading fuel entries es _ p t.next he]
      cases DirectoryTree.BuildTreeLoop fuel
        { (t.CreateDirectory p o1 o2).1 with
          directories := mapInsert t.directories p t.next } p t.next es <;> rfl
theorem BuildTreeLoop_reading (fuel : Nat) : ∀ (scan : ScanEntries) (disk : DiskEntries)
    (t : DirectoryTree) (p : Path) (D : Nat), scan.listing = some disk →
    DirectoryTree.BuildTreeLoop.reading fuel t p D scan =
      Scanned.ofOption (DirectoryTree.BuildTreeLoop fuel t p D disk)
  | .nil, disk, t, p, D, hl => by
    simp only [ScanEntries.listing, Option.some.injEq] at hl
    subst hl
    rfl
  | .filesystem_error, disk, t, p, D, hl => by
    simp [ScanEntries.listing] at hl
  | .cons (.status_error _) _, disk, t, p, D, hl => by
    simp [ScanEntries.listing] at hl
  | .cons (.regular_file name o1 o2) rest, disk, t, p, D, hl => by
    unfold ScanEntries.listing at hl
    cases hr : rest.listing with
    | none => simp [hr] at hl
    | some r =>
      simp only [hr, Option.some.injEq] at hl
      subst hl
      unfold DirectoryTree.BuildTreeLoop.reading DirectoryTree.BuildTreeLoop
      exact BuildTreeLoop_reading fuel rest r _ p D hr
  | .cons (.directory name dir) rest, disk, t, p, D, hl => by
    unfold ScanEntries.listing at hl
    cases hd : dir.listing with
    | none => simp [hd] at hl
    | some d =>
      cases hr : rest.listing with
      | none => simp [hd, hr] at hl
      | some r =>
        simp only [hd, hr, Option.some.injEq] at hl
        subst hl
        unfold DirectoryTree.BuildTreeLoop.reading DirectoryTree.BuildTreeLoop
        rw [BuildTree_reading fuel dir d t (slash p name) hd]
        cases hb : DirectoryTree.BuildTree fuel t (slash p name) d with
        | none => rfl
        | some r1 =>
          obtain ⟨t1, newDir⟩ := r1
          simp only [Scanned.ofOption]
          cases ha : Directory.AddDirectoryToDirectory fuel t1.heap D newDir with
          | none => rfl
          | some h => exact BuildTreeLoop_reading fuel rest r _ p D hr
  | .cons (.other name) rest, disk, t, p, D, hl => by
    unfold ScanEntries.listing at hl
    cases hr : rest.listing with
    | none => simp [hr] at hl
    | some r =>
      simp only [hr, Option.some.injEq] at hl
      subst hl
      unfold DirectoryTree.BuildTreeLoop.reading DirectoryTree.BuildTreeLoop
      exact BuildTreeLoop_reading fuel rest r t p D hr
end

/-- When every read of the disk succeeds, `AddNewDirectory` with failing reads is
`AddNewDirectory` on the listing. -/
theorem AddNewDirectory_reading (fuel : Nat) (t : DirectoryTree) (p : Path)
    {scan : ScanDirectory} {disk : DiskDirectory} (hl : scan.listing = some disk) :
    DirectoryTree.AddNewDirectory.reading fuel t p scan =
      Scanned.ofOutcome (t.AddNewDirectory fuel p disk) := by
  unfold DirectoryTree.AddNewDirectory.reading DirectoryTree.AddNewDirectory
  cases hP : t.GetDirectory (parent_path p) with
  | none => rfl
  | some P =>
    simp only
    rw [BuildTree_reading fuel scan disk t p hl]
    cases hb : DirectoryTree.BuildTree fuel t p disk with
    | none => rfl
    | some r1 =>
      obtain ⟨t1, newDir⟩ := r1
      simp only [Scanned.ofOption]
      cases ha : Directory.AddDirectoryToDirectory fuel t1.heap P newDir <;> rfl

/-- When every read of the disk succeeds, `BuildRootTree` with failing reads is
`BuildRootTree` on the listing. -/
theorem BuildRootTree_reading (fuel : Nat) (t : DirectoryTree) (p : Path)
    {scan : ScanDirectory} {disk : DiskDirectory} (hl : scan.listing = some disk) :
    DirectoryTree.BuildRootTree.reading fuel t p scan =
      Scanned.ofOutcome (t.BuildRootTree fuel p disk) := by
  unfold DirectoryTree.BuildRootTree.reading DirectoryTree.BuildRootTree
  rw [BuildTree_reading fuel scan disk _ _ hl]
  cases hb : DirectoryTree.BuildTree fuel
      { t with rootDirAbsParentPath := parent_path p } [filename p] disk with
  | none => rfl
  | some r1 =>
    obtain ⟨t1, root⟩ := r1
    rfl

/-- A directory that cannot be listed: `AddNewDirectory` throws after the directory object
has been created and indexed; it is not attached and no event is fired. -/
theorem AddNewDirectory_unlistable (fuel : Nat) (t : DirectoryTree) (p : Path) (P : Nat)
    (o1 o2 : Option Int) (hP : t.GetDirectory (parent_path p) = some P) :
    DirectoryTree.AddNewDirectory.reading fuel t p (.mk o1 o2 .filesystem_error) =
      .filesystem_error { (t.CreateDirectory p o1 o2).1 with
        directories := mapInsert t.directories p t.next } := by
  unfold DirectoryTree.AddNewDirectory.reading
  rw [hP]
  rfl

/-! ## The postcondition of the add operations -/

/-- C12 as stated fails for directories, in two ways.  The scenario tree is well formed and
binds `A/B` to the directory `2`; `AddNewDirectory("A/B")` returns, creates the directory `4`
with path `A/B` and lists it in `A` next to `2`, but `GetDirectory("A/B")` still returns
`2`, not the new directory: `insert` keeps the binding of a key that is present.  And
`AddNewDirectory("A/N")`, for a name that is free, when the directory `A/N` cannot be listed
(it is missing or unreadable): the iterator throws, the call does not return, the new
directory `4` is indexed under `A/N` but is not a child of `A`, and no event is fired; when
a directory `sub` below a listable `A/N` cannot be listed the call throws as well, after the
file-added event of `n.txt`. -/
theorem AddNewDirectory_postcondition_fails :
    GoodTree specTree ∧
    specTree.GetDirectory (parent_path ["A", "B"]) = some 0 ∧
    specTree.next = 4 ∧
    (specTree.AddNewDirectory 3 ["A", "B"] (.mk (some 1) (some 1) .nil)).returned = true ∧
    ((specTree.AddNewDirectory 3 ["A", "B"] (.mk (some 1) (some 1) .nil)).tree.heap
      0).directories = [2, 4] ∧
    GetPath (specTree.AddNewDirectory 3 ["A", "B"] (.mk (some 1) (some 1) .nil)).tree.heap 4 =
      ["A", "B"] ∧
    (specTree.AddNewDirectory 3 ["A", "B"] (.mk (some 1) (some 1) .nil)).tree.GetDirectory
      ["A", "B"] = some 2 ∧
    (DirectoryTree.AddNewDirectory.reading 3 specTree ["A", "B"]
      (.mk (some 1) (some 1) .nil)).tree.GetDirectory ["A", "B"] = some 2 ∧
    specTree.GetDirectory (parent_path ["A", "N"]) = some 0 ∧
    Directory.DirectoryExists specTree.heap 0 (filename ["A", "N"]) = false ∧
    specTree.GetDirectory ["A", "N"] = none ∧
    (∀ fuel, (DirectoryTree.AddNewDirectory.reading fuel specTree ["A", "N"]
      (.mk (some 1) (some 1) .filesystem_error)).threw = true) ∧
    (DirectoryTree.AddNewDirectory.reading 3 specTree ["A", "N"]
      (.mk (some 1) (some 1) .filesystem_error)).tree.GetDirectory ["A", "N"] = some 4 ∧
    ((DirectoryTree.AddNewDirectory.reading 3 specTree ["A", "N"]
      (.mk (some 1) (some 1) .filesystem_error)).tree.heap 0).directories = [2] ∧
    ((DirectoryTree.AddNewDirectory.reading 3 specTree ["A", "N"]
      (.mk (some 1) (some 1) .filesystem_error)).tree.heap 4).parentDir = none ∧
    (DirectoryTree.AddNewDirectory.reading 3 specTree ["A", "N"]
      (.mk (some 1) (some 1) .filesystem_error)).tree.callsAfter specTree.log.length = [] ∧
    (DirectoryTree.AddNewDirectory.reading 3 specTree ["A", "N"]
      (.mk (some 1) (some 1) (.cons (.regular_file "n.txt" (some 2) (some 2))
        (.cons (.directory "sub" (.mk (some 3) (some 3) .filesystem_error)) .nil)))).threw =
      true ∧
    (DirectoryTree.AddNewDirectory.reading 3 specTree ["A", "N"]
      (.mk (some 1) (some 1) (.cons (.regular_file "n.txt" (some 2) (some 2))
        (.cons (.directory "sub" (.mk (some 3) (some 3) .filesystem_error))
          .nil)))).tree.callsAfter specTree.log.length =
      [ { listener := 0, callback := .OnFileAdded, entity := 5, oldPath := none,
          path := ["A", "N", "n.txt"] } ] ∧
    ((DirectoryTree.AddNewDirectory.reading 3 specTree ["A", "N"]
      (.mk (some 1) (some 1) (.cons (.regular_file "n.txt" (some 2) (some 2))
        (.cons (.directory "sub" (.mk (some 3) (some 3) .filesystem_error))
          .nil)))).tree.heap 0).directories = [2] := by
  refine ⟨by decide!, by decide!, by decide!, by decide!, by decide!, by decide!, by decide!,
    by decide!, by decide!, by decide!, by decide!, fun fuel => ?_, by decide!, by decide!,
    by decide!, by decide!, by decide!, by decide!, by decide!⟩
  rw [AddNewDirectory_unlistable fuel specTree ["A", "N"] 0 (some 1) (some 1) (by decide!)]
  rfl

/-! ## The library sort on short sequences -/

theorem getD_append_length (pre : List Nat) (x : Nat) (post : List Nat) (d : Nat) :
    (pre ++ x :: post).getD pre.length d = x := by
  induction pre with
  | nil => rfl
  | cons a pre ih => simpa using ih

theorem set_append_length (pre : List Nat) (x z : Nat) (post : List Nat) :
    (pre ++ x :: post).set pre.length z = pre ++ z :: post := by
  induction pre with
  | nil => rfl
  | cons a pre ih => simp [ih]

/-- The loop of `__unguarded_linear_insert` on the item after `pre`: the value goes to a
position `k` of `pre`, past every trailing item it compares before and right after an item
it does not compare before. -/
theorem unguarded_linear_insert_spec (comp : Nat → Nat → Bool) (val : Nat) :
    ∀ (pre : List Nat) (x : Nat) (post : List Nat),
    ∃ k, k ≤ pre.length ∧
      std.unguarded_linear_insert.loop comp val (pre ++ x :: post) pre.length =
        pre.take k ++ val :: (pre.drop k ++ post) ∧
      (∀ y ∈ pre.drop k, comp val y = true) ∧
      (∀ y, (pre.take k).getLast? = some y → comp val y = false) := by
  intro pre
  induction pre using List.reverseRecOn with
  | nil =>
    intro x post
    exact ⟨0, le_refl _, by simp [std.unguarded_linear_insert.loop], by simp, by simp⟩
  | append_singleton pre y ih =>
    intro x post
    have hlen : (pre ++ [y]).length = pre.length + 1 := by simp
    have hget : (pre ++ [y] ++ x :: post).getD pre.length 0 = y := by
      rw [List.append_assoc]
      exact getD_append_length pre y _ 0
    rw [hlen]
    unfold std.unguarded_linear_insert.loop
    rw [hget]
    by_cases hc : comp val y = true
    · rw [if_pos hc]
      have hset : (pre ++ [y] ++ x :: post).set (pre.length + 1) y = pre ++ y :: y :: post := by
        rw [← hlen, set_append_length]
        simp
      rw [hset]
      obtain ⟨k, hk, e, h1, h2⟩ := ih y (y :: post)
      refine ⟨k, by omega, ?_, ?_, ?_⟩
      · rw [e, List.take_append_of_le_length hk, List.drop_append_of_le_length hk]
        simp
      · intro z hz
        rw [List.drop_append_of_le_length hk] at hz
        rcases List.mem_append.mp hz with hz | hz
        · exact h1 z hz
        · rw [List.mem_singleton.mp hz]
          exact hc
      · intro z hz
        rw [List.take_append_of_le_length hk] at hz
        exact h2 z hz
    · rw [if_neg hc]
      refine ⟨pre.length + 1, le_refl _, ?_, ?_, ?_⟩
      · rw [← hlen, set_append_length, List.take_length, List.drop_length]
        simp
      · intro z hz
        rw [← hlen] at hz
        simp at hz
      · intro z hz
        rw [← hlen, List.take_length] at hz
        simp at hz
        rw [← hz]
        simpa using hc

/-- In a sequence ordered by a strict weak ordering, the items an item compares before form
a final segment. -/
theorem ordered_partitioned (comp : Nat → Nat → Bool) (sw : StrictWeak comp) (xs : List Nat)
    (item : Nat) (hs : Ordered comp xs) :
    ∀ (i j : Nat) (x y : Nat), i ≤ j → xs[i]? = some x → xs[j]? = some y →
      comp item x = true → comp item y = true := by
  intro i j x y hij hx hy hxt
  rcases Nat.eq_or_lt_of_le hij with h | h
  · subst h; rw [hx] at hy; cases hy; exact hxt
  · obtain ⟨hi, rfl⟩ := List.getElem?_eq_some.mp hx
    obtain ⟨hj, rfl⟩ := List.getElem?_eq_some.mp hy
    exact sw.2 _ _ _ hxt (List.pairwise_iff_getElem.mp hs i j hi hj h)

/-- The position found from the right is the upper bound. -/
theorem place_eq_upper_bound (comp : Nat → Nat → Bool) (sw : StrictWeak comp) (S : List Nat)
    (x : Nat) (hs : Ordered comp S) (k : Nat) (hk : k ≤ S.length)
    (h1 : ∀ y ∈ S.drop k, comp x y = true)
    (h2 : ∀ y, (S.take k).getLast? = some y → comp x y = false) :
    k = upper_bound (fun y => comp x y) S := by
  obtain ⟨hub, lo, hi⟩ := upper_bound_spec (fun y => comp x y) S
    (ordered_partitioned comp sw S x hs)
  generalize upper_bound (fun y => comp x y) S = ub at hub lo hi
  rcases Nat.lt_trichotomy k ub with h | h | h
  · exfalso
    have hkl : k < S.length := by omega
    have a := lo (S.get ⟨k, hkl⟩) (by
      rw [List.mem_iff_getElem]
      exact ⟨k, by simp; omega, by simp [List.getElem_take]⟩)
    have b := h1 (S.get ⟨k, hkl⟩) (by
      rw [List.mem_iff_getElem]
      exact ⟨0, by simp; omega, by simp [List.getElem_drop]⟩)
    simp only at a
    rw [a] at b
    cases b
  · exact h
  · exfalso
    have hkl : k - 1 < S.length := by omega
    have a := h2 (S.get ⟨k - 1, hkl⟩) (by
      rw [List.getLast?_take]
      have : k ≠ 0 := by omega
      simp [this, List.getElem?_eq_getElem hkl])
    have b := hi (S.get ⟨k - 1, hkl⟩) (by
      rw [List.mem_iff_getElem]
      exact ⟨k - 1 - ub, by simp; omega, by
        simp only [List.getElem_drop, List.get_eq_getElem]
        congr 1
        omega⟩)
    simp only at b
    rw [a] at b
    cases b

/-- One pass of the loop of `__insertion_sort` over the item `x` after the ordered items
`S`: `x` is inserted at its upper bound. -/
theorem insertion_sort_step (comp : Nat → Nat → Bool) (sw : StrictWeak comp) (s0 : Nat)
    (S : List Nat) (x : Nat) (post : List Nat) (hs : Ordered comp (s0 :: S)) :
    (if comp (((s0 :: S) ++ x :: post).getD (s0 :: S).length 0)
          (((s0 :: S) ++ x :: post).getD 0 0) then
        std.move_to_first ((s0 :: S) ++ x :: post) 0 (s0 :: S).length
      else std.unguarded_linear_insert comp ((s0 :: S) ++ x :: post) (s0 :: S).length) =
      insertAt (s0 :: S) (upper_bound (fun y => comp x y) (s0 :: S)) x ++ post := by
  rw [getD_append_length]
  have h0 : ((s0 :: S) ++ x :: post).getD 0 0 = s0 := rfl
  rw [h0]
  by_cases hc : comp x s0 = true
  · rw [if_pos hc]
    obtain ⟨hub, lo, hi⟩ := upper_bound_spec (fun y => comp x y) (s0 :: S)
      (ordered_partitioned comp sw (s0 :: S) x hs)
    have hz : upper_bound (fun y => comp x y) (s0 :: S) = 0 := by
      by_contra hne
      have := lo s0 (by
        rw [List.mem_iff_getElem]
        exact ⟨0, by simp; omega, by simp [List.getElem_take]⟩)
      simp only at this
      rw [hc] at this
      cases this
    rw [hz]
    unfold std.move_to_first insertAt
    rw [getD_append_length]
    simp
  · rw [if_neg hc]
    unfold std.unguarded_linear_insert
    rw [getD_append_length]
    obtain ⟨k, hk, e, h1, h2⟩ := unguarded_linear_insert_spec comp x (s0 :: S) x post
    rw [e, place_eq_upper_bound comp sw (s0 :: S) x hs k hk h1 h2]
    unfold insertAt
    simp

/-- The loop of `__insertion_sort` from the first item on inserts the remaining items, one
after the other, at their upper bounds. -/
theorem insertion_sort_loop_eq (comp : Nat → Nat → Bool) (sw : StrictWeak comp) :
    ∀ (rest : List Nat) (s0 : Nat) (S : List Nat), Ordered comp (s0 :: S) →
      std.insertion_sort.loop comp 0 rest.length ((s0 :: S) ++ rest) (s0 :: S).length =
        rest.foldl (fun acc x => insertAt acc (upper_bound (fun y => comp x y) acc) x)
          (s0 :: S)
  | [], s0, S, _ => by simp [std.insertion_sort.loop]
  | x :: rest, s0, S, hs => by
    have ho := insertAt_upper_bound_ordered comp sw.1 sw.2 (s0 :: S) x hs
    have hl : (insertAt (s0 :: S) (upper_bound (fun y => comp x y) (s0 :: S)) x).length =
        (s0 :: S).length + 1 := by
      unfold insertAt
      have := (upper_bound_spec (fun y => comp x y) (s0 :: S)
        (ordered_partitioned comp sw (s0 :: S) x hs)).1
      simp only [List.length_append, List.length_take, List.length_cons, List.length_drop]
      simp only [List.length_cons] at this
      omega
    show std.insertion_sort.loop comp 0 (rest.length + 1) ((s0 :: S) ++ x :: rest)
      (s0 :: S).length = _
    unfold std.insertion_sort.loop
    rw [insertion_sort_step comp sw s0 S x rest hs, List.foldl_cons]
    generalize hT : insertAt (s0 :: S) (upper_bound (fun y => comp x y) (s0 :: S)) x = T
      at ho hl
    cases T with
    | nil => simp at hl
    | cons t0 T =>
      rw [← hl]
      exact insertion_sort_loop_eq comp sw rest t0 T ho

/-- The function `__insertion_sort` on a whole sequence is the sample `insertionSort`. -/
theorem insertion_sort_eq (comp : Nat → Nat → Bool) (sw : StrictWeak comp) (xs : List Nat) :
    std.insertion_sort comp xs 0 xs.length = insertionSort comp xs := by
  cases xs with
  | nil => rfl
  | cons x rest =>
    unfold std.insertion_sort insertionSort
    have h1 : ¬ (0 = (x :: rest).length) := by simp
    rw [if_neg h1, List.foldl_cons]
    have h2 : insertAt ([] : List Nat) (upper_bound (fun y => comp x y) []) x = [x] := by
      unfold insertAt
      simp
    rw [h2]
    have h3 := insertion_sort_loop_eq comp sw rest x [] (by simp [Ordered])
    simpa using h3

/-- On a sequence of at most 16 items `std::sort` is one insertion sort. -/
theorem sort_short_eq (comp : Nat → Nat → Bool) (sw : StrictWeak comp) (xs : List Nat)
    (hl : xs.length ≤ 16) : std.sort comp xs = insertionSort comp xs := by
  unfold std.sort
  by_cases h0 : 0 = xs.length
  · rw [if_pos h0]
    have : xs = [] := List.length_eq_zero.mp h0.symm
    subst this
    rfl
  · rw [if_neg h0]
    have hi : std.introsort_loop comp xs 0 xs.length (std.lg xs.length xs.length * 2) = xs := by
      cases std.lg xs.length xs.length * 2 with
      | zero =>
        unfold std.introsort_loop
        rw [if_neg (by omega)]
      | succ d =>
        unfold std.introsort_loop
        rw [if_neg (by omega)]
    rw [hi]
    unfold std.final_insertion_sort
    rw [if_neg (by omega)]
    exact insertion_sort_eq comp sw xs

/-! ## Ties in a full sort -/

/-- Insertion at the upper bound keeps, for every key, the items of that key in the order of
their insertion. -/
theorem insertionSort_fold_stable (policy : DirEntrySortType) (h : Heap) (x0 : Nat) :
    ∀ (xs acc : List Nat), Ordered (sortComp policy h) acc →
      (xs.foldl (fun acc x =>
          insertAt acc (upper_bound (fun y => sortComp policy h x y) acc) x) acc).filter
          (sameKey policy h x0) =
        acc.filter (sameKey policy h x0) ++ xs.filter (sameKey policy h x0)
  | [], acc, _ => by simp
  | x :: xs, acc, ho => by
    have sw := sortComp_strictWeak policy h
    have o1 := insertAt_upper_bound_ordered (sortComp policy h) sw.1 sw.2 acc x ho
    rw [List.foldl_cons, insertionSort_fold_stable policy h x0 xs _ o1]
    obtain ⟨hub, lo, hi⟩ := upper_bound_spec (fun y => sortComp policy h x y) acc
      (ordered_partitioned (sortComp policy h) sw acc x ho)
    generalize upper_bound (fun y => sortComp policy h x y) acc = ub at hub lo hi
    have hsplit : acc.filter (sameKey policy h x0) =
        (acc.take ub).filter (sameKey policy h x0) ++
          (acc.drop ub).filter (sameKey policy h x0) := by
      rw [← List.filter_append, List.take_append_drop]
    unfold insertAt
    rw [List.filter_append, hsplit]
    by_cases hp : sameKey policy h x0 x = true
    · have hnil : (acc.drop ub).filter (sameKey policy h x0) = [] := by
        rw [List.filter_eq_nil_iff]
        intro y hy hky
        have hxy : sameKey policy h x y = true :=
          sameKey_trans policy h x x0 y (by rw [sameKey_symm]; exact hp) hky
        have := ((sameKey_iff policy h x y).mp hxy).1
        rw [hi y hy] at this
        cases this
      rw [List.filter_cons_of_pos hp, List.filter_cons_of_pos hp, hnil]
      simp
    · rw [List.filter_cons_of_neg hp, List.filter_cons_of_neg hp]

/-- The sample `insertionSort` is stable under the comparator of every policy. -/
theorem insertionSort_stable (policy : DirEntrySortType) (h : Heap) (xs : List Nat) :
    StableFor policy h xs (insertionSort (sortComp policy h) xs) := by
  intro x _
  have := insertionSort_fold_stable policy h x xs [] List.Pairwise.nil
  simpa [insertionSort] using this

/-- C23 as stated fails: the sorters call `std::sort`, which exchanges items with equal keys
once the sequence is longer than 16 items.  The tree built from a directory `T` with twenty
files of one write time lists them in the order of their names, `1, ..., 20`; under the
policy `LAST_WRITE_TIME_L_TO_H` all of them have the same key, and `SortFiles` (and so
`SetSortingType`) returns them as `11, 20, 19, ..., 12, 1, 10, 9, ..., 2`: the result is a
permutation ordered by the comparator, but the items with equal keys have not kept their
relative order.  Seventeen such files are exchanged as well: 16 items is the longest
sequence for which ties are kept. -/
theorem full_sort_can_exchange_ties :
    (tiesTree.heap 0).files =
      [1, 2, 3, 4, 5, 6, 7, 8, 9, 10, 11, 12, 13, 14, 15, 16, 17, 18, 19, 20] ∧
    (∀ a ∈ (tiesTree.heap 0).files, ∀ b ∈ (tiesTree.heap 0).files,
      sameKey .LAST_WRITE_TIME_L_TO_H tiesTree.heap a b = true) ∧
    Sorter.SortFiles std.sort .LAST_WRITE_TIME_L_TO_H tiesTree.heap
        [1, 2, 3, 4, 5, 6, 7, 8, 9, 10, 11, 12, 13, 14, 15, 16, 17, 18, 19, 20] =
      [11, 20, 19, 18, 17, 16, 15, 14, 13, 12, 1, 10, 9, 8, 7, 6, 5, 4, 3, 2] ∧
    Sorter.SortDirectories std.sort .LAST_WRITE_TIME_L_TO_H tiesTree.heap
        [1, 2, 3, 4, 5, 6, 7, 8, 9, 10, 11, 12, 13, 14, 15, 16, 17, 18, 19, 20] =
      [11, 20, 19, 18, 17, 16, 15, 14, 13, 12, 1, 10, 9, 8, 7, 6, 5, 4, 3, 2] ∧
    (Directory.SetSortingType std.sort tiesTree.heap 0 .LAST_WRITE_TIME_L_TO_H 0).files =
      [11, 20, 19, 18, 17, 16, 15, 14, 13, 12, 1, 10, 9, 8, 7, 6, 5, 4, 3, 2] ∧
    Ordered (sortComp .LAST_WRITE_TIME_L_TO_H tiesTree.heap)
      (Sorter.SortFiles std.sort .LAST_WRITE_TIME_L_TO_H tiesTree.heap
        [1, 2, 3, 4, 5, 6, 7, 8, 9, 10, 11, 12, 13, 14, 15, 16, 17, 18, 19, 20]) ∧
    ¬ StableFor .LAST_WRITE_TIME_L_TO_H tiesTree.heap
      [1, 2, 3, 4, 5, 6, 7, 8, 9, 10, 11, 12, 13, 14, 15, 16, 17, 18, 19, 20]
      (Sorter.SortFiles std.sort .LAST_WRITE_TIME_L_TO_H tiesTree.heap
        [1, 2, 3, 4, 5, 6, 7, 8, 9, 10, 11, 12, 13, 14, 15, 16, 17, 18, 19, 20]) ∧
    Sorter.SortFiles std.sort .LAST_WRITE_TIME_L_TO_H tiesTree.heap
        [1, 2, 3, 4, 5, 6, 7, 8, 9, 10, 11, 12, 13, 14, 15, 16, 17] =
      [9, 17, 16, 15, 14, 13, 12, 11, 10, 1, 8, 7, 6, 5, 4, 3, 2] :=
  ⟨by decide!, by decide!, by decide!, by decide!, by decide!, by decide!, by decide!,
   by decide!⟩

/-- C23 (full sort), amended.  For each policy, every store and every input sequence: with a
`std::sort` that meets the contract of the standard, `Sorter::SortDirectories` and
`Sorter::SortFiles` return a permutation of the input that is ordered by the comparator of
the policy; and with the `std::sort` of the GNU library, when the sequence has at most 16
items, the sort is one insertion sort and the result is a permutation of the input, ordered
by the comparator, in which the items whose keys compare equal keep the relative order
they had in the input. -/
theorem full_sort_contract (policy : DirEntrySortType) (h : Heap) (xs : List Nat) :
    (∀ sort : StdSort, sort.Conforms →
      (Sorter.SortDirectories sort policy h xs).Perm xs ∧
      Ordered (sortComp policy h) (Sorter.SortDirectories sort policy h xs) ∧
      (Sorter.SortFiles sort policy h xs).Perm xs ∧
      Ordered (sortComp policy h) (Sorter.SortFiles sort policy h xs)) ∧
    (xs.length ≤ 16 →
      Sorter.SortDirectories std.sort policy h xs = insertionSort (sortComp policy h) xs ∧
      Sorter.SortFiles std.sort policy h xs = insertionSort (sortComp policy h) xs ∧
      (Sorter.SortDirectories std.sort policy h xs).Perm xs ∧
      Ordered (sortComp policy h) (Sorter.SortDirectories std.sort policy h xs) ∧
      StableFor policy h xs (Sorter.SortDirectories std.sort policy h xs) ∧
      (Sorter.SortFiles std.sort policy h xs).Perm xs ∧
      Ordered (sortComp policy h) (Sorter.SortFiles std.sort policy h xs) ∧
      StableFor policy h xs (Sorter.SortFiles std.sort policy h xs)) := by
  constructor
  · intro sort hsort
    obtain ⟨a, b⟩ := hsort (sortComp policy h) xs (sortComp_strictWeak policy h)
    rw [SortDirectories_eq, SortFiles_eq]
    exact ⟨a, b, a, b⟩
  · intro hl
    have e := sort_short_eq (sortComp policy h) (sortComp_strictWeak policy h) xs hl
    obtain ⟨a, b⟩ := insertionSort_conforms (sortComp policy h) xs (sortComp_strictWeak policy h)
    have c := insertionSort_stable policy h xs
    rw [SortDirectories_eq, SortFiles_eq, e]
    exact ⟨rfl, rfl, a, b, c, a, b, c⟩

/-- Witness for C23, amended: the files `c.txt`, `a.txt` of the example tree by name, and the
first sixteen of the twenty files of one write time, which `std::sort` leaves in their
order. -/
theorem full_sort_contract_witness :
    Sorter.SortFiles std.sort .ALPHABETICAL_L_TO_H sampleTree.heap [2, 1] = [1, 2] ∧
    Sorter.SortFiles std.sort .LAST_WRITE_TIME_L_TO_H tiesTree.heap
        [1, 2, 3, 4, 5, 6, 7, 8, 9, 10, 11, 12, 13, 14, 15, 16] =
      [1, 2, 3, 4, 5, 6, 7, 8, 9, 10, 11, 12, 13, 14, 15, 16] ∧
    ([1, 2, 3, 4, 5, 6, 7, 8, 9, 10, 11, 12, 13, 14, 15, 16] : List Nat).length ≤ 16 ∧
    StableFor .LAST_WRITE_TIME_L_TO_H tiesTree.heap
      [1, 2, 3, 4, 5, 6, 7, 8, 9, 10, 11, 12, 13, 14, 15, 16]
      (Sorter.SortFiles std.sort .LAST_WRITE_TIME_L_TO_H tiesTree.heap
        [1, 2, 3, 4, 5, 6, 7, 8, 9, 10, 11, 12, 13, 14, 15, 16]) ∧
    (Sorter.SortFiles insertionSort .LAST_WRITE_TIME_L_TO_H tiesTree.heap
        [1, 2, 3, 4, 5, 6, 7, 8, 9, 10, 11, 12, 13, 14, 15, 16]).Perm
      [1, 2, 3, 4, 5, 6, 7, 8, 9, 10, 11, 12, 13, 14, 15, 16] :=
  ⟨by decide!, by decide!, by decide!,
   ((full_sort_contract .LAST_WRITE_TIME_L_TO_H tiesTree.heap
     [1, 2, 3, 4, 5, 6, 7, 8, 9, 10, 11, 12, 13, 14, 15, 16]).2 (by decide)).2.2.2.2.2.2.2,
   ((full_sort_contract .LAST_WRITE_TIME_L_TO_H tiesTree.heap
     [1, 2, 3, 4, 5, 6, 7, 8, 9, 10, 11, 12, 13, 14, 15, 16]).1 insertionSort
       insertionSort_conforms).2.2.1⟩

/-! ## A read that fails -/

mutual
/-- When some read of the disk fails, `BuildTree` does not return. -/
theorem BuildTree_reading_fails (fuel : Nat) : ∀ (scan : ScanDirectory) (t : DirectoryTree)
    (p : Path), scan.listing = none →
    ∀ r, DirectoryTree.BuildTree.reading fuel t p scan ≠ .ok r
  | .mk o1 o2 entries, t, p, hl, r => by
    unfold ScanDirectory.listing at hl
    cases he : entries.listing with
    | some es => simp [he] at hl
    | none =>
      unfold DirectoryTree.BuildTree.reading
      have := BuildTreeLoop_reading_fails fuel entries
        { (t.CreateDirectory p o1 o2).1 with
          directories := mapInsert t.directories p t.next } p t.next he
      cases hb : DirectoryTree.BuildTreeLoop.reading fuel
        { (t.CreateDirectory p o1 o2).1 with
          directories := mapInsert t.directories p t.next } p t.next entries with
      | ok t1 => exact absurd hb (this t1)
      | assertFailed => simp
      | stackExhausted => simp
      | filesystem_error t1 => simp
theorem BuildTreeLoop_reading_fails (fuel : Nat) : ∀ (scan : ScanEntries) (t : DirectoryTree)
    (p : Path) (D : Nat), scan.listing = none →
    ∀ r, DirectoryTree.BuildTreeLoop.reading fuel t p D scan ≠ .ok r
  | .nil, t, p, D, hl, r => by simp [ScanEntries.listing] at hl
  | .filesystem_error, t, p, D, hl, r => by simp [DirectoryTree.BuildTreeLoop.reading]
  | .cons (.status_error _) _, t, p, D, hl, r => by simp [DirectoryTree.BuildTreeLoop.reading]
  | .cons (.regular_file name o1 o2) rest, t, p, D, hl, r => by
    unfold ScanEntries.listing at hl
    cases hr : rest.listing with
    | some r1 => simp [hr] at hl
    | none =>
      unfold DirectoryTree.BuildTreeLoop.reading
      exact BuildTreeLoop_reading_fails fuel rest _ p D hr r
  | .cons (.directory name dir) rest, t, p, D, hl, r => by
    unfold DirectoryTree.BuildTreeLoop.reading
    cases hb : DirectoryTree.BuildTree.reading fuel t (slash p name) dir with
    | assertFailed => simp
    | stackExhausted => simp
    | filesystem_error t1 => simp
    | ok r1 =>
      obtain ⟨t1, newDir⟩ := r1
      simp only
      cases ha : Directory.AddDirectoryToDirectory fuel t1.heap D newDir with
      | none => simp
      | some h =>
        simp only
        cases hd : dir.listing with
        | none => exact absurd hb (BuildTree_reading_fails fuel dir t (slash p name) hd _)
        | some d =>
          cases hr : rest.listing with
          | some r2 =>
            unfold ScanEntries.listing at hl
            simp [hd, hr] at hl
          | none => exact BuildTreeLoop_reading_fails fuel rest _ p D hr r
  | .cons (.other name) rest, t, p, D, hl, r => by
    unfold ScanEntries.listing at hl
    cases hr : rest.listing with
    | some r1 => simp [hr] at hl
    | none =>
      unfold DirectoryTree.BuildTreeLoop.reading
      exact BuildTreeLoop_reading_fails fuel rest t p D hr r
end

/-- When some read of the disk fails, `AddNewDirectory` does not return. -/
theorem AddNewDirectory_reading_fails (fuel : Nat) (t : DirectoryTree) (p : Path)
    {scan : ScanDirectory} (hl : scan.listing = none) :
    ∀ T, DirectoryTree.AddNewDirectory.reading fuel t p scan ≠ .ok T := by
  intro T
  unfold DirectoryTree.AddNewDirectory.reading
  cases hP : t.GetDirectory (parent_path p) with
  | none => simp
  | some P =>
    simp only
    cases hb : DirectoryTree.BuildTree.reading fuel t p scan with
    | assertFailed => simp
    | stackExhausted => simp
    | filesystem_error t1 => simp
    | ok r1 => exact absurd hb (BuildTree_reading_fails fuel scan t p hl r1)

/-! ## The postcondition of `AddNewFile` and `AddNewDirectory` -/

/-- C12 (add postcondition), amended.  On a well-formed tree with the parent `P` of `p`
indexed.  `AddNewFile(p)` returns; the file-added event for the new file `t.next` is the
last step, fired on a tree `T` in which the new file is listed by `P`, has the path `p` and
the parent reference `P`; in `T` the lookup `GetFile` of `P` under the name of `p` returns a
file with path `p` and parent reference `P`, which is the new file when the name was free;
and the listener calls of the operation are those of that one event.  `AddNewDirectory(p)`,
when `P` has no child directory with the name of `p` and every read of the disk succeeds
(the directory and the directories below it can be listed: the run `scan` of the iterators
has the listing `disk`), returns once the stack suffices; the directory-added event for the
new directory `t.next` is the last step, fired on a tree `T` in which `GetDirectory(p)`
returns the new directory, `P` lists it, and it is a directory with parent reference `P` and
path `p`.  When some read of the disk fails the call does not return, whatever the stack;
and when the directory itself cannot be listed it ends in the `filesystem_error` of the
iterator, in a tree where the new directory object is bound to `p` (if `p` was not a key),
is not attached to `P`, and no event has been fired. -/
theorem add_postcondition (t : DirectoryTree) (p : Path) (P : Nat) (gt : GoodTree t)
    (hP : t.GetDirectory (parent_path p) = some P) :
    (∀ o1 o2, ∃ (T : DirectoryTree) (g : Nat),
      t.AddNewFile p o1 o2 = .ok (T.NotifyFileAdded t.next) ∧
      T.directories = t.directories ∧
      t.next ∈ (T.heap P).files ∧ GetPath T.heap t.next = p ∧
      (T.heap t.next).parentDir = some P ∧
      Directory.GetFile T.heap P (filename p) = some g ∧
      GetPath T.heap g = p ∧ (T.heap g).parentDir = some P ∧
      (Directory.FileExists t.heap P (filename p) = false → g = t.next) ∧
      (T.NotifyFileAdded t.next).callsAfter t.log.length =
        eventCalls t.listeners .OnFileAdded t.next none p) ∧
    (∀ (scan : ScanDirectory) (disk : DiskDirectory), scan.listing = some disk →
      Directory.DirectoryExists t.heap P (filename p) = false →
      ∃ T : DirectoryTree, (∃ f0, ∀ fuel, f0 ≤ fuel →
          DirectoryTree.AddNewDirectory.reading fuel t p scan =
            .ok (T.NotifyDirectoryAdded t.next)) ∧
        T.GetDirectory p = some t.next ∧ t.next ∈ (T.heap P).directories ∧
        (T.heap t.next).kind = .DIRECTORY ∧ (T.heap t.next).parentDir = some P ∧
        GetPath T.heap t.next = p ∧
        (T.NotifyDirectoryAdded t.next).log = T.log ++
          t.listeners.map (fun l => Delivery.mk l .OnDirectoryAdded t.next none T.heap)) ∧
    (∀ (scan : ScanDirectory) (fuel : Nat), scan.listing = none →
      ∀ T, DirectoryTree.AddNewDirectory.reading fuel t p scan ≠ .ok T) ∧
    (∀ (o1 o2 : Option Int) (fuel : Nat), ∃ T : DirectoryTree,
      DirectoryTree.AddNewDirectory.reading fuel t p (.mk o1 o2 .filesystem_error) =
        .filesystem_error T ∧
      T.directories = mapInsert t.directories p t.next ∧
      (∀ x, x < t.next → T.heap x = t.heap x) ∧
      (T.heap t.next).kind = .DIRECTORY ∧ (T.heap t.next).parentDir = none ∧
      T.log = t.log) := by
  obtain ⟨hfile, hdir⟩ := AddNew_postcondition t p P gt hP
  refine ⟨hfile, ?_, fun scan fuel hl => AddNewDirectory_reading_fails fuel t p hl, ?_⟩
  · intro scan disk hl hfree
    obtain ⟨T, ⟨f0, hf0⟩, rest⟩ := hdir disk hfree
    refine ⟨T, ⟨f0, fun fuel hf => ?_⟩, rest⟩
    rw [AddNewDirectory_reading fuel t p hl, hf0 fuel hf]
    rfl
  · intro o1 o2 fuel
    refine ⟨_, AddNewDirectory_unlistable fuel t p P o1 o2 hP, rfl, ?_, ?_, ?_, rfl⟩
    · intro x hx
      show store t.heap t.next _ x = t.heap x
      exact store_other _ _ _ _ (by omega)
    · show (store t.heap t.next _ t.next).kind = .DIRECTORY
      rw [store_same, (UpdateStatus_same _ o2).1, (UpdateStatus_same _ o1).1]
      rfl
    · show (store t.heap t.next _ t.next).parentDir = none
      rw [store_same, (UpdateStatus_same _ o2).2.2.1, (UpdateStatus_same _ o1).2.2.1]
      rfl

/-- Witness for C12, amended: in the example tree the parent `A/D` of `A/D/n` is indexed (it
is the directory `7`) and has no child directory `n`. -/
theorem add_postcondition_witness :
    Directory.DirectoryExists sampleTree.heap 7 (filename ["A", "D", "n"]) = false ∧
    (DirectoryTree.AddNewDirectory.reading 4 sampleTree ["A", "D", "n"]
      (.mk (some 1) (some 1) (.cons (.regular_file "n.txt" (some 2) (some 2))
        .nil))).tree.GetDirectory ["A", "D", "n"] = some 8 ∧
    (DirectoryTree.AddNewDirectory.reading 4 sampleTree ["A", "D", "n"]
      (.mk (some 1) (some 1) .filesystem_error)).threw = true ∧
    ((∀ o1 o2, ∃ (T : DirectoryTree) (g : Nat), sampleTree.AddNewFile ["A", "D", "n"] o1 o2 =
        .ok (T.NotifyFileAdded sampleTree.next) ∧
      T.directories = sampleTree.directories ∧
      sampleTree.next ∈ (T.heap 7).files ∧ GetPath T.heap sampleTree.next = ["A", "D", "n"] ∧
      (T.heap sampleTree.next).parentDir = some 7 ∧
      Directory.GetFile T.heap 7 (filename ["A", "D", "n"]) = some g ∧
      GetPath T.heap g = ["A", "D", "n"] ∧ (T.heap g).parentDir = some 7 ∧
      (Directory.FileExists sampleTree.heap 7 (filename ["A", "D", "n"]) = false →
        g = sampleTree.next) ∧
      (T.NotifyFileAdded sampleTree.next).callsAfter sampleTree.log.length =
        eventCalls sampleTree.listeners .OnFileAdded sampleTree.next none ["A", "D", "n"]) ∧
    (∀ (scan : ScanDirectory) (disk : DiskDirectory), scan.listing = some disk →
      Directory.DirectoryExists sampleTree.heap 7 (filename ["A", "D", "n"]) = false →
      ∃ T : DirectoryTree, (∃ f0, ∀ fuel, f0 ≤ fuel →
          DirectoryTree.AddNewDirectory.reading fuel sampleTree ["A", "D", "n"] scan =
            .ok (T.NotifyDirectoryAdded sampleTree.next)) ∧
        T.GetDirectory ["A", "D", "n"] = some sampleTree.next ∧
        sampleTree.next ∈ (T.heap 7).directories ∧
        (T.heap sampleTree.next).kind = .DIRECTORY ∧
        (T.heap sampleTree.next).parentDir = some 7 ∧
        GetPath T.heap sampleTree.next = ["A", "D", "n"] ∧
        (T.NotifyDirectoryAdded sampleTree.next).log = T.log ++
          sampleTree.listeners.map
            (fun l => Delivery.mk l .OnDirectoryAdded sampleTree.next none T.heap)) ∧
    (∀ (scan : ScanDirectory) (fuel : Nat), scan.listing = none →
      ∀ T, DirectoryTree.AddNewDirectory.reading fuel sampleTree ["A", "D", "n"] scan ≠
        .ok T) ∧
    (∀ (o1 o2 : Option Int) (fuel : Nat), ∃ T : DirectoryTree,
      DirectoryTree.AddNewDirectory.reading fuel sampleTree ["A", "D", "n"]
          (.mk o1 o2 .filesystem_error) = .filesystem_error T ∧
      T.directories = mapInsert sampleTree.directories ["A", "D", "n"] sampleTree.next ∧
      (∀ x, x < sampleTree.next → T.heap x = sampleTree.heap x) ∧
      (T.heap sampleTree.next).kind = .DIRECTORY ∧
      (T.heap sampleTree.next).parentDir = none ∧
      T.log = sampleTree.log)) :=
  ⟨by decide!, by decide!, by decide!,
   add_postcondition sampleTree ["A", "D", "n"] 7 (by decide! : GoodTree sampleTree)
     (by decide! : sampleTree.GetDirectory (parent_path ["A", "D", "n"]) = some 7)⟩

end fs
